import Mathlib

/-!
# ArchiveFS: a shallow embedding of the buffer and the node tree

The definitions below follow `src/src/membuffer.cpp`, `src/src/buffer.hpp`,
`src/src/filebuffer.hpp`, `src/src/filenode.cpp` and `src/src/filesystem.cpp`.

Conventions of the embedding:

* byte counts and offsets (`offset_t`, `size_t`, `unsigned`) are natural
  numbers; every call is made with non-negative arguments and all sizes stay
  far below `2^32 * 4096`, so no chunk index wraps;
* a `char*` that is written through is a list of bytes, a pointer advanced by
  `k` is that list with `k` elements dropped;
* memory handed out by `new char[CHUNK_SIZE]` without `memset` is
  unspecified: the functions that allocate take the bytes found there as the
  argument `junk`;
* objects that C++ reaches through pointers (`FileNode*`) live in a store
  indexed by natural numbers.
-/

namespace ArchiveFS

/-! ## MemBuffer (`membuffer.hpp`, `membuffer.cpp`) -/

abbrev Byte := Fin 256

/-- The constant `MemBuffer::CHUNK_SIZE = 4*1024`. -/
def CHUNK_SIZE : Nat := 4 * 1024

/-- The value of `EINVAL` from `<cerrno>`. -/
def EINVAL : Nat := 22

/-- The segment `MemBuffer::Chunk`: its `CHUNK_SIZE` bytes, addressed by index. -/
structure Chunk where
  data : Nat → Byte

/-- The constructor `Chunk(true)`: memory set to zero. -/
def Chunk.zeroed : Chunk := ⟨fun _ => 0⟩

/-- The constructor `Chunk(false)`: memory left as the allocator returned it. -/
def Chunk.uninit (junk : Nat → Byte) : Chunk := ⟨junk⟩

/-- The effect of `memcpy(dst + pos, src, |src|)` on the destination. -/
def memcpyTo (dst : List Byte) (pos : Nat) (src : List Byte) : List Byte :=
  dst.take pos ++ src ++ dst.drop (pos + src.length)

/-- `Chunk::read`: the number of bytes read and the bytes copied out. -/
def Chunk.read (c : Chunk) (len offset : Nat) : Nat × List Byte :=
  let bytes_to_read := if len + offset > CHUNK_SIZE then CHUNK_SIZE - offset else len
  (bytes_to_read, (List.range bytes_to_read).map (fun i => c.data (offset + i)))

/-- `Chunk::write`: the number of bytes written and the chunk afterwards. -/
def Chunk.write (c : Chunk) (_data : List Byte) (len offset : Nat) : Nat × Chunk :=
  let bytes_to_write := if len + offset > CHUNK_SIZE then CHUNK_SIZE - offset else len
  (bytes_to_write,
    ⟨fun i => if offset ≤ i ∧ i < offset + bytes_to_write then _data.getD (i - offset) 0
              else c.data i⟩)

/-- The class `MemBuffer`: `_length` and the vector of chunks. -/
structure MemBuffer where
  _length : Nat
  chunks : List Chunk

/-- `MemBuffer::chunksCount`. -/
def chunksCount (len : Nat) : Nat := (len + CHUNK_SIZE - 1) / CHUNK_SIZE

/-- `MemBuffer::chunkNumber`. -/
def chunkNumber (offset : Nat) : Nat := offset / CHUNK_SIZE

/-- `MemBuffer::chunkOffset`. -/
def chunkOffset (offset : Nat) : Nat := offset % CHUNK_SIZE

/-- The constructor `MemBuffer(len)`: `chunksCount(len)` zeroed chunks. -/
def MemBuffer.new (len : Nat) : MemBuffer :=
  ⟨len, List.replicate (chunksCount len) Chunk.zeroed⟩

/-- `MemBuffer::length`. -/
def MemBuffer.length (m : MemBuffer) : Nat := m._length

/-- The element `chunks[i]` of the vector. -/
def MemBuffer.chunkAt (m : MemBuffer) (i : Nat) : Chunk := m.chunks.getD i Chunk.zeroed

/-- The `for` loop of `MemBuffer::read`, `n` iterations from chunk `i`: `pos` is
how far `buffer` has been advanced. -/
def MemBuffer.readLoop (m : MemBuffer) :
    Nat → Nat → Nat → Nat → Nat → List Byte → List Byte
  | 0, _, _, _, _, buffer => buffer
  | n + 1, i, offset, pos, bytes_to_read, buffer =>
    let r := (m.chunkAt i).read bytes_to_read (chunkOffset offset)
    MemBuffer.readLoop m n (i + 1) (offset + r.1) (pos + r.1) (bytes_to_read - r.1)
      (memcpyTo buffer pos r.2)

/-- `MemBuffer::read`: the returned `size_t` and the caller's buffer afterwards. -/
def MemBuffer.read (m : MemBuffer) (buffer : List Byte) (bytes offset : Nat) :
    Nat × List Byte :=
  if offset > m._length then (2 ^ 64 - EINVAL, buffer)
  else
    let bytes := if bytes + offset > m._length then m._length - offset else bytes
    let chunk_start := chunkNumber offset
    let chunk_end := chunkNumber offset + chunksCount bytes
    (bytes, MemBuffer.readLoop m (chunk_end - chunk_start) chunk_start offset 0 bytes buffer)

/-- The loop state of `MemBuffer::write`. -/
structure WriteState where
  chunks : List Chunk
  offset : Nat
  _length : Nat
  written : Nat

/-- The `for` loop of `MemBuffer::write`, `n` iterations from chunk `i`. -/
def MemBuffer.writeLoop (data : List Byte) (data_len : Nat) :
    Nat → Nat → WriteState → WriteState
  | 0, _, s => s
  | n + 1, i, s =>
    let r := (s.chunks.getD i Chunk.zeroed).write (data.drop s.written)
      (data_len - s.written) (chunkOffset s.offset)
    MemBuffer.writeLoop data data_len n (i + 1)
      ⟨s.chunks.set i r.2, s.offset + r.1, s._length + r.1, r.1⟩

/-- `MemBuffer::write`: the returned `size_t` and the buffer afterwards. -/
def MemBuffer.write (junk : Nat → Nat → Byte) (m : MemBuffer) (data : List Byte)
    (data_len offset : Nat) : Nat × MemBuffer :=
  let chunks_needed := chunksCount (data_len + offset)
  let chunks_count := m.chunks.length
  let chunks :=
    if chunks_count < chunks_needed then
      m.chunks ++ (List.range (chunks_needed - chunks_count)).map
        (fun k => Chunk.uninit (junk (chunks_count + k)))
    else m.chunks
  let chunks_to_write := chunksCount data_len
  let chunk_start := chunkNumber offset
  let chunk_end := chunkNumber offset + chunks_to_write
  let s := MemBuffer.writeLoop data data_len (chunk_end - chunk_start) chunk_start
    ⟨chunks, offset, offset, 0⟩
  (s.written, ⟨s._length, s.chunks⟩)

/-- The effect of `memset(p + from, 0, n)` on a chunk. -/
def Chunk.memsetZero (c : Chunk) (start n : Nat) : Chunk :=
  ⟨fun i => if start ≤ i ∧ i < start + n then 0 else c.data i⟩

/-- `MemBuffer::truncate`. In the shrinking branch `getChunkData` uses `at`,
which throws when the index is past the vector, and `memset` gets the length
`CHUNK_SIZE - size` as the source writes it: for `size > CHUNK_SIZE` that
length is negative and wraps to a huge `size_t`, so the call overruns the
heap. Both are rendered as `none` (no normal return). -/
def MemBuffer.truncate (m : MemBuffer) (size : Nat) : Option MemBuffer :=
  if size < m._length then
    if chunkNumber size < m.chunks.length ∧ size ≤ CHUNK_SIZE then
      let c := (m.chunkAt (chunkNumber size)).memsetZero (chunkOffset size) (CHUNK_SIZE - size)
      some ⟨size, ((m.chunks.set (chunkNumber size) c).take (chunksCount size))⟩
    else none
  else
    some ⟨size, m.chunks ++ List.replicate (chunksCount size - m.chunks.length) Chunk.zeroed⟩

/-- The bytes a buffer holds at the offsets `0 .. _length - 1`. -/
def MemBuffer.byteAt (m : MemBuffer) (o : Nat) : Byte :=
  (m.chunkAt (chunkNumber o)).data (chunkOffset o)

/-- `MemBuffer::flushToFile` on a fresh descriptor: the bytes that reach the
file, chunk after chunk, `_length` bytes in all. -/
def MemBuffer.flushToFile (m : MemBuffer) : List Byte :=
  (List.range m._length).map m.byteAt

/-! ## FileBuffer and Buffer (`filebuffer.hpp`, `buffer.hpp`)

The scratch file behind `fd` is the list of its bytes; `pread`, `pwrite` and
`ftruncate` are taken to succeed. -/

/-- The class `FileBuffer`: the scratch file and `_length`. -/
structure FileBuffer where
  file : List Byte
  _length : Nat

/-- The constructor `FileBuffer(size)`: an empty scratch file, `_length = size`. -/
def FileBuffer.new (size : Nat) : FileBuffer := ⟨[], size⟩

/-- The effect of `pwrite(fd, data, len, offset)` on the file: a gap before
`offset` reads as zero. -/
def pwrite (file : List Byte) (data : List Byte) (len offset : Nat) : List Byte :=
  (file ++ List.replicate (offset - file.length) 0).take offset ++ data.take len ++
    file.drop (offset + len)

/-- `FileBuffer::read`, that is `pread`. -/
def FileBuffer.read (f : FileBuffer) (buffer : List Byte) (bytes offset : Nat) :
    Nat × List Byte :=
  let got := (f.file.drop offset).take bytes
  (got.length, memcpyTo buffer 0 got)

/-- `FileBuffer::write`. -/
def FileBuffer.write (f : FileBuffer) (data : List Byte) (data_len offset : Nat) :
    Nat × FileBuffer :=
  (data_len, ⟨pwrite f.file data data_len offset,
    if offset + data_len > f._length then offset + data_len else f._length⟩)

/-- `FileBuffer::truncate`, that is `ftruncate`; `_length` is not touched. -/
def FileBuffer.truncate (f : FileBuffer) (size : Nat) : FileBuffer :=
  ⟨(f.file ++ List.replicate (size - f.file.length) 0).take size, f._length⟩

/-- The class `Buffer`: `_type` and `_buffer` together. -/
inductive Buffer where
  | MEM (m : MemBuffer)
  | FILE (f : FileBuffer)

/-- The constructor `Buffer(size)` under the limit `Buffer::MEM_LIMIT`. -/
def Buffer.new (MEM_LIMIT : Int) (size : Nat) : Buffer :=
  if ((size : Int) > MEM_LIMIT ∧ MEM_LIMIT > 0) ∨ MEM_LIMIT = 0 then
    Buffer.FILE (FileBuffer.new size)
  else Buffer.MEM (MemBuffer.new size)

/-- `Buffer::release`: `true` when the buffer lived in memory and was freed. -/
def Buffer.release : Buffer → Bool
  | Buffer.MEM _ => true
  | Buffer.FILE _ => false

/-- `Buffer::read`. -/
def Buffer.read (b : Buffer) (buffer : List Byte) (length offset : Nat) : Nat × List Byte :=
  match b with
  | Buffer.MEM m => m.read buffer length offset
  | Buffer.FILE f => f.read buffer length offset

/-- `Buffer::write`: above a positive limit a memory buffer is flushed to a
fresh `FileBuffer` first. -/
def Buffer.write (MEM_LIMIT : Int) (junk : Nat → Nat → Byte) (b : Buffer) (data : List Byte)
    (length offset : Nat) : Nat × Buffer :=
  let total : Int := offset + length
  match b with
  | Buffer.MEM m =>
    if total > MEM_LIMIT ∧ MEM_LIMIT > 0 then
      let file_buf : FileBuffer := ⟨m.flushToFile, m.length⟩
      let r := file_buf.write data length offset
      (r.1, Buffer.FILE r.2)
    else
      let r := MemBuffer.write junk m data length offset
      (r.1, Buffer.MEM r.2)
  | Buffer.FILE f =>
    let r := f.write data length offset
    (r.1, Buffer.FILE r.2)

/-- `Buffer::truncate`; `none` when `MemBuffer::truncate` does not return. -/
def Buffer.truncate (b : Buffer) (size : Nat) : Option Buffer :=
  match b with
  | Buffer.MEM m => (m.truncate size).map Buffer.MEM
  | Buffer.FILE f => some (Buffer.FILE (f.truncate size))

/-- `Buffer::length`. -/
def Buffer.length : Buffer → Nat
  | Buffer.MEM m => m.length
  | Buffer.FILE f => f._length

/-! ## Paths and the node map (`filenode.hpp`) -/

/-- A C string holding an in-archive path (no NUL inside). -/
abbrev Path := List Char

/-- The loop `while (name_ptr != pathname && *name_ptr != '/') --name_ptr;`
started at offset `pos`; the byte at offset `|s|` is the terminating NUL. -/
def scanBack (s : Path) : Nat → Nat
  | 0 => 0
  | pos + 1 => if s.getD (pos + 1) (Char.ofNat 0) = '/' then pos + 1 else scanBack s pos

/-- The offset of `name_ptr` inside `pathname`, as the constructor of
`FileNode`, `rename` and `repath` compute it. -/
def nameStart (s : Path) : Nat :=
  let p := scanBack s s.length
  if p ≠ 0 then p + 1 else p

/-- The comparator `ltstr`: `strcmp(s1, s2) < 0`. -/
def ltstr : Path → Path → Bool
  | [], [] => false
  | [], _ :: _ => true
  | _ :: _, [] => false
  | a :: s1, b :: s2 =>
    if a.toNat < b.toNat then true else if b.toNat < a.toNat then false else ltstr s1 s2

/-- The type `FileMap`: the entries of the `std::map` in key order. Two keys
are equivalent for `ltstr` exactly when they are equal strings. -/
abbrev FileMap := List (Path × Nat)

/-- `FileMap::find`. -/
def FileMap.find : FileMap → Path → Option Nat
  | [], _ => none
  | (k, v) :: rest, key => if k = key then some v else FileMap.find rest key

/-- The position an absent key takes in the ordered map. -/
def FileMap.insertSorted (key : Path) (v : Nat) : FileMap → FileMap
  | [] => [(key, v)]
  | (k, w) :: rest =>
    if ltstr key k then (key, v) :: (k, w) :: rest
    else (k, w) :: FileMap.insertSorted key v rest

/-- `FileMap::insert`: the map afterwards and, when the key was taken, the
node found there (`fmap_ret.second == false`). -/
def FileMap.insert (m : FileMap) (key : Path) (v : Nat) : FileMap × Option Nat :=
  match m.find key with
  | some e => (m, some e)
  | none => (FileMap.insertSorted key v m, none)

/-- `FileMap::erase(key)`: the map afterwards and the number of entries erased. -/
def FileMap.erase (m : FileMap) (key : Path) : FileMap × Nat :=
  (m.filter (fun e => e.1 ≠ key), if (m.find key).isSome then 1 else 0)

/-- The assignment `file_map[key] = v`. -/
def FileMap.assign : FileMap → Path → Nat → FileMap
  | [], key, v => [(key, v)]
  | (k, w) :: rest, key, v =>
    if k = key then (k, v) :: rest
    else if ltstr key k then (key, v) :: (k, w) :: rest
    else (k, w) :: FileMap.assign rest key v

/-! ## FileNode (`filenode.hpp`, `filenode.cpp`) -/

/-- The constant `STANDART_BLOCK_SIZE` of `archivedriver.hpp`. -/
def STANDART_BLOCK_SIZE : Nat := 4096

/-- The file type bits `S_IFDIR` and `S_IFREG` of `<sys/stat.h>`. -/
def S_IFDIR : Nat := 0o040000
def S_IFREG : Nat := 0o100000

/-- The error numbers of `<cerrno>` the tree returns. -/
def ENOENT : Nat := 2
def EBADF : Nat := 9
def ENOMEM : Nat := 12
def EACCES : Nat := 13
def EEXIST : Nat := 17
def ENOTSUP : Nat := 95

/-- The enumeration `FileNode::NodeType`. -/
inductive NodeType where
  | ROOT_NODE
  | FILE_NODE
  | DIR_NODE
  deriving DecidableEq, Repr

/-- The fields of `struct stat` that the program reads or writes. -/
structure Stat where
  st_size : Nat
  st_blocks : Nat
  st_mode : Nat
  st_nlink : Nat
  st_uid : Nat
  st_gid : Nat
  st_blksize : Nat
  st_atime : Int
  st_ctime : Int
  st_mtime : Int
  deriving DecidableEq, Repr

/-- What a call reads from its surroundings: the effective identity behind
`FileNode::uid` and `FileNode::gid`, the clock `time(NULL)`, the limit
`Buffer::MEM_LIMIT`, the contents of freshly allocated chunk memory, and the
constant `PATH_MAX` of `<limits.h>`, the size of the local arrays
`parent_name` in `append` and `new_pathname` in `repath` (4096 on Linux). -/
structure Env where
  uid : Nat
  gid : Nat
  now : Int
  MEM_LIMIT : Int
  junk : Nat → Nat → Byte
  PATH_MAX : Nat

/-- The class `FileNode`. Pointers to nodes are addresses in the store of the
`FileSystem`; `name_ptr` is the offset of the name inside `pathname`; `data`
is the locator `FileData*` of a driver. -/
structure FileNode where
  type : NodeType
  pathname : Option Path
  name_ptr : Nat
  original_pathname : Option Path
  buffer : Option Buffer
  ref_cnt : Nat
  changed : Bool
  parent : Option Nat
  children : List Nat
  data : Option Nat
  file_info : Stat

/-- The constructor `FileNode(_pathname, _data, _type)`. -/
def FileNode.new (env : Env) (_pathname : Option Path) (_data : Option Nat)
    (_type : NodeType) : FileNode :=
  let t : Int := if _data = none then env.now else 0
  let info : Stat :=
    { st_size := 0, st_blocks := 0, st_mode := 0, st_nlink := 0,
      st_uid := env.uid, st_gid := env.gid, st_blksize := STANDART_BLOCK_SIZE,
      st_atime := t, st_ctime := t, st_mtime := t }
  let dirInfo : Stat :=
    { info with
      st_size := STANDART_BLOCK_SIZE, st_blocks := 8, st_mode := S_IFDIR ||| 0o755, st_nlink := 2 }
  let fileInfo : Stat :=
    { info with st_size := 0, st_blocks := 0, st_mode := S_IFREG ||| 0o644, st_nlink := 1 }
  match _type with
  | NodeType.ROOT_NODE =>
    { type := _type, pathname := none, name_ptr := 0, original_pathname := none,
      buffer := none, ref_cnt := 0, changed := false, parent := none, children := [],
      data := _data, file_info := dirInfo }
  | NodeType.DIR_NODE =>
    { type := _type, pathname := _pathname, name_ptr := nameStart (_pathname.getD []),
      original_pathname := none, buffer := none, ref_cnt := 0, changed := false,
      parent := none, children := [], data := _data, file_info := dirInfo }
  | NodeType.FILE_NODE =>
    { type := _type, pathname := _pathname, name_ptr := nameStart (_pathname.getD []),
      original_pathname := none, buffer := none, ref_cnt := 0, changed := false,
      parent := none, children := [], data := _data, file_info := fileInfo }

/-- `FileNode::addChild`; `node` is the address of the child, `nodeType` its type. -/
def FileNode.addChild (self : FileNode) (node : Nat) (nodeType : NodeType) : FileNode :=
  if self.type = NodeType.FILE_NODE then self
  else
    let withChild := { self with children := self.children ++ [node] }
    if nodeType = NodeType.DIR_NODE ∨ nodeType = NodeType.ROOT_NODE then
      { withChild with file_info := { self.file_info with st_nlink := self.file_info.st_nlink + 1 } }
    else withChild

/-- `FileNode::removeChild`; the counter `st_nlink` is an unsigned 64-bit field. -/
def FileNode.removeChild (self : FileNode) (node : Nat) (nodeType : NodeType) : FileNode :=
  if node ∈ self.children then
    let without := { self with children := self.children.erase node }
    if nodeType = NodeType.DIR_NODE then
      { without with file_info :=
          { self.file_info with st_nlink := (self.file_info.st_nlink + 2 ^ 64 - 1) % 2 ^ 64 } }
    else without
  else self

/-- `FileNode::setSize`. -/
def FileNode.setSize (self : FileNode) (size : Nat) : FileNode :=
  let blocks := (size + STANDART_BLOCK_SIZE - 1) / STANDART_BLOCK_SIZE
  { self with file_info := { self.file_info with st_size := size, st_blocks := blocks } }

/-- `FileNode::getSize`. -/
def FileNode.getSize (self : FileNode) : Nat := self.file_info.st_size

/-- The string `name_ptr` points to. -/
def FileNode.name (self : FileNode) : Path := (self.pathname.getD []).drop self.name_ptr

/-! ## ArchiveDriver (`archivedriver.hpp`)

The three per-entry primitives of a backend, as functions of the node they
are handed: `open` and `close` may install or release the node's buffer,
`read` returns its `int` and the bytes it put into the caller's buffer. -/

/-- The entry primitives of the abstract class `ArchiveDriver`. -/
structure ArchiveDriver where
  «open» : FileNode → FileNode
  read : FileNode → Nat → Nat → Int × List Byte
  close : FileNode → FileNode

/-! ## FileSystem (`filesystem.hpp`, `filesystem.cpp`) -/

/-- The class `FileSystem`. `nodes` is the store of `FileNode` objects: an
address holds `none` before `new` and after `delete`; `next` is the address
the next `new FileNode` returns. -/
structure FileSystem where
  nodes : Nat → Option FileNode
  next : Nat
  file_map : FileMap
  removed_nodes : List Nat
  root_node : Nat
  changed : Bool
  write_support : Bool
  driver : ArchiveDriver

/-- The node a pointer refers to. Reading through a pointer to a deleted
node is undefined in the source; the embedding then reads a blank root-typed
node, and the well-formedness conditions below exclude the case. -/
def FileSystem.get (fs : FileSystem) (node : Nat) : FileNode :=
  (fs.nodes node).getD
    { type := NodeType.ROOT_NODE, pathname := none, name_ptr := 0, original_pathname := none,
      buffer := none, ref_cnt := 0, changed := false, parent := none, children := [],
      data := none,
      file_info := { st_size := 0, st_blocks := 0, st_mode := 0, st_nlink := 0, st_uid := 0,
                     st_gid := 0, st_blksize := 0, st_atime := 0, st_ctime := 0, st_mtime := 0 } }

/-- An assignment through a node pointer. -/
def FileSystem.modify (fs : FileSystem) (node : Nat) (f : FileNode → FileNode) : FileSystem :=
  { fs with nodes := fun i => if i = node then (fs.nodes i).map f else fs.nodes i }

/-- The expression `new FileNode(...)`: the address and the store afterwards. -/
def FileSystem.alloc (fs : FileSystem) (n : FileNode) : Nat × FileSystem :=
  (fs.next, { fs with nodes := fun i => if i = fs.next then some n else fs.nodes i,
                      next := fs.next + 1 })

/-- The statement `delete node`. -/
def FileSystem.delete (fs : FileSystem) (node : Nat) : FileSystem :=
  { fs with nodes := fun i => if i = node then none else fs.nodes i }

/-- The state the constructor `FileSystem(...)` leaves before the driver
builds the tree: a root node, an empty map, `changed = false`. -/
def FileSystem.empty (env : Env) (write_support : Bool) (driver : ArchiveDriver) : FileSystem :=
  { nodes := fun i => if i = 0 then some (FileNode.new env none none NodeType.ROOT_NODE) else none,
    next := 1, file_map := [], removed_nodes := [], root_node := 0, changed := false,
    write_support := write_support, driver := driver }

/-- `FileSystem::find`: a null `pathname` gives the root. -/
def FileSystem.find (fs : FileSystem) (pathname : Option Path) : Option Nat :=
  match pathname with
  | none => some fs.root_node
  | some p => fs.file_map.find p

/-- `FileSystem::getRoot`. -/
def FileSystem.getRoot (fs : FileSystem) : Nat := fs.root_node

/-- How a call of `append` or `appendToNode` ends: normally, or with the
exception `AlreadyExists` carrying a node pointer. -/
inductive Outcome where
  | done (fs : FileSystem)
  | AlreadyExists (node : Nat) (fs : FileSystem)

/-- The last two statements of `append`: `new_node->parent = parent_node;
parent_node->addChild(new_node);`, where `t` is the type `addChild` reads from
the new node. -/
def FileSystem.linkChild (fs : FileSystem) (new_node parent_node : Nat) (t : NodeType) :
    FileSystem :=
  (fs.modify new_node (fun n => { n with parent := some parent_node })).modify
    parent_node (fun p => p.addChild new_node t)

/-- `FileSystem::append` with a bound on the depth of its recursion; `none`
when the bound is used up, the node has a null `pathname`, or `strcpy` writes
past the end of `char parent_name[PATH_MAX]` (the text before the last slash
and its terminator do not fit). -/
def FileSystem.appendAux (env : Env) : Nat → FileSystem → Nat → Option Outcome
  | 0, _, _ => none
  | fuel + 1, fs, new_node =>
    match (fs.get new_node).pathname with
    | none => none
    | some pathname =>
      match fs.file_map.insert pathname new_node with
      | (_, some existing) => some (Outcome.AlreadyExists existing fs)
      | (file_map, none) =>
        let fs1 := { fs with file_map := file_map }
        let name_ptr := (fs.get new_node).name_ptr
        let t := (fs.get new_node).type
        if name_ptr = 0 then some (Outcome.done (fs1.linkChild new_node fs1.root_node t))
        else
          let parent_name := pathname.take (name_ptr - 1)
          if env.PATH_MAX < parent_name.length + 1 then none
          else
            match fs1.find (some parent_name) with
            | some parent_node => some (Outcome.done (fs1.linkChild new_node parent_node t))
            | none =>
              let a := fs1.alloc (FileNode.new env (some parent_name) none NodeType.DIR_NODE)
              match FileSystem.appendAux env fuel a.2 a.1 with
              | some (Outcome.done fs2) => some (Outcome.done (fs2.linkChild new_node a.1 t))
              | some (Outcome.AlreadyExists e fs2) => some (Outcome.AlreadyExists e fs2)
              | none => none

/-- `FileSystem::append`: every recursive call works on a strictly shorter
path, so `|pathname| + 1` levels are enough. -/
def FileSystem.append (env : Env) (fs : FileSystem) (new_node : Nat) : Option Outcome :=
  FileSystem.appendAux env (((fs.get new_node).pathname.getD []).length + 1) fs new_node

/-- `FileSystem::take`. A null `parent` is dereferenced in the source; the
embedding answers `false` there. -/
def FileSystem.take (fs : FileSystem) (node : Nat) : Bool × FileSystem :=
  let r := fs.file_map.erase ((fs.get node).pathname.getD [])
  let fs1 := { fs with file_map := r.1 }
  if r.2 = 0 then (false, fs1)
  else
    match (fs.get node).parent with
    | none => (false, fs1)
    | some parent =>
      if node ∈ (fs1.get parent).children then
        (true, fs1.modify parent (fun p => { p with children := p.children.erase node }))
      else (false, fs1)

/-- `FileSystem::appendToNode`. -/
def FileSystem.appendToNode (fs : FileSystem) (new_node parent_node : Nat) : Outcome :=
  match fs.file_map.insert ((fs.get new_node).pathname.getD []) new_node with
  | (_, some _) => Outcome.AlreadyExists new_node fs
  | (file_map, none) =>
    let fs1 := { fs with file_map := file_map }
    Outcome.done
      ((fs1.modify parent_node (fun p => p.addChild new_node (fs.get new_node).type)).modify
        new_node (fun n => { n with parent := some parent_node }))

/-- The statements of `mknod`, `create` and `mkdir` after the construction of
the node: append it; on `AlreadyExists` delete it and answer `EEXIST`,
otherwise set the tree's `changed` and answer `0`. -/
def FileSystem.appendNew (env : Env) (fs : FileSystem) (node : Nat) : Option (Nat × FileSystem) :=
  match fs.append env node with
  | none => none
  | some (Outcome.AlreadyExists _ fs1) => some (EEXIST, fs1.delete node)
  | some (Outcome.done fs1) => some (0, { fs1 with changed := true })

/-- `FileSystem::mknod`. -/
def FileSystem.mknod (env : Env) (fs : FileSystem) (path : Path) (mode : Nat) :
    Option (Nat × FileSystem) :=
  if fs.write_support = false then some (ENOTSUP, fs)
  else
    let n := FileNode.new env (some path) none NodeType.FILE_NODE
    let a := fs.alloc
      { n with buffer := some (Buffer.new env.MEM_LIMIT 0),
               file_info := { n.file_info with st_mode := mode ||| S_IFREG },
               changed := true }
    a.2.appendNew env a.1

/-- `FileSystem::create`: the error number, the tree and `*new_node`. -/
def FileSystem.create (env : Env) (fs : FileSystem) (path : Path) (mode : Nat) :
    Option (Nat × FileSystem × Option Nat) :=
  if fs.write_support = false then some (ENOTSUP, fs, none)
  else
    let n := FileNode.new env (some path) none NodeType.FILE_NODE
    let a := fs.alloc
      { n with buffer := some (Buffer.new env.MEM_LIMIT 0),
               file_info := { n.file_info with st_mode := mode ||| S_IFREG },
               ref_cnt := 1, changed := true }
    (a.2.appendNew env a.1).map (fun r => (r.1, r.2, some a.1))

/-- `FileSystem::mkdir`. -/
def FileSystem.mkdir (env : Env) (fs : FileSystem) (path : Path) (mode : Nat) :
    Option (Nat × FileSystem) :=
  if fs.write_support = false then some (ENOTSUP, fs)
  else
    let n := FileNode.new env (some path) none NodeType.DIR_NODE
    let a := fs.alloc
      { n with file_info := { n.file_info with st_mode := mode ||| S_IFDIR }, changed := true }
    a.2.appendNew env a.1

mutual
/-- `FileSystem::remove` with a bound on loop turns and recursion depth;
`none` when the bound is used up. -/
def FileSystem.removeAux : Nat → FileSystem → Nat → Option (Nat × FileSystem)
  | 0, _, _ => none
  | fuel + 1, fs, node =>
    if fs.write_support = false then some (ENOTSUP, fs)
    else
      let emptied :=
        if (fs.get node).type = NodeType.DIR_NODE then FileSystem.removeChildren fuel fs node
        else some fs
      match emptied with
      | none => none
      | some fs1 =>
        let fs2 := (fs1.take node).2
        let fs3 :=
          if (fs2.get node).data.isSome then
            { fs2 with removed_nodes := fs2.removed_nodes ++ [node] }
          else fs2.delete node
        some (0, { fs3 with changed := true })
/-- The loop `while (!node->children.empty()) remove(node->children.front());`. -/
def FileSystem.removeChildren : Nat → FileSystem → Nat → Option FileSystem
  | 0, _, _ => none
  | fuel + 1, fs, node =>
    match (fs.get node).children with
    | [] => some fs
    | front :: _ =>
      match FileSystem.removeAux fuel fs front with
      | none => none
      | some r => FileSystem.removeChildren fuel r.2 node
end

/-- The number of loop turns and calls granted to a walk over the tree: a
walk over a well-formed tree uses two per mapped node at most. -/
def FileSystem.walkBound (fs : FileSystem) : Nat := 2 * fs.file_map.length + 2

/-- `FileSystem::remove`. -/
def FileSystem.remove (fs : FileSystem) (node : Nat) : Option (Nat × FileSystem) :=
  FileSystem.removeAux fs.walkBound fs node

/-- The statements shared by `rename` and `repath`: keep the first name of a
node that has a locator, install the new `pathname` and recompute `name_ptr`. -/
def FileNode.setPathname (self : FileNode) (new_pathname : Path) : FileNode :=
  { self with
    original_pathname :=
      if self.data.isSome ∧ self.original_pathname = none then self.pathname
      else self.original_pathname,
    pathname := some new_pathname,
    name_ptr := nameStart new_pathname }

mutual
/-- `FileSystem::repath` with a bound on its recursion; `none` when the bound
is used up or `strcpy` and `strcat` write past the end of
`char new_pathname[PATH_MAX]` (the new path and its terminator do not fit). -/
def FileSystem.repathAux (env : Env) : Nat → FileSystem → Nat → Path → Option FileSystem
  | 0, _, _, _ => none
  | fuel + 1, fs, node, path =>
    let n := fs.get node
    let erased := (fs.file_map.erase (n.pathname.getD [])).1
    let new_pathname := path ++ '/' :: n.name
    if env.PATH_MAX < new_pathname.length + 1 then none
    else
      let fs1 := { fs with file_map := erased.assign new_pathname node }.modify node
        (fun m => m.setPathname new_pathname)
      if n.type = NodeType.DIR_NODE then
        FileSystem.repathList env fuel fs1 n.children new_pathname
      else some fs1
/-- The loop over `node->children` that calls `repath` on every child. -/
def FileSystem.repathList (env : Env) : Nat → FileSystem → List Nat → Path → Option FileSystem
  | 0, _, _, _ => none
  | _ + 1, fs, [], _ => some fs
  | fuel + 1, fs, child :: rest, path =>
    match FileSystem.repathAux env fuel fs child path with
    | none => none
    | some fs1 => FileSystem.repathList env fuel fs1 rest path
end

/-- `FileSystem::repath`. -/
def FileSystem.repath (env : Env) (fs : FileSystem) (node : Nat) (path : Path) :
    Option FileSystem :=
  FileSystem.repathAux env fs.walkBound fs node path

/-- `FileSystem::rename`; `none` when the call does not return normally (an
exception of `append` leaves it, a walk uses up its bound, or a path does not
fit its array in `append` or `repath`). -/
def FileSystem.rename (env : Env) (fs : FileSystem) (node : Nat) (new_pathname : Path) :
    Option (Nat × FileSystem) :=
  if fs.write_support = false then some (ENOTSUP, fs)
  else
    let t := fs.take node
    if t.1 = false then some (ENOENT, t.2)
    else
      let cleared : Option FileSystem :=
        match t.2.file_map.find new_pathname with
        | some existing => (t.2.remove existing).map Prod.snd
        | none => some t.2
      match cleared with
      | none => none
      | some fs1 =>
        let fs2 := fs1.modify node (fun n => n.setPathname new_pathname)
        match fs2.append env node with
        | some (Outcome.done fs3) =>
          let moved : Option FileSystem :=
            if (fs3.get node).type = NodeType.DIR_NODE then
              FileSystem.repathList env fs3.walkBound fs3 (fs3.get node).children new_pathname
            else some fs3
          moved.map (fun fs4 => (0, { fs4 with changed := true }))
        | _ => none

/-- The flags `O_WRONLY` and `O_RDWR` of `<fcntl.h>`. -/
def O_WRONLY : Nat := 1
def O_RDWR : Nat := 2

/-- The constant `Buffer::BLOCK_SIZE`. -/
def BLOCK_SIZE : Nat := 4 * 1024

/-- The loop of `FileSystem::fillInBuffer` on the node, `fuel` turns at most;
the counters are `unsigned`. `none` when the turns are used up or the node's
buffer is null when written to. -/
def fillLoop (env : Env) (driver : ArchiveDriver) :
    Nat → FileNode → List Byte → Nat → Nat → Option FileNode
  | 0, _, _, _, _ => none
  | fuel + 1, n, tmp_buf, read_offset, bytes_to_read =>
    if read_offset < bytes_to_read then
      let r := driver.read n BLOCK_SIZE read_offset
      let bytes_read := (r.1 % 2 ^ 32).toNat
      let tmp := memcpyTo tmp_buf 0 r.2
      match n.buffer with
      | none => none
      | some b =>
        let w := Buffer.write env.MEM_LIMIT env.junk b tmp bytes_read read_offset
        fillLoop env driver fuel { n with buffer := some w.2 } tmp
          ((read_offset + bytes_read) % 2 ^ 32) bytes_to_read
    else some n

/-- `FileSystem::fillInBuffer`; the local array `tmp_buf` starts with
unspecified contents. -/
def FileSystem.fillInBuffer (env : Env) (fuel : Nat) (fs : FileSystem) (node : Nat)
    (size : Nat) : Option FileSystem :=
  let n := fs.get node
  let bytes_to_read := (if size = 0 then n.getSize else size) % 2 ^ 32
  let tmp_buf := (List.range BLOCK_SIZE).map (env.junk 0)
  match fillLoop env fs.driver fuel (fs.driver.open n) tmp_buf 0 bytes_to_read with
  | none => none
  | some n1 =>
    let n2 := fs.driver.close n1
    some (fs.modify node
      (fun _ => { n2 with file_info := { n2.file_info with st_mtime := env.now } }))

/-- `FileSystem::open`; `fuel` bounds the loop of `fillInBuffer`. -/
def FileSystem.open (env : Env) (fuel : Nat) (fs : FileSystem) (node : Nat) (flags : Nat) :
    Option (Nat × FileSystem) :=
  let fs1 := fs.modify node (fun n => { n with ref_cnt := (n.ref_cnt + 1) % 2 ^ 32 })
  let fs2 :=
    if (fs1.get node).ref_cnt = 1 ∧ (fs1.get node).buffer.isNone then
      fs1.modify node fs1.driver.open
    else fs1
  if flags &&& O_WRONLY ≠ 0 ∨ flags &&& O_RDWR ≠ 0 then
    if fs2.write_support = false then some (ENOTSUP, fs2)
    else if (fs2.get node).buffer.isNone then
      let fs3 := fs2.modify node
        (fun n => { n with buffer := some (Buffer.new env.MEM_LIMIT n.getSize) })
      (fs3.fillInBuffer env fuel node 0).map (fun fs4 => (0, fs4))
    else some (0, fs2)
  else some (0, fs2)

/-- The conversion of a `size_t` to `int`. -/
def toInt32 (x : Nat) : Int :=
  if x % 2 ^ 32 < 2 ^ 31 then (x % 2 ^ 32 : Nat) else (x % 2 ^ 32 : Nat) - 2 ^ 32

/-- `FileSystem::read`: the returned `int` and the caller's buffer afterwards. -/
def FileSystem.read (fs : FileSystem) (node : Nat) (buffer : List Byte) (bytes offset : Nat) :
    Int × List Byte :=
  if bytes = 0 then (0, buffer)
  else
    match (fs.get node).buffer with
    | some b =>
      let r := b.read buffer bytes offset
      (toInt32 r.1, r.2)
    | none =>
      let r := fs.driver.read (fs.get node) bytes offset
      (r.1, memcpyTo buffer 0 r.2)

/-- `FileSystem::write`. -/
def FileSystem.write (env : Env) (fs : FileSystem) (node : Nat) (buffer : List Byte)
    (length offset : Nat) : Int × FileSystem :=
  match (fs.get node).buffer with
  | none => (EBADF, fs)
  | some b =>
    let w := Buffer.write env.MEM_LIMIT env.junk b buffer length offset
    let written := toInt32 w.1
    let fs1 := fs.modify node
      (fun n => { (n.setSize (written + offset).toNat) with buffer := some w.2, changed := true })
    (written, { fs1 with changed := true })

/-- `FileSystem::truncate`; `fuel` bounds the loop of `fillInBuffer`. -/
def FileSystem.truncate (env : Env) (fuel : Nat) (fs : FileSystem) (node : Nat) (size : Nat) :
    Option (Nat × FileSystem) :=
  if fs.write_support = false then some (ENOTSUP, fs)
  else
    let resized : Option FileSystem :=
      match (fs.get node).buffer with
      | some b => (b.truncate size).map (fun b1 => fs.modify node (fun n => { n with buffer := some b1 }))
      | none =>
        let fs1 := fs.modify node (fun n => { n with buffer := some (Buffer.new env.MEM_LIMIT size) })
        if size > 0 then fs1.fillInBuffer env fuel node size else some fs1
    resized.map (fun fs2 =>
      (0, { fs2.modify node (fun n => { n.setSize size with changed := true }) with
            changed := true }))

/-- `FileSystem::utimens`; the two times are `times[0].tv_sec` and `times[1].tv_sec`. -/
def FileSystem.utimens (fs : FileSystem) (node : Nat) (atime mtime : Int) : Nat × FileSystem :=
  if fs.write_support = false then (ENOTSUP, fs)
  else
    (0, fs.modify node
      (fun n => { n with file_info := { n.file_info with st_atime := atime, st_mtime := mtime } }))

/-- `FileSystem::close`. -/
def FileSystem.close (fs : FileSystem) (node : Nat) : FileSystem :=
  let fs1 := fs.modify node (fun n => { n with ref_cnt := (n.ref_cnt + 2 ^ 32 - 1) % 2 ^ 32 })
  if (fs1.get node).changed then fs1
  else if (fs1.get node).ref_cnt = 0 then fs1.modify node fs1.driver.close
  else fs1

/-- The node pointer an `AlreadyExists` exception carries, if the call threw. -/
def Outcome.carried : Outcome → Option Nat
  | Outcome.done _ => none
  | Outcome.AlreadyExists node _ => some node

/-- The tree a call left behind, whichever way it ended. -/
def Outcome.tree : Outcome → FileSystem
  | Outcome.done fs => fs
  | Outcome.AlreadyExists _ fs => fs

/-! ## Sample inputs -/

/-- A sample environment: identity 1000/1000, clock 0, no memory limit, fresh
memory reading as zero. -/
def sampleEnv : Env := ⟨1000, 1000, 0, -1, fun _ _ => 0, 4096⟩

/-- A driver that never touches a node. -/
def idleDriver : ArchiveDriver :=
  { «open» := fun n => n, read := fun _ _ _ => (0, []), close := fun n => n }

/-- A driver that serves entries through the node's buffer, as the ZIP backend
does: `open` installs a memory buffer of the entry's size, `close` releases it. -/
def bufferingDriver : ArchiveDriver :=
  { «open» := fun n => { n with buffer := some (Buffer.MEM (MemBuffer.new n.getSize)) },
    read := fun _ _ _ => (0, []),
    close := fun n => { n with buffer := none } }

/-- A memory buffer of length 8192: 4096 bytes `1` in the first chunk, 4096
bytes `2` in the second. -/
def twoChunks : MemBuffer := ⟨8192, [⟨fun _ => 1⟩, ⟨fun _ => 2⟩]⟩

/-- On an empty writable tree: `mkdir("a")`, `mkdir("a/b")`, then `remove` of
the node found at `a/b`. -/
def subdirRemoved : Option FileSystem := do
  let r1 ← (FileSystem.empty sampleEnv true idleDriver).mkdir sampleEnv "a".toList 0o755
  let r2 ← r1.2.mkdir sampleEnv "a/b".toList 0o755
  let b ← r2.2.find (some "a/b".toList)
  let r3 ← r2.2.remove b
  pure r3.2

/-- On an empty writable tree: `mknod("a")`, then a second node constructed for
the same path `a`; the tree and the address of the second node. -/
def collidingNode : Option (FileSystem × Nat) := do
  let r1 ← (FileSystem.empty sampleEnv true idleDriver).mknod sampleEnv "a".toList 0o644
  let a := r1.2.alloc (FileNode.new sampleEnv (some "a".toList) none NodeType.FILE_NODE)
  pure (a.2, a.1)

/-- On an empty writable tree: `mknod("a")`, then `mknod("a/b")`. -/
def nodeUnderFile : Option FileSystem := do
  let r1 ← (FileSystem.empty sampleEnv true idleDriver).mknod sampleEnv "a".toList 0o644
  let r2 ← r1.2.mknod sampleEnv "a/b".toList 0o644
  pure r2.2

/-- A tree without write support whose driver buffers entries: the entry `f`
of size 5 with locator 7 is appended as a driver does, then opened with
`O_RDONLY`; the tree and the address of the node. -/
def readOnlyOpened : Option (FileSystem × Nat) := do
  let fs0 := FileSystem.empty sampleEnv false bufferingDriver
  let a := fs0.alloc ((FileNode.new sampleEnv (some "f".toList) (some 7) NodeType.FILE_NODE).setSize 5)
  let o ← a.2.append sampleEnv a.1
  let r ← o.tree.open sampleEnv 0 a.1 0
  pure (r.2, a.1)

/-! ## Well-formed trees -/

/-- The paths the constructor of `FileNode` is documented for: not empty and
not starting with a slash. -/
def GoodPath (k : Path) : Prop := k ≠ [] ∧ k.head? ≠ some '/'

instance (k : Path) : Decidable (GoodPath k) := by unfold GoodPath; infer_instance

/-- The path `k` lies strictly below the path `q`: it starts with `q` and a slash. -/
def below (q k : Path) : Prop := (q ++ ['/']) <+: k

/-- The path `k` is `q` or lies below it. -/
def under (q k : Path) : Prop := k = q ∨ below q k

instance (q k : Path) : Decidable (below q k) := by unfold below; infer_instance

instance (q k : Path) : Decidable (under q k) := by unfold under; infer_instance

/-- The suffix of a path after its last slash (the whole path when it has no
slash), in the words of the specification. -/
def basename (p : Path) : Path := (p.reverse.takeWhile (fun c => c ≠ '/')).reverse

/-- The text of a path before its last slash, if it has a slash. -/
def dirname (p : Path) : Option Path :=
  if '/' ∈ p then some (p.take (p.length - 1 - (basename p).length)) else none

/-- The parent path `append` computes: the text before the slash in front of
the name. -/
def parentPath (k : Path) : Path := k.take (nameStart k - 1)

/-- The path `k` below `q` moved below `p`: the prefix `q` replaced by `p`. -/
def rebase (q p k : Path) : Path := p ++ k.drop q.length

/-- The record of the node mapped at `k` is in order: it is allocated, carries
`k` as `pathname` with `name_ptr` at the name, and its `children` are, each
once, the nodes mapped directly below `k`; only a directory has children. -/
structure NodeOK (fs : FileSystem) (k : Path) (id : Nat) : Prop where
  live : (fs.nodes id).isSome
  path : (fs.get id).pathname = some k
  name : (fs.get id).name_ptr = nameStart k
  good : GoodPath k
  notRoot : (fs.get id).type ≠ NodeType.ROOT_NODE
  nodup : (fs.get id).children.Nodup
  kids : ∀ c, c ∈ (fs.get id).children ↔
    ∃ kc, fs.file_map.find kc = some c ∧ nameStart kc ≠ 0 ∧ parentPath kc = k
  leaf : (fs.get id).type ≠ NodeType.DIR_NODE → (fs.get id).children = []

/-- The `parent` of the node mapped at `k` is in order: the root for a path
without a slash, otherwise the directory mapped at the parent path. -/
structure LinkOK (fs : FileSystem) (k : Path) (id : Nat) : Prop where
  top : nameStart k = 0 → (fs.get id).parent = some fs.root_node
  sub : nameStart k ≠ 0 → ∃ pn, fs.file_map.find (parentPath k) = some pn ∧
    (fs.get pn).type = NodeType.DIR_NODE ∧ (fs.get id).parent = some pn

/-- The structural invariant of the tree: a root of type `ROOT_NODE` that is
not in the map and lists the nodes mapped at slash-free paths; every mapped
node in order together with its parent link; addresses from `next` on
unallocated; no other allocated node with children. -/
structure WF (fs : FileSystem) : Prop where
  rootLive : (fs.nodes fs.root_node).isSome
  rootType : (fs.get fs.root_node).type = NodeType.ROOT_NODE
  rootPath : (fs.get fs.root_node).pathname = none
  rootFree : ∀ k, fs.file_map.find k ≠ some fs.root_node
  rootNodup : (fs.get fs.root_node).children.Nodup
  rootKids : ∀ c, c ∈ (fs.get fs.root_node).children ↔
    ∃ kc, fs.file_map.find kc = some c ∧ nameStart kc = 0
  fresh : ∀ i, fs.next ≤ i → fs.nodes i = none
  node : ∀ k id, fs.file_map.find k = some id → NodeOK fs k id
  link : ∀ k id, fs.file_map.find k = some id → LinkOK fs k id
  idle : ∀ i, (fs.nodes i).isSome → i ≠ fs.root_node → (∀ k, fs.file_map.find k ≠ some i) →
    (fs.get i).children = []

/-- Every mapped node carries its key as `pathname`. -/
def KeyOK (fs : FileSystem) : Prop :=
  ∀ k i, fs.file_map.find k = some i → (fs.get i).pathname = some k

/-- The part of the tree at and below the path `q` is in order. -/
def RegionOK (fs : FileSystem) (q : Path) : Prop :=
  ∀ k id, under q k → fs.file_map.find k = some id → NodeOK fs k id ∧ LinkOK fs k id

/-- The node `i` is mapped at `q` or below it. -/
def FileSystem.inRegion (fs : FileSystem) (q : Path) (i : Nat) : Prop :=
  ∃ k, under q k ∧ fs.file_map.find k = some i

/-- The node `i` is mapped below `q`. -/
def FileSystem.inBelow (fs : FileSystem) (q : Path) (i : Nat) : Prop :=
  ∃ k, below q k ∧ fs.file_map.find k = some i

/-- The number of map entries at or below `q`. -/
def FileSystem.weight (fs : FileSystem) (q : Path) : Nat :=
  (fs.file_map.filter (fun e => decide (under q e.1))).length

/-- The number of map entries strictly below `q`. -/
def weightBelow (fs : FileSystem) (q : Path) : Nat :=
  (fs.file_map.filter (fun e => decide (below q e.1))).length

/-- What `remove` of the node `n` mapped at `q`, a child of `pn`, makes of the
tree `fs`: the entries at and below `q` are gone from the map; their nodes are
deleted, or kept without children in `removed_nodes` when they have a locator;
`pn` has lost the child `n`; nothing else has changed but the flag `changed`. -/
structure Removed (fs : FileSystem) (q : Path) (n pn : Nat) (fs' : FileSystem) : Prop where
  map : fs'.file_map = fs.file_map.filter (fun e => !decide (under q e.1))
  inside : ∀ i, fs.inRegion q i →
    fs'.nodes i = if (fs.get i).data.isSome then some { fs.get i with children := [] } else none
  parent : fs'.nodes pn = (fs.nodes pn).map (fun p => { p with children := p.children.erase n })
  outside : ∀ i, ¬ fs.inRegion q i → i ≠ pn → fs'.nodes i = fs.nodes i
  tomb : ∃ L : List Nat, fs'.removed_nodes = fs.removed_nodes ++ L ∧ L.Nodup ∧
    ∀ i, i ∈ L ↔ fs.inRegion q i ∧ (fs.get i).data.isSome
  changed : fs'.changed = true
  next : fs'.next = fs.next
  root : fs'.root_node = fs.root_node
  ws : fs'.write_support = fs.write_support
  driver : fs'.driver = fs.driver

/-- What the loop of `remove` over the children of the node `n` mapped at `q`
makes of the tree: as `Removed`, for the entries strictly below `q`; `n` is
left without children. -/
structure Emptied (fs : FileSystem) (q : Path) (n : Nat) (fs' : FileSystem) : Prop where
  map : fs'.file_map = fs.file_map.filter (fun e => !decide (below q e.1))
  inside : ∀ i, fs.inBelow q i →
    fs'.nodes i = if (fs.get i).data.isSome then some { fs.get i with children := [] } else none
  parent : fs'.nodes n = (fs.nodes n).map (fun p => { p with children := [] })
  outside : ∀ i, ¬ fs.inBelow q i → i ≠ n → fs'.nodes i = fs.nodes i
  tomb : ∃ L : List Nat, fs'.removed_nodes = fs.removed_nodes ++ L ∧ L.Nodup ∧
    ∀ i, i ∈ L ↔ fs.inBelow q i ∧ (fs.get i).data.isSome
  changed : fs'.changed = fs.changed ∨ fs'.changed = true
  next : fs'.next = fs.next
  root : fs'.root_node = fs.root_node
  ws : fs'.write_support = fs.write_support
  driver : fs'.driver = fs.driver

/-- The parent of a mapped node, with what `remove` and `rename` need of it. -/
structure ParentOf (fs : FileSystem) (q : Path) (n pn : Nat) : Prop where
  ptr : (fs.get n).parent = some pn
  mem : n ∈ (fs.get pn).children
  live : (fs.nodes pn).isSome
  out : ¬ fs.inRegion q pn
  key : ∀ k, fs.file_map.find k = some pn → nameStart q ≠ 0 ∧ parentPath q = k
  sub : nameStart q ≠ 0 → fs.file_map.find (parentPath q) = some pn
  top : nameStart q = 0 → pn = fs.root_node

/-- The node `d` is `n` or is reached from `n` through `children` lists. -/
inductive Subtree (fs : FileSystem) (n : Nat) : Nat → Prop where
  | self : Subtree fs n n
  | child {p c : Nat} : Subtree fs n p → c ∈ (fs.get p).children → Subtree fs n c

/-- The record of a directory that `append` created for the missing path `k`:
what the constructor made, with `parent`, `children` and the link count set
since; the parent is the root or the node mapped at the parent path. -/
def NewDir (env : Env) (fs : FileSystem) (k : Path) (d : Nat) : Prop :=
  ∃ (par : Nat) (kids : List Nat) (nl : Nat),
    fs.nodes d = some
      { FileNode.new env (some k) none NodeType.DIR_NODE with
        parent := some par, children := kids,
        file_info := { (FileNode.new env (some k) none NodeType.DIR_NODE).file_info with
                       st_nlink := nl } } ∧
    (nameStart k = 0 → par = fs.root_node) ∧
    (nameStart k ≠ 0 → fs.file_map.find (parentPath k) = some par)

/-- The node `i` may be the one that receives a child when a node is appended
at `p`: the root or a node mapped above `p`. -/
def IsRecv (fs : FileSystem) (p : Path) (i : Nat) : Prop :=
  i = fs.root_node ∨ ∃ k, below k p ∧ fs.file_map.find k = some i

/-- What `append` of the unmapped node `x` with the path `p` makes of the
tree: `x` is mapped at `p`, old entries stay, every other new entry is a fresh
directory at a path above `p`; `x` has its `parent` set; of the old nodes only
one receiver of a child differs. -/
structure AppFrame (env : Env) (fs : FileSystem) (x : Nat) (p : Path) (fs' : FileSystem) :
    Prop where
  findx : fs'.file_map.find p = some x
  old : ∀ k v, fs.file_map.find k = some v → fs'.file_map.find k = some v
  cls : ∀ k d, fs'.file_map.find k = some d → (k = p ∧ d = x) ∨ fs.file_map.find k = some d ∨
    (fs.file_map.find k = none ∧ k ≠ p ∧ below k p ∧ fs.next ≤ d ∧ d < fs'.next ∧
      NewDir env fs' k d)
  xrec : ∃ a, fs'.nodes x = some { fs.get x with parent := some a } ∧
    (nameStart p = 0 → a = fs.root_node) ∧
    (nameStart p ≠ 0 → fs'.file_map.find (parentPath p) = some a)
  other : ∀ i, (fs.nodes i).isSome → i ≠ x → fs'.nodes i = fs.nodes i ∨
    (IsRecv fs p i ∧ ∃ c t, fs'.nodes i = some ((fs.get i).addChild c t))
  next : fs.next ≤ fs'.next
  fresh : ∀ i, fs'.next ≤ i → fs'.nodes i = none
  root : fs'.root_node = fs.root_node
  ws : fs'.write_support = fs.write_support
  changed : fs'.changed = fs.changed
  removed : fs'.removed_nodes = fs.removed_nodes
  driver : fs'.driver = fs.driver

/-- The tree seen without the map entries at the keys `H` and with the
`children` of the nodes `W` left out: the view in which the tree is in order
while `append` or `rename` is at work on the nodes that wait to be linked. -/
def FileSystem.veil (fs : FileSystem) (H : Path → Bool) (W : Nat → Bool) : FileSystem :=
  { fs with
    file_map := fs.file_map.filter (fun e => !H e.1)
    nodes := fun i => if W i then (fs.nodes i).map (fun r => { r with children := [] })
                      else fs.nodes i }

/-- Every node mapped above the path `p` is a directory: a node appended at
`p` is not placed under a file. -/
def DirsAbove (fs : FileSystem) (p : Path) : Prop :=
  ∀ e ∈ fs.file_map, below e.1 p → (fs.get e.2).type = NodeType.DIR_NODE

instance (fs : FileSystem) (p : Path) : Decidable (DirsAbove fs p) := by
  unfold DirsAbove; infer_instance

/-- The empty writable tree of the examples. -/
def emptyTree : FileSystem := FileSystem.empty sampleEnv true idleDriver

/-- The tree after `mkdir("a")` on the empty writable tree. -/
def oneDir : FileSystem :=
  (emptyTree.mkdir sampleEnv "a".toList 0o755).elim emptyTree Prod.snd

/-- The tree after `mkdir("a")` and `mknod("a/b")` on the empty writable tree. -/
def dirWithFile : FileSystem :=
  (oneDir.mknod sampleEnv "a/b".toList 0o644).elim oneDir Prod.snd

/-- The empty writable tree with a node constructed for the archive entry
`a/b/c` with locator 7, not yet appended; the node has the address 1. -/
def looseNode : FileSystem :=
  (emptyTree.alloc (FileNode.new sampleEnv (some "a/b/c".toList) (some 7) NodeType.FILE_NODE)).2

/-- The part of the tree at and below `kc` as `repath` needs it: every record
in order, and every entry strictly below `kc` with its parent link. -/
def Cargo (fs : FileSystem) (kc : Path) : Prop :=
  ∀ k id, under kc k → fs.file_map.find k = some id →
    NodeOK fs k id ∧ (below kc k → LinkOK fs k id)

/-- What the walk of `repath` over the entries at the keys `S` below `q` makes
of the tree: every such entry is mapped at its key moved below `p` and no
longer at its old key, its node carries the new path; no other entry is
touched unless a moved entry takes its key; no other record has changed. -/
structure Moved (fs : FileSystem) (q p : Path) (S : Path → Prop) (fs' : FileSystem) :
    Prop where
  moved : ∀ k d, S k → fs.file_map.find k = some d → fs'.file_map.find (rebase q p k) = some d
  gone : ∀ k d, S k → fs.file_map.find k = some d → fs'.file_map.find k = none
  kept : ∀ k d, fs.file_map.find k = some d → ¬ S k →
    (∀ k0 d0, S k0 → fs.file_map.find k0 = some d0 → k ≠ rebase q p k0) →
    fs'.file_map.find k = some d
  back : ∀ k d, fs'.file_map.find k = some d → fs.file_map.find k = some d ∨
    ∃ k0, S k0 ∧ fs.file_map.find k0 = some d ∧ k = rebase q p k0
  inside : ∀ k d, S k → fs.file_map.find k = some d →
    fs'.nodes d = some ((fs.get d).setPathname (rebase q p k))
  outside : ∀ i, (∀ k, S k → fs.file_map.find k ≠ some i) → fs'.nodes i = fs.nodes i
  count : ∀ R : Path → Bool, (∀ k, R k = true → ¬ below p k) →
    (fs'.file_map.filter (fun e => R e.1)).length ≤ (fs.file_map.filter (fun e => R e.1)).length
  next : fs'.next = fs.next
  root : fs'.root_node = fs.root_node
  ws : fs'.write_support = fs.write_support
  changed : fs'.changed = fs.changed
  removed : fs'.removed_nodes = fs.removed_nodes
  driver : fs'.driver = fs.driver

/-- The test for the keys strictly below `q`. -/
def belowKeys (q : Path) : Path → Bool := fun k => decide (below q k)

/-- The test for the nodes mapped at or below `q`. -/
def FileSystem.regionNodes (fs : FileSystem) (q : Path) : Nat → Bool := fun i =>
  fs.file_map.any (fun e => decide (under q e.1) && decide (fs.file_map.find e.1 = some i))

/-- The tree `s` in the course of `rename` of the node `n` mapped at `q` in
`fs`, before `n` is appended again: `n` is out of the map; the entries below
`q` and their nodes ride along unchanged; seen without them the tree is in
order. -/
structure Hole (fs : FileSystem) (q : Path) (n : Nat) (s : FileSystem) : Prop where
  view : WF (s.veil (belowKeys q) (fs.regionNodes q))
  find : ∀ k, below q k → s.file_map.find k = fs.file_map.find k
  recs : ∀ k d, below q k → fs.file_map.find k = some d → s.nodes d = fs.nodes d
  qfree : s.file_map.find q = none
  nfree : ∀ k, s.file_map.find k ≠ some n
  nlive : (s.nodes n).isSome
  nkids : (s.get n).children = (fs.get n).children
  ntype : (s.get n).type = (fs.get n).type
  ws : s.write_support = fs.write_support
  root : s.root_node = fs.root_node

/-! ## The buffer limit (`filesystem.hpp`) -/

/-- `FileSystem::setBufferLimit(int limit)`: the value `limit * 1024 * 1024`,
computed in `int`, that is stored in `Buffer::MEM_LIMIT`. Signed overflow is
undefined in the source; the embedding takes the wrapped 32-bit result that
the compilers in use produce. -/
def setBufferLimit (limit : Int) : Int :=
  let wrap (x : Int) : Int := (x + 2 ^ 31) % 2 ^ 32 - 2 ^ 31
  wrap (wrap (limit * 1024) * 1024)

/-! ## Access checks (`filesystem.cpp`) -/

/-- The modes of `access(2)` from `<unistd.h>`. -/
def F_OK : Nat := 0
def X_OK : Nat := 1
def W_OK : Nat := 2
def R_OK : Nat := 4

/-- The permission bits of `<sys/stat.h>`. -/
def S_IRUSR : Nat := 0o400
def S_IWUSR : Nat := 0o200
def S_IXUSR : Nat := 0o100
def S_IRGRP : Nat := 0o040
def S_IWGRP : Nat := 0o020
def S_IXGRP : Nat := 0o010
def S_IROTH : Nat := 0o004
def S_IWOTH : Nat := 0o002
def S_IXOTH : Nat := 0o001

/-- The loop `while (dir != NULL)` of `FileSystem::isPathSearchable`, `fuel`
tests of the condition at most; `none` when they are used up. -/
def FileSystem.searchLoop (fs : FileSystem) (mode : Nat) : Nat → Option Nat → Option Bool
  | 0, _ => none
  | _ + 1, none => some true
  | fuel + 1, some dir =>
    if (fs.get dir).file_info.st_mode &&& mode ≠ 0 then
      FileSystem.searchLoop fs mode fuel (fs.get dir).parent
    else some false

/-- `FileSystem::isPathSearchable`. -/
def FileSystem.isPathSearchable (env : Env) (fuel : Nat) (fs : FileSystem) (node : Nat)
    (uid gid : Nat) : Option Bool :=
  let mode := if uid = env.uid then S_IXUSR else if gid = env.gid then S_IXGRP else S_IXOTH
  fs.searchLoop mode fuel (fs.get node).parent

/-- `FileSystem::access`; `fuel` bounds the loop of `isPathSearchable`. -/
def FileSystem.access (env : Env) (fuel : Nat) (fs : FileSystem) (node : Nat)
    (mask uid gid : Nat) : Option Nat :=
  let st_mode := (fs.get node).file_info.st_mode
  if mask = F_OK then some 0
  else if uid = 0 ∨ gid = 0 then
    if mask &&& X_OK ≠ 0 ∧ (fs.get node).type = NodeType.FILE_NODE then
      if st_mode &&& S_IXUSR ≠ 0 ∨ st_mode &&& S_IXGRP ≠ 0 ∨ st_mode &&& S_IXOTH ≠ 0 then some 0
      else some EACCES
    else some 0
  else
    match fs.isPathSearchable env fuel node uid gid with
    | none => none
    | some false => some EACCES
    | some true =>
      let mode : Nat :=
        if uid = env.uid then
          (if mask &&& R_OK ≠ 0 then S_IRUSR else 0) + (if mask &&& W_OK ≠ 0 then S_IWUSR else 0) +
            (if mask &&& X_OK ≠ 0 then S_IXUSR else 0)
        else if gid = env.gid then
          (if mask &&& R_OK ≠ 0 then S_IRGRP else 0) + (if mask &&& W_OK ≠ 0 then S_IWGRP else 0) +
            (if mask &&& X_OK ≠ 0 then S_IXGRP else 0)
        else
          (if mask &&& R_OK ≠ 0 then S_IROTH else 0) + (if mask &&& W_OK ≠ 0 then S_IWOTH else 0) +
            (if mask &&& X_OK ≠ 0 then S_IXOTH else 0)
      if mode &&& st_mode = mode then some 0 else some EACCES

/-! ## The FUSE callback `archivefs_open` (`archivefs.cpp`) -/

/-- The part of `archivefs_open` after the node has been found: the access
check for the open mode, then `fs->open`, whose result is tested with `< 0`;
the returned `int`, whether a `FileHandle` was stored in `info->fh`, and the
tree. -/
def archivefs_open (env : Env) (fuel : Nat) (fs : FileSystem) (node : Nat) (flags uid gid : Nat) :
    Option (Int × Bool × FileSystem) :=
  let mask :=
    if flags &&& O_RDWR ≠ 0 then R_OK ||| W_OK
    else if flags &&& O_WRONLY ≠ 0 then W_OK
    else R_OK
  match fs.access env fuel node mask uid gid with
  | none => none
  | some a =>
    if a ≠ 0 then some (-(EACCES : Int), false, fs)
    else
      match fs.open env fuel node flags with
      | none => none
      | some r =>
        let ret : Int := r.1
        if ret < 0 then some (-ret, false, r.2)
        else some (0, true, r.2)

/-! ## Further examples -/

/-- A driver whose entries all hold 8192 bytes `7`. -/
def sevensDriver : ArchiveDriver :=
  { «open» := fun n => n,
    read := fun _ bytes offset =>
      ((min bytes (8192 - offset) : Nat), List.replicate (min bytes (8192 - offset)) 7),
    close := fun n => n }

/-- The memory buffer after `write(b, 10, 0)` with the bytes `1 .. 10`,
followed by `write(c, 5, 0)` with five bytes `9`. -/
def twiceWritten (junk : Nat → Nat → Byte) : MemBuffer :=
  (MemBuffer.write junk
    (MemBuffer.write junk (MemBuffer.new 0) [1, 2, 3, 4, 5, 6, 7, 8, 9, 10] 10 0).2
    [9, 9, 9, 9, 9] 5 0).2

/-- A writable tree with the driver `driver` holding one archive entry `f`
(locator 7, recorded size `size`), appended as a driver does; the node of the
entry has the address 1. -/
def oneEntry (driver : ArchiveDriver) (ws : Bool) (size : Nat) : FileSystem :=
  let fs0 := FileSystem.empty sampleEnv ws driver
  let a := fs0.alloc
    ((FileNode.new sampleEnv (some "f".toList) (some 7) NodeType.FILE_NODE).setSize size)
  ((a.2.append sampleEnv a.1).map Outcome.tree).getD a.2

/-- The process identity of the counterexample to the `0600` example: the
file system runs as uid 1001. -/
def env1001 : Env := ⟨1001, 1001, 0, -1, fun _ _ => 0, 4096⟩

/-- A tree whose root (mode `0755`) holds the file `secret` with mode `0600`
and owner 1000, as a tar or ISO backend records it; the file has the address 1. -/
def secretTree (env : Env) : FileSystem :=
  let fs0 := FileSystem.empty env false idleDriver
  let n := FileNode.new env (some "secret".toList) (some 7) NodeType.FILE_NODE
  let a := fs0.alloc
    { n with file_info := { n.file_info with st_mode := S_IFREG ||| 0o600, st_uid := 1000 } }
  ((a.2.append env a.1).map Outcome.tree).getD a.2

/-- The tree after `create("f")` on the empty writable tree: the file `f` has
the address 1 and an empty buffer. -/
def oneFile : FileSystem :=
  (emptyTree.create sampleEnv "f".toList 0o644).elim emptyTree (fun r => r.2.1)

/-! ## The order of the node map -/

/-- The entries of a map stand in strictly increasing key order for `ltstr`. -/
def FileMap.Ordered (m : FileMap) : Prop :=
  List.Pairwise (fun a b : Path × Nat => ltstr a.1 b.1 = true) m

/-- The calls the program makes on `file_map`: `insert`, `erase` and the
assignment `file_map[key] = v`. -/
inductive MapOp where
  | ins (key : Path) (v : Nat)
  | del (key : Path)
  | set (key : Path) (v : Nat)

/-- The map after one call. -/
def MapOp.apply (m : FileMap) : MapOp → FileMap
  | MapOp.ins key v => (m.insert key v).1
  | MapOp.del key => (m.erase key).1
  | MapOp.set key v => m.assign key v

/-- The map after a sequence of calls on the empty map. -/
def FileMap.after (ops : List MapOp) : FileMap := ops.foldl MapOp.apply []

/-! ## Writing into an unbounded byte array -/

/-- The array that holds `c`, reads as zero past its end, after `len` bytes of
`data` were stored at `off`: its bytes up to the larger of the two ends. -/
def arrayWrite (c : List Byte) (data : List Byte) (len off : Nat) : List Byte :=
  (List.range (max c.length (off + len))).map
    (fun o => if off ≤ o ∧ o < off + len then data.getD (o - off) 0 else c.getD o 0)

/-! ## The chunk accesses of `MemBuffer::read` and `MemBuffer::write` -/

/-- One access to the vector of chunks: the index `i` in `chunks[i]`, and the
byte range `[start, start + count)` of `chunks[i]->data` that `memcpy` touches. -/
structure Access where
  index : Nat
  start : Nat
  count : Nat
  deriving DecidableEq, Repr

/-- The accesses of the `for` loop of `MemBuffer::read`, with the arguments of
`MemBuffer.readLoop`. -/
def MemBuffer.readAccesses (m : MemBuffer) : Nat → Nat → Nat → Nat → List Access
  | 0, _, _, _ => []
  | n + 1, i, offset, bytes_to_read =>
    let r := (m.chunkAt i).read bytes_to_read (chunkOffset offset)
    ⟨i, chunkOffset offset, r.1⟩ ::
      MemBuffer.readAccesses m n (i + 1) (offset + r.1) (bytes_to_read - r.1)

/-- The accesses of a call `read(buffer, bytes, offset)`. -/
def MemBuffer.readTrace (m : MemBuffer) (bytes offset : Nat) : List Access :=
  if offset > m._length then []
  else
    let bytes := if bytes + offset > m._length then m._length - offset else bytes
    let chunk_start := chunkNumber offset
    let chunk_end := chunkNumber offset + chunksCount bytes
    MemBuffer.readAccesses m (chunk_end - chunk_start) chunk_start offset bytes

/-- The class a caller falls into: user, group or other. -/
inductive PermClass where
  | user
  | group
  | other
  deriving DecidableEq, Repr

/-- The class of the caller `uid`, `gid`: user when `uid` is the effective uid
of the process, else group when `gid` is its effective gid, else other. -/
def permClass (env : Env) (uid gid : Nat) : PermClass :=
  if uid = env.uid then PermClass.user
  else if gid = env.gid then PermClass.group
  else PermClass.other

/-- The read bit of a class. -/
def PermClass.r : PermClass → Nat
  | PermClass.user => S_IRUSR
  | PermClass.group => S_IRGRP
  | PermClass.other => S_IROTH

/-- The write bit of a class. -/
def PermClass.w : PermClass → Nat
  | PermClass.user => S_IWUSR
  | PermClass.group => S_IWGRP
  | PermClass.other => S_IWOTH

/-- The execute bit of a class. -/
def PermClass.x : PermClass → Nat
  | PermClass.user => S_IXUSR
  | PermClass.group => S_IXGRP
  | PermClass.other => S_IXOTH

/-- The list `l` holds the nodes reached from the pointer `p` through `parent`,
nearest first, up to the one whose `parent` is null. -/
def FileSystem.ChainFrom (fs : FileSystem) : Option Nat → List Nat → Prop
  | none, [] => True
  | some d, e :: l => d = e ∧ FileSystem.ChainFrom fs (fs.get d).parent l
  | none, _ :: _ => False
  | some _, [] => False

/-- The list `l` holds the ancestors of `node`, from its parent up to the root. -/
def FileSystem.Ancestors (fs : FileSystem) (node : Nat) (l : List Nat) : Prop :=
  fs.ChainFrom (fs.get node).parent l

/-- The condition under which the specification grants `mask` to a caller of
the class `cls`: every ancestor has the execute bit of the class, and the mode
of the node has every requested bit of the class. -/
def FileSystem.Granted (fs : FileSystem) (cls : PermClass) (node mask : Nat) (l : List Nat) :
    Prop :=
  (∀ d ∈ l, (fs.get d).file_info.st_mode &&& cls.x ≠ 0) ∧
  (mask &&& R_OK ≠ 0 → (fs.get node).file_info.st_mode &&& cls.r ≠ 0) ∧
  (mask &&& W_OK ≠ 0 → (fs.get node).file_info.st_mode &&& cls.w ≠ 0) ∧
  (mask &&& X_OK ≠ 0 → (fs.get node).file_info.st_mode &&& cls.x ≠ 0)

instance (fs : FileSystem) (cls : PermClass) (node mask : Nat) (l : List Nat) :
    Decidable (fs.Granted cls node mask l) := by
  unfold FileSystem.Granted; infer_instance

/-! ## Sequences of calls -/

/-- No node in the store has `changed` set, as after the driver has built the
tree: the constructor of `FileNode` clears the flag and `append` leaves it. -/
def FileSystem.AllClean (fs : FileSystem) : Prop :=
  ∀ i n, fs.nodes i = some n → n.changed = false

/-- The trees reached from `fs0` by calls of `mknod`, `create`, `mkdir`,
`write`, `truncate`, `rename` and `remove` that return. -/
inductive FileSystem.Edited (fs0 : FileSystem) : FileSystem → Prop
  | start : FileSystem.Edited fs0 fs0
  | mknod (env : Env) (fs : FileSystem) (path : Path) (mode e : Nat) (fs1 : FileSystem) :
      FileSystem.Edited fs0 fs → fs.mknod env path mode = some (e, fs1) →
      FileSystem.Edited fs0 fs1
  | create (env : Env) (fs : FileSystem) (path : Path) (mode e : Nat) (fs1 : FileSystem)
      (r : Option Nat) :
      FileSystem.Edited fs0 fs → fs.create env path mode = some (e, fs1, r) →
      FileSystem.Edited fs0 fs1
  | mkdir (env : Env) (fs : FileSystem) (path : Path) (mode e : Nat) (fs1 : FileSystem) :
      FileSystem.Edited fs0 fs → fs.mkdir env path mode = some (e, fs1) →
      FileSystem.Edited fs0 fs1
  | write (env : Env) (fs : FileSystem) (node : Nat) (data : List Byte) (len off : Nat) :
      FileSystem.Edited fs0 fs → FileSystem.Edited fs0 (fs.write env node data len off).2
  | truncate (env : Env) (fuel : Nat) (fs : FileSystem) (node size e : Nat) (fs1 : FileSystem) :
      FileSystem.Edited fs0 fs → fs.truncate env fuel node size = some (e, fs1) →
      FileSystem.Edited fs0 fs1
  | rename (env : Env) (fs : FileSystem) (node : Nat) (p : Path) (e : Nat) (fs1 : FileSystem) :
      FileSystem.Edited fs0 fs → fs.rename env node p = some (e, fs1) →
      FileSystem.Edited fs0 fs1
  | remove (fs : FileSystem) (node e : Nat) (fs1 : FileSystem) :
      FileSystem.Edited fs0 fs → fs.remove node = some (e, fs1) → FileSystem.Edited fs0 fs1

/-- The trees reached from `fs0` by calls of `rename` that return. -/
inductive FileSystem.Renamed (fs0 : FileSystem) : FileSystem → Prop
  | start : FileSystem.Renamed fs0 fs0
  | rename (env : Env) (fs : FileSystem) (node : Nat) (p : Path) (e : Nat) (fs1 : FileSystem) :
      FileSystem.Renamed fs0 fs → fs.rename env node p = some (e, fs1) →
      FileSystem.Renamed fs0 fs1

/-- How the record of a node may differ after calls of `rename` when it had a
path before: the locator is the same; a set `original_pathname` is kept; one
that was unset is set only for a node with a locator, to the path from before;
and while it is unset on a node with a locator, the path is the one from
before. -/
structure FileNode.Traced (n n1 : FileNode) : Prop where
  path : n1.pathname ≠ none
  data : n1.data = n.data
  keep : ∀ o, n.original_pathname = some o → n1.original_pathname = some o
  first : n.original_pathname = none → ∀ o, n1.original_pathname = some o →
    n.data.isSome ∧ n.pathname = some o
  still : n1.original_pathname = none → n.data.isSome → n1.pathname = n.pathname

/-- The store `fs1` continues the store `fs`: addresses are handed out upwards,
and a node of `fs1` at an address handed out before is a node of `fs` whose
record, if it had a path, has moved on as `FileNode.Traced` allows. -/
def FileSystem.Evolves (fs fs1 : FileSystem) : Prop :=
  fs.next ≤ fs1.next ∧
  ∀ i n1, i < fs.next → fs1.nodes i = some n1 →
    ∃ n, fs.nodes i = some n ∧ (n.pathname ≠ none → FileNode.Traced n n1)

/-- The step from `fs` to `fs1` raised no `changed` flag: the flag of the tree
is the same, and a node of `fs1` with the flag set is a node of `fs` with the
flag set. -/
def FileSystem.Quiet (fs fs1 : FileSystem) : Prop :=
  fs1.changed = fs.changed ∧
  ∀ i n1, fs1.nodes i = some n1 → n1.changed = true →
    ∃ n, fs.nodes i = some n ∧ n.changed = true

/-- The tree with the archive entry `f` (locator 7, address 1) after
`rename(f, "g")`. -/
def renamedEntry : FileSystem :=
  ((oneEntry idleDriver true 0).rename sampleEnv 1 "g".toList).elim
    (oneEntry idleDriver true 0) Prod.snd

/-- The tree `renamedEntry` after a second `rename`, to `h`. -/
def renamedTwice : FileSystem :=
  (renamedEntry.rename sampleEnv 1 "h".toList).elim renamedEntry Prod.snd

/-! ## The driver registry (`drivers.cpp`) -/

/-- The struct `ArchiveType`, without its factory. -/
structure ArchiveType where
  extension : List Char
  mime_text : List Char
  write_support : Bool
  deriving DecidableEq, Repr

/-- The struct `DriverHandle`: the archive types a driver registers. -/
structure DriverHandle where
  archive_types : List ArchiveType
  deriving DecidableEq, Repr

/-- `strToLower`: `tolower` on every character, in the C locale. -/
def strToLower (str : List Char) : List Char := str.map Char.toLower

/-- The loop `while (ext != path && *ext != '.') --ext;` of `findFileExt`,
started at offset `ext`; the byte at offset `|path|` is the terminating NUL. -/
def findFileExt.scan (path : List Char) : Nat → Nat
  | 0 => 0
  | ext + 1 =>
    if path.getD (ext + 1) (Char.ofNat 0) ≠ '.' then findFileExt.scan path ext else ext + 1

/-- `findFileExt`: pointers into `path` are offsets; a null `ext` is `none`,
and the result is the offset of the first character after the dot found. -/
def findFileExt (path : List Char) (ext : Option Int) : Option Nat :=
  let start : Option Nat :=
    match ext with
    | none => some path.length
    | some e => if e < 0 then none else some e.toNat
  match start with
  | none => none
  | some s =>
    let e := findFileExt.scan path s
    if e = 0 then none else some (e + 1)

/-- `TYPE_BY_EXT`: the first type, in the order of the two loops, whose
extension is `ext`. -/
def TYPE_BY_EXT (drivers : List DriverHandle) (ext : List Char) : Option ArchiveType :=
  drivers.findSome? (fun d => d.archive_types.find? (fun t => decide (t.extension = ext)))

/-- The size of the local array `ext_low` of `GET_TYPE`. -/
def EXT_LOW_SIZE : Nat := 10

/-- `GET_TYPE` for a non-null `path`, compiled without `HAVE_LIBMAGIC`. The
outer `none` stands for undefined behaviour: `strcpy` writes the extension
and its terminating NUL past the end of `ext_low`. -/
def GET_TYPE (drivers : List DriverHandle) (path : List Char) : Option (Option ArchiveType) :=
  match findFileExt path none with
  | none => some none
  | some e =>
    let ext := path.drop e
    if ext.length + 1 > EXT_LOW_SIZE then none
    else
      match TYPE_BY_EXT drivers (strToLower ext) with
      | some t => some (some t)
      | none =>
        match findFileExt path (some ((e : Int) - 2)) with
        | none => some none
        | some e2 =>
          let ext2 := path.drop e2
          if ext2.length + 1 > EXT_LOW_SIZE then none
          else some (TYPE_BY_EXT drivers (strToLower ext2))

/-- `std::string::find_last_of(c)`: `none` is `npos`. -/
def find_last_of (name : List Char) (c : Char) : Option Nat :=
  match name.reverse.indexOf? c with
  | none => none
  | some k => some (name.length - 1 - k)

/-- `generateNewArchiveName` with the text `date_time` that `strftime` wrote:
the new value of `name`, or `none` when `substr` throws `std::out_of_range`
(its position `npos` is past the size of the string). -/
def generateNewArchiveName (date_time : List Char) (name : List Char) : Option (List Char) :=
  match find_last_of name '.' with
  | none => none
  | some pos =>
    let ext := name.drop pos
    some (name.take pos ++ ['_'] ++ "edit (".toList ++ date_time ++ ")".toList ++ ext)

/-! ## Saving a ZIP archive (`zipdriver.cpp`) -/

/-- The two archive handles of `ZipDriver::saveArchive`: the source archive
`zip_file` and the new archive `zip_file_new`. -/
inductive ZipHandle where
  | zip_file
  | zip_file_new
  deriving DecidableEq, Repr

/-- A data source of libzip: `zip_source_zip(za, srcza, index, ...)`, or
`zip_source_function(za, zipUserFunctionCallback, ...)` reading the buffer of
the node at `node`. -/
inductive ZipSource where
  | zip (za srcza : ZipHandle) (index : Nat)
  | function (za : ZipHandle) (node : Nat)
  deriving DecidableEq, Repr

/-- The calls of libzip that change an archive. -/
inductive ZipCall where
  | zip_delete (za : ZipHandle) (index : Nat)
  | zip_add_dir (za : ZipHandle) (name : List Char)
  | zip_add (za : ZipHandle) (name : List Char) (src : ZipSource)
  | zip_rename (za : ZipHandle) (index : Nat) (name : List Char)
  | zip_replace (za : ZipHandle) (index : Nat) (src : ZipSource)
  | zip_close (za : ZipHandle)
  deriving DecidableEq, Repr

/-- The body of the loop over `files` in `ZipDriver::saveArchive` for the node
at `node`. -/
def ZipDriver.saveNode (keep_original : Bool) (fs : FileSystem) (node : Nat) : List ZipCall :=
  let n := fs.get node
  let pathname := n.pathname.getD []
  if keep_original then
    if n.type = NodeType.DIR_NODE then [ZipCall.zip_add_dir ZipHandle.zip_file_new (pathname ++ ['/'])]
    else
      match n.data with
      | some index =>
        [ZipCall.zip_add ZipHandle.zip_file_new pathname
          (ZipSource.zip ZipHandle.zip_file_new ZipHandle.zip_file index)]
      | none =>
        [ZipCall.zip_add ZipHandle.zip_file pathname (ZipSource.function ZipHandle.zip_file node)]
  else if n.changed = false ∧ n.original_pathname = none then []
  else
    match n.data with
    | none =>
      if n.type = NodeType.DIR_NODE then [ZipCall.zip_add_dir ZipHandle.zip_file (pathname ++ ['/'])]
      else [ZipCall.zip_add ZipHandle.zip_file pathname (ZipSource.function ZipHandle.zip_file node)]
    | some index =>
      (if n.original_pathname.isSome then
        (if n.type = NodeType.DIR_NODE then
          [ZipCall.zip_rename ZipHandle.zip_file index (pathname ++ ['/'])]
        else [ZipCall.zip_rename ZipHandle.zip_file index pathname])
      else []) ++
      (if n.changed then
        [ZipCall.zip_replace ZipHandle.zip_file index (ZipSource.function ZipHandle.zip_file node)]
      else [])

/-- `ZipDriver::saveArchive(files, deleted)` on the map and the list of removed
nodes of the tree, after `zip_open` has succeeded: the calls made, in order.
A locator of the driver is the index of the entry. -/
def ZipDriver.saveArchive (keep_original : Bool) (fs : FileSystem) : List ZipCall :=
  (if keep_original then []
    else fs.removed_nodes.filterMap
      (fun node => (fs.get node).data.map (fun index => ZipCall.zip_delete ZipHandle.zip_file index))) ++
  (fs.file_map.map (fun e => ZipDriver.saveNode keep_original fs e.2)).flatten ++
  (if keep_original then [ZipCall.zip_close ZipHandle.zip_file_new] else [])

/-- The archive handle a call works on. -/
def ZipCall.handle : ZipCall → ZipHandle
  | ZipCall.zip_delete za _ => za
  | ZipCall.zip_add_dir za _ => za
  | ZipCall.zip_add za _ _ => za
  | ZipCall.zip_rename za _ _ => za
  | ZipCall.zip_replace za _ _ => za
  | ZipCall.zip_close za => za

/-- The entry `f` (locator 7) after `truncate(f, 0)`: it has a locator, a
buffer and `changed = true`. -/
def changedEntry : FileSystem :=
  ((oneEntry idleDriver true 0).truncate sampleEnv 1 1 0).elim (oneEntry idleDriver true 0) Prod.snd

/-! ## The critical sections of `append` and `take` -/

/-- The part of `append` that runs with `fmap_mux` held: the call of
`file_map.insert`; the tree at the unlock and the node found at the key, if
it was taken. -/
def FileSystem.appendLocked (fs : FileSystem) (new_node : Nat) :
    Option (FileSystem × Option Nat) :=
  match (fs.get new_node).pathname with
  | none => none
  | some pathname =>
    let r := fs.file_map.insert pathname new_node
    some ({ fs with file_map := r.1 }, r.2)

/-- The part of `append` after the unlock, when the key was free: the copy
of the parent's path into `parent_name` (`none` when it does not fit), the
search for the parent, its creation when it is missing, and the two links. -/
def FileSystem.appendUnlocked (env : Env) (fuel : Nat) (fs1 : FileSystem) (new_node : Nat) :
    Option Outcome :=
  let pathname := (fs1.get new_node).pathname.getD []
  let name_ptr := (fs1.get new_node).name_ptr
  let t := (fs1.get new_node).type
  if name_ptr = 0 then some (Outcome.done (fs1.linkChild new_node fs1.root_node t))
  else
    let parent_name := pathname.take (name_ptr - 1)
    if env.PATH_MAX < parent_name.length + 1 then none
    else
      match fs1.find (some parent_name) with
      | some parent_node => some (Outcome.done (fs1.linkChild new_node parent_node t))
      | none =>
        let a := fs1.alloc (FileNode.new env (some parent_name) none NodeType.DIR_NODE)
        match FileSystem.appendAux env fuel a.2 a.1 with
        | some (Outcome.done fs2) => some (Outcome.done (fs2.linkChild new_node a.1 t))
        | some (Outcome.AlreadyExists e fs2) => some (Outcome.AlreadyExists e fs2)
        | none => none

/-- The part of `take` that runs with `fmap_mux` held: the call of
`file_map.erase`. -/
def FileSystem.takeLocked (fs : FileSystem) (node : Nat) : FileSystem × Nat :=
  let r := fs.file_map.erase ((fs.get node).pathname.getD [])
  ({ fs with file_map := r.1 }, r.2)

/-- The part of `take` after the unlock, with the result `ret` of `erase`. -/
def FileSystem.takeUnlocked (fs1 : FileSystem) (node : Nat) (ret : Nat) : Bool × FileSystem :=
  if ret = 0 then (false, fs1)
  else
    match (fs1.get node).parent with
    | none => (false, fs1)
    | some parent =>
      if node ∈ (fs1.get parent).children then
        (true, fs1.modify parent (fun p => { p with children := p.children.erase node }))
      else (false, fs1)

/-- The empty writable tree with a node constructed for the path `f`, not yet
appended; the node has the address 1. -/
def looseFile : FileSystem :=
  (emptyTree.alloc (FileNode.new sampleEnv (some "f".toList) none NodeType.FILE_NODE)).2

/-- An entry name whose directory part has 4096 characters: 4096 times `d`,
a slash, and the name `f`. -/
def deepPath : Path := List.replicate 4096 'd' ++ "/f".toList

/-- The empty writable tree with a node constructed for the archive entry
`deepPath`, not yet appended; the node has the address 1. -/
def deepNode : FileSystem :=
  (emptyTree.alloc (FileNode.new sampleEnv (some deepPath) none NodeType.FILE_NODE)).2

/-- The tree after `mkdir("a")` and `mkdir("a/a")` on the empty writable tree. -/
def twoDirs : FileSystem :=
  (oneDir.mkdir sampleEnv "a/a".toList 0o755).elim oneDir Prod.snd

/-- The tree after `mkdir("a")`, `mkdir("a/a")` and `mknod("a/a/a")` on the
empty writable tree; the addresses of the three nodes are 1, 2 and 3. -/
def sameNames : FileSystem :=
  (twoDirs.mknod sampleEnv "a/a/a".toList 0o644).elim twoDirs Prod.snd

/-- The order of the tree that every returning call keeps. A mapped node is
allocated, carries its key as `pathname` with `name_ptr` at the name, and its
key is a good path; its `parent` lists it (waived for the nodes `Wm`, which
are mapped but not linked yet); a listed node is allocated and has the lister
as `parent`; no list has a node twice; only a directory (or the root) has
children; and the path of a listed node is longer than the path of its lister
(waived for the nodes `Wc`, whose lister has a new path already). -/
structure Tidy (Wm Wc : Nat → Prop) (fs : FileSystem) : Prop where
  rootLive : (fs.nodes fs.root_node).isSome
  rootTop : (fs.get fs.root_node).parent = none
  rootKind : (fs.get fs.root_node).type ≠ NodeType.FILE_NODE
  fresh : ∀ i, fs.next ≤ i → fs.nodes i = none
  mapped : ∀ k n, fs.file_map.find k = some n →
    (fs.nodes n).isSome ∧ (fs.get n).pathname = some k ∧
    (fs.get n).name_ptr = nameStart k ∧ GoodPath k
  linked : ∀ k n, fs.file_map.find k = some n → ¬ Wm n →
    ∃ pn, (fs.get n).parent = some pn ∧ n ∈ (fs.get pn).children
  listed : ∀ i c, c ∈ (fs.get i).children → (fs.nodes c).isSome ∧ (fs.get c).parent = some i
  nodup : ∀ i, (fs.get i).children.Nodup
  kinds : ∀ i, i ≠ fs.root_node →
    (fs.get i).type = NodeType.DIR_NODE ∨ (fs.get i).children = []
  longer : ∀ i c, c ∈ (fs.get i).children → i ≠ fs.root_node → ¬ Wc c →
    ∃ ki kc, (fs.get i).pathname = some ki ∧ (fs.get c).pathname = some kc ∧
      ki.length < kc.length

/-- No node is waived. -/
def noneOf : Nat → Prop := fun _ => False

/-- What `take` and `remove` may do to the tree: entries leave the map, nodes
leave `children` lists, nodes are deleted; nothing else of a record changes. -/
structure FileSystem.Shrinks (fs fs1 : FileSystem) : Prop where
  map : ∀ k v, fs1.file_map.find k = some v → fs.file_map.find k = some v
  kids : ∀ i, ((fs1.get i).children).Sublist (fs.get i).children
  recs : ∀ i r1, fs1.nodes i = some r1 →
    ∃ r, fs.nodes i = some r ∧ r1 = { r with children := r1.children }
  next : fs1.next = fs.next
  root : fs1.root_node = fs.root_node
  ws : fs1.write_support = fs.write_support

/-- What `repath` leaves of every record: the node is allocated as before, with
the same `children`, `type` and `parent`. -/
structure FileSystem.SameShape (fs fs1 : FileSystem) : Prop where
  live : ∀ i, fs1.nodes i = none ↔ fs.nodes i = none
  kids : ∀ i, (fs1.get i).children = (fs.get i).children
  type : ∀ i, (fs1.get i).type = (fs.get i).type
  parent : ∀ i, (fs1.get i).parent = (fs.get i).parent
  next : fs1.next = fs.next
  root : fs1.root_node = fs.root_node

/-- The node `b` is `a` or is reached from `a` through `children` lists. -/
inductive FileSystem.Reaches (fs : FileSystem) : Nat → Nat → Prop
  | here (a : Nat) : FileSystem.Reaches fs a a
  | down {a b c : Nat} : FileSystem.Reaches fs a b → c ∈ (fs.get b).children →
      FileSystem.Reaches fs a c

/-- `FileSystem::rename` as a relation between the tree, the arguments, the
result and the tree afterwards, for the calls that return: the statements of
`rename` in their order, with any number of turns granted to the walks of
`remove` and `repath`. -/
def FileSystem.Renames (env : Env) (fs : FileSystem) (node : Nat) (new_pathname : Path)
    (e : Nat) (fs1 : FileSystem) : Prop :=
  (fs.write_support = false ∧ e = ENOTSUP ∧ fs1 = fs) ∨
  (fs.write_support ≠ false ∧ (fs.take node).1 = false ∧ e = ENOENT ∧
    fs1 = (fs.take node).2) ∨
  (fs.write_support ≠ false ∧ (fs.take node).1 ≠ false ∧ e = 0 ∧
    ∃ f1 f3 f4 : FileSystem,
      (((fs.take node).2.file_map.find new_pathname = none ∧ f1 = (fs.take node).2) ∨
        ∃ existing fuel r, (fs.take node).2.file_map.find new_pathname = some existing ∧
          FileSystem.removeAux fuel (fs.take node).2 existing = some r ∧ f1 = r.2) ∧
      (f1.modify node (fun n => n.setPathname new_pathname)).append env node =
        some (Outcome.done f3) ∧
      (((f3.get node).type ≠ NodeType.DIR_NODE ∧ f4 = f3) ∨
        ((f3.get node).type = NodeType.DIR_NODE ∧
          ∃ fuel, FileSystem.repathList env fuel f3 (f3.get node).children new_pathname =
            some f4)) ∧
      fs1 = { f4 with changed := true })

/-- The trees reached from an empty `FileSystem` by calls that return of
`mknod`, `create`, `mkdir`, `append` of a newly constructed node, `take` of a
mapped node, `rename` of a mapped node and `remove` of a mapped node, where
every path given is not empty, does not start with a slash and has no node
other than a directory mapped above it. The walks of `remove` and `repath` are
granted any number of turns, so every call of `FileSystem.remove` and of
`FileSystem.rename` that returns is among these calls. -/
inductive FileSystem.Grown : FileSystem → Prop
  | empty (env : Env) (ws : Bool) (driver : ArchiveDriver) :
      FileSystem.Grown (FileSystem.empty env ws driver)
  | mknod (env : Env) (fs : FileSystem) (path : Path) (mode e : Nat) (fs1 : FileSystem) :
      FileSystem.Grown fs → GoodPath path → DirsAbove fs path →
      fs.mknod env path mode = some (e, fs1) → FileSystem.Grown fs1
  | create (env : Env) (fs : FileSystem) (path : Path) (mode e : Nat) (fs1 : FileSystem)
      (r : Option Nat) :
      FileSystem.Grown fs → GoodPath path → DirsAbove fs path →
      fs.create env path mode = some (e, fs1, r) → FileSystem.Grown fs1
  | mkdir (env : Env) (fs : FileSystem) (path : Path) (mode e : Nat) (fs1 : FileSystem) :
      FileSystem.Grown fs → GoodPath path → DirsAbove fs path →
      fs.mkdir env path mode = some (e, fs1) → FileSystem.Grown fs1
  | append (env : Env) (fs : FileSystem) (path : Path) (data : Option Nat) (type : NodeType)
      (out : Outcome) :
      FileSystem.Grown fs → GoodPath path → DirsAbove fs path →
      (fs.alloc (FileNode.new env (some path) data type)).2.append env
        (fs.alloc (FileNode.new env (some path) data type)).1 = some out →
      FileSystem.Grown out.tree
  | take (fs : FileSystem) (k : Path) (node : Nat) :
      FileSystem.Grown fs → fs.file_map.find k = some node →
      FileSystem.Grown (fs.take node).2
  | rename (env : Env) (fs : FileSystem) (q : Path) (node : Nat) (p : Path) (e : Nat)
      (fs1 : FileSystem) :
      FileSystem.Grown fs → fs.file_map.find q = some node → GoodPath p → DirsAbove fs p →
      fs.Renames env node p e fs1 → FileSystem.Grown fs1
  | remove (fs : FileSystem) (k : Path) (node fuel e : Nat) (fs1 : FileSystem) :
      FileSystem.Grown fs → fs.file_map.find k = some node →
      FileSystem.removeAux fuel fs node = some (e, fs1) → FileSystem.Grown fs1

/-- What a call of `append` that returns normally leaves, for the node `x` with
path `p` handed to it: the order of the tree, the node mapped at `p`, the old
entries, nodes and `children` still there, new members of a list being `x` or
newly allocated, the record of `x` changed in `parent` only, the records of
the nodes not mapped above `p` unchanged. -/
structure Appended (Wm Wc : Nat → Prop) (fs : FileSystem) (x : Nat) (p : Path)
    (fs1 : FileSystem) : Prop where
  tidy : Tidy Wm Wc fs1
  here : fs1.file_map.find p = some x
  kept : ∀ k v, fs.file_map.find k = some v → fs1.file_map.find k = some v
  live : ∀ i, (fs.nodes i).isSome → (fs1.nodes i).isSome
  kids : ∀ i c, c ∈ (fs1.get i).children → c = x ∨ c ∈ (fs.get i).children ∨ fs.next ≤ c
  more : ∀ i c, c ∈ (fs.get i).children → c ∈ (fs1.get i).children
  self : ∃ pn, fs1.nodes x = some { fs.get x with parent := some pn }
  recs : ∀ y, y ≠ x → y ≠ fs.root_node → (fs.nodes y).isSome →
    (∀ k, below k p → fs.file_map.find k ≠ some y) → fs1.nodes y = fs.nodes y
  root : fs1.root_node = fs.root_node
  next : fs.next ≤ fs1.next

/-- What a call of `remove` on the node `x` that returns leaves: the tree has
shrunk, the entries with a key shorter than the path of `x` are still there,
and either the tree is in order and a record of a node not reached from `x`
has changed at most by `x` leaving its `children`, or `x` has been deleted
while a list still has it, no other record has changed and `x` was not
mapped. -/
structure FileSystem.Pruned (fs : FileSystem) (x : Nat) (fs1 : FileSystem) : Prop where
  shrinks : fs.Shrinks fs1
  keys : ∀ k v, fs.file_map.find k = some v →
    k.length < ((fs.get x).pathname.getD []).length → fs1.file_map.find k = some v
  ends : (Tidy noneOf noneOf fs1 ∧ ∀ j, ¬ fs.Reaches x j →
      fs1.nodes j = fs.nodes j ∨
      fs1.nodes j = (fs.nodes j).map (fun r => { r with children := r.children.erase x })) ∨
    (fs1.nodes x = none ∧ (∀ j, ¬ fs.Reaches x j → fs1.nodes j = fs.nodes j) ∧
      ∀ k, fs.file_map.find k ≠ some x)

/-- What the loop of `remove` over the children of the node `i` leaves when it
ends: the tree has shrunk and is in order, `i` has no children, the entries
with a key not longer than the path of `i` are still there, and the records of
the nodes not reached from `i` are unchanged. -/
structure FileSystem.Hollowed (fs : FileSystem) (i : Nat) (fs1 : FileSystem) : Prop where
  shrinks : fs.Shrinks fs1
  tidy : Tidy noneOf noneOf fs1
  none_left : (fs1.get i).children = []
  keys : ∀ k v, fs.file_map.find k = some v →
    k.length ≤ ((fs.get i).pathname.getD []).length → fs1.file_map.find k = some v
  recs : ∀ j, ¬ fs.Reaches i j → fs1.nodes j = fs.nodes j

/-- The tree after `mknod("/a")` on the empty writable tree. -/
def slashFile : FileSystem :=
  (emptyTree.mknod sampleEnv "/a".toList 0o644).elim emptyTree Prod.snd

/-- The tree after `mknod("f")`, `take` of the node, a second `mknod("f")`, a
second `take` through the pointer to the first node, and `append` of the
second node: the addresses of the two nodes are 1 and 2. -/
def twiceListed : FileSystem :=
  let s1 := (emptyTree.mknod sampleEnv "f".toList 0o644).elim emptyTree Prod.snd
  let s2 := (s1.take 1).2
  let s3 := (s2.mknod sampleEnv "f".toList 0o644).elim s2 Prod.snd
  let s4 := (s3.take 1).2
  ((s4.append sampleEnv 2).map Outcome.tree).getD s4

/-- The tree after `mkdir("a")`, `mknod("a/b")` and `rename` of the directory to
the empty path. -/
def emptyName : FileSystem :=
  (dirWithFile.rename sampleEnv 1 []).elim dirWithFile Prod.snd

/-- The tree after `mkdir("a")`, `mkdir("a/a")`, `mknod("a/a/a")` and then
`rename` of the node of `a/a` to `a`, the path of its own parent: the node of
the old `a` is removed, the node of `a/a` is mapped at `a` and its child at
`a/a`. -/
def renamedOnto : FileSystem :=
  (sameNames.rename sampleEnv 2 "a".toList).elim sameNames Prod.snd

/-- The tree `renamedOnto` after `take` of the directory now mapped at `a`,
which has a child: the child stays mapped at `a/a`. -/
def takenDir : FileSystem := (renamedOnto.take 2).2

/-! ## Paths -/

theorem scanBack_le (s : Path) (pos : Nat) : scanBack s pos ≤ pos := by
  induction pos with
  | zero => simp [scanBack]
  | succ n ih =>
    unfold scanBack
    split
    · exact le_refl _
    · exact Nat.le_succ_of_le ih

theorem scanBack_slash (s : Path) (pos : Nat) (h : scanBack s pos ≠ 0) :
    s.getD (scanBack s pos) (Char.ofNat 0) = '/' := by
  induction pos with
  | zero => simp [scanBack] at h
  | succ n ih =>
    unfold scanBack at h ⊢
    split
    · assumption
    · rename_i hne
      simp only [hne, if_false] at h
      exact ih h

theorem scanBack_after (s : Path) (pos i : Nat) (h1 : scanBack s pos < i) (h2 : i ≤ pos) :
    s.getD i (Char.ofNat 0) ≠ '/' := by
  induction pos with
  | zero => omega
  | succ n ih =>
    unfold scanBack at h1
    split at h1
    · omega
    · rename_i hne
      by_cases hi : i = n + 1
      · subst hi; exact hne
      · exact ih h1 (by omega)



theorem getD_append_slash (P nm : Path) (i : Nat) :
    (P ++ '/' :: nm).getD i (Char.ofNat 0) =
      if i < P.length then P.getD i (Char.ofNat 0)
      else if i = P.length then '/' else nm.getD (i - P.length - 1) (Char.ofNat 0) := by
  induction P generalizing i with
  | nil =>
    cases i with
    | zero => simp
    | succ j => simp
  | cons a P ih =>
    cases i with
    | zero => simp
    | succ j =>
      simp only [List.cons_append, List.getD_cons_succ, List.length_cons, Nat.add_lt_add_iff_right,
        Nat.add_right_cancel_iff]
      rw [ih j]
      have : j + 1 - (P.length + 1) - 1 = j - P.length - 1 := by omega
      rw [this]

theorem getD_ne_slash_of_not_mem (nm : Path) (i : Nat) (h : '/' ∉ nm) :
    nm.getD i (Char.ofNat 0) ≠ '/' := by
  induction nm generalizing i with
  | nil => simp
  | cons a nm ih =>
    cases i with
    | zero =>
      simp only [List.getD_cons_zero]
      intro h2
      exact h (by simp [h2])
    | succ j =>
      simp only [List.getD_cons_succ]
      exact ih j (fun hm => h (List.mem_cons_of_mem _ hm))

/-- The name starts right after the last slash when something precedes that slash. -/
theorem nameStart_append_slash (P nm : Path) (hP : P ≠ []) (hnm : '/' ∉ nm) :
    nameStart (P ++ '/' :: nm) = P.length + 1 := by
  have hlen : (P ++ '/' :: nm).length = P.length + 1 + nm.length := by simp; omega
  have hPpos : 0 < P.length := List.length_pos.mpr hP
  have hr : scanBack (P ++ '/' :: nm) (P ++ '/' :: nm).length = P.length := by
    by_contra hne
    rcases Nat.lt_or_gt_of_ne hne with hlt | hgt
    · have := scanBack_after (P ++ '/' :: nm) (P ++ '/' :: nm).length P.length hlt (by omega)
      rw [getD_append_slash] at this
      simp at this
    · have h0 : scanBack (P ++ '/' :: nm) (P ++ '/' :: nm).length ≠ 0 := by omega
      have := scanBack_slash _ _ h0
      rw [getD_append_slash] at this
      have h1 : ¬ scanBack (P ++ '/' :: nm) (P ++ '/' :: nm).length < P.length := by omega
      have h2 : ¬ scanBack (P ++ '/' :: nm) (P ++ '/' :: nm).length = P.length := by omega
      simp only [h1, h2, if_false] at this
      exact getD_ne_slash_of_not_mem nm _ hnm this
  unfold nameStart
  simp only [hr]
  have : P.length ≠ 0 := by omega
  simp [this]

theorem getD_eq_getElem_of_ne_nul (s : Path) (i : Nat) (h : s.getD i (Char.ofNat 0) = '/') :
    i < s.length := by
  by_contra hge
  rw [List.getD_eq_default _ _ (by omega)] at h
  revert h
  decide

/-- A path whose name does not start at offset 0 splits at the slash in front
of the name. -/
theorem path_split (s : Path) (h : nameStart s ≠ 0) :
    s = parentPath s ++ '/' :: s.drop (nameStart s) ∧ parentPath s ≠ [] ∧
      '/' ∉ s.drop (nameStart s) ∧ (parentPath s).length = nameStart s - 1 ∧
      nameStart s ≤ s.length := by
  have h0 : scanBack s s.length ≠ 0 := by
    intro h0
    simp [nameStart, h0] at h
  have hns : nameStart s = scanBack s s.length + 1 := by simp [nameStart, h0]
  have hsl := scanBack_slash s s.length h0
  have hlt := getD_eq_getElem_of_ne_nul s _ hsl
  have hget : s[scanBack s s.length] = '/' := by
    rw [List.getD_eq_getElem _ _ hlt] at hsl
    exact hsl
  have hpp : parentPath s = s.take (scanBack s s.length) := by simp [parentPath, hns]
  have hlenpp : (parentPath s).length = scanBack s s.length := by
    rw [hpp, List.length_take]; omega
  refine ⟨?_, ?_, ?_, ?_, ?_⟩
  · rw [hpp, hns]
    conv_lhs => rw [← List.take_append_drop (scanBack s s.length) s]
    congr 1
    rw [List.drop_eq_getElem_cons hlt, hget]
  · intro hnil
    rw [hnil] at hlenpp
    simp at hlenpp
    exact h0 hlenpp.symm
  · intro hmem
    rw [List.mem_iff_getElem] at hmem
    obtain ⟨i, hi, hgi⟩ := hmem
    rw [List.getElem_drop] at hgi
    simp only [List.length_drop] at hi
    have := scanBack_after s s.length (nameStart s + i) (by omega) (by omega)
    rw [List.getD_eq_getElem _ _ (by omega)] at this
    exact this hgi
  · omega
  · omega

/-- A good path whose name starts at offset 0 contains no slash. -/
theorem no_slash_of_nameStart_zero (s : Path) (hg : GoodPath s) (h : nameStart s = 0) :
    '/' ∉ s := by
  have h0 : scanBack s s.length = 0 := by
    by_contra hne
    simp [nameStart, hne] at h
  intro hmem
  rw [List.mem_iff_getElem] at hmem
  obtain ⟨i, hi, hgi⟩ := hmem
  cases i with
  | zero =>
    apply hg.2
    cases s with
    | nil => simp at hi
    | cons a t => simp at hgi; simp [hgi]
  | succ j =>
    have := scanBack_after s s.length (j + 1) (by omega) (by omega)
    rw [List.getD_eq_getElem _ _ hi] at this
    exact this hgi



theorem below_iff (q k : Path) : below q k ↔ ∃ rest, k = q ++ '/' :: rest := by
  unfold below
  constructor
  · rintro ⟨t, ht⟩
    exact ⟨t, by simp [← ht]⟩
  · rintro ⟨t, ht⟩
    exact ⟨t, by simp [ht]⟩

theorem below_length (q k : Path) (h : below q k) : q.length < k.length := by
  obtain ⟨t, rfl⟩ := (below_iff q k).mp h
  simp

theorem not_below_self (q : Path) : ¬ below q q := fun h => by
  have := below_length q q h
  omega

theorem below_trans {a b c : Path} (h1 : below a b) (h2 : below b c) : below a c := by
  unfold below at *
  exact h1.trans ((List.prefix_append b ['/']).trans h2)

theorem under_trans_below {a b c : Path} (h1 : under a b) (h2 : below b c) : below a c := by
  rcases h1 with rfl | h1
  · exact h2
  · exact below_trans h1 h2

theorem below_ne_nil (q k : Path) (h : below q k) (hg : GoodPath k) : q ≠ [] := by
  rintro rfl
  obtain ⟨t, rfl⟩ := (below_iff _ _).mp h
  exact hg.2 (by simp)

/-- A good path below `q` has a parent path, which is `q` or lies below `q`. -/
theorem below_parent (q k : Path) (h : below q k) (hg : GoodPath k) :
    nameStart k ≠ 0 ∧ (parentPath k = q ∨ below q (parentPath k)) := by
  obtain ⟨rest, hk⟩ := (below_iff q k).mp h
  have hq : q ≠ [] := below_ne_nil q k h hg
  have hns : nameStart k ≠ 0 := by
    intro h0
    have := no_slash_of_nameStart_zero k hg h0
    exact this (by rw [hk]; simp)
  refine ⟨hns, ?_⟩
  obtain ⟨hsplit, -, hnm, hlen, -⟩ := path_split k hns
  have hle : q.length ≤ (parentPath k).length := by
    by_contra hlt
    have hlt : (parentPath k).length < q.length := by omega
    have h1 : k.getD q.length (Char.ofNat 0) = '/' := by
      rw [hk, getD_append_slash]; simp
    rw [hsplit, getD_append_slash] at h1
    have a1 : ¬ q.length < (parentPath k).length := by omega
    have a2 : ¬ q.length = (parentPath k).length := by omega
    simp only [a1, a2, if_false] at h1
    exact getD_ne_slash_of_not_mem _ _ hnm h1
  have hpq : q <+: k := ⟨'/' :: rest, hk.symm⟩
  have hpp : parentPath k <+: k := ⟨'/' :: k.drop (nameStart k), hsplit.symm⟩
  rcases Nat.eq_or_lt_of_le hle with heq | hlt
  · left
    have := List.prefix_of_prefix_length_le hpq hpp hle
    exact (List.IsPrefix.eq_of_length this heq).symm
  · right
    unfold below
    exact List.prefix_of_prefix_length_le h hpp (by simp; omega)

theorem below_of_parent_below (q k : Path) (h : below q (parentPath k)) : below q k := by
  unfold below at *
  exact h.trans (List.take_prefix _ _)

theorem below_of_parent_eq (k : Path) (h : nameStart k ≠ 0) : below (parentPath k) k := by
  obtain ⟨hsplit, -⟩ := path_split k h
  exact (below_iff _ _).mpr ⟨_, hsplit⟩

/-- Two paths with a common path below or at them are related. -/
theorem under_comparable (p q k : Path) (hp : under p k) (hq : under q k) :
    under p q ∨ under q p := by
  rcases hp with rfl | hp
  · exact Or.inr hq
  rcases hq with rfl | hq
  · exact Or.inl (Or.inr hp)
  unfold below at hp hq
  rcases Nat.lt_trichotomy p.length q.length with hlt | heq | hgt
  · left; right
    have hq' : q <+: k := (List.prefix_append q ['/']).trans hq
    exact List.prefix_of_prefix_length_le hp hq' (by simp; omega)
  · left; left
    have h1 := List.prefix_of_prefix_length_le hp hq (by simp; omega)
    have h2 := List.IsPrefix.eq_of_length h1 (by simp; omega)
    exact (List.append_cancel_right h2).symm
  · right; right
    have hp' : p <+: k := (List.prefix_append p ['/']).trans hp
    exact List.prefix_of_prefix_length_le hq hp' (by simp; omega)

theorem goodPath_parent (k : Path) (hg : GoodPath k) (h : nameStart k ≠ 0) :
    GoodPath (parentPath k) := by
  obtain ⟨hsplit, hne, -⟩ := path_split k h
  refine ⟨hne, ?_⟩
  intro hh
  apply hg.2
  rw [hsplit]
  cases hpp : parentPath k with
  | nil => exact absurd hpp hne
  | cons a t => rw [hpp] at hh; simpa using hh

theorem goodPath_child (P nm : Path) (hg : GoodPath P) : GoodPath (P ++ '/' :: nm) := by
  refine ⟨by simp, ?_⟩
  cases P with
  | nil => exact absurd rfl hg.1
  | cons a t => simpa using hg.2

theorem parentPath_append_slash (P nm : Path) (hP : P ≠ []) (hnm : '/' ∉ nm) :
    parentPath (P ++ '/' :: nm) = P := by
  simp [parentPath, nameStart_append_slash P nm hP hnm]

theorem drop_nameStart_append_slash (P nm : Path) (hP : P ≠ []) (hnm : '/' ∉ nm) :
    (P ++ '/' :: nm).drop (nameStart (P ++ '/' :: nm)) = nm := by
  rw [nameStart_append_slash P nm hP hnm]
  simp [List.drop_append_eq_append_drop]

theorem parentPath_length_lt (k : Path) (h : nameStart k ≠ 0) :
    (parentPath k).length < k.length := by
  obtain ⟨-, -, -, hlen, hle⟩ := path_split k h
  omega

theorem nameStart_le_succ (s : Path) : nameStart s ≤ s.length + 1 := by
  unfold nameStart
  have := scanBack_le s s.length
  dsimp only
  split_ifs <;> omega

theorem parentPath_length_le (k : Path) : (parentPath k).length ≤ nameStart k - 1 := by
  unfold parentPath
  exact List.length_take_le _ _

/-- The text before the last slash fits an array of `B` characters when the
name starts at an offset of `B` at most, and so does the same text of every
path above. -/
theorem parent_fits {B : Nat} (p : Path) (h0 : nameStart p ≠ 0) (h : nameStart p ≤ B) :
    ¬ B < (parentPath p).length + 1 ∧ nameStart (parentPath p) ≤ B := by
  have h1 := parentPath_length_le p
  have h2 := nameStart_le_succ (parentPath p)
  constructor <;> omega

/-! ## The node map -/

theorem FileMap.find_insertSorted (m : FileMap) (key k : Path) (v : Nat)
    (h : m.find key = none) :
    (FileMap.insertSorted key v m).find k = if k = key then some v else m.find k := by
  induction m with
  | nil =>
    by_cases hk : k = key
    · simp [FileMap.insertSorted, FileMap.find, hk]
    · simp [FileMap.insertSorted, FileMap.find, hk, Ne.symm hk]
  | cons e rest ih =>
    obtain ⟨k', w⟩ := e
    have hne : k' ≠ key := by
      intro heq
      simp [FileMap.find, heq] at h
    have hrest : FileMap.find rest key = none := by
      simpa [FileMap.find, hne] using h
    unfold FileMap.insertSorted
    split
    · by_cases hk : k = key
      · simp [FileMap.find, hk]
      · simp [FileMap.find, hk, Ne.symm hk]
    · by_cases hk : k = key
      · subst hk
        simp only [FileMap.find, hne, if_false]
        rw [ih hrest]; simp
      · by_cases hk' : k' = k
        · simp [FileMap.find, hk', hk]
        · simp only [FileMap.find, hk', if_false]
          rw [ih hrest]

theorem FileMap.find_filter (m : FileMap) (P : Path → Bool) (k : Path) :
    FileMap.find (m.filter (fun e => P e.1)) k = if P k then m.find k else none := by
  induction m with
  | nil => simp [FileMap.find]
  | cons e rest ih =>
    obtain ⟨k', w⟩ := e
    by_cases hP : P k' = true
    · simp only [List.filter_cons, hP, if_true]
      by_cases hk : k' = k
      · subst hk; simp [FileMap.find, hP]
      · simp only [FileMap.find, hk, if_false]; exact ih
    · simp only [List.filter_cons, hP]
      by_cases hk : k' = k
      · subst hk
        simp only [Bool.false_eq_true, if_false, FileMap.find, if_true]
        rw [ih]; simp [hP]
      · simp only [Bool.false_eq_true, if_false, FileMap.find, hk]; exact ih

theorem FileMap.find_erase (m : FileMap) (key k : Path) :
    (m.erase key).1.find k = if k = key then none else m.find k := by
  unfold FileMap.erase
  simp only
  have := FileMap.find_filter m (fun x => decide (x ≠ key)) k
  simp only [decide_eq_true_eq] at this
  rw [this]
  by_cases hk : k = key <;> simp [hk]

theorem FileMap.erase_count (m : FileMap) (key : Path) :
    (m.erase key).2 = if (m.find key).isSome then 1 else 0 := rfl

theorem FileMap.find_assign (m : FileMap) (key k : Path) (v : Nat) :
    (m.assign key v).find k = if k = key then some v else m.find k := by
  induction m with
  | nil =>
    by_cases hk : k = key
    · simp [FileMap.assign, FileMap.find, hk]
    · simp [FileMap.assign, FileMap.find, hk, Ne.symm hk]
  | cons e rest ih =>
    obtain ⟨k', w⟩ := e
    unfold FileMap.assign
    by_cases h1 : k' = key
    · subst h1
      simp only [if_true]
      by_cases hk : k = k'
      · simp [FileMap.find, hk]
      · simp [FileMap.find, hk, Ne.symm hk]
    · simp only [h1, if_false]
      split
      · by_cases hk : k = key
        · simp [FileMap.find, hk]
        · simp [FileMap.find, hk, Ne.symm hk]
      · by_cases hk : k = key
        · subst hk
          simp only [FileMap.find, h1, if_false]
          rw [ih]; simp
        · by_cases hk' : k' = k
          · simp [FileMap.find, hk', hk]
          · simp only [FileMap.find, hk', if_false]
            rw [ih]

theorem FileMap.find_insert_none (m : FileMap) (key : Path) (v : Nat) (h : m.find key = none) :
    m.insert key v = (FileMap.insertSorted key v m, none) := by
  simp [FileMap.insert, h]

theorem FileMap.find_insert_some (m : FileMap) (key : Path) (v e : Nat) (h : m.find key = some e) :
    m.insert key v = (m, some e) := by
  simp [FileMap.insert, h]

theorem FileMap.mem_of_find (m : FileMap) (k : Path) (v : Nat) (h : m.find k = some v) :
    (k, v) ∈ m := by
  induction m with
  | nil => simp [FileMap.find] at h
  | cons e rest ih =>
    obtain ⟨k', w⟩ := e
    by_cases hk : k' = k
    · simp [FileMap.find, hk] at h
      simp [hk, h]
    · simp only [FileMap.find, hk, if_false] at h
      exact List.mem_cons_of_mem _ (ih h)

/-! ## The store -/

@[simp] theorem FileSystem.modify_file_map (fs : FileSystem) (a : Nat) (f : FileNode → FileNode) :
    (fs.modify a f).file_map = fs.file_map := rfl
@[simp] theorem FileSystem.modify_next (fs : FileSystem) (a : Nat) (f : FileNode → FileNode) :
    (fs.modify a f).next = fs.next := rfl
@[simp] theorem FileSystem.modify_removed (fs : FileSystem) (a : Nat) (f : FileNode → FileNode) :
    (fs.modify a f).removed_nodes = fs.removed_nodes := rfl
@[simp] theorem FileSystem.modify_root (fs : FileSystem) (a : Nat) (f : FileNode → FileNode) :
    (fs.modify a f).root_node = fs.root_node := rfl
@[simp] theorem FileSystem.modify_changed (fs : FileSystem) (a : Nat) (f : FileNode → FileNode) :
    (fs.modify a f).changed = fs.changed := rfl
@[simp] theorem FileSystem.modify_ws (fs : FileSystem) (a : Nat) (f : FileNode → FileNode) :
    (fs.modify a f).write_support = fs.write_support := rfl
@[simp] theorem FileSystem.modify_driver (fs : FileSystem) (a : Nat) (f : FileNode → FileNode) :
    (fs.modify a f).driver = fs.driver := rfl

theorem FileSystem.modify_nodes (fs : FileSystem) (a i : Nat) (f : FileNode → FileNode) :
    (fs.modify a f).nodes i = if i = a then (fs.nodes i).map f else fs.nodes i := rfl

theorem FileSystem.get_congr {fs fs' : FileSystem} {i : Nat} (h : fs'.nodes i = fs.nodes i) :
    fs'.get i = fs.get i := by
  simp [FileSystem.get, h]

theorem FileSystem.get_of_some {fs : FileSystem} {i : Nat} {n : FileNode}
    (h : fs.nodes i = some n) : fs.get i = n := by
  simp [FileSystem.get, h]

theorem FileSystem.nodes_of_live {fs : FileSystem} {i : Nat} (h : (fs.nodes i).isSome) :
    fs.nodes i = some (fs.get i) := by
  cases hn : fs.nodes i with
  | none => simp [hn] at h
  | some n => simp [FileSystem.get, hn]

theorem FileSystem.live_of_child {fs : FileSystem} {i c : Nat} (h : c ∈ (fs.get i).children) :
    (fs.nodes i).isSome := by
  cases hn : fs.nodes i with
  | none => simp [FileSystem.get, hn] at h
  | some n => simp

theorem FileSystem.live_of_path {fs : FileSystem} {i : Nat} {k : Path}
    (h : (fs.get i).pathname = some k) : (fs.nodes i).isSome := by
  cases hn : fs.nodes i with
  | none => simp [FileSystem.get, hn] at h
  | some n => simp

/-! ## `take` -/

theorem FileSystem.take_spec (fs : FileSystem) (n pn : Nat) (q : Path)
    (hpath : (fs.get n).pathname = some q) (hfind : (fs.file_map.find q).isSome)
    (hpar : (fs.get n).parent = some pn) (hmem : n ∈ (fs.get pn).children) :
    fs.take n = (true, ({ fs with file_map := (fs.file_map.erase q).1 }).modify pn
      (fun p => { p with children := p.children.erase n })) := by
  unfold FileSystem.take
  simp only [hpath, Option.getD_some, FileMap.erase_count, hfind, if_true, hpar]
  have hg : ({ fs with file_map := (fs.file_map.erase q).1 } : FileSystem).get pn = fs.get pn := rfl
  simp [hg, hmem]

/-! ## Regions -/

theorem key_unique {fs : FileSystem} {k k' : Path} {i : Nat}
    (h1 : (fs.get i).pathname = some k) (h2 : (fs.get i).pathname = some k') : k = k' := by
  rw [h1] at h2
  exact Option.some.inj h2

theorem RegionOK.sub {fs : FileSystem} {q kc : Path} (h : RegionOK fs q) (hk : under q kc) :
    RegionOK fs kc := by
  intro k id hu hf
  apply h k id _ hf
  rcases hu with rfl | hb
  · exact hk
  · exact Or.inr (under_trans_below hk hb)

/-- Every entry below `q` in a region that is in order sits at or below a
child of the node at `q`. -/
theorem exists_child_key {fs : FileSystem} {q : Path} (h : RegionOK fs q) :
    ∀ (m : Nat) (k : Path) (id : Nat), k.length ≤ m → below q k → fs.file_map.find k = some id →
      ∃ kc c, fs.file_map.find kc = some c ∧ nameStart kc ≠ 0 ∧ parentPath kc = q ∧ under kc k := by
  intro m
  induction m with
  | zero =>
    intro k id hlen hb _
    have := below_length q k hb
    omega
  | succ m ih =>
    intro k id hlen hb hf
    obtain ⟨hn, hl⟩ := h k id (Or.inr hb) hf
    obtain ⟨hns, hpar⟩ := below_parent q k hb hn.good
    rcases hpar with heq | hbel
    · exact ⟨k, id, hf, hns, heq, Or.inl rfl⟩
    · obtain ⟨pn, hpf, -, -⟩ := hl.sub hns
      have hlt := parentPath_length_lt k hns
      obtain ⟨kc, c, h1, h2, h3, h4⟩ := ih (parentPath k) pn (by omega) hbel hpf
      refine ⟨kc, c, h1, h2, h3, Or.inr ?_⟩
      exact under_trans_below h4 (below_of_parent_eq k hns)

theorem no_below_of_no_children {fs : FileSystem} {q : Path} {n : Nat} (h : RegionOK fs q)
    (hf : fs.file_map.find q = some n) (hc : (fs.get n).children = []) :
    ∀ k id, below q k → fs.file_map.find k ≠ some id := by
  intro k id hb hfk
  obtain ⟨kc, c, h1, h2, h3, -⟩ := exists_child_key h k.length k id (le_refl _) hb hfk
  have hn := (h q n (Or.inl rfl) hf).1
  have : c ∈ (fs.get n).children := (hn.kids c).mpr ⟨kc, h1, h2, h3⟩
  rw [hc] at this
  simp at this

theorem FileMap.find_isSome_of_mem (m : FileMap) (k : Path) (v : Nat) (h : (k, v) ∈ m) :
    (m.find k).isSome := by
  induction m with
  | nil => simp at h
  | cons e rest ih =>
    obtain ⟨k', w⟩ := e
    by_cases hk : k' = k
    · simp [FileMap.find, hk]
    · simp only [FileMap.find, hk, if_false]
      apply ih
      simp only [List.mem_cons, Prod.mk.injEq] at h
      rcases h with ⟨h1, -⟩ | h
      · exact absurd h1.symm hk
      · exact h

theorem FileNode.children_nil_eta (p : FileNode) (h : p.children = []) :
    { p with children := [] } = p := by
  cases p
  simp only at h
  simp [h]

theorem emptied_of_no_children {fs : FileSystem} {q : Path} {n : Nat} (h : RegionOK fs q)
    (hf : fs.file_map.find q = some n) (hc : (fs.get n).children = []) : Emptied fs q n fs := by
  have hno := no_below_of_no_children h hf hc
  have hnoB : ∀ i, ¬ fs.inBelow q i := by
    rintro i ⟨k, hb, hk⟩
    exact hno k i hb hk
  refine ⟨?_, ?_, ?_, ?_, ?_, Or.inl rfl, rfl, rfl, rfl, rfl⟩
  · symm
    rw [List.filter_eq_self]
    intro e he
    obtain ⟨k, v⟩ := e
    simp only [Bool.not_eq_true', decide_eq_false_iff_not]
    intro hb
    have := FileMap.find_isSome_of_mem _ _ _ he
    obtain ⟨id, hid⟩ := Option.isSome_iff_exists.mp this
    exact hno k id hb hid
  · intro i hi
    exact absurd hi (hnoB i)
  · have hn := (h q n (Or.inl rfl) hf).1
    rw [FileSystem.nodes_of_live hn.live]
    simp [FileNode.children_nil_eta _ hc]
  · intro i _ _
    rfl
  · exact ⟨[], by simp, List.nodup_nil, fun i => by simpa using fun hi => absurd hi (hnoB i)⟩

/-! ## Weights -/

theorem filter_split_length {α : Type} (p a b : α → Bool) (l : List α)
    (h1 : ∀ e, p e = (a e || b e)) (h2 : ∀ e, a e = true → b e = true → False) :
    (l.filter p).length = (l.filter a).length + (l.filter b).length := by
  induction l with
  | nil => simp
  | cons e rest ih =>
    simp only [List.filter_cons, h1 e]
    cases ha : a e <;> cases hb : b e
    · simpa using ih
    · simp [ih]; omega
    · simp [ih]; omega
    · exact absurd hb (by intro hb'; exact h2 e ha hb')

theorem filter_cut_length {α : Type} (p r : α → Bool) (l : List α)
    (h : ∀ e, r e = true → p e = true) :
    ((l.filter (fun e => !r e)).filter p).length + (l.filter r).length = (l.filter p).length := by
  induction l with
  | nil => simp
  | cons e rest ih =>
    cases hr : r e
    · cases hp : p e
      · simp only [List.filter_cons, hr, hp, Bool.not_false, if_true, Bool.false_eq_true, if_false]
        exact ih
      · simp only [List.filter_cons, hr, hp, Bool.not_false, if_true, Bool.false_eq_true, if_false,
          List.length_cons]
        omega
    · have hp := h e hr
      simp only [List.filter_cons, hr, hp, Bool.not_true, if_true, Bool.false_eq_true, if_false,
        List.length_cons]
      omega

theorem below_of_below_under {q kc k : Path} (hb : below q kc) (hu : under kc k) : below q k := by
  rcases hu with rfl | hu
  · exact hb
  · exact below_trans hb hu

theorem weight_pos {fs : FileSystem} {q : Path} {n : Nat} (h : fs.file_map.find q = some n) :
    1 ≤ fs.weight q := by
  have hm := FileMap.mem_of_find _ _ _ h
  have : (q, n) ∈ fs.file_map.filter (fun e => decide (under q e.1)) := by
    rw [List.mem_filter]
    exact ⟨hm, by simp [under]⟩
  unfold FileSystem.weight
  exact List.length_pos_of_mem this

theorem weight_eq {fs : FileSystem} {q : Path} {n : Nat} (h : fs.file_map.find q = some n) :
    weightBelow fs q + 1 ≤ fs.weight q := by
  have hsplit := filter_split_length (fun e : Path × Nat => decide (under q e.1))
    (fun e => decide (below q e.1)) (fun e => decide (e.1 = q)) fs.file_map
    (by intro e; simp [under, Bool.or_comm])
    (by
      intro e ha hb
      simp only [decide_eq_true_eq] at ha hb
      rw [hb] at ha
      exact not_below_self q ha)
  have hm := FileMap.mem_of_find _ _ _ h
  have : (q, n) ∈ fs.file_map.filter (fun e => decide (e.1 = q)) := by
    rw [List.mem_filter]
    exact ⟨hm, by simp⟩
  have hpos := List.length_pos_of_mem this
  unfold FileSystem.weight weightBelow
  omega

theorem weight_child_le {fs : FileSystem} {q kc : Path} (hb : below q kc) :
    fs.weight kc ≤ weightBelow fs q := by
  unfold FileSystem.weight weightBelow
  apply List.Sublist.length_le
  apply List.monotone_filter_right
  intro e he
  simp only [decide_eq_true_eq] at he ⊢
  exact below_of_below_under hb he

/-! ## Cutting a region out of the tree -/

theorem Removed.find_eq {fs fs1 : FileSystem} {kc : Path} {c n : Nat} (h : Removed fs kc c n fs1)
    (k : Path) : fs1.file_map.find k = if under kc k then none else fs.file_map.find k := by
  rw [h.map, FileMap.find_filter fs.file_map (fun x => !decide (under kc x)) k]
  by_cases hu : under kc k <;> simp [hu]

theorem Removed.get_outside {fs fs1 : FileSystem} {kc : Path} {c n i : Nat}
    (h : Removed fs kc c n fs1) (hi : ¬ fs.inRegion kc i) (hne : i ≠ n) : fs1.get i = fs.get i :=
  FileSystem.get_congr (h.outside i hi hne)

theorem Removed.get_parent {fs fs1 : FileSystem} {kc : Path} {c n : Nat}
    (h : Removed fs kc c n fs1) (hl : (fs.nodes n).isSome) :
    fs1.get n = { fs.get n with children := (fs.get n).children.erase c } := by
  have := h.parent
  rw [FileSystem.nodes_of_live hl] at this
  exact FileSystem.get_of_some this

theorem Removed.live_parent {fs fs1 : FileSystem} {kc : Path} {c n : Nat}
    (h : Removed fs kc c n fs1) (hl : (fs.nodes n).isSome) : (fs1.nodes n).isSome := by
  rw [h.parent, FileSystem.nodes_of_live hl]; simp

/-- A mapped key directly below `k` that lies at or below `kc` is `kc` itself,
unless `k` is at or below `kc` too. -/
theorem child_key_under {k kc kc' : Path} (hg : GoodPath kc') (hpp : parentPath kc' = k)
    (hu : under kc kc') (hk : ¬ under kc k) : kc' = kc := by
  rcases hu with rfl | hb
  · rfl
  · exfalso
    obtain ⟨-, hpar⟩ := below_parent kc kc' hb hg
    rw [hpp] at hpar
    rcases hpar with h1 | h1
    · exact hk (Or.inl h1)
    · exact hk (Or.inr h1)

theorem not_under_parent {k kc : Path} (hns : nameStart k ≠ 0) (hk : ¬ under kc k) :
    ¬ under kc (parentPath k) := by
  intro hu
  exact hk (Or.inr (under_trans_below hu (below_of_parent_eq k hns)))

theorem not_under_of_parent_eq {q kc : Path} (hns : nameStart kc ≠ 0) (hpp : parentPath kc = q) :
    ¬ under kc q := by
  intro hu
  have hb : below q kc := by rw [← hpp]; exact below_of_parent_eq kc hns
  have h1 := below_length q kc hb
  rcases hu with h | h
  · rw [h] at h1; omega
  · have := below_length kc q h; omega

theorem KeyOK.not_inRegion {fs : FileSystem} {kc k : Path} {i : Nat} (hK : KeyOK fs)
    (hf : fs.file_map.find k = some i) (hk : ¬ under kc k) : ¬ fs.inRegion kc i := by
  rintro ⟨k2, hu2, hf2⟩
  have := key_unique (hK k i hf) (hK k2 i hf2)
  exact hk (this ▸ hu2)

theorem KeyOK.inj {fs : FileSystem} {k k' : Path} {i : Nat} (hK : KeyOK fs)
    (hf : fs.file_map.find k = some i) (hf' : fs.file_map.find k' = some i) : k = k' :=
  key_unique (hK k i hf) (hK k' i hf')

theorem FileSystem.live_of_type {fs : FileSystem} {i : Nat}
    (h : (fs.get i).type = NodeType.DIR_NODE) : (fs.nodes i).isSome := by
  cases hn : fs.nodes i with
  | none => simp [FileSystem.get, hn] at h
  | some n => simp

theorem Removed.keyOK_cut {fs fs1 : FileSystem} {kc : Path} {c n : Nat} (hK : KeyOK fs)
    (hrem : Removed fs kc c n fs1) (hl : (fs.nodes n).isSome) : KeyOK fs1 := by
  intro k i hf
  rw [hrem.find_eq] at hf
  by_cases hu : under kc k
  · simp [hu] at hf
  · simp only [hu, if_false] at hf
    have hout := hK.not_inRegion hf hu
    by_cases hin : i = n
    · rw [hin, hrem.get_parent hl]
      rw [hin] at hf
      exact hK k n hf
    · rw [hrem.get_outside hout hin]
      exact hK k i hf

/-- A mapped node outside a region that `remove` cut out stays in order. -/
theorem node_cut {fs fs1 : FileSystem} {kc : Path} {c pc : Nat} (hK : KeyOK fs)
    (hkc : fs.file_map.find kc = some c) (hrem : Removed fs kc c pc fs1)
    (hpcl : (fs.nodes pc).isSome)
    (hpc1 : ∀ k, fs.file_map.find k = some pc → nameStart kc ≠ 0 ∧ parentPath kc = k)
    (hpc2 : nameStart kc ≠ 0 → fs.file_map.find (parentPath kc) = some pc)
    {k : Path} {id : Nat} (hf : fs.file_map.find k = some id) (hku : ¬ under kc k)
    (hG : ∀ kc' c', fs.file_map.find kc' = some c' → nameStart kc' ≠ 0 → parentPath kc' = k →
      GoodPath kc')
    (hN : NodeOK fs k id) (hL : LinkOK fs k id) : NodeOK fs1 k id ∧ LinkOK fs1 k id := by
  have hgp := hrem.get_parent hpcl
  have htype : ∀ j, ¬ fs.inRegion kc j → (fs1.get j).type = (fs.get j).type := by
    intro j hj
    by_cases hjn : j = pc
    · rw [hjn, hgp]
    · rw [hrem.get_outside hj hjn]
  have hsurv : ∀ kc' c', fs.file_map.find kc' = some c' → nameStart kc' ≠ 0 →
      parentPath kc' = k → kc' ≠ kc → ¬ under kc kc' := by
    intro kc' c' h1 h2 h3 hne hu'
    exact hne (child_key_under (hG kc' c' h1 h2 h3) h3 hu' hku)
  have hidout := hK.not_inRegion hf hku
  have hlink : LinkOK fs1 k id := by
    have hpar : (fs1.get id).parent = (fs.get id).parent := by
      by_cases hid : id = pc
      · rw [hid, hgp]
      · rw [hrem.get_outside hidout hid]
    constructor
    · intro h0
      rw [hpar, hrem.root]
      exact hL.top h0
    · intro h0
      obtain ⟨pn, h1, h2, h3⟩ := hL.sub h0
      have hnup := not_under_parent h0 hku
      refine ⟨pn, ?_, ?_, by rw [hpar]; exact h3⟩
      · rw [hrem.find_eq]; simp [hnup, h1]
      · rw [htype pn (hK.not_inRegion h1 hnup)]
        exact h2
  refine ⟨?_, hlink⟩
  by_cases hid : id = pc
  · obtain ⟨hns, hpp⟩ := hpc1 k (hid ▸ hf)
    have hnew : fs1.get id = { fs.get id with children := (fs.get id).children.erase c } := by
      rw [hid]; exact hgp
    have hlive : (fs1.nodes id).isSome := by rw [hid]; exact hrem.live_parent hpcl
    refine ⟨hlive, by rw [hnew]; exact hN.path, by rw [hnew]; exact hN.name, hN.good,
      by rw [hnew]; exact hN.notRoot, by rw [hnew]; exact hN.nodup.erase c, ?_, ?_⟩
    · intro c'
      rw [hnew]
      show c' ∈ (fs.get id).children.erase c ↔ _
      rw [List.Nodup.mem_erase_iff hN.nodup, hN.kids c']
      constructor
      · rintro ⟨hne, kc', h1, h2, h3⟩
        refine ⟨kc', ?_, h2, h3⟩
        rw [hrem.find_eq]
        have : ¬ under kc kc' := by
          apply hsurv kc' c' h1 h2 h3
          intro heq
          rw [heq, hkc] at h1
          exact hne (Option.some.inj h1).symm
        simp [this, h1]
      · rintro ⟨kc', h1, h2, h3⟩
        rw [hrem.find_eq] at h1
        by_cases hu' : under kc kc'
        · simp [hu'] at h1
        · simp only [hu', if_false] at h1
          refine ⟨?_, kc', h1, h2, h3⟩
          intro hcc
          rw [hcc] at h1
          exact hu' (Or.inl (hK.inj h1 hkc))
    · intro ht
      rw [hnew] at ht ⊢
      show (fs.get id).children.erase c = []
      rw [hN.leaf ht]
      rfl
  · have hsame : fs1.get id = fs.get id := hrem.get_outside hidout hid
    have hlive : (fs1.nodes id).isSome := by
      rw [hrem.outside id hidout hid]; exact hN.live
    refine ⟨hlive, by rw [hsame]; exact hN.path, by rw [hsame]; exact hN.name, hN.good,
      by rw [hsame]; exact hN.notRoot, by rw [hsame]; exact hN.nodup, ?_,
      by rw [hsame]; exact hN.leaf⟩
    intro c'
    rw [hsame, hN.kids c']
    constructor
    · rintro ⟨kc', h1, h2, h3⟩
      refine ⟨kc', ?_, h2, h3⟩
      rw [hrem.find_eq]
      have : ¬ under kc kc' := by
        apply hsurv kc' c' h1 h2 h3
        intro heq
        have := hpc2 (heq ▸ h2)
        rw [← heq, h3, hf] at this
        exact hid (Option.some.inj this)
      simp [this, h1]
    · rintro ⟨kc', h1, h2, h3⟩
      rw [hrem.find_eq] at h1
      by_cases hu' : under kc kc'
      · simp [hu'] at h1
      · simp only [hu', if_false] at h1
        exact ⟨kc', h1, h2, h3⟩

theorem regionOK_cut {fs fs1 : FileSystem} {q kc : Path} {n c : Nat} (hK : KeyOK fs)
    (hR : RegionOK fs q)
    (hfq : fs.file_map.find q = some n) (hkc : fs.file_map.find kc = some c)
    (hns : nameStart kc ≠ 0) (hpp : parentPath kc = q) (hrem : Removed fs kc c n fs1) :
    RegionOK fs1 q ∧ fs1.file_map.find q = some n := by
  have hnq : ¬ under kc q := not_under_of_parent_eq hns hpp
  have hNn := (hR q n (Or.inl rfl) hfq).1
  refine ⟨?_, by rw [hrem.find_eq]; simp [hnq, hfq]⟩
  intro k id hu hf1
  rw [hrem.find_eq] at hf1
  by_cases hku : under kc k
  · simp [hku] at hf1
  · simp only [hku, if_false] at hf1
    obtain ⟨hN, hL⟩ := hR k id hu hf1
    refine node_cut hK hkc hrem hNn.live ?_ (fun _ => hpp ▸ hfq) hf1 hku ?_ hN hL
    · intro k' hk'
      exact ⟨hns, hpp.trans (hK.inj hfq hk')⟩
    · intro kc' c' h1 h2 h3
      have hb' : below k kc' := by rw [← h3]; exact below_of_parent_eq kc' h2
      exact (hR kc' c' (Or.inr (under_trans_below hu hb')) h1).1.good

/-! ## `remove`: the loop over the children -/

theorem Emptied.find_below {fs fs1 : FileSystem} {q : Path} {n : Nat} (h : Emptied fs q n fs1)
    (k : Path) : fs1.file_map.find k = if below q k then none else fs.file_map.find k := by
  rw [h.map, FileMap.find_filter fs.file_map (fun x => !decide (below q x)) k]
  by_cases hu : below q k <;> simp [hu]

theorem inRegion_of_inBelow {fs : FileSystem} {q : Path} {i : Nat} (h : fs.inBelow q i) :
    fs.inRegion q i := by
  obtain ⟨k, hb, hf⟩ := h
  exact ⟨k, Or.inr hb, hf⟩

theorem KeyOK.not_inBelow {fs : FileSystem} {q k : Path} {i : Nat} (hK : KeyOK fs)
    (hf : fs.file_map.find k = some i) (hk : ¬ below q k) : ¬ fs.inBelow q i := by
  rintro ⟨k2, hu2, hf2⟩
  have := hK.inj hf hf2
  exact hk (this ▸ hu2)

/-- One turn of the loop followed by the rest of the loop. -/
theorem Emptied.compose {fs fs1 fs' : FileSystem} {q kc : Path} {n c : Nat} (hK : KeyOK fs)
    (hfq : fs.file_map.find q = some n) (hbq : below q kc)
    (h1 : Removed fs kc c n fs1) (h2 : Emptied fs1 q n fs') : Emptied fs q n fs' := by
  have hnq : ¬ below q q := not_below_self q
  have hsub : ∀ k, under kc k → below q k := fun k hu => below_of_below_under hbq hu
  have hnB : ¬ fs.inBelow q n := hK.not_inBelow hfq hnq
  -- nodes mapped below `q` after the first step were mapped below `q` before, outside `kc`
  have hB1 : ∀ i, fs1.inBelow q i → ∃ k, below q k ∧ ¬ under kc k ∧ fs.file_map.find k = some i := by
    rintro i ⟨k, hb, hf⟩
    rw [h1.find_eq] at hf
    by_cases hu : under kc k
    · simp [hu] at hf
    · simp only [hu, if_false] at hf
      exact ⟨k, hb, hu, hf⟩
  obtain ⟨L1, hL1, hnd1, hm1⟩ := h1.tomb
  obtain ⟨L2, hL2, hnd2, hm2⟩ := h2.tomb
  refine ⟨?_, ?_, ?_, ?_, ?_, ?_, by rw [h2.next, h1.next], by rw [h2.root, h1.root],
    by rw [h2.ws, h1.ws], by rw [h2.driver, h1.driver]⟩
  · rw [h2.map, h1.map, List.filter_filter]
    apply List.filter_congr
    intro e _
    by_cases hb : below q e.1
    · simp [hb]
    · have : ¬ under kc e.1 := fun hu => hb (hsub _ hu)
      simp [hb, this]
  · rintro i ⟨k, hb, hf⟩
    have hin : i ≠ n := by
      rintro rfl
      exact hnB ⟨k, hb, hf⟩
    by_cases hu : under kc k
    · have hnot : ¬ fs1.inBelow q i := by
        intro hi
        obtain ⟨k', -, hu', hf'⟩ := hB1 i hi
        exact hu' (hK.inj hf hf' ▸ hu)
      rw [h2.outside i hnot hin]
      exact h1.inside i ⟨k, hu, hf⟩
    · have hi1 : fs1.inBelow q i := ⟨k, hb, by rw [h1.find_eq]; simp [hu, hf]⟩
      rw [h2.inside i hi1, h1.get_outside (hK.not_inRegion hf hu) hin]
  · rw [h2.parent, h1.parent, Option.map_map]
    rfl
  · intro i hi hin
    have hnot : ¬ fs1.inBelow q i := by
      intro hi1
      obtain ⟨k', hb', -, hf'⟩ := hB1 i hi1
      exact hi ⟨k', hb', hf'⟩
    rw [h2.outside i hnot hin]
    apply h1.outside i _ hin
    rintro ⟨k, hu, hf⟩
    exact hi ⟨k, hsub k hu, hf⟩
  · refine ⟨L1 ++ L2, by rw [hL2, hL1, List.append_assoc], ?_, ?_⟩
    · rw [List.nodup_append]
      refine ⟨hnd1, hnd2, ?_⟩
      intro i hi1 hi2
      obtain ⟨⟨k, hu, hf⟩, -⟩ := (hm1 i).mp hi1
      obtain ⟨k', -, hu', hf'⟩ := hB1 i ((hm2 i).mp hi2).1
      exact hu' (hK.inj hf hf' ▸ hu)
    · intro i
      rw [List.mem_append, hm1, hm2]
      constructor
      · rintro (⟨⟨k, hu, hf⟩, hd⟩ | ⟨hi1, hd⟩)
        · exact ⟨⟨k, hsub k hu, hf⟩, hd⟩
        · obtain ⟨k', hb', hu', hf'⟩ := hB1 i hi1
          have hin : i ≠ n := by
            rintro rfl
            exact hnB ⟨k', hb', hf'⟩
          rw [h1.get_outside (hK.not_inRegion hf' hu') hin] at hd
          exact ⟨⟨k', hb', hf'⟩, hd⟩
      · rintro ⟨⟨k, hb, hf⟩, hd⟩
        by_cases hu : under kc k
        · exact Or.inl ⟨⟨k, hu, hf⟩, hd⟩
        · right
          have hin : i ≠ n := by
            rintro rfl
            exact hnB ⟨k, hb, hf⟩
          refine ⟨⟨k, hb, by rw [h1.find_eq]; simp [hu, hf]⟩, ?_⟩
          rw [h1.get_outside (hK.not_inRegion hf hu) hin]
          exact hd
  · right
    rcases h2.changed with h | h
    · rw [h, h1.changed]
    · exact h



/-! ## `remove`: the node itself -/

/-- The statements of `remove` after the loop, on a tree whose node `n` has
been emptied. -/
theorem Removed.of_emptied {fs fs1 : FileSystem} {q : Path} {n pn : Nat} (hK : KeyOK fs)
    (hfq : fs.file_map.find q = some n) (hl : (fs.nodes n).isSome)
    (hpar : (fs.get n).parent = some pn) (hmem : n ∈ (fs.get pn).children)
    (hpn : ¬ fs.inRegion q pn) (h1 : Emptied fs q n fs1) :
    Removed fs q n pn
      { (if ((fs1.take n).2.get n).data.isSome then
            { (fs1.take n).2 with removed_nodes := (fs1.take n).2.removed_nodes ++ [n] }
          else (fs1.take n).2.delete n) with changed := true } := by
  have hnq : ¬ below q q := not_below_self q
  have hnB : ¬ fs.inBelow q n := hK.not_inBelow hfq hnq
  have hne : pn ≠ n := by
    rintro rfl
    exact hpn ⟨q, Or.inl rfl, hfq⟩
  have hpnB : ¬ fs.inBelow q pn := fun h => hpn (inRegion_of_inBelow h)
  have hg1n : fs1.get n = { fs.get n with children := [] } := by
    have := h1.parent
    rw [FileSystem.nodes_of_live hl] at this
    exact FileSystem.get_of_some this
  have hg1p : fs1.get pn = fs.get pn := FileSystem.get_congr (h1.outside pn hpnB hne)
  have hf1q : fs1.file_map.find q = some n := by rw [h1.find_below]; simp [hnq, hfq]
  have htake := FileSystem.take_spec fs1 n pn q (by rw [hg1n]; exact hK q n hfq)
    (by rw [hf1q]; rfl) (by rw [hg1n]; exact hpar) (by rw [hg1p]; exact hmem)
  rw [htake]
  simp only
  have hget2 : (FileSystem.modify { fs1 with file_map := (fs1.file_map.erase q).1 } pn
      (fun p => { p with children := p.children.erase n })).get n = fs1.get n := by
    apply FileSystem.get_congr
    simp [FileSystem.modify_nodes, Ne.symm hne]
  rw [hget2]
  have hdata : (fs1.get n).data = (fs.get n).data := by rw [hg1n]
  rw [hdata]
  obtain ⟨L1, hL1, hnd1, hm1⟩ := h1.tomb
  -- the store after `take`
  have hnodes2 : ∀ i, (FileSystem.modify { fs1 with file_map := (fs1.file_map.erase q).1 } pn
      (fun p => { p with children := p.children.erase n })).nodes i =
        if i = pn then (fs.nodes pn).map (fun p => { p with children := p.children.erase n })
        else fs1.nodes i := by
    intro i
    rw [FileSystem.modify_nodes]
    by_cases hi : i = pn
    · subst hi; simp [h1.outside i hpnB hne]
    · simp [hi]
  have hregion : ∀ i, fs.inRegion q i → i = n ∨ fs.inBelow q i := by
    rintro i ⟨k, hu, hf⟩
    rcases hu with rfl | hb
    · left; rw [hfq] at hf; exact (Option.some.inj hf).symm
    · right; exact ⟨k, hb, hf⟩
  have hmap : (fs1.file_map.erase q).1 = fs.file_map.filter (fun e => !decide (under q e.1)) := by
    unfold FileMap.erase
    simp only
    rw [h1.map, List.filter_filter]
    apply List.filter_congr
    intro e _
    by_cases hb : below q e.1
    · simp [hb, under]
    · by_cases he : e.1 = q
      · simp [he, under]
      · simp [hb, he, under]
  by_cases hd : (fs.get n).data.isSome
  · simp only [hd, if_true]
    refine ⟨hmap, ?_, ?_, ?_, ?_, rfl, h1.next, h1.root, h1.ws, h1.driver⟩
    · intro i hi
      have hipn : i ≠ pn := by rintro rfl; exact hpn hi
      show (FileSystem.modify _ pn _).nodes i = _
      rw [hnodes2, if_neg hipn]
      rcases hregion i hi with rfl | hb
      · rw [h1.parent, FileSystem.nodes_of_live hl]; simp [hd]
      · exact h1.inside i hb
    · show (FileSystem.modify _ pn _).nodes pn = _
      rw [hnodes2]; simp
    · intro i hi hipn
      show (FileSystem.modify _ pn _).nodes i = _
      rw [hnodes2, if_neg hipn]
      apply h1.outside i (fun h => hi (inRegion_of_inBelow h))
      rintro rfl
      exact hi ⟨q, Or.inl rfl, hfq⟩
    · refine ⟨L1 ++ [n], ?_, ?_, ?_⟩
      · show fs1.removed_nodes ++ [n] = _
        rw [hL1, List.append_assoc]
      · rw [List.nodup_append]
        refine ⟨hnd1, by simp, ?_⟩
        intro i hi1 hi2
        simp only [List.mem_singleton] at hi2
        subst hi2
        exact hnB ((hm1 i).mp hi1).1
      · intro i
        rw [List.mem_append, hm1, List.mem_singleton]
        constructor
        · rintro (⟨hb, hdd⟩ | rfl)
          · exact ⟨inRegion_of_inBelow hb, hdd⟩
          · exact ⟨⟨q, Or.inl rfl, hfq⟩, hd⟩
        · rintro ⟨hi, hdd⟩
          rcases hregion i hi with rfl | hb
          · exact Or.inr rfl
          · exact Or.inl ⟨hb, hdd⟩
  · simp only [hd, Bool.false_eq_true, if_false]
    have hnodes3 : ∀ i, ((FileSystem.modify { fs1 with file_map := (fs1.file_map.erase q).1 } pn
        (fun p => { p with children := p.children.erase n })).delete n).nodes i =
          if i = n then none
          else if i = pn then (fs.nodes pn).map (fun p => { p with children := p.children.erase n })
          else fs1.nodes i := by
      intro i
      show (if i = n then none else (FileSystem.modify _ pn _).nodes i) = _
      rw [hnodes2]
    refine ⟨hmap, ?_, ?_, ?_, ?_, rfl, h1.next, h1.root, h1.ws, h1.driver⟩
    · intro i hi
      have hipn : i ≠ pn := by rintro rfl; exact hpn hi
      show ((FileSystem.modify _ pn _).delete n).nodes i = _
      rw [hnodes3]
      rcases hregion i hi with rfl | hb
      · simp [hd]
      · have hin : i ≠ n := by rintro rfl; exact hnB hb
        rw [if_neg hin, if_neg hipn]
        exact h1.inside i hb
    · show ((FileSystem.modify _ pn _).delete n).nodes pn = _
      rw [hnodes3, if_neg hne]; simp
    · intro i hi hipn
      have hin : i ≠ n := by rintro rfl; exact hi ⟨q, Or.inl rfl, hfq⟩
      show ((FileSystem.modify _ pn _).delete n).nodes i = _
      rw [hnodes3, if_neg hin, if_neg hipn]
      exact h1.outside i (fun h => hi (inRegion_of_inBelow h)) hin
    · refine ⟨L1, hL1, hnd1, ?_⟩
      intro i
      rw [hm1]
      constructor
      · rintro ⟨hb, hdd⟩
        exact ⟨inRegion_of_inBelow hb, hdd⟩
      · rintro ⟨hi, hdd⟩
        rcases hregion i hi with rfl | hb
        · exact absurd hdd hd
        · exact ⟨hb, hdd⟩

/-! ## `remove`: correctness with enough fuel -/

theorem remove_correct : ∀ fuel : Nat,
    (∀ (fs : FileSystem) (n pn : Nat) (q : Path), fs.write_support = true → KeyOK fs →
      fs.file_map.find q = some n → RegionOK fs q → (fs.get n).parent = some pn →
      n ∈ (fs.get pn).children → ¬ fs.inRegion q pn → 2 * fs.weight q ≤ fuel →
      ∃ fs', FileSystem.removeAux fuel fs n = some (0, fs') ∧ Removed fs q n pn fs') ∧
    (∀ (fs : FileSystem) (n : Nat) (q : Path), fs.write_support = true → KeyOK fs →
      fs.file_map.find q = some n → RegionOK fs q → 2 * weightBelow fs q + 1 ≤ fuel →
      ∃ fs', FileSystem.removeChildren fuel fs n = some fs' ∧ Emptied fs q n fs') := by
  intro fuel
  induction fuel with
  | zero =>
    constructor
    · intro fs n pn q _ _ hfq _ _ _ _ hfuel
      have := weight_pos hfq
      omega
    · intro fs n q _ _ _ _ hfuel
      omega
  | succ fuel ih =>
    obtain ⟨ih1, ih2⟩ := ih
    constructor
    · intro fs n pn q hws hK hfq hR hpar hmem hpn hfuel
      have hN := (hR q n (Or.inl rfl) hfq).1
      have hw := weight_eq hfq
      -- the loop
      have hloop : ∃ fs1, (if (fs.get n).type = NodeType.DIR_NODE then
            FileSystem.removeChildren fuel fs n else some fs) = some fs1 ∧ Emptied fs q n fs1 := by
        by_cases ht : (fs.get n).type = NodeType.DIR_NODE
        · simp only [ht, if_true]
          exact ih2 fs n q hws hK hfq hR (by omega)
        · simp only [ht, if_false]
          exact ⟨fs, rfl, emptied_of_no_children hR hfq (hN.leaf ht)⟩
      obtain ⟨fs1, hrun, hE⟩ := hloop
      refine ⟨_, ?_, Removed.of_emptied hK hfq hN.live hpar hmem hpn hE⟩
      unfold FileSystem.removeAux
      simp only [hws, Bool.true_eq_false, if_false]
      rw [hrun]
    · intro fs n q hws hK hfq hR hfuel
      have hN := (hR q n (Or.inl rfl) hfq).1
      unfold FileSystem.removeChildren
      cases hch : (fs.get n).children with
      | nil =>
        exact ⟨fs, rfl, emptied_of_no_children hR hfq hch⟩
      | cons c rest =>
        simp only
        have hc : c ∈ (fs.get n).children := by rw [hch]; simp
        obtain ⟨kc, hkc, hns, hpp⟩ := (hN.kids c).mp hc
        have hbq : below q kc := by rw [← hpp]; exact below_of_parent_eq kc hns
        have hLc := (hR kc c (Or.inr hbq) hkc).2
        obtain ⟨pn', hp1, -, hp3⟩ := hLc.sub hns
        rw [hpp, hfq] at hp1
        have hpn' : pn' = n := (Option.some.inj hp1).symm
        rw [hpn'] at hp3
        have hwc := @weight_child_le fs _ _ hbq
        obtain ⟨fs1, hrun1, hrem⟩ := ih1 fs c n kc hws hK hkc (hR.sub (Or.inr hbq)) hp3 hc
          (hK.not_inRegion hfq (not_under_of_parent_eq hns hpp)) (by omega)
        rw [hrun1]
        simp only
        obtain ⟨hR1, hfq1⟩ := regionOK_cut hK hR hfq hkc hns hpp hrem
        have hK1 := hrem.keyOK_cut hK hN.live
        have hcut := filter_cut_length (fun e : Path × Nat => decide (below q e.1))
          (fun e => decide (under kc e.1)) fs.file_map (by
            intro e he
            simp only [decide_eq_true_eq] at he ⊢
            exact below_of_below_under hbq he)
        have hwpos := weight_pos hkc
        have hw1 : weightBelow fs1 q + fs.weight kc = weightBelow fs q := by
          unfold weightBelow FileSystem.weight
          rw [hrem.map]
          exact hcut
        obtain ⟨fs', hrun2, hE⟩ := ih2 fs1 n q (by rw [hrem.ws]; exact hws) hK1 hfq1 hR1 (by omega)
        exact ⟨fs', hrun2, Emptied.compose hK hfq hbq hrem hE⟩

/-! ## `remove` on a well-formed tree -/

theorem WF.keyOK {fs : FileSystem} (h : WF fs) : KeyOK fs :=
  fun k i hf => (h.node k i hf).path

theorem WF.regionOK {fs : FileSystem} (h : WF fs) (q : Path) : RegionOK fs q :=
  fun k id _ hf => ⟨h.node k id hf, h.link k id hf⟩

theorem WF.parentOf {fs : FileSystem} (h : WF fs) {q : Path} {n : Nat}
    (hfq : fs.file_map.find q = some n) : ∃ pn, ParentOf fs q n pn := by
  have hL := h.link q n hfq
  by_cases h0 : nameStart q = 0
  · refine ⟨fs.root_node, hL.top h0, (h.rootKids n).mpr ⟨q, hfq, h0⟩, h.rootLive, ?_, ?_, ?_,
      fun _ => rfl⟩
    · rintro ⟨k, -, hk⟩
      exact h.rootFree k hk
    · intro k hk
      exact absurd hk (h.rootFree k)
    · intro hne
      exact absurd h0 hne
  · obtain ⟨pn, h1, h2, h3⟩ := hL.sub h0
    have hNp := h.node _ pn h1
    refine ⟨pn, h3, (hNp.kids n).mpr ⟨q, hfq, h0, rfl⟩, hNp.live, ?_, ?_, fun _ => h1, ?_⟩
    · apply h.keyOK.not_inRegion h1
      intro hu
      have hlt := parentPath_length_lt q h0
      rcases hu with hu | hu
      · rw [hu] at hlt; omega
      · have := below_length _ _ hu; omega
    · intro k hk
      exact ⟨h0, h.keyOK.inj h1 hk⟩
    · intro hne
      exact absurd hne h0

theorem weight_le_length (fs : FileSystem) (q : Path) : fs.weight q ≤ fs.file_map.length :=
  List.length_filter_le _ _

/-- `remove` of a mapped node of a well-formed writable tree returns 0 and
leaves the tree that `Removed` describes. -/
theorem remove_total {fs : FileSystem} (h : WF fs) (hws : fs.write_support = true) {q : Path}
    {n pn : Nat} (hfq : fs.file_map.find q = some n) (hp : ParentOf fs q n pn) :
    ∃ fs', fs.remove n = some (0, fs') ∧ Removed fs q n pn fs' := by
  have hw := weight_le_length fs q
  exact (remove_correct fs.walkBound).1 fs n pn q hws h.keyOK hfq (h.regionOK q) hp.ptr hp.mem
    hp.out (by unfold FileSystem.walkBound; omega)

theorem below_nameStart {q k : Path} (hb : below q k) (hg : GoodPath k) : nameStart k ≠ 0 :=
  (below_parent q k hb hg).1

/-- `remove` keeps a tree well-formed. -/
theorem WF.removed {fs fs' : FileSystem} (h : WF fs) {q : Path} {n pn : Nat}
    (hfq : fs.file_map.find q = some n) (hp : ParentOf fs q n pn)
    (hrem : Removed fs q n pn fs') : WF fs' := by
  have hK := h.keyOK
  have hgp := hrem.get_parent hp.live
  have hrootOut : ¬ fs.inRegion q fs.root_node := by
    rintro ⟨k, -, hk⟩
    exact h.rootFree k hk
  have hgroot : ((fs'.get fs.root_node).type = (fs.get fs.root_node).type ∧
      (fs'.get fs.root_node).pathname = (fs.get fs.root_node).pathname) ∧
      ((fs'.get fs.root_node).children = (fs.get fs.root_node).children ∧ pn ≠ fs.root_node ∨
       (fs'.get fs.root_node).children = (fs.get fs.root_node).children.erase n ∧
         pn = fs.root_node) := by
    by_cases hr : fs.root_node = pn
    · rw [hr, hgp]
      exact ⟨⟨rfl, rfl⟩, Or.inr ⟨rfl, rfl⟩⟩
    · rw [hrem.get_outside hrootOut hr]
      exact ⟨⟨rfl, rfl⟩, Or.inl ⟨rfl, Ne.symm hr⟩⟩
  refine ⟨?_, ?_, ?_, ?_, ?_, ?_, ?_, ?_, ?_, ?_⟩
  · rw [hrem.root]
    by_cases hr : fs.root_node = pn
    · rw [hr]; exact hrem.live_parent hp.live
    · rw [hrem.outside _ hrootOut hr]; exact h.rootLive
  · rw [hrem.root, hgroot.1.1]; exact h.rootType
  · rw [hrem.root, hgroot.1.2]; exact h.rootPath
  · intro k hk
    rw [hrem.find_eq, hrem.root] at hk
    by_cases hu : under q k
    · simp [hu] at hk
    · simp only [hu, if_false] at hk
      exact h.rootFree k hk
  · rw [hrem.root]
    rcases hgroot.2 with ⟨hc, -⟩ | ⟨hc, -⟩
    · rw [hc]; exact h.rootNodup
    · rw [hc]; exact h.rootNodup.erase n
  · intro c
    rw [hrem.root]
    rcases hgroot.2 with ⟨hc, hpr⟩ | ⟨hc, hpr⟩
    · rw [hc, h.rootKids c]
      constructor
      · rintro ⟨kc, h1, h2⟩
        refine ⟨kc, ?_, h2⟩
        rw [hrem.find_eq]
        have : ¬ under q kc := by
          rintro (hu | hu)
          · rw [hu] at h2
            exact hpr (hp.top h2)
          · exact below_nameStart hu (h.node kc c h1).good h2
        simp [this, h1]
      · rintro ⟨kc, h1, h2⟩
        rw [hrem.find_eq] at h1
        by_cases hu : under q kc
        · simp [hu] at h1
        · simp only [hu, if_false] at h1
          exact ⟨kc, h1, h2⟩
    · rw [hc, List.Nodup.mem_erase_iff h.rootNodup, h.rootKids c]
      constructor
      · rintro ⟨hne, kc, h1, h2⟩
        refine ⟨kc, ?_, h2⟩
        rw [hrem.find_eq]
        have : ¬ under q kc := by
          rintro (hu | hu)
          · rw [hu, hfq] at h1
            exact hne (Option.some.inj h1).symm
          · exact below_nameStart hu (h.node kc c h1).good h2
        simp [this, h1]
      · rintro ⟨kc, h1, h2⟩
        rw [hrem.find_eq] at h1
        by_cases hu : under q kc
        · simp [hu] at h1
        · simp only [hu, if_false] at h1
          refine ⟨?_, kc, h1, h2⟩
          rintro rfl
          exact hu (Or.inl (hK.inj h1 hfq))
  · intro i hi
    rw [hrem.next] at hi
    have hnone := h.fresh i hi
    have hout : ¬ fs.inRegion q i := by
      rintro ⟨k, -, hk⟩
      have := (h.node k i hk).live
      rw [hnone] at this
      simp at this
    have hne : i ≠ pn := by
      rintro rfl
      have := hp.live
      rw [hnone] at this
      simp at this
    rw [hrem.outside i hout hne]
    exact hnone
  · intro k id hf
    rw [hrem.find_eq] at hf
    by_cases hu : under q k
    · simp [hu] at hf
    · simp only [hu, if_false] at hf
      exact (node_cut hK hfq hrem hp.live hp.key hp.sub hf hu
        (fun kc' c' h1 _ _ => (h.node kc' c' h1).good) (h.node k id hf) (h.link k id hf)).1
  · intro k id hf
    rw [hrem.find_eq] at hf
    by_cases hu : under q k
    · simp [hu] at hf
    · simp only [hu, if_false] at hf
      exact (node_cut hK hfq hrem hp.live hp.key hp.sub hf hu
        (fun kc' c' h1 _ _ => (h.node kc' c' h1).good) (h.node k id hf) (h.link k id hf)).2
  · intro i hlive hroot hun
    rw [hrem.root] at hroot
    by_cases hin : fs.inRegion q i
    · have hni := hrem.inside i hin
      by_cases hd : (fs.get i).data.isSome
      · rw [if_pos hd] at hni
        rw [FileSystem.get_of_some hni]
      · rw [if_neg hd] at hni
        rw [hni] at hlive
        simp at hlive
    · have hipn : i ≠ pn := by
        rintro rfl
        by_cases h0 : nameStart q = 0
        · exact hroot (hp.top h0)
        · have h1 := hp.sub h0
          apply hun (parentPath q)
          rw [hrem.find_eq]
          have : ¬ under q (parentPath q) := fun hu => hin ⟨_, hu, h1⟩
          simp [this, h1]
      have hsame := hrem.outside i hin hipn
      rw [FileSystem.get_congr hsame]
      apply h.idle i (by rw [← hsame]; exact hlive) hroot
      intro k hk
      apply hun k
      rw [hrem.find_eq]
      have : ¬ under q k := fun hu => hin ⟨k, hu, hk⟩
      simp [this, hk]

/-! ## Subtrees -/

theorem subtree_inRegion {fs : FileSystem} (h : WF fs) {q : Path} {n d : Nat}
    (hfq : fs.file_map.find q = some n) (hs : Subtree fs n d) : fs.inRegion q d := by
  induction hs with
  | self => exact ⟨q, Or.inl rfl, hfq⟩
  | child _ hc ih =>
    obtain ⟨k, hu, hk⟩ := ih
    obtain ⟨kc, h1, h2, h3⟩ := ((h.node k _ hk).kids _).mp hc
    have hb : below k kc := by rw [← h3]; exact below_of_parent_eq kc h2
    exact ⟨kc, Or.inr (under_trans_below hu hb), h1⟩

theorem inRegion_subtree {fs : FileSystem} (h : WF fs) {q : Path} {n : Nat}
    (hfq : fs.file_map.find q = some n) :
    ∀ (m : Nat) (k : Path) (d : Nat), k.length ≤ m → under q k → fs.file_map.find k = some d →
      Subtree fs n d := by
  intro m
  induction m with
  | zero =>
    intro k d hlen hu hk
    have hg := (h.node k d hk).good
    have : k = [] := List.length_eq_zero.mp (by omega)
    exact absurd this hg.1
  | succ m ih =>
    intro k d hlen hu hk
    rcases hu with rfl | hb
    · rw [hfq] at hk
      rw [← Option.some.inj hk]
      exact Subtree.self
    · have hN := h.node k d hk
      obtain ⟨hns, hpar⟩ := below_parent q k hb hN.good
      obtain ⟨pn, h1, -, -⟩ := (h.link k d hk).sub hns
      have hlt := parentPath_length_lt k hns
      have hsub := ih (parentPath k) pn (by omega) (hpar.elim Or.inl Or.inr) h1
      exact Subtree.child hsub (((h.node _ pn h1).kids d).mpr ⟨k, hk, hns, rfl⟩)

theorem subtree_iff {fs : FileSystem} (h : WF fs) {q : Path} {n : Nat}
    (hfq : fs.file_map.find q = some n) (d : Nat) : Subtree fs n d ↔ fs.inRegion q d :=
  ⟨subtree_inRegion h hfq, fun ⟨k, hu, hk⟩ => inRegion_subtree h hfq k.length k d (le_refl _) hu hk⟩

/-- In a well-formed tree a node is listed as a child only by the root and by
mapped nodes, and then it is mapped itself. -/
theorem WF.child_mapped {fs : FileSystem} (h : WF fs) {i c : Nat}
    (hc : c ∈ (fs.get i).children) : ∃ kc, fs.file_map.find kc = some c := by
  have hl := FileSystem.live_of_child hc
  by_cases hr : i = fs.root_node
  · rw [hr] at hc
    obtain ⟨kc, h1, -⟩ := (h.rootKids c).mp hc
    exact ⟨kc, h1⟩
  · by_cases hm : ∃ k, fs.file_map.find k = some i
    · obtain ⟨k, hk⟩ := hm
      obtain ⟨kc, h1, -, -⟩ := ((h.node k i hk).kids c).mp hc
      exact ⟨kc, h1⟩
    · have := h.idle i hl hr (fun k hk => hm ⟨k, hk⟩)
      rw [this] at hc
      simp at hc

/-- In a well-formed tree only the parent lists a mapped node as a child. -/
theorem WF.child_of_parent {fs : FileSystem} (h : WF fs) {q : Path} {n pn i : Nat}
    (hfq : fs.file_map.find q = some n) (hp : ParentOf fs q n pn)
    (hc : n ∈ (fs.get i).children) : i = pn := by
  have hl := FileSystem.live_of_child hc
  by_cases hr : i = fs.root_node
  · rw [hr] at hc
    obtain ⟨kc, h1, h2⟩ := (h.rootKids n).mp hc
    have := h.keyOK.inj h1 hfq
    rw [this] at h2
    rw [hr, hp.top h2]
  · by_cases hm : ∃ k, fs.file_map.find k = some i
    · obtain ⟨k, hk⟩ := hm
      obtain ⟨kc, h1, h2, h3⟩ := ((h.node k i hk).kids n).mp hc
      have := h.keyOK.inj h1 hfq
      rw [this] at h2 h3
      have := hp.sub h2
      rw [h3, hk] at this
      exact Option.some.inj this
    · have := h.idle i hl hr (fun k hk => hm ⟨k, hk⟩)
      rw [this] at hc
      simp at hc

/-! ## `append`: what it changes -/

theorem FileSystem.linkChild_nodes (fs : FileSystem) (x a : Nat) (t : NodeType) (i : Nat)
    (hxa : x ≠ a) :
    (fs.linkChild x a t).nodes i =
      if i = a then (fs.nodes a).map (fun p => p.addChild x t)
      else if i = x then (fs.nodes x).map (fun n => { n with parent := some a })
      else fs.nodes i := by
  unfold FileSystem.linkChild
  rw [FileSystem.modify_nodes]
  by_cases hia : i = a
  · subst hia
    simp [FileSystem.modify_nodes, Ne.symm hxa]
  · simp only [hia, if_false, FileSystem.modify_nodes]
    by_cases hix : i = x
    · subst hix; simp
    · simp [hix]

@[simp] theorem FileSystem.linkChild_file_map (fs : FileSystem) (x a : Nat) (t : NodeType) :
    (fs.linkChild x a t).file_map = fs.file_map := rfl
@[simp] theorem FileSystem.linkChild_next (fs : FileSystem) (x a : Nat) (t : NodeType) :
    (fs.linkChild x a t).next = fs.next := rfl
@[simp] theorem FileSystem.linkChild_root (fs : FileSystem) (x a : Nat) (t : NodeType) :
    (fs.linkChild x a t).root_node = fs.root_node := rfl
@[simp] theorem FileSystem.linkChild_ws (fs : FileSystem) (x a : Nat) (t : NodeType) :
    (fs.linkChild x a t).write_support = fs.write_support := rfl
@[simp] theorem FileSystem.linkChild_changed (fs : FileSystem) (x a : Nat) (t : NodeType) :
    (fs.linkChild x a t).changed = fs.changed := rfl
@[simp] theorem FileSystem.linkChild_removed (fs : FileSystem) (x a : Nat) (t : NodeType) :
    (fs.linkChild x a t).removed_nodes = fs.removed_nodes := rfl
@[simp] theorem FileSystem.linkChild_driver (fs : FileSystem) (x a : Nat) (t : NodeType) :
    (fs.linkChild x a t).driver = fs.driver := rfl

theorem parentPath_ne (p : Path) (h : nameStart p ≠ 0) : parentPath p ≠ p := by
  intro heq
  have := parentPath_length_lt p h
  rw [heq] at this
  omega

/-- The record of a fresh directory node. -/
theorem FileNode.new_dir (env : Env) (k : Path) :
    (FileNode.new env (some k) none NodeType.DIR_NODE).pathname = some k ∧
    (FileNode.new env (some k) none NodeType.DIR_NODE).name_ptr = nameStart k ∧
    (FileNode.new env (some k) none NodeType.DIR_NODE).type = NodeType.DIR_NODE ∧
    (FileNode.new env (some k) none NodeType.DIR_NODE).children = [] := by
  simp [FileNode.new]

theorem append_frame (env : Env) : ∀ (fuel : Nat) (fs : FileSystem) (x : Nat) (p : Path),
    (fs.get x).pathname = some p → (fs.get x).name_ptr = nameStart p →
    fs.file_map.find p = none → (∀ k, fs.file_map.find k ≠ some x) → (fs.nodes x).isSome →
    (∀ k v, fs.file_map.find k = some v → (fs.nodes v).isSome) →
    (∀ i, fs.next ≤ i → fs.nodes i = none) → (fs.nodes fs.root_node).isSome →
    x ≠ fs.root_node → nameStart p ≤ env.PATH_MAX → p.length < fuel →
    ∃ fs', FileSystem.appendAux env fuel fs x = some (Outcome.done fs') ∧
      AppFrame env fs x p fs' := by
  intro fuel
  induction fuel with
  | zero => intro fs x p _ _ _ _ _ _ _ _ _ _ hf; omega
  | succ fuel ih =>
    intro fs x p hpath hname hfp hxun hxl hmap hfresh hrl hxr hfit hfuel
    have hf1 : ∀ k, (FileMap.insertSorted p x fs.file_map).find k =
        if k = p then some x else fs.file_map.find k :=
      fun k => FileMap.find_insertSorted _ _ _ _ hfp
    have hold1 : ∀ k v, fs.file_map.find k = some v →
        (FileMap.insertSorted p x fs.file_map).find k = some v := by
      intro k v hk
      rw [hf1]
      have : k ≠ p := by rintro rfl; rw [hfp] at hk; simp at hk
      simp [this, hk]
    unfold FileSystem.appendAux
    simp only [hpath, FileMap.find_insert_none _ _ _ hfp, hname]
    by_cases h0 : nameStart p = 0
    · -- the node is linked under the root
      simp only [h0, if_true]
      refine ⟨_, rfl, ?_⟩
      refine ⟨by simp [hf1], ?_, ?_, ?_, ?_, le_refl _, ?_, rfl, rfl, rfl, rfl, rfl⟩
      · intro k v hk
        exact hold1 k v hk
      · intro k d hk
        simp only [FileSystem.linkChild_file_map] at hk
        rw [hf1] at hk
        by_cases hkp : k = p
        · simp only [hkp, if_true] at hk
          exact Or.inl ⟨hkp, (Option.some.inj hk).symm⟩
        · simp only [hkp, if_false] at hk
          exact Or.inr (Or.inl hk)
      · refine ⟨fs.root_node, ?_, fun _ => rfl, fun h => absurd h0 h⟩
        rw [FileSystem.linkChild_nodes _ _ _ _ _ hxr]
        simp only [hxr, if_false, if_true]
        show (fs.nodes x).map _ = _
        rw [FileSystem.nodes_of_live hxl]
        rfl
      · intro i hil hix
        by_cases hir : i = fs.root_node
        · right
          refine ⟨Or.inl hir, x, (fs.get x).type, ?_⟩
          rw [FileSystem.linkChild_nodes _ _ _ _ _ hxr]
          subst hir
          simp only [if_true]
          show (fs.nodes fs.root_node).map _ = _
          rw [FileSystem.nodes_of_live hrl]
          rfl
        · left
          rw [FileSystem.linkChild_nodes _ _ _ _ _ hxr]
          have : i ≠ ({ fs with file_map := FileMap.insertSorted p x fs.file_map } : FileSystem).root_node := hir
          simp only [this, hix, if_false]
      · intro i hi
        rw [FileSystem.linkChild_nodes _ _ _ _ _ hxr]
        have hn := hfresh i hi
        have hir : i ≠ fs.root_node := by
          rintro rfl; rw [hn] at hrl; simp at hrl
        have hix : i ≠ x := by
          rintro rfl; rw [hn] at hxl; simp at hxl
        have : i ≠ ({ fs with file_map := FileMap.insertSorted p x fs.file_map } : FileSystem).root_node := hir
        simp only [this, hix, if_false]
        exact hn
    · simp only [h0, if_false]
      have hpp : List.take (nameStart p - 1) p = parentPath p := rfl
      rw [hpp]
      rw [if_neg (parent_fits p h0 hfit).1]
      have hπne := parentPath_ne p h0
      have hπlt := parentPath_length_lt p h0
      have hfπ : (FileMap.insertSorted p x fs.file_map).find (parentPath p) =
          fs.file_map.find (parentPath p) := by
        rw [hf1]; simp [hπne]
      simp only [FileSystem.find, hfπ]
      cases hπ : fs.file_map.find (parentPath p) with
      | some a =>
        -- the parent directory exists
        simp only
        have hxa : x ≠ a := by rintro rfl; exact hxun _ hπ
        have hal := hmap _ _ hπ
        refine ⟨_, rfl, ?_⟩
        refine ⟨by simp [hf1], ?_, ?_, ?_, ?_, le_refl _, ?_, rfl, rfl, rfl, rfl, rfl⟩
        · intro k v hk
          exact hold1 k v hk
        · intro k d hk
          simp only [FileSystem.linkChild_file_map] at hk
          rw [hf1] at hk
          by_cases hkp : k = p
          · simp only [hkp, if_true] at hk
            exact Or.inl ⟨hkp, (Option.some.inj hk).symm⟩
          · simp only [hkp, if_false] at hk
            exact Or.inr (Or.inl hk)
        · refine ⟨a, ?_, fun h => absurd h h0, fun _ => ?_⟩
          · rw [FileSystem.linkChild_nodes _ _ _ _ _ hxa]
            simp only [hxa, if_false, if_true]
            show (fs.nodes x).map _ = _
            rw [FileSystem.nodes_of_live hxl]
            rfl
          · simp only [FileSystem.linkChild_file_map]
            rw [hfπ, hπ]
        · intro i hil hix
          by_cases hia : i = a
          · right
            refine ⟨Or.inr ⟨parentPath p, below_of_parent_eq p h0, hia ▸ hπ⟩, x, (fs.get x).type, ?_⟩
            rw [FileSystem.linkChild_nodes _ _ _ _ _ hxa]
            subst hia
            simp only [if_true]
            show (fs.nodes i).map _ = _
            rw [FileSystem.nodes_of_live hal]
            rfl
          · left
            rw [FileSystem.linkChild_nodes _ _ _ _ _ hxa]
            simp only [hia, hix, if_false]
        · intro i hi
          rw [FileSystem.linkChild_nodes _ _ _ _ _ hxa]
          have hn := hfresh i hi
          have hia : i ≠ a := by
            rintro rfl; rw [hn] at hal; simp at hal
          have hix : i ≠ x := by
            rintro rfl; rw [hn] at hxl; simp at hxl
          simp only [hia, hix, if_false]
          exact hn
      | none =>
        -- the parent directory is created and appended first
        simp only
        have hdl : (fs.nodes fs.next) = none := hfresh _ (le_refl _)
        have hdx : fs.next ≠ x := by rintro h; rw [h] at hdl; rw [hdl] at hxl; simp at hxl
        have hdr : fs.next ≠ fs.root_node := by
          rintro h; rw [h] at hdl; rw [hdl] at hrl; simp at hrl
        -- the tree in which the recursive call starts
        obtain ⟨fs2, hrun, hF⟩ := ih
          ({ fs with file_map := FileMap.insertSorted p x fs.file_map }.alloc
            (FileNode.new env (some (parentPath p)) none NodeType.DIR_NODE)).2 fs.next (parentPath p)
          (by simp [FileSystem.alloc, FileSystem.get, FileNode.new])
          (by simp [FileSystem.alloc, FileSystem.get, FileNode.new])
          (by show (FileMap.insertSorted p x fs.file_map).find _ = none; rw [hfπ, hπ])
          (by
            intro k hk
            have hk' : (FileMap.insertSorted p x fs.file_map).find k = some fs.next := hk
            rw [hf1] at hk'
            by_cases hkp : k = p
            · simp only [hkp, if_true] at hk'
              exact hdx (Option.some.inj hk').symm
            · simp only [hkp, if_false] at hk'
              have := hmap _ _ hk'
              rw [hdl] at this
              simp at this)
          (by simp [FileSystem.alloc])
          (by
            intro k v hk
            have hk' : (FileMap.insertSorted p x fs.file_map).find k = some v := hk
            rw [hf1] at hk'
            show (if v = fs.next then _ else fs.nodes v).isSome
            by_cases hv : v = fs.next
            · simp [hv]
            · simp only [hv, if_false]
              by_cases hkp : k = p
              · simp only [hkp, if_true] at hk'
                rw [← Option.some.inj hk']; exact hxl
              · simp only [hkp, if_false] at hk'
                exact hmap _ _ hk')
          (by
            intro i hi
            show (if i = fs.next then _ else fs.nodes i) = none
            have h1 : fs.next + 1 ≤ i := hi
            have : i ≠ fs.next := by omega
            simp only [this, if_false]
            exact hfresh i (by omega))
          (by
            show (if fs.root_node = fs.next then _ else fs.nodes fs.root_node).isSome
            simp only [Ne.symm hdr, if_false]
            exact hrl)
          hdr (parent_fits p h0 hfit).2 (by omega)
        simp only [FileSystem.alloc] at hrun ⊢
        rw [hrun]
        simp only
        have hxd : x ≠ fs.next := Ne.symm hdx
        -- the record of `x` is not touched by the recursive call
        have hx2 : fs2.nodes x = fs.nodes x := by
          have hxl1 : (({ fs with file_map := FileMap.insertSorted p x fs.file_map }.alloc
            (FileNode.new env (some (parentPath p)) none NodeType.DIR_NODE)).2.nodes x).isSome := by
            show (if x = fs.next then _ else fs.nodes x).isSome
            simp only [hxd, if_false]; exact hxl
          rcases hF.other x hxl1 hxd with h | ⟨hr, -⟩
          · rw [h]
            show (if x = fs.next then _ else fs.nodes x) = _
            simp only [hxd, if_false]
          · exfalso
            rcases hr with hr | ⟨k, hb, hk⟩
            · exact hxr hr
            · have hk' : (FileMap.insertSorted p x fs.file_map).find k = some x := hk
              rw [hf1] at hk'
              by_cases hkp : k = p
              · rw [hkp] at hb
                have := below_length _ _ hb
                omega
              · simp only [hkp, if_false] at hk'
                exact hxun k hk'
        obtain ⟨a', hd2, hd2top, hd2sub⟩ := hF.xrec
        have hgd1 : ({ fs with file_map := FileMap.insertSorted p x fs.file_map }.alloc
            (FileNode.new env (some (parentPath p)) none NodeType.DIR_NODE)).2.get fs.next =
            FileNode.new env (some (parentPath p)) none NodeType.DIR_NODE := by
          simp [FileSystem.alloc, FileSystem.get]
        rw [hgd1] at hd2
        refine ⟨_, rfl, ?_⟩
        refine ⟨?_, ?_, ?_, ?_, ?_, ?_, ?_, ?_, ?_, ?_, ?_, ?_⟩
        · simp only [FileSystem.linkChild_file_map]
          apply hF.old
          show (FileMap.insertSorted p x fs.file_map).find p = some x
          simp [hf1]
        · intro k v hk
          simp only [FileSystem.linkChild_file_map]
          apply hF.old
          exact hold1 k v hk
        · intro k d hk
          simp only [FileSystem.linkChild_file_map] at hk
          rcases hF.cls k d hk with ⟨hkπ, hdd⟩ | h | ⟨h1, h2, h3, h4, h5, h6⟩
          · -- the directory created at this level
            right; right
            subst hkπ
            subst hdd
            refine ⟨hπ, hπne, below_of_parent_eq p h0, le_refl _, ?_, ?_⟩
            · have := hF.next
              simp only [FileSystem.linkChild_next]
              exact Nat.lt_of_lt_of_le (Nat.lt_succ_self _) this
            · refine ⟨a', [x], (if (fs.get x).type = NodeType.DIR_NODE ∨
                (fs.get x).type = NodeType.ROOT_NODE then 3 else 2), ?_, ?_, ?_⟩
              · rw [FileSystem.linkChild_nodes _ _ _ _ _ hxd]
                simp only [if_true, hd2, Option.map_some']
                congr 1
                by_cases ht : (fs.get x).type = NodeType.DIR_NODE ∨
                    (fs.get x).type = NodeType.ROOT_NODE
                · simp [FileNode.addChild, FileNode.new, ht]
                · simp [FileNode.addChild, FileNode.new, ht]
              · intro h; simp only [FileSystem.linkChild_root]; rw [hF.root]; exact hd2top h
              · intro h; simp only [FileSystem.linkChild_file_map]; exact hd2sub h
          · have h' : (FileMap.insertSorted p x fs.file_map).find k = some d := h
            rw [hf1] at h'
            by_cases hkp : k = p
            · simp only [hkp, if_true] at h'
              exact Or.inl ⟨hkp, (Option.some.inj h').symm⟩
            · simp only [hkp, if_false] at h'
              exact Or.inr (Or.inl h')
          · right; right
            have h1' : (FileMap.insertSorted p x fs.file_map).find k = none := h1
            rw [hf1] at h1'
            have hkp : k ≠ p := by rintro rfl; simp at h1'
            simp only [hkp, if_false] at h1'
            have h4' : fs.next + 1 ≤ d := h4
            have hdx' : d ≠ x := by
              rintro rfl
              have := hfresh d (by omega)
              rw [this] at hxl; simp at hxl
            refine ⟨h1', hkp, below_trans h3 (below_of_parent_eq p h0), by omega, h5, ?_⟩
            obtain ⟨par, kids, nl, hrec, htop, hsub⟩ := h6
            refine ⟨par, kids, nl, ?_, ?_, ?_⟩
            · rw [FileSystem.linkChild_nodes _ _ _ _ _ hxd]
              have : d ≠ fs.next := by omega
              simp only [this, hdx', if_false]
              exact hrec
            · intro h; simp only [FileSystem.linkChild_root]; exact htop h
            · intro h; simp only [FileSystem.linkChild_file_map]; exact hsub h
        · refine ⟨fs.next, ?_, fun h => absurd h h0, fun _ => ?_⟩
          · rw [FileSystem.linkChild_nodes _ _ _ _ _ hxd]
            simp only [hxd, if_false, if_true, hx2]
            rw [FileSystem.nodes_of_live hxl]
            rfl
          · simp only [FileSystem.linkChild_file_map]
            exact hF.findx
        · intro i hil hix
          have hid : i ≠ fs.next := by
            rintro rfl; rw [hdl] at hil; simp at hil
          rw [FileSystem.linkChild_nodes _ _ _ _ _ hxd]
          simp only [hid, hix, if_false]
          have hil1 : (({ fs with file_map := FileMap.insertSorted p x fs.file_map }.alloc
            (FileNode.new env (some (parentPath p)) none NodeType.DIR_NODE)).2.nodes i).isSome := by
            show (if i = fs.next then _ else fs.nodes i).isSome
            simp only [hid, if_false]; exact hil
          have hn1 : ({ fs with file_map := FileMap.insertSorted p x fs.file_map }.alloc
            (FileNode.new env (some (parentPath p)) none NodeType.DIR_NODE)).2.nodes i = fs.nodes i := by
            show (if i = fs.next then _ else fs.nodes i) = _
            simp only [hid, if_false]
          rcases hF.other i hil1 hid with h | ⟨hr, c, t, hc⟩
          · left; rw [h, hn1]
          · right
            refine ⟨?_, c, t, ?_⟩
            · rcases hr with hr | ⟨k, hb, hk⟩
              · exact Or.inl hr
              · have hk' : (FileMap.insertSorted p x fs.file_map).find k = some i := hk
                rw [hf1] at hk'
                by_cases hkp : k = p
                · simp only [hkp, if_true] at hk'
                  exact absurd (Option.some.inj hk').symm hix
                · simp only [hkp, if_false] at hk'
                  exact Or.inr ⟨k, below_trans hb (below_of_parent_eq p h0), hk'⟩
            · rw [hc, FileSystem.get_congr hn1]
        · have := hF.next
          simp only [FileSystem.linkChild_next]
          exact Nat.le_trans (Nat.le_succ _) this
        · intro i hi
          simp only [FileSystem.linkChild_next] at hi
          have hn2 := hF.fresh i hi
          have h1 := hF.next
          have h1' : fs.next + 1 ≤ fs2.next := h1
          rw [FileSystem.linkChild_nodes _ _ _ _ _ hxd]
          have hid : i ≠ fs.next := by omega
          have hix : i ≠ x := by
            rintro rfl
            have := hfresh i (by omega)
            rw [this] at hxl; simp at hxl
          simp only [hid, hix, if_false]
          exact hn2
        · simp only [FileSystem.linkChild_root]; exact hF.root
        · simp only [FileSystem.linkChild_ws]; exact hF.ws
        · simp only [FileSystem.linkChild_changed]; exact hF.changed
        · simp only [FileSystem.linkChild_removed]; exact hF.removed
        · simp only [FileSystem.linkChild_driver]; exact hF.driver

/-! ## The name and the parent path, in the words of the specification -/

theorem takeWhile_append_stop {α : Type} (P : α → Bool) (l r : List α) (a : α)
    (hl : ∀ c ∈ l, P c = true) (ha : P a = false) : (l ++ a :: r).takeWhile P = l := by
  induction l with
  | nil => simp [List.takeWhile, ha]
  | cons b l ih =>
    have hb : P b = true := hl b (by simp)
    simp only [List.cons_append, List.takeWhile_cons, hb, if_true]
    rw [ih (fun c hc => hl c (List.mem_cons_of_mem _ hc))]

theorem takeWhile_all {α : Type} (P : α → Bool) (l : List α) (hl : ∀ c ∈ l, P c = true) :
    l.takeWhile P = l := by
  induction l with
  | nil => rfl
  | cons b l ih =>
    have hb : P b = true := hl b (by simp)
    simp only [List.takeWhile_cons, hb, if_true]
    rw [ih (fun c hc => hl c (List.mem_cons_of_mem _ hc))]

/-- `name_ptr` points to the suffix after the last slash. -/
theorem drop_nameStart_eq_basename (p : Path) (hg : GoodPath p) :
    p.drop (nameStart p) = basename p := by
  unfold basename
  by_cases h0 : nameStart p = 0
  · have hno := no_slash_of_nameStart_zero p hg h0
    rw [h0, List.drop_zero, takeWhile_all, List.reverse_reverse]
    intro c hc
    simp only [List.mem_reverse] at hc
    simp only [ne_eq, decide_not, Bool.not_eq_true', decide_eq_false_iff_not]
    rintro rfl
    exact hno hc
  · obtain ⟨hsplit, -, hnm, -, -⟩ := path_split p h0
    conv_rhs => rw [hsplit]
    rw [List.reverse_append, List.reverse_cons, List.append_assoc, List.singleton_append,
      takeWhile_append_stop _ _ _ _ _ (by simp), List.reverse_reverse]
    intro c hc
    simp only [List.mem_reverse] at hc
    simp only [ne_eq, decide_not, Bool.not_eq_true', decide_eq_false_iff_not]
    rintro rfl
    exact hnm hc

theorem slash_mem_iff (p : Path) (hg : GoodPath p) : '/' ∈ p ↔ nameStart p ≠ 0 := by
  constructor
  · intro hm h0
    exact no_slash_of_nameStart_zero p hg h0 hm
  · intro h0
    obtain ⟨hsplit, -⟩ := path_split p h0
    rw [hsplit]
    simp

/-- The parent path `append` computes is the text before the last slash. -/
theorem dirname_eq (p : Path) (hg : GoodPath p) :
    dirname p = if nameStart p = 0 then none else some (parentPath p) := by
  unfold dirname
  by_cases h0 : nameStart p = 0
  · have : '/' ∉ p := no_slash_of_nameStart_zero p hg h0
    simp [this, h0]
  · have hm : '/' ∈ p := (slash_mem_iff p hg).mpr h0
    simp only [hm, if_true, h0, if_false]
    obtain ⟨hsplit, -, -, hlen, hle⟩ := path_split p h0
    rw [← drop_nameStart_eq_basename p hg]
    congr 1
    unfold parentPath
    congr 1
    simp only [List.length_drop]
    omega

theorem goodPath_of_below {k p : Path} (hb : below k p) (hg : GoodPath p) : GoodPath k := by
  obtain ⟨rest, hp⟩ := (below_iff k p).mp hb
  have hne := below_ne_nil k p hb hg
  refine ⟨hne, ?_⟩
  intro hh
  apply hg.2
  rw [hp]
  cases k with
  | nil => exact absurd rfl hne
  | cons a t => simpa using hh

/-- In a map whose good keys all have their parent path mapped, every path
above a mapped key is mapped. -/
theorem ancestors_mapped (find : Path → Option Nat)
    (hgood : ∀ k v, find k = some v → GoodPath k)
    (hclosed : ∀ k v, find k = some v → nameStart k ≠ 0 → ∃ a, find (parentPath k) = some a) :
    ∀ (m : Nat) (k k' : Path) (v : Nat), k.length ≤ m → find k = some v → below k' k →
      ∃ d, find k' = some d := by
  intro m
  induction m with
  | zero =>
    intro k k' v hlen _ hb
    have := below_length k' k hb
    omega
  | succ m ih =>
    intro k k' v hlen hk hb
    obtain ⟨hns, hpar⟩ := below_parent k' k hb (hgood k v hk)
    obtain ⟨a, ha⟩ := hclosed k v hk hns
    rcases hpar with heq | hbel
    · exact ⟨a, heq ▸ ha⟩
    · have hlt := parentPath_length_lt k hns
      exact ih (parentPath k) k' a (by omega) ha hbel

theorem NewDir.facts {env : Env} {fs : FileSystem} {k : Path} {d : Nat} (h : NewDir env fs k d) :
    (fs.get d).type = NodeType.DIR_NODE ∧ (fs.get d).pathname = some k ∧
    (fs.get d).name_ptr = nameStart k ∧
    (fs.get d).file_info.st_mode = S_IFDIR ||| 0o755 ∧ (fs.get d).data = none ∧
    (fs.get d).changed = false ∧ (fs.nodes d).isSome := by
  obtain ⟨par, kids, nl, hrec, -, -⟩ := h
  rw [FileSystem.get_of_some hrec, hrec]
  simp [FileNode.new]

theorem NewDir.parent {env : Env} {fs : FileSystem} {k : Path} {d : Nat} (h : NewDir env fs k d)
    (hns : nameStart k ≠ 0) : ∃ a, fs.file_map.find (parentPath k) = some a ∧
      (fs.get d).parent = some a := by
  obtain ⟨par, kids, nl, hrec, -, hsub⟩ := h
  exact ⟨par, hsub hns, by rw [FileSystem.get_of_some hrec]⟩

/-- `append` of an unmapped node on a well-formed tree returns normally. -/
theorem append_total (env : Env) {fs : FileSystem} (h : WF fs) {x : Nat} {p : Path}
    (hpath : (fs.get x).pathname = some p) (hname : (fs.get x).name_ptr = nameStart p)
    (hfree : fs.file_map.find p = none) (hfit : nameStart p ≤ env.PATH_MAX) :
    ∃ fs', fs.append env x = some (Outcome.done fs') ∧ AppFrame env fs x p fs' := by
  have hxun : ∀ k, fs.file_map.find k ≠ some x := by
    intro k hk
    have := key_unique (h.keyOK k x hk) hpath
    rw [this, hfree] at hk
    simp at hk
  have hxr : x ≠ fs.root_node := by
    rintro rfl
    rw [h.rootPath] at hpath
    simp at hpath
  unfold FileSystem.append
  rw [hpath]
  exact append_frame env (p.length + 1) fs x p hpath hname hfree hxun
    (FileSystem.live_of_path hpath) (fun k v hk => (h.node k v hk).live) h.fresh h.rootLive hxr
    hfit (Nat.lt_succ_self _)

/-! ## `append` keeps the tree in order -/

theorem FileNode.addChild_facts (r : FileNode) (c : Nat) (t : NodeType)
    (h : r.type ≠ NodeType.FILE_NODE) :
    (r.addChild c t).children = r.children ++ [c] ∧ (r.addChild c t).type = r.type ∧
    (r.addChild c t).pathname = r.pathname ∧ (r.addChild c t).name_ptr = r.name_ptr ∧
    (r.addChild c t).parent = r.parent := by
  unfold FileNode.addChild
  simp only [h, if_false]
  split <;> simp

/-- Linking one more node into a tree that is in order: the node `x`, allocated
and not mapped, gets the key `p` and becomes a child of the directory at the
parent path (the root for a path without a slash). -/
theorem link_wf {G G' : FileSystem} {x a : Nat} {p : Path} {t : NodeType}
    (hG : WF G) (hp : G.file_map.find p = none) (hxl : (G.nodes x).isSome)
    (hxun : ∀ k, G.file_map.find k ≠ some x) (hxr : x ≠ G.root_node)
    (hpath : (G.get x).pathname = some p) (hname : (G.get x).name_ptr = nameStart p)
    (hgood : GoodPath p) (hty : (G.get x).type ≠ NodeType.ROOT_NODE)
    (htop : nameStart p = 0 → a = G.root_node)
    (hsub : nameStart p ≠ 0 →
      G.file_map.find (parentPath p) = some a ∧ (G.get a).type = NodeType.DIR_NODE)
    (hmap : ∀ k, G'.file_map.find k = if k = p then some x else G.file_map.find k)
    (hnodes : ∀ i, G'.nodes i = (G.linkChild x a t).nodes i)
    (hnext : G'.next = G.next) (hroot : G'.root_node = G.root_node) : WF G' := by
  have hxc : (G.get x).children = [] := hG.idle x hxl hxr hxun
  have hxa : x ≠ a := by
    by_cases h0 : nameStart p = 0
    · rw [htop h0]; exact hxr
    · rintro rfl; exact hxun _ (hsub h0).1
  have hal : (G.nodes a).isSome := by
    by_cases h0 : nameStart p = 0
    · rw [htop h0]; exact hG.rootLive
    · exact (hG.node _ _ (hsub h0).1).live
  have haty : (G.get a).type ≠ NodeType.FILE_NODE := by
    by_cases h0 : nameStart p = 0
    · rw [htop h0, hG.rootType]; decide
    · rw [(hsub h0).2]; decide
  have hn : ∀ i, G'.nodes i =
      if i = a then (G.nodes a).map (fun r => r.addChild x t)
      else if i = x then (G.nodes x).map (fun n => { n with parent := some a })
      else G.nodes i := by
    intro i; rw [hnodes, FileSystem.linkChild_nodes _ _ _ _ _ hxa]
  have hga : G'.get a = (G.get a).addChild x t := by
    have := hn a
    simp only [if_true] at this
    rw [FileSystem.nodes_of_live hal] at this
    exact FileSystem.get_of_some this
  obtain ⟨hac, hat, hap, han, hapar⟩ := FileNode.addChild_facts (G.get a) x t haty
  have hgx : G'.get x = { G.get x with parent := some a } := by
    have := hn x
    simp only [hxa, if_false, if_true] at this
    rw [FileSystem.nodes_of_live hxl] at this
    exact FileSystem.get_of_some this
  have hgo : ∀ i, i ≠ a → i ≠ x → G'.get i = G.get i := by
    intro i h1 h2
    apply FileSystem.get_congr
    rw [hn]; simp [h1, h2]
  have hlive : ∀ i, (G'.nodes i).isSome = (G.nodes i).isSome := by
    intro i
    rw [hn]
    by_cases h1 : i = a
    · subst h1; simp
    · by_cases h2 : i = x
      · subst h2; simp [h1]
      · simp [h1, h2]
  -- the records of the nodes other than `x`
  have hrec : ∀ i, i ≠ x → (G'.get i).pathname = (G.get i).pathname ∧
      (G'.get i).name_ptr = (G.get i).name_ptr ∧ (G'.get i).type = (G.get i).type ∧
      (G'.get i).parent = (G.get i).parent ∧
      (G'.get i).children = if i = a then (G.get i).children ++ [x] else (G.get i).children := by
    intro i hix
    by_cases hia : i = a
    · subst hia
      rw [hga]
      simp only [if_true]
      exact ⟨hap, han, hat, hapar, hac⟩
    · rw [hgo i hia hix]
      simp [hia]
  -- no mapped key has `p` as its parent path
  have hnokid : ∀ kc c, G.file_map.find kc = some c → nameStart kc ≠ 0 → parentPath kc ≠ p := by
    intro kc c hkc hns heq
    obtain ⟨pn, h1, -⟩ := (hG.link kc c hkc).sub hns
    rw [heq, hp] at h1
    simp at h1
  have hold : ∀ k id, k ≠ p → G'.file_map.find k = some id → G.file_map.find k = some id := by
    intro k id hk h
    rw [hmap] at h
    simpa [hk] using h
  have hnew : ∀ k id, G.file_map.find k = some id → G'.file_map.find k = some id := by
    intro k id h
    rw [hmap]
    have : k ≠ p := by rintro rfl; rw [hp] at h; simp at h
    simp [this, h]
  have hfx : G'.file_map.find p = some x := by rw [hmap]; simp
  have har : nameStart p ≠ 0 → a ≠ G.root_node := fun h0 heq =>
    hG.rootFree _ (heq ▸ (hsub h0).1)
  refine ⟨?_, ?_, ?_, ?_, ?_, ?_, ?_, ?_, ?_, ?_⟩
  · rw [hroot, hlive]; exact hG.rootLive
  · rw [hroot, (hrec _ (Ne.symm hxr)).2.2.1]; exact hG.rootType
  · rw [hroot, (hrec _ (Ne.symm hxr)).1]; exact hG.rootPath
  · intro k hk
    rw [hroot] at hk
    by_cases hkp : k = p
    · rw [hkp, hfx] at hk
      exact hxr (Option.some.inj hk)
    · exact hG.rootFree k (hold k _ hkp hk)
  · rw [hroot, (hrec _ (Ne.symm hxr)).2.2.2.2]
    by_cases hra : G.root_node = a
    · simp only [hra, if_true]
      rw [List.nodup_append]
      refine ⟨hra ▸ hG.rootNodup, by simp, ?_⟩
      intro c hc hc'
      simp only [List.mem_singleton] at hc'
      rw [hc', ← hra] at hc
      obtain ⟨kc, hkc, -⟩ := (hG.rootKids x).mp hc
      exact hxun kc hkc
    · simp only [hra, if_false]; exact hG.rootNodup
  · intro c
    rw [hroot, (hrec _ (Ne.symm hxr)).2.2.2.2]
    by_cases h0 : nameStart p = 0
    · have hra : G.root_node = a := (htop h0).symm
      simp only [hra, if_true, List.mem_append, List.mem_singleton]
      rw [← hra, hG.rootKids c]
      constructor
      · rintro (⟨kc, hkc, hns⟩ | hcx)
        · exact ⟨kc, hnew _ _ hkc, hns⟩
        · exact ⟨p, hcx ▸ hfx, h0⟩
      · rintro ⟨kc, hkc, hns⟩
        by_cases hkp : kc = p
        · rw [hkp, hfx] at hkc
          exact Or.inr (Option.some.inj hkc).symm
        · exact Or.inl ⟨kc, hold _ _ hkp hkc, hns⟩
    · have hra : G.root_node ≠ a := fun h => har h0 h.symm
      simp only [hra, if_false]
      rw [hG.rootKids c]
      constructor
      · rintro ⟨kc, hkc, hns⟩
        exact ⟨kc, hnew _ _ hkc, hns⟩
      · rintro ⟨kc, hkc, hns⟩
        have hkp : kc ≠ p := by rintro rfl; exact h0 hns
        exact ⟨kc, hold _ _ hkp hkc, hns⟩
  · intro i hi
    rw [hnext] at hi
    have := hG.fresh i hi
    have h1 := hlive i
    rw [this] at h1
    cases h : G'.nodes i with
    | none => rfl
    | some r => rw [h] at h1; simp at h1
  · -- the record of every mapped node
    intro k id hk
    by_cases hkp : k = p
    · rw [hkp] at hk ⊢
      rw [hfx] at hk
      have hid : x = id := Option.some.inj hk
      subst hid
      refine ⟨by rw [hlive]; exact hxl, by rw [hgx]; exact hpath, by rw [hgx]; exact hname,
        hgood, by rw [hgx]; exact hty, by rw [hgx]; simp [hxc], ?_, ?_⟩
      · intro c
        rw [hgx]
        simp only [hxc, List.not_mem_nil, false_iff]
        rintro ⟨kc, hkc, hns, hpp⟩
        have hkcp : kc ≠ p := by
          rintro rfl
          exact parentPath_ne _ hns hpp
        exact hnokid kc c (hold _ _ hkcp hkc) hns hpp
      · intro _; rw [hgx]; exact hxc
    · have hk0 := hold k id hkp hk
      have hN := hG.node k id hk0
      have hix : id ≠ x := by rintro rfl; exact hxun k hk0
      obtain ⟨r1, r2, r3, r4, r5⟩ := hrec id hix
      refine ⟨by rw [hlive]; exact hN.live, by rw [r1]; exact hN.path, by rw [r2]; exact hN.name,
        hN.good, by rw [r3]; exact hN.notRoot, ?_, ?_, ?_⟩
      · rw [r5]
        by_cases hia : id = a
        · simp only [hia, if_true]
          rw [List.nodup_append]
          refine ⟨hia ▸ hN.nodup, by simp, ?_⟩
          intro c hc hc'
          simp only [List.mem_singleton] at hc'
          rw [hc', ← hia] at hc
          obtain ⟨kc, hkc, -⟩ := (hN.kids x).mp hc
          exact hxun kc hkc
        · simp only [hia, if_false]; exact hN.nodup
      · intro c
        rw [r5]
        by_cases hia : id = a
        · have h0 : nameStart p ≠ 0 := by
            intro h0
            have := htop h0
            rw [← hia] at this
            exact hG.rootFree k (this ▸ hk0)
          have hkπ : k = parentPath p := hG.keyOK.inj hk0 (hia ▸ (hsub h0).1)
          simp only [hia, if_true, List.mem_append, List.mem_singleton]
          rw [← hia, hN.kids c]
          constructor
          · rintro (⟨kc, hkc, hns, hpp⟩ | hcx)
            · exact ⟨kc, hnew _ _ hkc, hns, hpp⟩
            · exact ⟨p, hcx ▸ hfx, h0, hkπ.symm⟩
          · rintro ⟨kc, hkc, hns, hpp⟩
            by_cases hkcp : kc = p
            · rw [hkcp, hfx] at hkc
              exact Or.inr (Option.some.inj hkc).symm
            · exact Or.inl ⟨kc, hold _ _ hkcp hkc, hns, hpp⟩
        · simp only [hia, if_false]
          rw [hN.kids c]
          constructor
          · rintro ⟨kc, hkc, hns, hpp⟩
            exact ⟨kc, hnew _ _ hkc, hns, hpp⟩
          · rintro ⟨kc, hkc, hns, hpp⟩
            have hkcp : kc ≠ p := by
              rintro rfl
              have := (hsub hns).1
              rw [hpp, hk0] at this
              exact hia (Option.some.inj this)
            exact ⟨kc, hold _ _ hkcp hkc, hns, hpp⟩
      · intro hnd
        rw [r3] at hnd
        have hcs := hN.leaf hnd
        rw [r5]
        have hia : id ≠ a := by
          rintro rfl
          by_cases h0 : nameStart p = 0
          · exact hG.rootFree k ((htop h0) ▸ hk0)
          · exact hnd (hsub h0).2
        simp only [hia, if_false]
        exact hcs
  · -- the parent link of every mapped node
    intro k id hk
    by_cases hkp : k = p
    · rw [hkp] at hk ⊢
      rw [hfx] at hk
      have hid : x = id := Option.some.inj hk
      subst hid
      refine ⟨?_, ?_⟩
      · intro h0; rw [hgx, hroot, htop h0]
      · intro h0
        refine ⟨a, hnew _ _ (hsub h0).1, ?_, by rw [hgx]⟩
        rw [(hrec a (Ne.symm hxa)).2.2.1]
        exact (hsub h0).2
    · have hk0 := hold k id hkp hk
      have hL := hG.link k id hk0
      have hix : id ≠ x := by rintro rfl; exact hxun k hk0
      obtain ⟨r1, r2, r3, r4, r5⟩ := hrec id hix
      refine ⟨?_, ?_⟩
      · intro h0; rw [r4, hroot]; exact hL.top h0
      · intro h0
        obtain ⟨pn, h1, h2, h3⟩ := hL.sub h0
        have hpx : pn ≠ x := by rintro rfl; exact hxun _ h1
        refine ⟨pn, hnew _ _ h1, ?_, by rw [r4]; exact h3⟩
        rw [(hrec pn hpx).2.2.1]; exact h2
  · intro i hil hir hiun
    have hix : i ≠ x := by rintro rfl; exact hiun p hfx
    rw [hlive] at hil
    rw [hroot] at hir
    have hiun0 : ∀ k, G.file_map.find k ≠ some i := fun k hk => hiun k (hnew _ _ hk)
    have hia : i ≠ a := by
      rintro rfl
      by_cases h0 : nameStart p = 0
      · exact hir (htop h0)
      · exact hiun0 _ (hsub h0).1
    rw [(hrec i hix).2.2.2.2]
    simp only [hia, if_false]
    exact hG.idle i hil hir hiun0

/-! ## The veiled view of a tree -/

theorem FileSystem.veil_find (fs : FileSystem) (H : Path → Bool) (W : Nat → Bool) (k : Path) :
    (fs.veil H W).file_map.find k = if H k = true then none else fs.file_map.find k := by
  show FileMap.find (fs.file_map.filter (fun e => !H e.1)) k = _
  rw [FileMap.find_filter fs.file_map (fun k => !H k) k]
  cases H k <;> simp

@[simp] theorem FileSystem.veil_nodes (fs : FileSystem) (H : Path → Bool) (W : Nat → Bool)
    (i : Nat) : (fs.veil H W).nodes i =
      if W i = true then (fs.nodes i).map (fun r => { r with children := [] }) else fs.nodes i :=
  rfl
@[simp] theorem FileSystem.veil_next (fs : FileSystem) (H : Path → Bool) (W : Nat → Bool) :
    (fs.veil H W).next = fs.next := rfl
@[simp] theorem FileSystem.veil_root (fs : FileSystem) (H : Path → Bool) (W : Nat → Bool) :
    (fs.veil H W).root_node = fs.root_node := rfl

theorem FileSystem.veil_live (fs : FileSystem) (H : Path → Bool) (W : Nat → Bool) (i : Nat) :
    ((fs.veil H W).nodes i).isSome = (fs.nodes i).isSome := by
  rw [FileSystem.veil_nodes]
  split <;> simp

theorem FileSystem.veil_get (fs : FileSystem) (H : Path → Bool) (W : Nat → Bool) (i : Nat) :
    ((fs.veil H W).get i).pathname = (fs.get i).pathname ∧
    ((fs.veil H W).get i).name_ptr = (fs.get i).name_ptr ∧
    ((fs.veil H W).get i).type = (fs.get i).type ∧
    ((fs.veil H W).get i).parent = (fs.get i).parent ∧
    ((fs.veil H W).get i).children = if W i = true then [] else (fs.get i).children := by
  unfold FileSystem.get
  rw [FileSystem.veil_nodes]
  cases hW : W i <;> cases hn : fs.nodes i <;> simp

/-- A tree without hidden keys and veiled nodes is its own view. -/
theorem FileSystem.veil_none (fs : FileSystem) :
    fs.veil (fun _ => false) (fun _ => false) = fs := by
  unfold FileSystem.veil
  simp

theorem FileSystem.veil_linkChild (fs : FileSystem) (H : Path → Bool) (W : Nat → Bool)
    (x a : Nat) (t : NodeType) (hxa : x ≠ a) (hWa : W a = false) (i : Nat) :
    ((fs.linkChild x a t).veil H W).nodes i = ((fs.veil H W).linkChild x a t).nodes i := by
  rw [FileSystem.veil_nodes, FileSystem.linkChild_nodes _ _ _ _ _ hxa,
    FileSystem.linkChild_nodes _ _ _ _ _ hxa, FileSystem.veil_nodes, FileSystem.veil_nodes,
    FileSystem.veil_nodes]
  by_cases hia : i = a
  · subst hia
    simp [hWa]
  · simp only [hia, if_false]
    by_cases hix : i = x
    · subst hix
      simp only [if_true]
      cases W i <;> cases fs.nodes i <;> simp
    · simp only [hix, if_false, hWa]

/-! ## Records that stay as they are -/

theorem NodeOK.carry {G G2 : FileSystem} {k : Path} {id : Nat} (hN : NodeOK G k id)
    (hfind : ∀ k, G2.file_map.find k = G.file_map.find k)
    (hrec : G2.nodes id = G.nodes id) : NodeOK G2 k id := by
  have hg : G2.get id = G.get id := FileSystem.get_congr hrec
  refine ⟨by rw [hrec]; exact hN.live, by rw [hg]; exact hN.path, by rw [hg]; exact hN.name,
    hN.good, by rw [hg]; exact hN.notRoot, by rw [hg]; exact hN.nodup, ?_,
    by rw [hg]; exact hN.leaf⟩
  intro c
  rw [hg, hN.kids c]
  simp only [hfind]

theorem LinkOK.carry_link {G G2 : FileSystem} {k : Path} {id : Nat} (hL : LinkOK G k id)
    (hfind : ∀ k, G2.file_map.find k = G.file_map.find k)
    (hrec : (G2.get id).parent = (G.get id).parent)
    (hpar : ∀ pn, G.file_map.find (parentPath k) = some pn → (G2.get pn).type = (G.get pn).type)
    (hroot : G2.root_node = G.root_node) : LinkOK G2 k id := by
  refine ⟨?_, ?_⟩
  · intro h0; rw [hrec, hroot]; exact hL.top h0
  · intro h0
    obtain ⟨pn, h1, h2, h3⟩ := hL.sub h0
    exact ⟨pn, by rw [hfind]; exact h1, by rw [hpar pn h1]; exact h2, by rw [hrec]; exact h3⟩

/-- Allocating a node without children keeps the tree in order. -/
theorem alloc_wf {G G2 : FileSystem} {r : FileNode} (hG : WF G)
    (hfind : ∀ k, G2.file_map.find k = G.file_map.find k)
    (hnodes : ∀ i, G2.nodes i = if i = G.next then some r else G.nodes i)
    (hr : r.children = []) (hnext : G2.next = G.next + 1)
    (hroot : G2.root_node = G.root_node) : WF G2 := by
  have hne : ∀ i, (G.nodes i).isSome → i ≠ G.next := by
    rintro i hi rfl
    rw [hG.fresh _ (le_refl _)] at hi
    simp at hi
  have hsame : ∀ i, (G.nodes i).isSome → G2.nodes i = G.nodes i := by
    intro i hi
    rw [hnodes]; simp [hne i hi]
  have hgr : G2.get G.root_node = G.get G.root_node := FileSystem.get_congr (hsame _ hG.rootLive)
  refine ⟨?_, ?_, ?_, ?_, ?_, ?_, ?_, ?_, ?_, ?_⟩
  · rw [hroot, hsame _ hG.rootLive]; exact hG.rootLive
  · rw [hroot, hgr]; exact hG.rootType
  · rw [hroot, hgr]; exact hG.rootPath
  · intro k; rw [hroot, hfind]; exact hG.rootFree k
  · rw [hroot, hgr]; exact hG.rootNodup
  · intro c; rw [hroot, hgr, hG.rootKids c]; simp only [hfind]
  · intro i hi
    rw [hnext] at hi
    rw [hnodes]
    have : i ≠ G.next := by omega
    simp only [this, if_false]
    exact hG.fresh i (by omega)
  · intro k id hk
    rw [hfind] at hk
    have hN := hG.node k id hk
    exact hN.carry hfind (hsame _ hN.live)
  · intro k id hk
    rw [hfind] at hk
    have hN := hG.node k id hk
    refine (hG.link k id hk).carry_link hfind ?_ ?_ hroot
    · rw [FileSystem.get_congr (hsame _ hN.live)]
    · intro pn hpn
      rw [FileSystem.get_congr (hsame _ (hG.node _ _ hpn).live)]
  · intro i hil hir hiun
    by_cases hi : i = G.next
    · have := hnodes i
      simp only [hi, if_true] at this
      rw [hi, FileSystem.get_of_some this]; exact hr
    · have hn := hnodes i
      simp only [hi, if_false] at hn
      rw [FileSystem.get_congr hn]
      rw [hn] at hil
      rw [hroot] at hir
      exact hG.idle i hil hir (fun k hk => hiun k (by rw [hfind]; exact hk))

/-- The core of the correctness of `append`: in the view that hides the keys
`H` of the nodes still waiting to be linked, and the children of the nodes
`W`, the tree stays in order, provided no node above the path is a file. -/
theorem append_wf (env : Env) : ∀ (fuel : Nat) (fs : FileSystem) (x : Nat) (p : Path)
    (H : Path → Bool) (W : Nat → Bool),
    WF (fs.veil H W) →
    (∀ k, H k = true → k ≠ p ∧ ¬ below k p) →
    (∀ i, W i = true → (fs.nodes i).isSome ∧ i ≠ fs.root_node ∧
      ∀ k, below k p → fs.file_map.find k ≠ some i) →
    (fs.get x).pathname = some p → (fs.get x).name_ptr = nameStart p → GoodPath p →
    (fs.get x).type ≠ NodeType.ROOT_NODE → (fs.nodes x).isSome → x ≠ fs.root_node →
    fs.file_map.find p = none → (∀ k, fs.file_map.find k ≠ some x) →
    (∀ k v, fs.file_map.find k = some v → (fs.nodes v).isSome) →
    (∀ k d, below k p → fs.file_map.find k = some d → (fs.get d).type = NodeType.DIR_NODE) →
    p.length < fuel →
    ∀ fs', FileSystem.appendAux env fuel fs x = some (Outcome.done fs') → WF (fs'.veil H W) := by
  intro fuel
  induction fuel with
  | zero => intro fs x p _ _ _ _ _ _ _ _ _ _ _ _ _ _ hf; omega
  | succ fuel ih =>
    intro fs x p H W hwf hH hW hpath hname hgood hty hxl hxr hfp hxun hmap hdir hfuel fs' hrun
    have hf1 : ∀ k, (FileMap.insertSorted p x fs.file_map).find k =
        if k = p then some x else fs.file_map.find k :=
      fun k => FileMap.find_insertSorted _ _ _ _ hfp
    have hfresh : ∀ i, fs.next ≤ i → fs.nodes i = none := by
      intro i hi
      have h1 := hwf.fresh i hi
      have h2 := fs.veil_live H W i
      rw [h1] at h2
      cases h : fs.nodes i with
      | none => rfl
      | some r => rw [h] at h2; simp at h2
    have hrl : (fs.nodes fs.root_node).isSome := by
      have := hwf.rootLive
      rw [FileSystem.veil_live] at this
      exact this
    have hHp : H p = false := by
      cases h : H p with
      | false => rfl
      | true => exact absurd rfl (hH p h).1
    have hWr : W fs.root_node = false := by
      cases h : W fs.root_node with
      | false => rfl
      | true => exact absurd rfl (hW _ h).2.1
    obtain ⟨vx1, vx2, vx3, -, -⟩ := fs.veil_get H W x
    -- the hypotheses of `link_wf` that are the same in the two cases without recursion
    have base : ∀ a, (nameStart p = 0 → a = fs.root_node) →
        (nameStart p ≠ 0 → fs.file_map.find (parentPath p) = some a) → W a = false → x ≠ a →
        WF (({ fs with file_map := FileMap.insertSorted p x fs.file_map }.linkChild x a
          (fs.get x).type).veil H W) := by
      intro a hat has hWa hxa
      refine link_wf (G := fs.veil H W) (x := x) (a := a) (p := p) (t := (fs.get x).type) hwf
        ?_ ?_ ?_ hxr ?_ ?_ hgood ?_ hat ?_ ?_ ?_ rfl rfl
      · rw [FileSystem.veil_find, hfp]; simp
      · rw [FileSystem.veil_live]; exact hxl
      · intro k hk
        rw [FileSystem.veil_find] at hk
        split at hk
        · simp at hk
        · exact hxun k hk
      · rw [vx1]; exact hpath
      · rw [vx2]; exact hname
      · rw [vx3]; exact hty
      · intro h0
        have hb := below_of_parent_eq p h0
        have hHπ : H (parentPath p) = false := by
          cases h : H (parentPath p) with
          | false => rfl
          | true => exact absurd hb (hH _ h).2
        refine ⟨?_, ?_⟩
        · rw [FileSystem.veil_find, hHπ]; simpa using has h0
        · rw [(fs.veil_get H W a).2.2.1]
          exact hdir _ _ hb (has h0)
      · intro k
        rw [FileSystem.veil_find, FileSystem.veil_find]
        show (if H k = true then none else
          (FileMap.insertSorted p x fs.file_map).find k) = _
        rw [hf1]
        by_cases hkp : k = p
        · simp [hkp, hHp]
        · simp [hkp]
      · intro i
        exact FileSystem.veil_linkChild _ H W x a _ hxa hWa i
    unfold FileSystem.appendAux at hrun
    simp only [hpath, FileMap.find_insert_none _ _ _ hfp, hname] at hrun
    by_cases h0 : nameStart p = 0
    · simp only [h0, if_true, Option.some.injEq, Outcome.done.injEq] at hrun
      rw [← hrun]
      exact base fs.root_node (fun _ => rfl) (fun h => absurd h0 h) hWr hxr
    · simp only [h0, if_false] at hrun
      have hpp : List.take (nameStart p - 1) p = parentPath p := rfl
      rw [hpp] at hrun
      by_cases hov : env.PATH_MAX < (parentPath p).length + 1
      · rw [if_pos hov] at hrun
        exact absurd hrun (by simp)
      rw [if_neg hov] at hrun
      have hfitπ : nameStart (parentPath p) ≤ env.PATH_MAX := by
        have := nameStart_le_succ (parentPath p)
        omega
      have hπne := parentPath_ne p h0
      have hπlt := parentPath_length_lt p h0
      have hπb := below_of_parent_eq p h0
      have hfπ : (FileMap.insertSorted p x fs.file_map).find (parentPath p) =
          fs.file_map.find (parentPath p) := by
        rw [hf1]; simp [hπne]
      simp only [FileSystem.find, hfπ] at hrun
      cases hπ : fs.file_map.find (parentPath p) with
      | some a =>
        rw [hπ] at hrun
        simp only [Option.some.injEq, Outcome.done.injEq] at hrun
        rw [← hrun]
        have hxa : x ≠ a := by rintro rfl; exact hxun _ hπ
        have hWa : W a = false := by
          cases h : W a with
          | false => rfl
          | true => exact absurd hπ ((hW _ h).2.2 _ hπb)
        exact base a (fun h => absurd h h0) (fun _ => hπ) hWa hxa
      | none =>
        rw [hπ] at hrun
        simp only at hrun
        have hdl : (fs.nodes fs.next) = none := hfresh _ (le_refl _)
        have hdx : fs.next ≠ x := by rintro h; rw [h] at hdl; rw [hdl] at hxl; simp at hxl
        have hxd : x ≠ fs.next := Ne.symm hdx
        have hdr : fs.next ≠ fs.root_node := by
          rintro h; rw [h] at hdl; rw [hdl] at hrl; simp at hrl
        have hWd : W fs.next = false := by
          cases h : W fs.next with
          | false => rfl
          | true =>
            have := (hW _ h).1
            rw [hdl] at this; simp at this
        -- the facts about the tree in which the recursive call starts
        have q1 : (({ fs with file_map := FileMap.insertSorted p x fs.file_map }.alloc
            (FileNode.new env (some (parentPath p)) none NodeType.DIR_NODE)).2.get fs.next) =
            FileNode.new env (some (parentPath p)) none NodeType.DIR_NODE := by
          simp [FileSystem.alloc, FileSystem.get]
        obtain ⟨nd1, nd2, nd3, nd4⟩ := FileNode.new_dir env (parentPath p)
        have q3 : ({ fs with file_map := FileMap.insertSorted p x fs.file_map }.alloc
            (FileNode.new env (some (parentPath p)) none NodeType.DIR_NODE)).2.file_map.find
            (parentPath p) = none := by
          show (FileMap.insertSorted p x fs.file_map).find _ = none; rw [hfπ, hπ]
        have q4 : ∀ k, ({ fs with file_map := FileMap.insertSorted p x fs.file_map }.alloc
            (FileNode.new env (some (parentPath p)) none NodeType.DIR_NODE)).2.file_map.find k ≠
            some fs.next := by
          intro k hk
          have hk' : (FileMap.insertSorted p x fs.file_map).find k = some fs.next := hk
          rw [hf1] at hk'
          by_cases hkp : k = p
          · simp only [hkp, if_true] at hk'
            exact hdx (Option.some.inj hk').symm
          · simp only [hkp, if_false] at hk'
            have := hmap _ _ hk'
            rw [hdl] at this
            simp at this
        have q5 : (({ fs with file_map := FileMap.insertSorted p x fs.file_map }.alloc
            (FileNode.new env (some (parentPath p)) none NodeType.DIR_NODE)).2.nodes
            fs.next).isSome := by simp [FileSystem.alloc]
        have q6 : ∀ k v, ({ fs with file_map := FileMap.insertSorted p x fs.file_map }.alloc
            (FileNode.new env (some (parentPath p)) none NodeType.DIR_NODE)).2.file_map.find k =
            some v → (({ fs with file_map := FileMap.insertSorted p x fs.file_map }.alloc
            (FileNode.new env (some (parentPath p)) none NodeType.DIR_NODE)).2.nodes v).isSome := by
          intro k v hk
          have hk' : (FileMap.insertSorted p x fs.file_map).find k = some v := hk
          rw [hf1] at hk'
          show (if v = fs.next then _ else fs.nodes v).isSome
          by_cases hv : v = fs.next
          · simp [hv]
          · simp only [hv, if_false]
            by_cases hkp : k = p
            · simp only [hkp, if_true] at hk'
              rw [← Option.some.inj hk']; exact hxl
            · simp only [hkp, if_false] at hk'
              exact hmap _ _ hk'
        have q7 : ∀ i, ({ fs with file_map := FileMap.insertSorted p x fs.file_map }.alloc
            (FileNode.new env (some (parentPath p)) none NodeType.DIR_NODE)).2.next ≤ i →
            ({ fs with file_map := FileMap.insertSorted p x fs.file_map }.alloc
            (FileNode.new env (some (parentPath p)) none NodeType.DIR_NODE)).2.nodes i = none := by
          intro i hi
          show (if i = fs.next then _ else fs.nodes i) = none
          have h1 : fs.next + 1 ≤ i := hi
          have : i ≠ fs.next := by omega
          simp only [this, if_false]
          exact hfresh i (by omega)
        have q8 : (({ fs with file_map := FileMap.insertSorted p x fs.file_map }.alloc
            (FileNode.new env (some (parentPath p)) none NodeType.DIR_NODE)).2.nodes
            fs.root_node).isSome := by
          show (if fs.root_node = fs.next then _ else fs.nodes fs.root_node).isSome
          simp only [Ne.symm hdr, if_false]
          exact hrl
        obtain ⟨fs2, hrun2, hF⟩ := append_frame env fuel _ fs.next (parentPath p)
          (by rw [q1]; exact nd1) (by rw [q1]; exact nd2) q3 q4 q5 q6 q7 q8 hdr hfitπ (by omega)
        simp only [FileSystem.alloc] at hrun2 hrun
        rw [hrun2] at hrun
        simp only [Option.some.injEq, Outcome.done.injEq] at hrun
        rw [← hrun]
        -- the view in which the recursive call keeps the tree in order
        have hwf2 : WF (fs2.veil (fun k => H k || decide (k = p)) W) := by
          refine ih _ fs.next (parentPath p) (fun k => H k || decide (k = p)) W ?_ ?_ ?_
            (by rw [q1]; exact nd1) (by rw [q1]; exact nd2) (goodPath_parent p hgood h0)
            (by rw [q1, nd3]; decide) q5 hdr q3 q4 q6 ?_ (by omega) fs2 hrun2
          · refine alloc_wf (G := fs.veil H W)
              (r := FileNode.new env (some (parentPath p)) none NodeType.DIR_NODE) hwf ?_ ?_ nd4
              rfl rfl
            · intro k
              rw [FileSystem.veil_find, FileSystem.veil_find]
              show (if (H k || decide (k = p)) = true then none else
                (FileMap.insertSorted p x fs.file_map).find k) = _
              rw [hf1]
              by_cases hkp : k = p
              · simp [hkp, hfp]
              · simp [hkp]
            · intro i
              rw [FileSystem.veil_nodes, FileSystem.veil_nodes, FileSystem.veil_next]
              show (if W i = true then Option.map _ (if i = fs.next then _ else fs.nodes i)
                else (if i = fs.next then _ else fs.nodes i)) = _
              by_cases hi : i = fs.next
              · subst hi; simp [hWd]
              · simp [hi]
          · intro k hk
            simp only [Bool.or_eq_true, decide_eq_true_eq] at hk
            rcases hk with hk | hk
            · obtain ⟨h1, h2⟩ := hH k hk
              refine ⟨?_, fun hb => h2 (below_trans hb hπb)⟩
              rintro rfl
              exact h2 hπb
            · rw [hk]
              refine ⟨fun h => hπne h.symm, fun hb => ?_⟩
              have := below_length _ _ hb
              omega
          · intro i hi
            obtain ⟨h1, h2, h3⟩ := hW i hi
            refine ⟨?_, h2, ?_⟩
            · show (if i = fs.next then _ else fs.nodes i).isSome
              have : i ≠ fs.next := by rintro rfl; rw [hdl] at h1; simp at h1
              simp only [this, if_false]; exact h1
            · intro k hb hk
              have hk' : (FileMap.insertSorted p x fs.file_map).find k = some i := hk
              rw [hf1] at hk'
              have hkp : k ≠ p := by
                rintro rfl
                have := below_length _ _ hb
                omega
              simp only [hkp, if_false] at hk'
              exact h3 k (below_trans hb hπb) hk'
          · intro k d hb hk
            have hk' : (FileMap.insertSorted p x fs.file_map).find k = some d := hk
            rw [hf1] at hk'
            have hkp : k ≠ p := by
              rintro rfl
              have := below_length _ _ hb
              omega
            simp only [hkp, if_false] at hk'
            have hdl' := hmap _ _ hk'
            have hdn : d ≠ fs.next := by rintro rfl; rw [hdl] at hdl'; simp at hdl'
            have : ({ fs with file_map := FileMap.insertSorted p x fs.file_map }.alloc
              (FileNode.new env (some (parentPath p)) none NodeType.DIR_NODE)).2.nodes d =
              fs.nodes d := by
              show (if d = fs.next then _ else fs.nodes d) = _
              simp [hdn]
            rw [FileSystem.get_congr this]
            exact hdir k d (below_trans hb hπb) hk'
        -- the record of `x` is not touched by the recursive call
        have hx2 : fs2.nodes x = fs.nodes x := by
          have hxl1 : (({ fs with file_map := FileMap.insertSorted p x fs.file_map }.alloc
            (FileNode.new env (some (parentPath p)) none NodeType.DIR_NODE)).2.nodes x).isSome := by
            show (if x = fs.next then _ else fs.nodes x).isSome
            simp only [hxd, if_false]; exact hxl
          rcases hF.other x hxl1 hxd with h | ⟨hr, -⟩
          · rw [h]
            show (if x = fs.next then _ else fs.nodes x) = _
            simp only [hxd, if_false]
          · exfalso
            rcases hr with hr | ⟨k, hb, hk⟩
            · exact hxr hr
            · have hk' : (FileMap.insertSorted p x fs.file_map).find k = some x := hk
              rw [hf1] at hk'
              by_cases hkp : k = p
              · rw [hkp] at hb
                have := below_length _ _ hb
                omega
              · simp only [hkp, if_false] at hk'
                exact hxun k hk'
        have hgx2 : fs2.get x = fs.get x := FileSystem.get_congr hx2
        obtain ⟨a', hd2, -, -⟩ := hF.xrec
        rw [q1] at hd2
        obtain ⟨wx1, wx2, wx3, -, -⟩ := fs2.veil_get (fun k => H k || decide (k = p)) W x
        have hHπ : H (parentPath p) = false := by
          cases h : H (parentPath p) with
          | false => rfl
          | true => exact absurd hπb (hH _ h).2
        have hfx2 : fs2.file_map.find p = some x := by
          apply hF.old
          show (FileMap.insertSorted p x fs.file_map).find p = some x
          simp [hf1]
        refine link_wf (G := fs2.veil (fun k => H k || decide (k = p)) W) (x := x)
          (a := fs.next) (p := p) (t := (fs.get x).type) hwf2 ?_ ?_ ?_ ?_ ?_ ?_ hgood ?_
          (fun h => absurd h h0) ?_ ?_ ?_ rfl rfl
        · rw [FileSystem.veil_find]; simp
        · rw [FileSystem.veil_live, hx2]; exact hxl
        · intro k hk
          rw [FileSystem.veil_find] at hk
          by_cases hHk : (H k || decide (k = p)) = true
          · simp [hHk] at hk
          · simp only [hHk, if_false] at hk
            simp only [Bool.or_eq_true, decide_eq_true_eq, not_or] at hHk
            rcases hF.cls k x hk with ⟨-, h⟩ | h | ⟨-, -, -, h, -⟩
            · exact hxd h
            · have h' : (FileMap.insertSorted p x fs.file_map).find k = some x := h
              rw [hf1] at h'
              simp only [hHk.2, if_false] at h'
              exact hxun k h'
            · have h4 : fs.next + 1 ≤ x := h
              have := hfresh x (by omega)
              rw [this] at hxl; simp at hxl
        · show x ≠ fs2.root_node
          rw [hF.root]; exact hxr
        · rw [wx1, hgx2]; exact hpath
        · rw [wx2, hgx2]; exact hname
        · rw [wx3, hgx2]; exact hty
        · intro _
          refine ⟨?_, ?_⟩
          · rw [FileSystem.veil_find]
            simp only [hHπ, Bool.false_or, decide_eq_true_eq, hπne, if_false]
            exact hF.findx
          · rw [(fs2.veil_get _ W fs.next).2.2.1, FileSystem.get_of_some hd2]
            exact nd3
        · intro k
          rw [FileSystem.veil_find, FileSystem.veil_find]
          simp only [FileSystem.linkChild_file_map]
          by_cases hkp : k = p
          · simp [hkp, hHp, hfx2]
          · simp [hkp]
        · intro i
          exact FileSystem.veil_linkChild _ H W x fs.next _ hxd hWd i

/-! ## The operations that build the tree keep it in order -/

/-- The invariant reads the map only through `find`, and of the store only the
records. -/
theorem WF.congr {G G2 : FileSystem} (hG : WF G)
    (hfind : ∀ k, G2.file_map.find k = G.file_map.find k)
    (hnodes : ∀ i, G2.nodes i = G.nodes i) (hnext : G.next ≤ G2.next)
    (hroot : G2.root_node = G.root_node) : WF G2 := by
  have hg : ∀ i, G2.get i = G.get i := fun i => FileSystem.get_congr (hnodes i)
  refine ⟨?_, ?_, ?_, ?_, ?_, ?_, ?_, ?_, ?_, ?_⟩
  · rw [hroot, hnodes]; exact hG.rootLive
  · rw [hroot, hg]; exact hG.rootType
  · rw [hroot, hg]; exact hG.rootPath
  · intro k; rw [hroot, hfind]; exact hG.rootFree k
  · rw [hroot, hg]; exact hG.rootNodup
  · intro c; rw [hroot, hg, hG.rootKids c]; simp only [hfind]
  · intro i hi; rw [hnodes]; exact hG.fresh i (by omega)
  · intro k id hk
    rw [hfind] at hk
    exact (hG.node k id hk).carry hfind (hnodes id)
  · intro k id hk
    rw [hfind] at hk
    exact (hG.link k id hk).carry_link hfind (by rw [hg]) (fun pn _ => by rw [hg]) hroot
  · intro i hil hir hiun
    rw [hg]
    rw [hnodes] at hil
    rw [hroot] at hir
    exact hG.idle i hil hir (fun k hk => hiun k (by rw [hfind]; exact hk))

theorem DirsAbove.at_find {fs : FileSystem} {p k : Path} {d : Nat} (h : DirsAbove fs p)
    (hb : below k p) (hk : fs.file_map.find k = some d) :
    (fs.get d).type = NodeType.DIR_NODE :=
  h (k, d) (FileMap.mem_of_find _ _ _ hk) hb

/-- The tree the constructor leaves is in order. -/
theorem WF.empty (env : Env) (ws : Bool) (driver : ArchiveDriver) :
    WF (FileSystem.empty env ws driver) := by
  have hf : ∀ k, (FileSystem.empty env ws driver).file_map.find k = none := fun k => rfl
  have hg0 : (FileSystem.empty env ws driver).get 0 =
      FileNode.new env none none NodeType.ROOT_NODE := rfl
  refine ⟨rfl, ?_, ?_, ?_, ?_, ?_, ?_, ?_, ?_, ?_⟩
  · show ((FileSystem.empty env ws driver).get 0).type = _
    rw [hg0]; rfl
  · show ((FileSystem.empty env ws driver).get 0).pathname = _
    rw [hg0]; rfl
  · intro k hk; rw [hf] at hk; simp at hk
  · show ((FileSystem.empty env ws driver).get 0).children.Nodup
    rw [hg0]; simp [FileNode.new]
  · intro c
    show c ∈ ((FileSystem.empty env ws driver).get 0).children ↔ _
    rw [hg0]
    simp [FileNode.new, hf]
  · intro i hi
    show (if i = 0 then _ else none) = none
    have h1 : 1 ≤ i := hi
    have : i ≠ 0 := by omega
    simp [this]
  · intro k id hk; rw [hf] at hk; simp at hk
  · intro k id hk; rw [hf] at hk; simp at hk
  · intro i hil hir _
    have hi : i ≠ 0 := hir
    have : (FileSystem.empty env ws driver).nodes i = none := by
      show (if i = 0 then _ else none) = none
      simp [hi]
    rw [this] at hil
    simp at hil

/-- The expression `new FileNode(...)` keeps the tree in order. -/
theorem WF.alloc {fs : FileSystem} (h : WF fs) (r : FileNode) (hr : r.children = []) :
    WF (fs.alloc r).2 :=
  alloc_wf h (fun _ => rfl) (fun _ => rfl) hr rfl rfl

/-- `append` of a node that is not in the map, at a good path below directories
only, keeps the tree in order. -/
theorem WF.append (env : Env) {fs fs' : FileSystem} (h : WF fs) {x : Nat} {p : Path}
    (hpath : (fs.get x).pathname = some p) (hname : (fs.get x).name_ptr = nameStart p)
    (hgood : GoodPath p) (hty : (fs.get x).type ≠ NodeType.ROOT_NODE)
    (hxl : (fs.nodes x).isSome) (hxr : x ≠ fs.root_node)
    (hfree : fs.file_map.find p = none) (hxun : ∀ k, fs.file_map.find k ≠ some x)
    (hdir : DirsAbove fs p) (hrun : fs.append env x = some (Outcome.done fs')) : WF fs' := by
  have h0 : WF (fs.veil (fun _ => false) (fun _ => false)) := by
    rw [FileSystem.veil_none]; exact h
  have := append_wf env (p.length + 1) fs x p (fun _ => false) (fun _ => false) h0
    (by intro k hk; simp at hk) (by intro i hi; simp at hi) hpath hname hgood hty hxl hxr
    hfree hxun (fun k v hk => (h.node k v hk).live) (fun k d hb hk => hdir.at_find hb hk)
    (by omega) fs'
    (by
      have hr := hrun
      unfold FileSystem.append at hr
      rw [hpath] at hr
      exact hr)
  rw [FileSystem.veil_none] at this
  exact this

/-- `append` of a node whose path is mapped ends with `AlreadyExists` carrying
the mapped node, the tree untouched. -/
theorem append_exists (env : Env) (fs : FileSystem) (x e : Nat) (p : Path)
    (hpath : (fs.get x).pathname = some p) (hfind : fs.file_map.find p = some e) :
    fs.append env x = some (Outcome.AlreadyExists e fs) := by
  unfold FileSystem.append
  rw [hpath]
  show FileSystem.appendAux env (p.length + 1) fs x = _
  unfold FileSystem.appendAux
  simp only [hpath, FileMap.find_insert_some _ _ _ _ hfind]

/-- The statements shared by `mknod`, `create` and `mkdir`, on a record `r`
made for the good path `p`: they return, and keep the tree in order. -/
theorem appendNew_wf (env : Env) {fs : FileSystem} (h : WF fs) (r : FileNode) (p : Path)
    (hrp : r.pathname = some p) (hrn : r.name_ptr = nameStart p)
    (hrt : r.type ≠ NodeType.ROOT_NODE) (hrc : r.children = []) (hgood : GoodPath p)
    (hdir : DirsAbove fs p) (hfit : nameStart p ≤ env.PATH_MAX) :
    ∃ e fs', (fs.alloc r).2.appendNew env (fs.alloc r).1 = some (e, fs') ∧ WF fs' ∧
      fs'.write_support = fs.write_support ∧
      (fs.file_map.find p = none → e = 0 ∧ fs'.file_map.find p = some fs.next ∧
        fs'.nodes fs.next = (some { r with parent := (fs'.get fs.next).parent }) ∧
        ∀ k v, fs.file_map.find k = some v → fs'.file_map.find k = some v) := by
  have hwa := h.alloc r hrc
  have hga : (fs.alloc r).2.get fs.next = r := by simp [FileSystem.alloc, FileSystem.get]
  have hdl : fs.nodes fs.next = none := h.fresh _ (le_refl _)
  have hxr : fs.next ≠ fs.root_node := by
    rintro heq
    have := h.rootLive
    rw [← heq, hdl] at this
    simp at this
  unfold FileSystem.appendNew
  show ∃ e fs', (match (fs.alloc r).2.append env fs.next with
    | none => none
    | some (Outcome.AlreadyExists _ fs1) => some (EEXIST, fs1.delete fs.next)
    | some (Outcome.done fs1) => some (0, { fs1 with changed := true })) = some (e, fs') ∧ _
  cases hf : fs.file_map.find p with
  | some e =>
    rw [append_exists env (fs.alloc r).2 fs.next e p (by rw [hga]; exact hrp) hf]
    refine ⟨EEXIST, _, rfl, ?_, rfl, fun h => by simp at h⟩
    refine h.congr (fun _ => rfl) ?_ (Nat.le_succ _) rfl
    intro i
    show (if i = fs.next then none else (if i = fs.next then some r else fs.nodes i)) = _
    by_cases hi : i = fs.next
    · simp [hi, hdl]
    · simp [hi]
  | none =>
    obtain ⟨fs1, hrun, hF⟩ := append_total env hwa (x := fs.next) (p := p)
      (by rw [hga]; exact hrp) (by rw [hga]; exact hrn) hf hfit
    rw [hrun]
    have hw1 : WF fs1 := by
      refine WF.append env hwa (x := fs.next) (p := p) (by rw [hga]; exact hrp)
        (by rw [hga]; exact hrn) hgood (by rw [hga]; exact hrt)
        (by simp [FileSystem.alloc]) hxr hf ?_ ?_ hrun
      · intro k hk
        have hk' : fs.file_map.find k = some fs.next := hk
        have := (h.node _ _ hk').live
        rw [hdl] at this
        simp at this
      · intro e he hb
        have ht := hdir e he hb
        have hl : (fs.nodes e.2).isSome := FileSystem.live_of_type ht
        have hdn : e.2 ≠ fs.next := by rintro heq; rw [heq, hdl] at hl; simp at hl
        have : (fs.alloc r).2.nodes e.2 = fs.nodes e.2 := by
          show (if e.2 = fs.next then _ else fs.nodes e.2) = _
          simp [hdn]
        rw [FileSystem.get_congr this]
        exact ht
    refine ⟨0, _, rfl, hw1.congr (fun _ => rfl) (fun _ => rfl) (le_refl _) rfl, hF.ws, fun _ => ?_⟩
    refine ⟨rfl, hF.findx, ?_, fun k v hk => hF.old k v hk⟩
    obtain ⟨a, ha, -⟩ := hF.xrec
    show fs1.nodes fs.next = some { r with parent := (fs1.get fs.next).parent }
    rw [FileSystem.get_of_some ha, ha, hga]

/-- `mknod` at a good path below directories only returns and keeps the tree
in order. -/
theorem mknod_wf (env : Env) {fs : FileSystem} (h : WF fs) (path : Path) (mode : Nat)
    (hgood : GoodPath path) (hdir : DirsAbove fs path)
    (hfit : nameStart path ≤ env.PATH_MAX) :
    ∃ e fs', fs.mknod env path mode = some (e, fs') ∧ WF fs' ∧
      fs'.write_support = fs.write_support := by
  unfold FileSystem.mknod
  by_cases hws : fs.write_support = false
  · rw [if_pos hws]
    exact ⟨_, _, rfl, h, rfl⟩
  · rw [if_neg hws]
    obtain ⟨e, fs', h1, h2, h3, -⟩ := appendNew_wf env h
      { FileNode.new env (some path) none NodeType.FILE_NODE with
        buffer := some (Buffer.new env.MEM_LIMIT 0)
        file_info := { (FileNode.new env (some path) none NodeType.FILE_NODE).file_info with
          st_mode := mode ||| S_IFREG }
        changed := true } path rfl rfl (by simp [FileNode.new]) rfl hgood hdir hfit
    exact ⟨e, fs', h1, h2, h3⟩

/-- `create` at a good path below directories only returns and keeps the tree
in order. -/
theorem create_wf (env : Env) {fs : FileSystem} (h : WF fs) (path : Path) (mode : Nat)
    (hgood : GoodPath path) (hdir : DirsAbove fs path)
    (hfit : nameStart path ≤ env.PATH_MAX) :
    ∃ e fs' nn, fs.create env path mode = some (e, fs', nn) ∧ WF fs' ∧
      fs'.write_support = fs.write_support := by
  unfold FileSystem.create
  by_cases hws : fs.write_support = false
  · rw [if_pos hws]
    exact ⟨_, _, _, rfl, h, rfl⟩
  · rw [if_neg hws]
    obtain ⟨e, fs', h1, h2, h3, -⟩ := appendNew_wf env h
      { FileNode.new env (some path) none NodeType.FILE_NODE with
        buffer := some (Buffer.new env.MEM_LIMIT 0)
        file_info := { (FileNode.new env (some path) none NodeType.FILE_NODE).file_info with
          st_mode := mode ||| S_IFREG }
        ref_cnt := 1
        changed := true } path rfl rfl (by simp [FileNode.new]) rfl hgood hdir hfit
    refine ⟨e, fs', some fs.next, ?_, h2, h3⟩
    show Option.map _ _ = _
    rw [h1]
    rfl

/-- `mkdir` at a good path below directories only returns and keeps the tree
in order. -/
theorem mkdir_wf (env : Env) {fs : FileSystem} (h : WF fs) (path : Path) (mode : Nat)
    (hgood : GoodPath path) (hdir : DirsAbove fs path)
    (hfit : nameStart path ≤ env.PATH_MAX) :
    ∃ e fs', fs.mkdir env path mode = some (e, fs') ∧ WF fs' ∧
      fs'.write_support = fs.write_support := by
  unfold FileSystem.mkdir
  by_cases hws : fs.write_support = false
  · rw [if_pos hws]
    exact ⟨_, _, rfl, h, rfl⟩
  · rw [if_neg hws]
    obtain ⟨e, fs', h1, h2, h3, -⟩ := appendNew_wf env h
      { FileNode.new env (some path) none NodeType.DIR_NODE with
        file_info := { (FileNode.new env (some path) none NodeType.DIR_NODE).file_info with
          st_mode := mode ||| S_IFDIR }
        changed := true } path rfl rfl (by simp [FileNode.new]) rfl hgood hdir hfit
    exact ⟨e, fs', h1, h2, h3⟩

/-! ## The trees of the examples are in order -/

theorem oneDir_wf : WF oneDir := by
  obtain ⟨e, f, h1, hw, -⟩ := mkdir_wf sampleEnv (WF.empty sampleEnv true idleDriver)
    "a".toList 0o755 (by decide) (by decide) (by decide)
  unfold oneDir emptyTree
  rw [h1]
  exact hw

theorem dirWithFile_wf : WF dirWithFile := by
  obtain ⟨e, f, h1, hw, -⟩ := mknod_wf sampleEnv oneDir_wf "a/b".toList 0o644
    (by decide) (by decide) (by decide)
  unfold dirWithFile
  rw [h1]
  exact hw

theorem looseNode_wf : WF looseNode :=
  (WF.empty sampleEnv true idleDriver).alloc _ rfl

/-! ## Moving a path from below `q` to below `p` -/

theorem rebase_append (q p r : Path) : rebase q p (q ++ r) = p ++ r := by
  simp [rebase]

theorem rebase_self (q p : Path) : rebase q p q = p := by
  simp [rebase]

theorem under_prefix {q k : Path} (h : under q k) : ∃ r, k = q ++ r := by
  rcases h with rfl | hb
  · exact ⟨[], by simp⟩
  · obtain ⟨t, ht⟩ := (below_iff q k).mp hb
    exact ⟨'/' :: t, ht⟩

theorem rebase_below {q k : Path} (p : Path) (h : below q k) : below p (rebase q p k) := by
  obtain ⟨t, rfl⟩ := (below_iff q k).mp h
  rw [rebase_append]
  exact (below_iff _ _).mpr ⟨t, rfl⟩

theorem rebase_under {q k : Path} (p : Path) (h : under q k) : under p (rebase q p k) := by
  rcases h with rfl | hb
  · rw [rebase_self]; exact Or.inl rfl
  · exact Or.inr (rebase_below p hb)

theorem rebase_inv {q k : Path} (p : Path) (h : under q k) : rebase p q (rebase q p k) = k := by
  obtain ⟨r, rfl⟩ := under_prefix h
  rw [rebase_append, rebase_append]

theorem rebase_inj {q k1 k2 : Path} (p : Path) (h1 : under q k1) (h2 : under q k2)
    (h : rebase q p k1 = rebase q p k2) : k1 = k2 := by
  rw [← rebase_inv p h1, ← rebase_inv p h2, h]

theorem rebase_under_of_under {q kc k : Path} (p : Path) (hq : under q kc) (h : under kc k) :
    under (rebase q p kc) (rebase q p k) := by
  obtain ⟨r, rfl⟩ := under_prefix hq
  rcases h with rfl | hb
  · exact Or.inl rfl
  · obtain ⟨t, rfl⟩ := (below_iff _ _).mp hb
    right
    rw [List.append_assoc, rebase_append, rebase_append]
    exact (below_iff _ _).mpr ⟨t, by simp⟩

theorem rebase_below_of_below {q kc k : Path} (p : Path) (hq : under q kc) (h : below kc k) :
    below (rebase q p kc) (rebase q p k) := by
  obtain ⟨r, rfl⟩ := under_prefix hq
  obtain ⟨t, rfl⟩ := (below_iff _ _).mp h
  rw [List.append_assoc, rebase_append, rebase_append]
  exact (below_iff _ _).mpr ⟨t, by simp⟩

/-- The path `repath` builds for a node, `path + "/" + name`, is the node's
old path moved from below `q` to below `p`. -/
theorem rebase_split {q kc : Path} (p : Path) (hb : below q kc) (hg : GoodPath kc) :
    rebase q p (parentPath kc) ++ '/' :: kc.drop (nameStart kc) = rebase q p kc := by
  obtain ⟨hns, hpar⟩ := below_parent q kc hb hg
  obtain ⟨hsplit, -⟩ := path_split kc hns
  have hu : under q (parentPath kc) := by
    rcases hpar with h | h
    · exact Or.inl h
    · exact Or.inr h
  obtain ⟨r, hr⟩ := under_prefix hu
  have h2 : kc = q ++ (r ++ '/' :: kc.drop (nameStart kc)) := by
    rw [← List.append_assoc, ← hr]; exact hsplit
  rw [hr, rebase_append]
  conv_rhs => rw [h2, rebase_append]
  simp

/-- Paths at or below `q` are not at or below `p` when `p` and `q` are unrelated. -/
theorem not_under_of_unrelated {q p k : Path} (hqp : ¬ under q p) (hpq : ¬ under p q)
    (h : under q k) : ¬ under p k := by
  intro h2
  rcases under_comparable p q k h2 h with h3 | h3
  · exact hpq h3
  · exact hqp h3

/-! ## The map as a list: what `file_map[key] = v` leaves alone -/

theorem FileMap.filter_assign (m : FileMap) (key : Path) (v : Nat) (R : Path → Bool)
    (h : R key = false) :
    (m.assign key v).filter (fun e => R e.1) = m.filter (fun e => R e.1) := by
  induction m with
  | nil => simp [FileMap.assign, h]
  | cons e rest ih =>
    obtain ⟨k', w⟩ := e
    unfold FileMap.assign
    by_cases h1 : k' = key
    · subst h1
      simp [List.filter_cons, h]
    · simp only [h1, if_false]
      split
      · simp [List.filter_cons, h]
      · simp only [List.filter_cons]
        rw [ih]

theorem FileMap.filter_erase (m : FileMap) (key : Path) (R : Path → Bool) :
    ((m.erase key).1.filter (fun e => R e.1)) =
      m.filter (fun e => R e.1 && decide (e.1 ≠ key)) := by
  unfold FileMap.erase
  simp only
  rw [List.filter_filter]

theorem filter_length_mono {α : Type} (a b : α → Bool) (l : List α)
    (h : ∀ e, a e = true → b e = true) : (l.filter a).length ≤ (l.filter b).length := by
  apply List.Sublist.length_le
  exact List.monotone_filter_right l h

theorem filter_length_lt {α : Type} (a b : α → Bool) (l : List α) (x : α) (hx : x ∈ l)
    (h : ∀ e, a e = true → b e = true) (hb : b x = true) (ha : a x = false) :
    (l.filter a).length < (l.filter b).length := by
  induction l with
  | nil => simp at hx
  | cons e rest ih =>
    simp only [List.mem_cons] at hx
    by_cases hex : x = e
    · subst hex
      have := filter_length_mono a b rest h
      simp only [List.filter_cons, ha, hb, if_true, Bool.false_eq_true, if_false,
        List.length_cons]
      omega
    · have hx' : x ∈ rest := by
        rcases hx with hx | hx
        · exact absurd hx hex
        · exact hx
      have := ih hx'
      simp only [List.filter_cons]
      cases hae : a e
      · cases hbe : b e
        · simpa using this
        · simp only [Bool.false_eq_true, if_false, if_true, List.length_cons]; omega
      · have hbe := h e hae
        simp only [hbe, if_true, List.length_cons]; omega

/-! ## Records that stay as they are, seen from one key -/

theorem NodeOK.local {G G2 : FileSystem} {k : Path} {id : Nat} (hN : NodeOK G k id)
    (hrec : G2.nodes id = G.nodes id)
    (hfind : ∀ kc, nameStart kc ≠ 0 → parentPath kc = k →
      G2.file_map.find kc = G.file_map.find kc) : NodeOK G2 k id := by
  have hg : G2.get id = G.get id := FileSystem.get_congr hrec
  refine ⟨by rw [hrec]; exact hN.live, by rw [hg]; exact hN.path, by rw [hg]; exact hN.name,
    hN.good, by rw [hg]; exact hN.notRoot, by rw [hg]; exact hN.nodup, ?_,
    by rw [hg]; exact hN.leaf⟩
  intro c
  rw [hg, hN.kids c]
  constructor
  · rintro ⟨kc, h1, h2, h3⟩
    exact ⟨kc, by rw [hfind kc h2 h3]; exact h1, h2, h3⟩
  · rintro ⟨kc, h1, h2, h3⟩
    exact ⟨kc, by rw [← hfind kc h2 h3]; exact h1, h2, h3⟩

theorem LinkOK.local_link {G G2 : FileSystem} {k : Path} {id : Nat} (hL : LinkOK G k id)
    (hrec : (G2.get id).parent = (G.get id).parent)
    (hfind : nameStart k ≠ 0 →
      G2.file_map.find (parentPath k) = G.file_map.find (parentPath k))
    (hpar : ∀ pn, G.file_map.find (parentPath k) = some pn → (G2.get pn).type = (G.get pn).type)
    (hroot : G2.root_node = G.root_node) : LinkOK G2 k id := by
  refine ⟨?_, ?_⟩
  · intro h0; rw [hrec, hroot]; exact hL.top h0
  · intro h0
    obtain ⟨pn, h1, h2, h3⟩ := hL.sub h0
    exact ⟨pn, by rw [hfind h0]; exact h1, by rw [hpar pn h1]; exact h2, by rw [hrec]; exact h3⟩

/-! ## Lists of nodes with their keys -/

theorem forall2_of_exists {α β : Type} (P : α → β → Prop) :
    ∀ L : List α, (∀ a ∈ L, ∃ b, P a b) → ∃ ks, List.Forall₂ P L ks := by
  intro L
  induction L with
  | nil => intro _; exact ⟨[], List.Forall₂.nil⟩
  | cons a rest ih =>
    intro h
    obtain ⟨b, hb⟩ := h a (List.mem_cons_self _ _)
    obtain ⟨ks, hks⟩ := ih (fun a' ha' => h a' (List.mem_cons_of_mem _ ha'))
    exact ⟨b :: ks, List.Forall₂.cons hb hks⟩

theorem forall2_mem_right {α β : Type} {P : α → β → Prop} :
    ∀ {L : List α} {ks : List β}, List.Forall₂ P L ks → ∀ b ∈ ks, ∃ a ∈ L, P a b := by
  intro L ks h
  induction h with
  | nil => intro b hb; simp at hb
  | cons hab _ ih =>
    intro b hb
    simp only [List.mem_cons] at hb
    rcases hb with rfl | hb
    · exact ⟨_, List.mem_cons_self _ _, hab⟩
    · obtain ⟨a, ha, hp⟩ := ih b hb
      exact ⟨a, List.mem_cons_of_mem _ ha, hp⟩

theorem forall2_mem_left {α β : Type} {P : α → β → Prop} :
    ∀ {L : List α} {ks : List β}, List.Forall₂ P L ks → ∀ a ∈ L, ∃ b ∈ ks, P a b := by
  intro L ks h
  induction h with
  | nil => intro a ha; simp at ha
  | cons hab _ ih =>
    intro a ha
    simp only [List.mem_cons] at ha
    rcases ha with rfl | ha
    · exact ⟨_, List.mem_cons_self _ _, hab⟩
    · obtain ⟨b, hb, hp⟩ := ih a ha
      exact ⟨b, List.mem_cons_of_mem _ hb, hp⟩

theorem forall2_imp_mem {α β : Type} {P Q : α → β → Prop} :
    ∀ {L : List α} {ks : List β}, List.Forall₂ P L ks →
      (∀ a b, a ∈ L → b ∈ ks → P a b → Q a b) → List.Forall₂ Q L ks := by
  intro L ks h
  induction h with
  | nil => intro _; exact List.Forall₂.nil
  | cons hab _ ih =>
    intro himp
    refine List.Forall₂.cons (himp _ _ (List.mem_cons_self _ _) (List.mem_cons_self _ _) hab) ?_
    exact ih (fun a b ha hb hp =>
      himp a b (List.mem_cons_of_mem _ ha) (List.mem_cons_of_mem _ hb) hp)

/-! ## `repath`: composing moves -/

/-- An entry that is neither moved nor below `p` stays as it is. -/
theorem Moved.find_same {fs fs' : FileSystem} {q p : Path} {S : Path → Prop}
    (h : Moved fs q p S fs') (hS : ∀ k, S k → below q k) {k : Path} (hk : ¬ S k)
    (hp : ¬ below p k) : fs'.file_map.find k = fs.file_map.find k := by
  have hnt : ∀ k0 d0, S k0 → fs.file_map.find k0 = some d0 → k ≠ rebase q p k0 := by
    rintro k0 d0 h0 - rfl
    exact hp (rebase_below p (hS k0 h0))
  cases hf : fs.file_map.find k with
  | some d => exact h.kept k d hf hk hnt
  | none =>
    cases hf' : fs'.file_map.find k with
    | none => rfl
    | some d =>
      rcases h.back k d hf' with h1 | ⟨k0, h0, -, rfl⟩
      · rw [hf] at h1; simp at h1
      · exact absurd (rebase_below p (hS k0 h0)) hp

/-- A mapped key of the tree afterwards that is not below `p` was mapped before. -/
theorem Moved.back_old {fs fs' : FileSystem} {q p : Path} {S : Path → Prop}
    (h : Moved fs q p S fs') (hS : ∀ k, S k → below q k) {k : Path} {d : Nat}
    (hp : ¬ below p k) (hf : fs'.file_map.find k = some d) : fs.file_map.find k = some d := by
  rcases h.back k d hf with h1 | ⟨k0, h0, -, rfl⟩
  · exact h1
  · exact absurd (rebase_below p (hS k0 h0)) hp

theorem Moved.keep_keyOK {fs fs' : FileSystem} {q p : Path} {S : Path → Prop}
    (h : Moved fs q p S fs') (hK : KeyOK fs) : KeyOK fs' := by
  intro k d hf
  rcases h.back k d hf with h1 | ⟨k0, h0, h1, rfl⟩
  · have hout : ∀ k0, S k0 → fs.file_map.find k0 ≠ some d := by
      intro k0 h0 hf0
      have := hK.inj hf0 h1
      subst this
      rw [h.gone k0 d h0 h1] at hf
      simp at hf
    rw [FileSystem.get_congr (h.outside d hout)]
    exact hK k d h1
  · rw [FileSystem.get_of_some (h.inside k0 d h0 h1)]
    rfl

/-- A region that the walk does not touch stays in order. -/
theorem Moved.cargo {fs fs' : FileSystem} {q p : Path} {S : Path → Prop}
    (h : Moved fs q p S fs') (hS : ∀ k, S k → below q k) (hqp : ¬ under q p)
    (hpq : ¬ under p q) (hK : KeyOK fs) {kc : Path} (hkc : below q kc)
    (hdis : ∀ k, under kc k → ¬ S k) (hC : Cargo fs kc) : Cargo fs' kc := by
  have hnp : ∀ k, under kc k → ¬ below p k := by
    intro k hu hb
    exact not_under_of_unrelated hqp hpq (Or.inr (below_of_below_under hkc hu)) (Or.inr hb)
  have hsame : ∀ k, under kc k → fs'.file_map.find k = fs.file_map.find k :=
    fun k hu => h.find_same hS (hdis k hu) (hnp k hu)
  have hrec : ∀ k id, under kc k → fs.file_map.find k = some id → fs'.nodes id = fs.nodes id := by
    intro k id hu hf
    apply h.outside
    intro k0 h0 hf0
    have := hK.inj hf0 hf
    subst this
    exact hdis k0 hu h0
  intro k id hu hf
  rw [hsame k hu] at hf
  obtain ⟨hN, hL⟩ := hC k id hu hf
  refine ⟨hN.local (hrec k id hu hf) ?_, fun hb => ?_⟩
  · intro kch hns hpp
    apply hsame
    have hb : below k kch := by rw [← hpp]; exact below_of_parent_eq kch hns
    exact Or.inr (under_trans_below hu hb)
  · have hg := hN.good
    have hns : nameStart k ≠ 0 := (below_parent kc k hb hg).1
    have hpu : under kc (parentPath k) := by
      rcases (below_parent kc k hb hg).2 with h1 | h1
      · exact Or.inl h1
      · exact Or.inr h1
    refine (hL hb).local_link (by rw [FileSystem.get_congr (hrec k id hu hf)]) (fun _ => hsame _ hpu)
      ?_ h.root
    intro pn hpn
    rw [FileSystem.get_congr (hrec _ pn hpu hpn)]

/-- The empty walk. -/
theorem Moved.none (fs : FileSystem) (q p : Path) : Moved fs q p (fun _ => False) fs :=
  ⟨fun _ _ h => h.elim, fun _ _ h => h.elim, fun _ _ h _ _ => h,
    fun _ _ h => Or.inl h, fun _ _ h => h.elim, fun _ _ => rfl, fun _ _ => le_refl _,
    rfl, rfl, rfl, rfl, rfl, rfl⟩

/-- The set of moved keys matters only at the mapped keys. -/
theorem Moved.congr_keys {fs fs' : FileSystem} {q p : Path} {S S' : Path → Prop}
    (h : Moved fs q p S fs')
    (hSS : ∀ k d, fs.file_map.find k = some d → (S k ↔ S' k)) : Moved fs q p S' fs' := by
  refine ⟨?_, ?_, ?_, ?_, ?_, ?_, h.count, h.next, h.root, h.ws, h.changed, h.removed, h.driver⟩
  · intro k d hs hf
    exact h.moved k d ((hSS k d hf).mpr hs) hf
  · intro k d hs hf
    exact h.gone k d ((hSS k d hf).mpr hs) hf
  · intro k d hf hs hnt
    refine h.kept k d hf (fun h1 => hs ((hSS k d hf).mp h1)) ?_
    intro k0 d0 h0 hf0
    exact hnt k0 d0 ((hSS k0 d0 hf0).mp h0) hf0
  · intro k d hf
    rcases h.back k d hf with h1 | ⟨k0, h0, h1, h2⟩
    · exact Or.inl h1
    · exact Or.inr ⟨k0, (hSS k0 d h1).mp h0, h1, h2⟩
  · intro k d hs hf
    exact h.inside k d ((hSS k d hf).mpr hs) hf
  · intro i hi
    apply h.outside
    intro k hs hf
    exact hi k ((hSS k i hf).mp hs) hf

/-- Two walks over disjoint sets of keys, one after the other. -/
theorem Moved.then_moved {fs fs1 fs2 : FileSystem} {q p : Path} {S1 S2 : Path → Prop}
    (h1 : Moved fs q p S1 fs1) (h2 : Moved fs1 q p S2 fs2)
    (hS1 : ∀ k, S1 k → below q k) (hS2 : ∀ k, S2 k → below q k)
    (hdis : ∀ k, S1 k → S2 k → False) (hqp : ¬ under q p) (hpq : ¬ under p q)
    (hK : KeyOK fs) : Moved fs q p (fun k => S1 k ∨ S2 k) fs2 := by
  have hnp : ∀ k, below q k → ¬ below p k := fun k hb hb' =>
    not_under_of_unrelated hqp hpq (Or.inr hb) (Or.inr hb')
  -- a key of `S2` mapped after the first walk was mapped before it
  have hold2 : ∀ k d, S2 k → fs1.file_map.find k = some d → fs.file_map.find k = some d :=
    fun k d hs hf => h1.back_old hS1 (hnp k (hS2 k hs)) hf
  refine ⟨?_, ?_, ?_, ?_, ?_, ?_, ?_, by rw [h2.next, h1.next], by rw [h2.root, h1.root],
    by rw [h2.ws, h1.ws], by rw [h2.changed, h1.changed], by rw [h2.removed, h1.removed],
    by rw [h2.driver, h1.driver]⟩
  · rintro k d (hs | hs) hf
    · have hm := h1.moved k d hs hf
      refine h2.kept _ d hm ?_ ?_
      · intro hs2
        exact hnp _ (hS2 _ hs2) (rebase_below p (hS1 k hs))
      · intro k0 d0 h0 hf0 heq
        have := rebase_inj p (Or.inr (hS1 k hs)) (Or.inr (hS2 k0 h0)) heq
        subst this
        exact hdis k hs h0
    · have hk1 : fs1.file_map.find k = some d := by
        rw [h1.find_same hS1 (fun hs1 => hdis k hs1 hs) (hnp k (hS2 k hs))]; exact hf
      exact h2.moved k d hs hk1
  · rintro k d (hs | hs) hf
    · have hg := h1.gone k d hs hf
      cases hf2 : fs2.file_map.find k with
      | none => rfl
      | some d2 =>
        have := h2.back_old hS2 (hnp k (hS1 k hs)) hf2
        rw [hg] at this
        simp at this
    · have hk1 : fs1.file_map.find k = some d := by
        rw [h1.find_same hS1 (fun hs1 => hdis k hs1 hs) (hnp k (hS2 k hs))]; exact hf
      exact h2.gone k d hs hk1
  · intro k d hf hs hnt
    have hk1 := h1.kept k d hf (fun h => hs (Or.inl h))
      (fun k0 d0 h0 hf0 => hnt k0 d0 (Or.inl h0) hf0)
    refine h2.kept k d hk1 (fun h => hs (Or.inr h)) ?_
    intro k0 d0 h0 hf0
    exact hnt k0 d0 (Or.inr h0) (hold2 k0 d0 h0 hf0)
  · intro k d hf
    rcases h2.back k d hf with hb | ⟨k0, h0, hf0, heq⟩
    · rcases h1.back k d hb with hb1 | ⟨k0, h0, hf0, heq⟩
      · exact Or.inl hb1
      · exact Or.inr ⟨k0, Or.inl h0, hf0, heq⟩
    · exact Or.inr ⟨k0, Or.inr h0, hold2 k0 d h0 hf0, heq⟩
  · rintro k d (hs | hs) hf
    · rw [h2.outside d, h1.inside k d hs hf]
      intro k0 h0 hf0
      have := hK.inj (hold2 k0 d h0 hf0) hf
      subst this
      exact hdis k0 hs h0
    · have hk1 : fs1.file_map.find k = some d := by
        rw [h1.find_same hS1 (fun hs1 => hdis k hs1 hs) (hnp k (hS2 k hs))]; exact hf
      rw [h2.inside k d hs hk1]
      have : fs1.nodes d = fs.nodes d := by
        apply h1.outside
        intro k0 h0 hf0
        have := hK.inj hf0 hf
        subst this
        exact hdis k0 h0 hs
      rw [FileSystem.get_congr this]
  · intro i hi
    rw [h2.outside i, h1.outside i]
    · intro k hs hf
      exact hi k (Or.inl hs) hf
    · intro k hs hf
      exact hi k (Or.inr hs) (hold2 k i hs hf)
  · intro R hR
    exact Nat.le_trans (h2.count R hR) (h1.count R hR)

/-! ## `repath`: correctness with enough fuel -/

theorem Cargo.sub_cargo {fs : FileSystem} {kc k2 : Path} (h : Cargo fs kc) (hu : under kc k2) :
    Cargo fs k2 := by
  intro k id hk hf
  have hku : under kc k := by
    rcases hk with rfl | hb
    · exact hu
    · exact Or.inr (under_trans_below hu hb)
  refine ⟨(h k id hku hf).1, fun hb => (h k id hku hf).2 (under_trans_below hu hb)⟩

/-- Every entry below `kc` in a region that is in order sits at or below a
child of the node at `kc`. -/
theorem cargo_child_key {fs : FileSystem} {q : Path} (h : Cargo fs q) :
    ∀ (m : Nat) (k : Path) (id : Nat), k.length ≤ m → below q k → fs.file_map.find k = some id →
      ∃ kc c, fs.file_map.find kc = some c ∧ nameStart kc ≠ 0 ∧ parentPath kc = q ∧ under kc k := by
  intro m
  induction m with
  | zero =>
    intro k id hlen hb _
    have := below_length q k hb
    omega
  | succ m ih =>
    intro k id hlen hb hf
    obtain ⟨hn, hl⟩ := h k id (Or.inr hb) hf
    obtain ⟨hns, hpar⟩ := below_parent q k hb hn.good
    rcases hpar with heq | hbel
    · exact ⟨k, id, hf, hns, heq, Or.inl rfl⟩
    · obtain ⟨pn, hpf, -, -⟩ := (hl hb).sub hns
      have hlt := parentPath_length_lt k hns
      obtain ⟨kc, c, h1, h2, h3, h4⟩ := ih (parentPath k) pn (by omega) hbel hpf
      refine ⟨kc, c, h1, h2, h3, Or.inr ?_⟩
      exact under_trans_below h4 (below_of_parent_eq k hns)

/-- Two different children of one directory head disjoint regions. -/
theorem siblings_disjoint {K k1 k2 k : Path} (hg2 : GoodPath k2) (hg1 : GoodPath k1)
    (hns1 : nameStart k1 ≠ 0) (hns2 : nameStart k2 ≠ 0)
    (hp1 : parentPath k1 = K) (hp2 : parentPath k2 = K) (hne : k1 ≠ k2)
    (h1 : under k1 k) (h2 : under k2 k) : False := by
  rcases under_comparable k1 k2 k h1 h2 with h | h
  · exact hne (child_key_under hg2 hp2 h (not_under_of_parent_eq hns1 hp1)).symm
  · exact hne (child_key_under hg1 hp1 h (not_under_of_parent_eq hns2 hp2))

/-- The statements of `repath` on the node itself: the entry at `kc` goes to
the moved key and the node takes the new path. -/
theorem repath_step {fs : FileSystem} {q p kc : Path} {c : Nat}
    (hf : fs.file_map.find kc = some c) (hb : below q kc) (hl : (fs.nodes c).isSome)
    (hqp : ¬ under q p) (hpq : ¬ under p q) :
    Moved fs q p (fun k => k = kc)
      ({ fs with file_map := (fs.file_map.erase kc).1.assign (rebase q p kc) c }.modify c
        (fun m => m.setPathname (rebase q p kc))) ∧
    ∀ R : Path → Bool, (∀ k, R k = true → ¬ below p k) →
      ((({ fs with file_map := (fs.file_map.erase kc).1.assign (rebase q p kc) c }.modify c
        (fun m => m.setPathname (rebase q p kc))).file_map.filter
          (fun e : Path × Nat => R e.1)).length ≤
        (fs.file_map.filter (fun e => R e.1 && decide (e.1 ≠ kc))).length) := by
  have hbp : below p (rebase q p kc) := rebase_below p hb
  have hne : rebase q p kc ≠ kc := by
    intro heq
    rw [heq] at hbp
    exact not_under_of_unrelated hqp hpq (Or.inr hb) (Or.inr hbp)
  have hfind : ∀ k, ({ fs with file_map := (fs.file_map.erase kc).1.assign (rebase q p kc) c
      }.modify c (fun m => m.setPathname (rebase q p kc))).file_map.find k =
      if k = rebase q p kc then some c else if k = kc then none else fs.file_map.find k := by
    intro k
    show ((fs.file_map.erase kc).1.assign (rebase q p kc) c).find k = _
    rw [FileMap.find_assign, FileMap.find_erase]
  have hcount : ∀ R : Path → Bool, (∀ k, R k = true → ¬ below p k) →
      ((({ fs with file_map := (fs.file_map.erase kc).1.assign (rebase q p kc) c }.modify c
        (fun m => m.setPathname (rebase q p kc))).file_map.filter
          (fun e : Path × Nat => R e.1)).length ≤
        (fs.file_map.filter (fun e => R e.1 && decide (e.1 ≠ kc))).length) := by
    intro R hR
    show (((fs.file_map.erase kc).1.assign (rebase q p kc) c).filter (fun e => R e.1)).length ≤ _
    have hRk : R (rebase q p kc) = false := by
      cases h : R (rebase q p kc) with
      | false => rfl
      | true => exact absurd hbp (hR _ h)
    rw [FileMap.filter_assign _ _ _ R hRk, FileMap.filter_erase]
  refine ⟨⟨?_, ?_, ?_, ?_, ?_, ?_, ?_, rfl, rfl, rfl, rfl, rfl, rfl⟩, hcount⟩
  · rintro k d rfl hfk
    rw [hfind]
    rw [hf] at hfk
    simp [← hfk]
  · rintro k d rfl _
    rw [hfind]
    simp [Ne.symm hne]
  · intro k d hfk hk hnt
    rw [hfind]
    have h1 : k ≠ rebase q p kc := hnt kc c rfl hf
    have h2 : k ≠ kc := hk
    simp [h1, h2, hfk]
  · intro k d hfk
    rw [hfind] at hfk
    by_cases h1 : k = rebase q p kc
    · simp only [h1, if_true] at hfk
      right
      exact ⟨kc, rfl, by rw [hf, ← Option.some.inj hfk], h1⟩
    · simp only [h1, if_false] at hfk
      by_cases h2 : k = kc
      · simp [h2] at hfk
      · simp only [h2, if_false] at hfk
        exact Or.inl hfk
  · rintro k d rfl hfk
    rw [hf] at hfk
    have hcd : c = d := Option.some.inj hfk
    subst hcd
    rw [FileSystem.modify_nodes]
    simp only [if_true]
    show (fs.nodes c).map _ = _
    rw [FileSystem.nodes_of_live hl]
    rfl
  · intro i hi
    have hic : i ≠ c := by
      rintro rfl
      exact hi kc rfl hf
    rw [FileSystem.modify_nodes]
    simp only [hic, if_false]
  · intro R hR
    refine Nat.le_trans (hcount R hR) ?_
    apply filter_length_mono
    intro e he
    simp only [Bool.and_eq_true] at he
    exact he.1

theorem repath_correct (env : Env) (q p : Path) (hqp : ¬ under q p) (hpq : ¬ under p q) :
    ∀ fuel : Nat,
    (∀ (fs : FileSystem) (c : Nat) (kc : Path), KeyOK fs → fs.file_map.find kc = some c →
      below q kc → Cargo fs kc →
      (∀ k d, under kc k → fs.file_map.find k = some d →
        (rebase q p k).length < env.PATH_MAX) → 2 * fs.weight kc ≤ fuel →
      ∃ fs', FileSystem.repathAux env fuel fs c (rebase q p (parentPath kc)) = some fs' ∧
        Moved fs q p (fun k => under kc k) fs' ∧
        ∀ R : Path → Bool, (∀ k, R k = true → ¬ below p k) →
          (fs'.file_map.filter (fun e : Path × Nat => R e.1)).length ≤
            (fs.file_map.filter (fun e => R e.1 && decide (e.1 ≠ kc))).length) ∧
    (∀ (fs : FileSystem) (L : List Nat) (ks : List Path) (K : Path), KeyOK fs → under q K →
      List.Forall₂ (fun c kc => fs.file_map.find kc = some c ∧ nameStart kc ≠ 0 ∧
        parentPath kc = K ∧ Cargo fs kc) L ks →
      L.Nodup →
      (∀ k d, (∃ kc ∈ ks, under kc k) → fs.file_map.find k = some d →
        (rebase q p k).length < env.PATH_MAX) → 2 * weightBelow fs K + 1 ≤ fuel →
      ∃ fs', FileSystem.repathList env fuel fs L (rebase q p K) = some fs' ∧
        Moved fs q p (fun k => ∃ kc ∈ ks, under kc k) fs') := by
  intro fuel
  induction fuel with
  | zero =>
    constructor
    · intro fs c kc _ hf _ _ _ hfuel
      have := weight_pos hf
      omega
    · intro fs L ks K _ _ _ _ _ hfuel
      omega
  | succ fuel ih =>
    obtain ⟨ih1, ih2⟩ := ih
    constructor
    · -- one node and the walk over its children
      intro fs c kc hK hf hb hC hfit hfuel
      obtain ⟨hN, -⟩ := hC kc c (Or.inl rfl) hf
      obtain ⟨hstep, hcount⟩ := repath_step (q := q) (p := p) hf hb hN.live hqp hpq
      have hS1 : ∀ k, k = kc → below q k := by rintro k rfl; exact hb
      have hK1 := hstep.keep_keyOK hK
      have hnew : rebase q p (parentPath kc) ++ '/' :: (fs.get c).name = rebase q p kc := by
        unfold FileNode.name
        rw [hN.path, hN.name]
        exact rebase_split p hb hN.good
      have hw := weight_eq hf
      have hfit0 : ¬ env.PATH_MAX < (rebase q p kc).length + 1 := by
        have := hfit kc c (Or.inl rfl) hf
        omega
      unfold FileSystem.repathAux
      simp only [hnew, hN.path, Option.getD_some, if_neg hfit0]
      by_cases ht : (fs.get c).type = NodeType.DIR_NODE
      · simp only [ht, if_true]
        -- the keys of the children
        have hex : ∀ c' ∈ (fs.get c).children, ∃ k,
            ({ fs with file_map := (fs.file_map.erase kc).1.assign (rebase q p kc) c }.modify c
              (fun m => m.setPathname (rebase q p kc))).file_map.find k = some c' ∧
            nameStart k ≠ 0 ∧ parentPath k = kc ∧
            Cargo ({ fs with file_map := (fs.file_map.erase kc).1.assign (rebase q p kc) c
              }.modify c (fun m => m.setPathname (rebase q p kc))) k := by
          intro c' hc'
          obtain ⟨kch, h1, h2, h3⟩ := (hN.kids c').mp hc'
          have hbk : below kc kch := by rw [← h3]; exact below_of_parent_eq kch h2
          have hbq : below q kch := below_trans hb hbk
          have hdis : ∀ k, under kch k → ¬ k = kc := by
            rintro k hu rfl
            exact not_under_of_parent_eq h2 h3 hu
          refine ⟨kch, ?_, h2, h3, ?_⟩
          · rw [hstep.find_same hS1 (hdis kch (Or.inl rfl))
              (fun hbp => not_under_of_unrelated hqp hpq (Or.inr hbq) (Or.inr hbp))]
            exact h1
          · exact hstep.cargo hS1 hqp hpq hK hbq hdis (hC.sub_cargo (Or.inr hbk))
        obtain ⟨ks, hks⟩ := forall2_of_exists _ _ hex
        have hwb : weightBelow ({ fs with file_map :=
            (fs.file_map.erase kc).1.assign (rebase q p kc) c }.modify c
            (fun m => m.setPathname (rebase q p kc))) kc ≤ weightBelow fs kc := by
          unfold weightBelow
          refine hstep.count (fun k => decide (below kc k)) ?_
          intro k hk hbp
          simp only [decide_eq_true_eq] at hk
          exact not_under_of_unrelated hqp hpq (Or.inr (below_trans hb hk)) (Or.inr hbp)
        have hfit1 : ∀ k d, (∃ kch ∈ ks, under kch k) →
            ({ fs with file_map := (fs.file_map.erase kc).1.assign (rebase q p kc) c }.modify c
              (fun m => m.setPathname (rebase q p kc))).file_map.find k = some d →
            (rebase q p k).length < env.PATH_MAX := by
          rintro k d ⟨kch, hm, hu⟩ hfk
          obtain ⟨c', -, -, h2, h3, -⟩ := forall2_mem_right hks kch hm
          have hbk : below kc kch := by rw [← h3]; exact below_of_parent_eq kch h2
          have hbkk : below kc k := below_of_below_under hbk hu
          have hold := hstep.back_old hS1
            (fun hbp => not_under_of_unrelated hqp hpq (Or.inr (below_trans hb hbkk)) (Or.inr hbp))
            hfk
          exact hfit k d (Or.inr hbkk) hold
        obtain ⟨fs', hrun, hM⟩ := ih2 _ (fs.get c).children ks kc hK1 (Or.inr hb) hks hN.nodup
          hfit1 (by omega)
        refine ⟨fs', hrun, ?_, ?_⟩
        · have hS2 : ∀ k, (∃ kch ∈ ks, under kch k) → below q k := by
            rintro k ⟨kch, hm, hu⟩
            obtain ⟨c', -, -, h2, h3, -⟩ := forall2_mem_right hks kch hm
            have hbk : below kc kch := by rw [← h3]; exact below_of_parent_eq kch h2
            exact below_of_below_under (below_trans hb hbk) hu
          have hcomp := hstep.then_moved hM hS1 hS2 (by
            rintro k rfl ⟨kch, hm, hu⟩
            obtain ⟨c', -, -, h2, h3, -⟩ := forall2_mem_right hks kch hm
            exact not_under_of_parent_eq h2 h3 hu) hqp hpq hK
          refine hcomp.congr_keys ?_
          intro k d hfk
          constructor
          · rintro (rfl | ⟨kch, hm, hu⟩)
            · exact Or.inl rfl
            · obtain ⟨c', -, -, h2, h3, -⟩ := forall2_mem_right hks kch hm
              have hbk : below kc kch := by rw [← h3]; exact below_of_parent_eq kch h2
              exact Or.inr (below_of_below_under hbk hu)
          · rintro (rfl | hbk)
            · exact Or.inl rfl
            · right
              obtain ⟨kch, c', h1, h2, h3, h4⟩ := cargo_child_key hC k.length k d (le_refl _) hbk hfk
              have hc' : c' ∈ (fs.get c).children := (hN.kids c').mpr ⟨kch, h1, h2, h3⟩
              obtain ⟨b, hbm, hb1, hb2, hb3, -⟩ := forall2_mem_left hks c' hc'
              have hbb : below q b := by
                have : below kc b := by rw [← hb3]; exact below_of_parent_eq b hb2
                exact below_trans hb this
              have hb0 := hstep.back_old hS1
                (fun hbp => not_under_of_unrelated hqp hpq (Or.inr hbb) (Or.inr hbp)) hb1
              have := hK.inj hb0 h1
              subst this
              exact ⟨b, hbm, h4⟩
        · intro R hR
          exact Nat.le_trans (hM.count R hR) (hcount R hR)
      · simp only [ht, if_false]
        refine ⟨_, rfl, ?_, hcount⟩
        refine hstep.congr_keys ?_
        intro k d hfk
        constructor
        · rintro rfl; exact Or.inl rfl
        · rintro (rfl | hbk)
          · rfl
          · exfalso
            obtain ⟨kch, c', h1, h2, h3, -⟩ := cargo_child_key hC k.length k d (le_refl _) hbk hfk
            have hc' : c' ∈ (fs.get c).children := (hN.kids c').mpr ⟨kch, h1, h2, h3⟩
            rw [hN.leaf ht] at hc'
            simp at hc'
    · -- the loop over a list of children
      intro fs L ks K hK hKq hall hnd hfit hfuel
      cases hall with
      | nil =>
        refine ⟨fs, ?_, ?_⟩
        · unfold FileSystem.repathList; rfl
        · refine (Moved.none fs q p).congr_keys ?_
          intro k d _
          simp
      | @cons c kc rest ks' hhead htail =>
        obtain ⟨hf, hns, hpp, hC⟩ := hhead
        have hbK : below K kc := by rw [← hpp]; exact below_of_parent_eq kc hns
        have hb : below q kc := under_trans_below hKq hbK
        have hg := (hC kc c (Or.inl rfl) hf).1.good
        have hwc := @weight_child_le fs _ _ hbK
        obtain ⟨fs1, hrun1, hM1, hcount1⟩ := ih1 fs c kc hK hf hb hC
          (fun k d hu hfk => hfit k d ⟨kc, List.mem_cons_self _ _, hu⟩ hfk) (by omega)
        rw [hpp] at hrun1
        unfold FileSystem.repathList
        simp only [hrun1]
        have hS1 : ∀ k, under kc k → below q k := fun k hu => below_of_below_under hb hu
        have hK1 := hM1.keep_keyOK hK
        have hcr : c ∉ rest := (List.nodup_cons.mp hnd).1
        -- the regions of the other children are apart from the one just moved
        have hapart : ∀ c' kc', c' ∈ rest → fs.file_map.find kc' = some c' →
            nameStart kc' ≠ 0 → parentPath kc' = K → Cargo fs kc' →
            ∀ k, under kc' k → ¬ under kc k := by
          intro c' kc' hc' hf' hns' hpp' hC' k hu' hu
          have hg' := (hC' kc' c' (Or.inl rfl) hf').1.good
          have hne : kc ≠ kc' := by
            rintro rfl
            rw [hf] at hf'
            exact hcr ((Option.some.inj hf') ▸ hc')
          exact siblings_disjoint hg' hg hns hns' hpp hpp' hne hu hu'
        have htail1 : List.Forall₂ (fun c kc => fs1.file_map.find kc = some c ∧
            nameStart kc ≠ 0 ∧ parentPath kc = K ∧ Cargo fs1 kc) rest ks' := by
          refine forall2_imp_mem htail ?_
          rintro c' kc' hc' - ⟨hf', hns', hpp', hC'⟩
          have hd := hapart c' kc' hc' hf' hns' hpp' hC'
          have hbK' : below K kc' := by rw [← hpp']; exact below_of_parent_eq kc' hns'
          have hb' : below q kc' := under_trans_below hKq hbK'
          refine ⟨?_, hns', hpp', hM1.cargo hS1 hqp hpq hK hb' hd hC'⟩
          rw [hM1.find_same hS1 (hd kc' (Or.inl rfl))
            (fun hbp => not_under_of_unrelated hqp hpq (Or.inr hb') (Or.inr hbp))]
          exact hf'
        have hw1 : weightBelow fs1 K < weightBelow fs K := by
          unfold weightBelow
          refine Nat.lt_of_le_of_lt (hcount1 (fun k => decide (below K k)) ?_) ?_
          · intro k hk hbp
            simp only [decide_eq_true_eq] at hk
            exact not_under_of_unrelated hqp hpq (Or.inr (under_trans_below hKq hk)) (Or.inr hbp)
          · refine filter_length_lt _ _ fs.file_map (kc, c) (FileMap.mem_of_find _ _ _ hf) ?_ ?_ ?_
            · intro e he
              simp only [Bool.and_eq_true] at he
              exact he.1
            · simpa using hbK
            · simp
        have hfit2 : ∀ k d, (∃ kc' ∈ ks', under kc' k) → fs1.file_map.find k = some d →
            (rebase q p k).length < env.PATH_MAX := by
          rintro k d ⟨kc', hm, hu⟩ hfk
          obtain ⟨c', -, -, h2, h3, -⟩ := forall2_mem_right htail kc' hm
          have hbK' : below K kc' := by rw [← h3]; exact below_of_parent_eq kc' h2
          have hbq : below q k := below_of_below_under (under_trans_below hKq hbK') hu
          have hold := hM1.back_old hS1
            (fun hbp => not_under_of_unrelated hqp hpq (Or.inr hbq) (Or.inr hbp)) hfk
          exact hfit k d ⟨kc', List.mem_cons_of_mem _ hm, hu⟩ hold
        obtain ⟨fs2, hrun2, hM2⟩ := ih2 fs1 rest ks' K hK1 hKq htail1 (List.nodup_cons.mp hnd).2
          hfit2 (by omega)
        refine ⟨fs2, hrun2, ?_⟩
        have hS2 : ∀ k, (∃ kc' ∈ ks', under kc' k) → below q k := by
          rintro k ⟨kc', hm, hu⟩
          obtain ⟨c', -, -, h2, h3, -⟩ := forall2_mem_right htail kc' hm
          have hbK' : below K kc' := by rw [← h3]; exact below_of_parent_eq kc' h2
          exact below_of_below_under (under_trans_below hKq hbK') hu
        have hcomp := hM1.then_moved hM2 hS1 hS2 (by
          rintro k hu ⟨kc', hm, hu'⟩
          obtain ⟨c', hc', hf', hns', hpp', hC'⟩ := forall2_mem_right htail kc' hm
          exact hapart c' kc' hc' hf' hns' hpp' hC' k hu' hu) hqp hpq hK
        refine hcomp.congr_keys ?_
        intro k d _
        simp [List.mem_cons]

/-! ## `rename`: the tree while the node is out of the map -/

theorem FileSystem.regionNodes_iff (fs : FileSystem) (q : Path) (i : Nat) :
    fs.regionNodes q i = true ↔ fs.inRegion q i := by
  unfold FileSystem.regionNodes FileSystem.inRegion
  rw [List.any_eq_true]
  constructor
  · rintro ⟨e, -, he⟩
    simp only [Bool.and_eq_true, decide_eq_true_eq] at he
    exact ⟨e.1, he.1, he.2⟩
  · rintro ⟨k, hu, hf⟩
    exact ⟨(k, i), FileMap.mem_of_find _ _ _ hf, by simp [hu, hf]⟩

theorem belowKeys_iff (q k : Path) : belowKeys q k = true ↔ below q k := by
  simp [belowKeys]

/-- Nodes that are neither mapped nor the root may change, as long as they
have no children; the tree stays in order. -/
theorem WF.idle_change {G G2 : FileSystem} (hG : WF G)
    (hfind : ∀ k, G2.file_map.find k = G.file_map.find k)
    (hnodes : ∀ i, G2.nodes i = G.nodes i ∨
      (i ≠ G.root_node ∧ (∀ k, G.file_map.find k ≠ some i) ∧ i < G.next ∧
        ∃ r, G2.nodes i = some r ∧ r.children = []))
    (hnext : G2.next = G.next) (hroot : G2.root_node = G.root_node) : WF G2 := by
  have hsr : G2.nodes G.root_node = G.nodes G.root_node := by
    rcases hnodes G.root_node with h | ⟨h, -⟩
    · exact h
    · exact absurd rfl h
  have hsm : ∀ k i, G.file_map.find k = some i → G2.nodes i = G.nodes i := by
    intro k i hk
    rcases hnodes i with h | ⟨-, h, -⟩
    · exact h
    · exact absurd hk (h k)
  have hgr : G2.get G.root_node = G.get G.root_node := FileSystem.get_congr hsr
  refine ⟨?_, ?_, ?_, ?_, ?_, ?_, ?_, ?_, ?_, ?_⟩
  · rw [hroot, hsr]; exact hG.rootLive
  · rw [hroot, hgr]; exact hG.rootType
  · rw [hroot, hgr]; exact hG.rootPath
  · intro k; rw [hroot, hfind]; exact hG.rootFree k
  · rw [hroot, hgr]; exact hG.rootNodup
  · intro c; rw [hroot, hgr, hG.rootKids c]; simp only [hfind]
  · intro i hi
    rw [hnext] at hi
    rcases hnodes i with h | ⟨-, -, h, -⟩
    · rw [h]; exact hG.fresh i hi
    · omega
  · intro k id hk
    rw [hfind] at hk
    exact (hG.node k id hk).carry hfind (hsm k id hk)
  · intro k id hk
    rw [hfind] at hk
    refine (hG.link k id hk).carry_link hfind ?_ ?_ hroot
    · rw [FileSystem.get_congr (hsm k id hk)]
    · intro pn hpn
      rw [FileSystem.get_congr (hsm _ pn hpn)]
  · intro i hil hir hiun
    rcases hnodes i with h | ⟨-, -, -, r, h1, h2⟩
    · rw [FileSystem.get_congr h]
      rw [h] at hil
      rw [hroot] at hir
      exact hG.idle i hil hir (fun k hk => hiun k (by rw [hfind]; exact hk))
    · rw [FileSystem.get_of_some h1]; exact h2

theorem Hole.vfind {fs s : FileSystem} {q : Path} (k : Path) :
    (s.veil (belowKeys q) (fs.regionNodes q)).file_map.find k =
      if below q k then none else s.file_map.find k := by
  rw [FileSystem.veil_find]
  by_cases hb : below q k
  · simp [belowKeys, hb]
  · simp [belowKeys, hb]

/-- A node mapped at a key that is not below `q` is not one of the nodes of
the subtree taken out. -/
theorem Hole.visible {fs s : FileSystem} {q : Path} {n : Nat} (h : Hole fs q n s)
    (hwf : WF fs) (hfq : fs.file_map.find q = some n) {k : Path} {id : Nat}
    (hf : s.file_map.find k = some id) (hb : ¬ below q k) : fs.regionNodes q id = false := by
  cases hW : fs.regionNodes q id with
  | false => rfl
  | true =>
    exfalso
    obtain ⟨k', hu, hf'⟩ := (fs.regionNodes_iff q id).mp hW
    rcases hu with rfl | hb'
    · rw [hfq] at hf'
      exact h.nfree k ((Option.some.inj hf') ▸ hf)
    · have hv : (s.veil (belowKeys q) (fs.regionNodes q)).file_map.find k = some id := by
        rw [Hole.vfind]; simp [hb, hf]
      have h1 := h.view.keyOK k id hv
      rw [(s.veil_get _ _ id).1, FileSystem.get_congr (h.recs k' id hb' hf'),
        hwf.keyOK k' id hf'] at h1
      have : k' = k := Option.some.inj h1
      exact hb (this ▸ hb')

theorem Hole.vrec {fs s : FileSystem} {q : Path} {n : Nat} (h : Hole fs q n s)
    (hwf : WF fs) (hfq : fs.file_map.find q = some n) {k : Path} {id : Nat}
    (hf : s.file_map.find k = some id) (hb : ¬ below q k) :
    (s.veil (belowKeys q) (fs.regionNodes q)).nodes id = s.nodes id := by
  rw [FileSystem.veil_nodes, h.visible hwf hfq hf hb]
  simp

theorem Hole.keys_ok {fs s : FileSystem} {q : Path} {n : Nat} (h : Hole fs q n s)
    (hwf : WF fs) : KeyOK s := by
  intro k d hf
  by_cases hb : below q k
  · have hf' := hf
    rw [h.find k hb] at hf'
    rw [FileSystem.get_congr (h.recs k d hb hf')]
    exact hwf.keyOK k d hf'
  · have hv : (s.veil (belowKeys q) (fs.regionNodes q)).file_map.find k = some d := by
      rw [Hole.vfind]; simp [hb, hf]
    have h1 := h.view.keyOK k d hv
    rw [(s.veil_get _ _ d).1] at h1
    exact h1

theorem Hole.live {fs s : FileSystem} {q : Path} {n : Nat} (h : Hole fs q n s)
    (hwf : WF fs) {k : Path} {d : Nat} (hf : s.file_map.find k = some d) :
    (s.nodes d).isSome := by
  by_cases hb : below q k
  · have hf' := hf
    rw [h.find k hb] at hf'
    rw [h.recs k d hb hf']
    exact (hwf.node k d hf').live
  · have hv : (s.veil (belowKeys q) (fs.regionNodes q)).file_map.find k = some d := by
      rw [Hole.vfind]; simp [hb, hf]
    have h1 := (h.view.node k d hv).live
    rw [FileSystem.veil_live] at h1
    exact h1

theorem Hole.fresh {fs s : FileSystem} {q : Path} {n : Nat} (h : Hole fs q n s)
    (i : Nat) (hi : s.next ≤ i) : s.nodes i = none := by
  have h1 := h.view.fresh i hi
  have h2 := s.veil_live (belowKeys q) (fs.regionNodes q) i
  rw [h1] at h2
  cases hn : s.nodes i with
  | none => rfl
  | some r => rw [hn] at h2; simp at h2

theorem Hole.rootLive {fs s : FileSystem} {q : Path} {n : Nat} (h : Hole fs q n s) :
    (s.nodes s.root_node).isSome := by
  have := h.view.rootLive
  rw [FileSystem.veil_live] at this
  exact this

/-- The entries that are not below `q` are in order in the tree itself. -/
theorem Hole.node {fs s : FileSystem} {q : Path} {n : Nat} (h : Hole fs q n s)
    (hwf : WF fs) (hfq : fs.file_map.find q = some n) {k : Path} {id : Nat}
    (hf : s.file_map.find k = some id) (hb : ¬ below q k) :
    NodeOK s k id ∧ LinkOK s k id := by
  have hv : (s.veil (belowKeys q) (fs.regionNodes q)).file_map.find k = some id := by
    rw [Hole.vfind]; simp [hb, hf]
  have hN := h.view.node k id hv
  have hL := h.view.link k id hv
  have hkq : k ≠ q := by
    rintro rfl
    rw [h.qfree] at hf
    simp at hf
  refine ⟨hN.local (h.vrec hwf hfq hf hb).symm ?_, hL.local_link ?_ ?_ ?_ rfl⟩
  · intro kc hns hpp
    rw [Hole.vfind]
    by_cases hbc : below q kc
    · simp only [hbc, if_true]
      cases hfc : s.file_map.find kc with
      | none => rfl
      | some c =>
        exfalso
        have hfc' := hfc
        rw [h.find kc hbc] at hfc'
        have hg := (hwf.node kc c hfc').good
        rcases (below_parent q kc hbc hg).2 with h1 | h1
        · exact hkq (hpp ▸ h1)
        · exact hb (hpp ▸ h1)
    · simp [hbc]
  · rw [(s.veil_get _ _ id).2.2.2.1]
  · intro hns
    rw [Hole.vfind]
    have : ¬ below q (parentPath k) := fun hbp => hb (below_of_parent_below q k hbp)
    simp [this]
  · intro pn _
    rw [(s.veil_get _ _ pn).2.2.1]

/-- `take` of a mapped node of a tree in order succeeds and leaves the tree
with the hole that `rename` works on. -/
theorem take_hole {fs : FileSystem} (hwf : WF fs) (hws : fs.write_support = true) {q : Path}
    {n : Nat} (hfq : fs.file_map.find q = some n) :
    (fs.take n).1 = true ∧ Hole fs q n (fs.take n).2 ∧
      (fs.take n).2.removed_nodes = fs.removed_nodes ∧ (fs.take n).2.next = fs.next := by
  obtain ⟨pn, hp⟩ := hwf.parentOf hfq
  have hK := hwf.keyOK
  rw [FileSystem.take_spec fs n pn q (hK q n hfq) (by rw [hfq]; rfl) hp.ptr hp.mem]
  refine ⟨rfl, ?_, rfl, rfl⟩
  have hnr : fs.inRegion q n := ⟨q, Or.inl rfl, hfq⟩
  have hnpn : n ≠ pn := by rintro rfl; exact hp.out hnr
  have hf1 : ∀ k, (({ fs with file_map := (fs.file_map.erase q).1 }).modify pn
      (fun p => { p with children := p.children.erase n })).file_map.find k =
      if k = q then none else fs.file_map.find k := by
    intro k
    show (fs.file_map.erase q).1.find k = _
    rw [FileMap.find_erase]
  have hn1 : ∀ i, (({ fs with file_map := (fs.file_map.erase q).1 }).modify pn
      (fun p => { p with children := p.children.erase n })).nodes i =
      if i = pn then (fs.nodes pn).map (fun p => { p with children := p.children.erase n })
      else fs.nodes i := by
    intro i
    rw [FileSystem.modify_nodes]
    by_cases hi : i = pn
    · subst hi; simp
    · simp [hi]
  have hgn : (({ fs with file_map := (fs.file_map.erase q).1 }).modify pn
      (fun p => { p with children := p.children.erase n })).get n = fs.get n := by
    apply FileSystem.get_congr
    rw [hn1]; simp [hnpn]
  refine ⟨?_, ?_, ?_, ?_, ?_, ?_, ?_, ?_, rfl, rfl⟩
  · -- the view is the tree after `remove`, with the deleted nodes still allocated
    obtain ⟨fsR, -, hrem⟩ := remove_total hwf hws hfq hp
    have hwR := hwf.removed hfq hp hrem
    refine hwR.idle_change ?_ ?_ (by rw [hrem.next]; rfl) (by rw [hrem.root]; rfl)
    · intro k
      rw [Hole.vfind, hf1, hrem.find_eq]
      by_cases hb : below q k
      · simp [hb, under]
      · by_cases hkq : k = q
        · simp [hkq, under]
        · simp [hb, hkq, under]
    · intro i
      rw [FileSystem.veil_nodes, hn1]
      by_cases hW : fs.regionNodes q i = true
      · have hin := (fs.regionNodes_iff q i).mp hW
        obtain ⟨k', hu', hf'⟩ := id hin
        have hil := (hwf.node k' i hf').live
        have hipn : i ≠ pn := by rintro rfl; exact hp.out hin
        simp only [hW, if_true, hipn, if_false]
        rw [hrem.inside i hin, FileSystem.nodes_of_live hil]
        by_cases hd : (fs.get i).data.isSome = true
        · left; simp [hd]
        · right
          refine ⟨?_, ?_, ?_, _, rfl, rfl⟩
          · rw [hrem.root]
            rintro rfl
            exact hwf.rootFree k' hf'
          · intro k hk
            rw [hrem.find_eq] at hk
            by_cases hu : under q k
            · simp [hu] at hk
            · simp only [hu, if_false] at hk
              exact hu ((hK.inj hk hf') ▸ hu')
          · rw [hrem.next]
            by_contra hge
            have := hwf.fresh i (by omega)
            rw [this] at hil
            simp at hil
      · left
        have hnin : ¬ fs.inRegion q i := fun hin => hW ((fs.regionNodes_iff q i).mpr hin)
        simp only [hW, if_false]
        by_cases hi : i = pn
        · subst hi
          simp only [if_true]
          exact hrem.parent.symm
        · simp only [hi, if_false]
          exact (hrem.outside i hnin hi).symm
  · intro k hb
    rw [hf1]
    have : k ≠ q := by rintro rfl; exact not_below_self _ hb
    simp [this]
  · intro k d hb hf
    rw [hn1]
    have : d ≠ pn := by rintro rfl; exact hp.out ⟨k, Or.inr hb, hf⟩
    simp [this]
  · rw [hf1]; simp
  · intro k hk
    rw [hf1] at hk
    by_cases hkq : k = q
    · simp [hkq] at hk
    · simp only [hkq, if_false] at hk
      exact hkq (hK.inj hk hfq)
  · rw [hn1]
    simp only [hnpn, if_false]
    exact (hwf.node q n hfq).live
  · rw [hgn]
  · rw [hgn]

/-- `rename` removes the node found at the new path: the walk of `remove`
returns, and the hole is kept. -/
theorem cut_hole {fs s1 : FileSystem} {q p : Path} {n e : Nat} (hwf : WF fs)
    (hfq : fs.file_map.find q = some n) (hws : fs.write_support = true) (h : Hole fs q n s1)
    (hqp : ¬ under q p) (hpq : ¬ under p q) (hfe : s1.file_map.find p = some e) :
    ∃ s2, s1.remove e = some (0, s2) ∧ Hole fs q n s2 ∧
      (∀ k, under p k → s2.file_map.find k = none) ∧ s2.nodes n = s1.nodes n ∧
      s2.next = s1.next := by
  have hK1 := h.keys_ok hwf
  have hup : ∀ k, under p k → ¬ below q k := fun k hu hb =>
    not_under_of_unrelated hqp hpq (Or.inr hb) hu
  have hvf : ∀ k, under p k → (s1.veil (belowKeys q) (fs.regionNodes q)).file_map.find k =
      s1.file_map.find k := by
    intro k hu
    rw [Hole.vfind]; simp [hup k hu]
  have hv : (s1.veil (belowKeys q) (fs.regionNodes q)).file_map.find p = some e := by
    rw [hvf p (Or.inl rfl)]; exact hfe
  obtain ⟨pe, hpV⟩ := h.view.parentOf hv
  -- the nodes at and below `p` are the same in the view and in the tree
  have hreg : ∀ i, (s1.veil (belowKeys q) (fs.regionNodes q)).inRegion p i ↔ s1.inRegion p i := by
    intro i
    constructor
    · rintro ⟨k, hu, hk⟩
      exact ⟨k, hu, by rw [← hvf k hu]; exact hk⟩
    · rintro ⟨k, hu, hk⟩
      exact ⟨k, hu, by rw [hvf k hu]; exact hk⟩
  have hrn : ∀ i, s1.inRegion p i →
      (s1.veil (belowKeys q) (fs.regionNodes q)).nodes i = s1.nodes i := by
    rintro i ⟨k, hu, hk⟩
    exact h.vrec hwf hfq hk (hup k hu)
  have hWpe : fs.regionNodes q pe = false := by
    cases hW : fs.regionNodes q pe with
    | false => rfl
    | true =>
      have := hpV.mem
      rw [(s1.veil_get _ _ pe).2.2.2.2, hW] at this
      simp at this
  have hvpe : (s1.veil (belowKeys q) (fs.regionNodes q)).nodes pe = s1.nodes pe := by
    rw [FileSystem.veil_nodes, hWpe]; simp
  have hpar : (s1.get e).parent = some pe := by
    rw [← (s1.veil_get (belowKeys q) (fs.regionNodes q) e).2.2.2.1]; exact hpV.ptr
  have hmem : e ∈ (s1.get pe).children := by
    rw [← FileSystem.get_congr hvpe]; exact hpV.mem
  have hout : ¬ s1.inRegion p pe := fun hin => hpV.out ((hreg pe).mpr hin)
  have hR : RegionOK s1 p := fun k id hu hk => h.node hwf hfq hk (hup k hu)
  have hws1 : s1.write_support = true := by rw [h.ws]; exact hws
  obtain ⟨s2, hrun, hrem⟩ := (remove_correct s1.walkBound).1 s1 e pe p hws1 hK1 hfe hR hpar hmem
    hout (by
      have := weight_le_length s1 p
      unfold FileSystem.walkBound
      omega)
  have hnr : n ≠ s1.root_node := by
    rw [h.root]
    rintro rfl
    exact hwf.rootFree q hfq
  have hpe_cases : pe = s1.root_node ∨ ∃ k, ¬ below q k ∧ s1.file_map.find k = some pe := by
    by_cases h0 : nameStart p = 0
    · left; exact hpV.top h0
    · right
      have := hpV.sub h0
      rw [Hole.vfind] at this
      by_cases hb : below q (parentPath p)
      · simp [hb] at this
      · simp only [hb, if_false] at this
        exact ⟨_, hb, this⟩
  have hn2 : s2.nodes n = s1.nodes n := by
    apply hrem.outside
    · rintro ⟨k, -, hk⟩
      exact h.nfree k hk
    · rintro rfl
      rcases hpe_cases with h1 | ⟨k, -, hk⟩
      · exact hnr h1
      · exact h.nfree k hk
  refine ⟨s2, hrun, ?_, ?_, hn2, hrem.next⟩
  · refine ⟨?_, ?_, ?_, ?_, ?_, ?_, ?_, ?_, ?_, ?_⟩
    · -- in the view the same entries are removed
      refine h.view.removed hv hpV ⟨?_, ?_, ?_, ?_, ?_, hrem.changed, hrem.next, hrem.root,
        hrem.ws, hrem.driver⟩
      · show s2.file_map.filter _ = (s1.file_map.filter _).filter _
        rw [hrem.map, List.filter_filter, List.filter_filter]
        congr 1
        funext e
        exact Bool.and_comm _ _
      · intro i hi
        have hi1 := (hreg i).mp hi
        obtain ⟨k, hu, hk⟩ := id hi1
        rw [FileSystem.veil_nodes, h.visible hwf hfq hk (hup k hu)]
        simp only [Bool.false_eq_true, if_false]
        rw [hrem.inside i hi1, FileSystem.get_congr (hrn i hi1)]
      · rw [FileSystem.veil_nodes, hWpe, hvpe]
        simp only [Bool.false_eq_true, if_false]
        exact hrem.parent
      · intro i hi hipe
        have hi1 : ¬ s1.inRegion p i := fun hin => hi ((hreg i).mpr hin)
        rw [FileSystem.veil_nodes, FileSystem.veil_nodes, hrem.outside i hi1 hipe]
      · obtain ⟨L, h1, h2, h3⟩ := hrem.tomb
        refine ⟨L, h1, h2, ?_⟩
        intro i
        rw [h3, hreg]
        constructor
        · rintro ⟨hin, hd⟩
          exact ⟨hin, by rw [FileSystem.get_congr (hrn i hin)]; exact hd⟩
        · rintro ⟨hin, hd⟩
          exact ⟨hin, by rw [← FileSystem.get_congr (hrn i hin)]; exact hd⟩
    · intro k hb
      rw [hrem.find_eq]
      have : ¬ under p k := fun hu => hup k hu hb
      simp only [this, if_false]
      exact h.find k hb
    · intro k d hb hf
      rw [← h.recs k d hb hf]
      have hk1 : s1.file_map.find k = some d := by rw [h.find k hb]; exact hf
      apply hrem.outside
      · rintro ⟨k', hu', hk'⟩
        have := hK1.inj hk' hk1
        exact hup k' hu' (this ▸ hb)
      · rintro rfl
        rcases hpe_cases with h1 | ⟨k', hb', hk'⟩
        · rw [h1, h.root] at hf
          exact hwf.rootFree k hf
        · have := hK1.inj hk' hk1
          exact hb' (this ▸ hb)
    · rw [hrem.find_eq]
      split
      · rfl
      · exact h.qfree
    · intro k hk
      rw [hrem.find_eq] at hk
      split at hk
      · simp at hk
      · exact h.nfree k hk
    · rw [hn2]; exact h.nlive
    · rw [FileSystem.get_congr hn2]; exact h.nkids
    · rw [FileSystem.get_congr hn2]; exact h.ntype
    · rw [hrem.ws]; exact h.ws
    · rw [hrem.root]; exact h.root
  · intro k hu
    rw [hrem.find_eq]
    simp [hu]

/-- When nothing is mapped at the new path, nothing is mapped below it. -/
theorem Hole.free_below {fs s : FileSystem} {q p : Path} {n : Nat} (h : Hole fs q n s)
    (hqp : ¬ under q p) (hpq : ¬ under p q) (hfp : s.file_map.find p = none) :
    ∀ k, under p k → s.file_map.find k = none := by
  rintro k (rfl | hb)
  · exact hfp
  · cases hk : s.file_map.find k with
    | none => rfl
    | some d =>
      exfalso
      have hnb : ¬ below q k := fun hbq =>
        not_under_of_unrelated hqp hpq (Or.inr hbq) (Or.inr hb)
      have hv : (s.veil (belowKeys q) (fs.regionNodes q)).file_map.find k = some d := by
        rw [Hole.vfind]; simp [hnb, hk]
      obtain ⟨d', hd'⟩ := ancestors_mapped
        (s.veil (belowKeys q) (fs.regionNodes q)).file_map.find
        (fun k v hkv => (h.view.node k v hkv).good)
        (fun k v hkv hns => by
          obtain ⟨a, ha, -⟩ := (h.view.link k v hkv).sub hns
          exact ⟨a, ha⟩) k.length k p d (le_refl _) hv hb
      rw [Hole.vfind] at hd'
      split at hd'
      · simp at hd'
      · rw [hfp] at hd'; simp at hd'

/-- `rename` installs the new path in the node; the hole is kept. -/
theorem setpath_hole {fs s : FileSystem} {q : Path} {n : Nat} (hwf : WF fs)
    (hfq : fs.file_map.find q = some n) (h : Hole fs q n s) (p : Path) :
    Hole fs q n (s.modify n (fun m => m.setPathname p)) := by
  have hK := hwf.keyOK
  have hn3 : ∀ i, (s.modify n (fun m => m.setPathname p)).nodes i =
      if i = n then (s.nodes n).map (fun m => m.setPathname p) else s.nodes i := by
    intro i
    rw [FileSystem.modify_nodes]
    by_cases hi : i = n
    · subst hi; simp
    · simp [hi]
  have hgn : (s.modify n (fun m => m.setPathname p)).get n = (s.get n).setPathname p := by
    have := hn3 n
    simp only [if_true] at this
    rw [FileSystem.nodes_of_live h.nlive] at this
    exact FileSystem.get_of_some this
  have hWn : fs.regionNodes q n = true := (fs.regionNodes_iff q n).mpr ⟨q, Or.inl rfl, hfq⟩
  refine ⟨?_, h.find, ?_, h.qfree, h.nfree, ?_, ?_, ?_, h.ws, h.root⟩
  · refine h.view.idle_change (fun _ => rfl) ?_ rfl rfl
    intro i
    by_cases hi : i = n
    · right
      subst hi
      refine ⟨?_, ?_, ?_, ?_⟩
      · show i ≠ s.root_node
        rw [h.root]
        rintro rfl
        exact hwf.rootFree q hfq
      · intro k hk
        rw [Hole.vfind] at hk
        split at hk
        · simp at hk
        · exact h.nfree k hk
      · show i < s.next
        by_contra hge
        have := h.fresh i (by omega)
        have hl := h.nlive
        rw [this] at hl
        simp at hl
      · rw [FileSystem.veil_nodes, hn3, hWn]
        simp only [if_true]
        rw [FileSystem.nodes_of_live h.nlive]
        exact ⟨_, rfl, rfl⟩
    · left
      rw [FileSystem.veil_nodes, FileSystem.veil_nodes, hn3]
      simp only [hi, if_false]
  · intro k d hb hf
    have : d ≠ n := by
      rintro rfl
      have := hK.inj hf hfq
      rw [this] at hb
      exact not_below_self q hb
    rw [hn3]
    simp only [this, if_false]
    exact h.recs k d hb hf
  · rw [hn3]
    simp only [if_true]
    have := h.nlive
    rw [FileSystem.nodes_of_live this]
    rfl
  · rw [hgn]; exact h.nkids
  · rw [hgn]; exact h.ntype

/-! ## `rename`: the run -/

theorem FileNode.addChild_keeps (r : FileNode) (c : Nat) (t : NodeType) :
    (r.addChild c t).pathname = r.pathname ∧ (r.addChild c t).name_ptr = r.name_ptr ∧
    (r.addChild c t).type = r.type ∧ (r.addChild c t).parent = r.parent := by
  unfold FileNode.addChild
  split
  · exact ⟨rfl, rfl, rfl, rfl⟩
  · split <;> exact ⟨rfl, rfl, rfl, rfl⟩

/-- What `append` of the renamed node leaves of the hole: the entries below
`q` and their nodes still ride along; every mapped node carries its key. -/
theorem Hole.appended {env : Env} {fs s3 s4 : FileSystem} {q p : Path} {n : Nat}
    (h : Hole fs q n s3) (hwf : WF fs) (hfq : fs.file_map.find q = some n)
    (hqp : ¬ under q p) (hpath : (s3.get n).pathname = some p)
    (hF : AppFrame env s3 n p s4) :
    (∀ k, below q k → s4.file_map.find k = fs.file_map.find k) ∧
    (∀ k d, below q k → fs.file_map.find k = some d → s4.nodes d = fs.nodes d) ∧
    s4.file_map.find q = none ∧ KeyOK s4 ∧
    (s4.get n).children = (fs.get n).children ∧ (s4.get n).type = (fs.get n).type := by
  have hK3 := h.keys_ok hwf
  have hnbp : ¬ below q p := fun hb => hqp (Or.inr hb)
  obtain ⟨a, hxrec, -, -⟩ := hF.xrec
  have hfind : ∀ k, below q k → s4.file_map.find k = s3.file_map.find k := by
    intro k hb
    cases h3 : s3.file_map.find k with
    | some d => exact hF.old k d h3
    | none =>
      cases h4 : s4.file_map.find k with
      | none => rfl
      | some d =>
        exfalso
        rcases hF.cls k d h4 with ⟨rfl, -⟩ | h' | ⟨-, -, hbp, -⟩
        · exact hnbp hb
        · rw [h3] at h'; simp at h'
        · exact hnbp (below_trans hb hbp)
  refine ⟨fun k hb => by rw [hfind k hb, h.find k hb], ?_, ?_, ?_, ?_, ?_⟩
  · intro k d hb hf
    have hf3 : s3.file_map.find k = some d := by rw [h.find k hb]; exact hf
    have hdn : d ≠ n := fun hdn => h.nfree k (hdn ▸ hf3)
    rw [← h.recs k d hb hf]
    rcases hF.other d (h.live hwf hf3) hdn with h1 | ⟨hr, -⟩
    · exact h1
    · exfalso
      rcases hr with hr | ⟨k', hb', hk'⟩
      · rw [hr, h.root] at hf
        exact hwf.rootFree k hf
      · have := hK3.inj hk' hf3
        exact hnbp (below_trans (this ▸ hb) hb')
  · cases h4 : s4.file_map.find q with
    | none => rfl
    | some d =>
      exfalso
      rcases hF.cls q d h4 with ⟨hqp', -⟩ | h' | ⟨-, -, hbp, -⟩
      · exact hqp (Or.inl hqp'.symm)
      · rw [h.qfree] at h'; simp at h'
      · exact hnbp hbp
  · intro k d h4
    rcases hF.cls k d h4 with ⟨rfl, rfl⟩ | h' | ⟨-, -, -, -, -, hnew⟩
    · rw [FileSystem.get_of_some hxrec]
      exact hpath
    · have hdn : d ≠ n := fun hdn => h.nfree k (hdn ▸ h')
      rcases hF.other d (h.live hwf h') hdn with h1 | ⟨-, c, t, h1⟩
      · rw [FileSystem.get_congr h1]; exact hK3 k d h'
      · rw [FileSystem.get_of_some h1, (FileNode.addChild_keeps _ c t).1]
        exact hK3 k d h'
    · exact hnew.facts.2.1
  · rw [FileSystem.get_of_some hxrec]; exact h.nkids
  · rw [FileSystem.get_of_some hxrec]; exact h.ntype

/-- The entries below `q` form regions in order in every tree in which they
ride along unchanged. -/
theorem cargo_carry {fs s : FileSystem} {q kc : Path} (hwf : WF fs) (hb : below q kc)
    (hfind : ∀ k, below q k → s.file_map.find k = fs.file_map.find k)
    (hrec : ∀ k d, below q k → fs.file_map.find k = some d → s.nodes d = fs.nodes d)
    (hroot : s.root_node = fs.root_node) : Cargo s kc := by
  intro k id hu hf
  have hbk : below q k := below_of_below_under hb hu
  rw [hfind k hbk] at hf
  have hN := hwf.node k id hf
  refine ⟨hN.local (hrec k id hbk hf) ?_, fun hbc => ?_⟩
  · intro kch hns hpp
    apply hfind
    have : below k kch := by rw [← hpp]; exact below_of_parent_eq kch hns
    exact below_trans hbk this
  · have hg := hN.good
    have hns := (below_parent kc k hbc hg).1
    have hpq : below q (parentPath k) := by
      rcases (below_parent kc k hbc hg).2 with h1 | h1
      · rw [h1]; exact hb
      · exact below_trans hb h1
    refine (hwf.link k id hf).local_link (by rw [FileSystem.get_congr (hrec k id hbk hf)])
      (fun _ => hfind _ hpq) ?_ hroot
    intro pn hpn
    rw [FileSystem.get_congr (hrec _ pn hpq hpn)]

/-- The walk of `rename` over the children of the renamed node returns and
moves every entry below `q`. -/
theorem rename_walk (env : Env) {fs s4 : FileSystem} {q p : Path} {n : Nat} (hwf : WF fs)
    (hfq : fs.file_map.find q = some n) (hqp : ¬ under q p) (hpq : ¬ under p q)
    (hfind : ∀ k, below q k → s4.file_map.find k = fs.file_map.find k)
    (hrec : ∀ k d, below q k → fs.file_map.find k = some d → s4.nodes d = fs.nodes d)
    (hK4 : KeyOK s4) (hkids : (s4.get n).children = (fs.get n).children)
    (htype : (s4.get n).type = (fs.get n).type) (hroot : s4.root_node = fs.root_node)
    (hfit : ∀ k d, below q k → fs.file_map.find k = some d →
      (rebase q p k).length < env.PATH_MAX) :
    ∃ s5, (if (s4.get n).type = NodeType.DIR_NODE then
        FileSystem.repathList env s4.walkBound s4 (s4.get n).children p else some s4) = some s5 ∧
      Moved s4 q p (fun k => below q k) s5 := by
  have hN := hwf.node q n hfq
  have hK := hwf.keyOK
  by_cases ht : (fs.get n).type = NodeType.DIR_NODE
  · rw [htype, hkids]
    simp only [ht, if_true]
    have hex : ∀ c ∈ (fs.get n).children, ∃ kc, s4.file_map.find kc = some c ∧
        nameStart kc ≠ 0 ∧ parentPath kc = q ∧ Cargo s4 kc := by
      intro c hc
      obtain ⟨kc, h1, h2, h3⟩ := (hN.kids c).mp hc
      have hb : below q kc := by rw [← h3]; exact below_of_parent_eq kc h2
      exact ⟨kc, by rw [hfind kc hb]; exact h1, h2, h3, cargo_carry hwf hb hfind hrec hroot⟩
    obtain ⟨ks, hks⟩ := forall2_of_exists _ _ hex
    have hfit4 : ∀ k d, (∃ kc ∈ ks, under kc k) → s4.file_map.find k = some d →
        (rebase q p k).length < env.PATH_MAX := by
      rintro k d ⟨kc, hm, hu⟩ hfk
      obtain ⟨c, -, -, h2, h3, -⟩ := forall2_mem_right hks kc hm
      have hb : below q kc := by rw [← h3]; exact below_of_parent_eq kc h2
      have hbk : below q k := below_of_below_under hb hu
      rw [hfind k hbk] at hfk
      exact hfit k d hbk hfk
    obtain ⟨s5, hrun, hM⟩ := (repath_correct env q p hqp hpq s4.walkBound).2 s4
      (fs.get n).children ks q hK4 (Or.inl rfl) hks hN.nodup hfit4 (by
        have : weightBelow s4 q ≤ s4.file_map.length := List.length_filter_le _ _
        unfold FileSystem.walkBound
        omega)
    rw [rebase_self] at hrun
    refine ⟨s5, hrun, hM.congr_keys ?_⟩
    intro k d hk
    constructor
    · rintro ⟨kc, hm, hu⟩
      obtain ⟨c, -, -, h2, h3, -⟩ := forall2_mem_right hks kc hm
      have hb : below q kc := by rw [← h3]; exact below_of_parent_eq kc h2
      exact below_of_below_under hb hu
    · intro hb
      have hk0 : fs.file_map.find k = some d := by rw [← hfind k hb]; exact hk
      obtain ⟨kc, c, h1, h2, h3, h4⟩ :=
        exists_child_key (hwf.regionOK q) k.length k d (le_refl _) hb hk0
      have hc : c ∈ (fs.get n).children := (hN.kids c).mpr ⟨kc, h1, h2, h3⟩
      obtain ⟨b, hbm, hb1, hb2, hb3, -⟩ := forall2_mem_left hks c hc
      have hbb : below q b := by rw [← hb3]; exact below_of_parent_eq b hb2
      rw [hfind b hbb] at hb1
      have := hK.inj hb1 h1
      subst this
      exact ⟨b, hbm, h4⟩
  · rw [htype]
    simp only [ht, if_false]
    refine ⟨s4, rfl, (Moved.none s4 q p).congr_keys ?_⟩
    intro k d hk
    constructor
    · intro h; exact h.elim
    · intro hb
      have hk0 : fs.file_map.find k = some d := by rw [← hfind k hb]; exact hk
      exact no_below_of_no_children (hwf.regionOK q) hfq (hN.leaf ht) k d hb hk0

/-- `rename` of a mapped node to a good path unrelated to its own returns 0;
the states it passes through. -/
theorem rename_run (env : Env) {fs : FileSystem} (hwf : WF fs)
    (hws : fs.write_support = true) {q p : Path} {n : Nat}
    (hfq : fs.file_map.find q = some n) (hqp : ¬ under q p) (hpq : ¬ under p q)
    (hfitp : nameStart p ≤ env.PATH_MAX)
    (hfit : ∀ k d, below q k → fs.file_map.find k = some d →
      (rebase q p k).length < env.PATH_MAX) :
    ∃ s3 s4 s5, Hole fs q n s3 ∧ (s3.get n).pathname = some p ∧
      (s3.get n).name_ptr = nameStart p ∧ (∀ k, under p k → s3.file_map.find k = none) ∧
      s3.append env n = some (Outcome.done s4) ∧ AppFrame env s3 n p s4 ∧
      Moved s4 q p (fun k => below q k) s5 ∧
      fs.rename env n p = some (0, { s5 with changed := true }) := by
  obtain ⟨htake, hH1, -, -⟩ := take_hole hwf hws hfq
  -- the node found at the new path is removed
  have hclear : ∃ s2, (((fs.take n).2.file_map.find p = none ∧ s2 = (fs.take n).2) ∨
      ∃ e, (fs.take n).2.file_map.find p = some e ∧ (fs.take n).2.remove e = some (0, s2)) ∧
      Hole fs q n s2 ∧ ∀ k, under p k → s2.file_map.find k = none := by
    cases hfe : (fs.take n).2.file_map.find p with
    | none => exact ⟨_, Or.inl ⟨rfl, rfl⟩, hH1, hH1.free_below hqp hpq hfe⟩
    | some e =>
      obtain ⟨s2, hrun, hH2, hfree, -, -⟩ := cut_hole hwf hfq hws hH1 hqp hpq hfe
      exact ⟨s2, Or.inr ⟨e, rfl, hrun⟩, hH2, hfree⟩
  obtain ⟨s2, hcl, hH2, hfree⟩ := hclear
  have hH3 := setpath_hole hwf hfq hH2 p
  have hg3 : (s2.modify n (fun m => m.setPathname p)).get n = (s2.get n).setPathname p := by
    apply FileSystem.get_of_some
    rw [FileSystem.modify_nodes]
    simp only [if_true]
    rw [FileSystem.nodes_of_live hH2.nlive]
    rfl
  have hpath : ((s2.modify n (fun m => m.setPathname p)).get n).pathname = some p := by
    rw [hg3]; rfl
  have hname : ((s2.modify n (fun m => m.setPathname p)).get n).name_ptr = nameStart p := by
    rw [hg3]; rfl
  have hnr : n ≠ (s2.modify n (fun m => m.setPathname p)).root_node := by
    rw [hH3.root]
    rintro rfl
    exact hwf.rootFree q hfq
  obtain ⟨s4, hrun4, hF⟩ := append_frame env (p.length + 1)
    (s2.modify n (fun m => m.setPathname p)) n p hpath hname (hfree p (Or.inl rfl)) hH3.nfree
    hH3.nlive (fun k v hk => hH3.live hwf hk) hH3.fresh hH3.rootLive hnr hfitp (by omega)
  have happ : (s2.modify n (fun m => m.setPathname p)).append env n = some (Outcome.done s4) := by
    unfold FileSystem.append
    rw [hpath]
    exact hrun4
  obtain ⟨c1, c2, -, c4, c5, c6⟩ := hH3.appended hwf hfq hqp hpath hF
  obtain ⟨s5, hrun5, hM⟩ := rename_walk env hwf hfq hqp hpq c1 c2 c4 c5 c6
    (by rw [hF.root, hH3.root]) hfit
  refine ⟨_, s4, s5, hH3, hpath, hname, hfree, happ, hF, hM, ?_⟩
  unfold FileSystem.rename
  rw [if_neg (by rw [hws]; decide)]
  simp only [htake, Bool.true_eq_false, if_false]
  rcases hcl with ⟨hfe, rfl⟩ | ⟨e, hfe, hrem⟩
  · simp only [hfe, happ]
    rw [hrun5]
    rfl
  · simp only [hfe, hrem, Option.map_some', happ]
    rw [hrun5]
    rfl

theorem ltstr_irrefl : ∀ s : Path, ltstr s s = false
  | [] => rfl
  | a :: s => by simp [ltstr, ltstr_irrefl s]

theorem ltstr_trans : ∀ a b c : Path, ltstr a b = true → ltstr b c = true → ltstr a c = true
  | [], [], _, h, _ => by simp [ltstr] at h
  | [], _ :: _, [], _, h => by simp [ltstr] at h
  | [], _ :: _, _ :: _, _, _ => rfl
  | _ :: _, [], _, h, _ => by simp [ltstr] at h
  | _ :: _, _ :: _, [], _, h => by simp [ltstr] at h
  | x :: a, y :: b, z :: c, h1, h2 => by
    simp only [ltstr] at h1 h2 ⊢
    by_cases hxy : x.toNat < y.toNat
    · by_cases hyz : y.toNat < z.toNat
      · rw [if_pos (by omega)]
      · rw [if_neg hyz] at h2
        by_cases hzy : z.toNat < y.toNat
        · rw [if_pos hzy] at h2; exact absurd h2 (by simp)
        · rw [if_pos (by omega)]
    · rw [if_neg hxy] at h1
      by_cases hyx : y.toNat < x.toNat
      · rw [if_pos hyx] at h1; exact absurd h1 (by simp)
      · rw [if_neg hyx] at h1
        by_cases hyz : y.toNat < z.toNat
        · rw [if_pos (by omega)]
        · rw [if_neg hyz] at h2
          by_cases hzy : z.toNat < y.toNat
          · rw [if_pos hzy] at h2; exact absurd h2 (by simp)
          · rw [if_neg hzy] at h2
            rw [if_neg (by omega), if_neg (by omega)]
            exact ltstr_trans a b c h1 h2

theorem ltstr_total : ∀ a b : Path, ltstr a b = false → a ≠ b → ltstr b a = true
  | [], [], _, h => absurd rfl h
  | [], _ :: _, h, _ => by simp [ltstr] at h
  | _ :: _, [], _, _ => rfl
  | x :: a, y :: b, h, hne => by
    simp only [ltstr] at h ⊢
    by_cases hxy : x.toNat < y.toNat
    · rw [if_pos hxy] at h; exact absurd h (by simp)
    · rw [if_neg hxy] at h
      by_cases hyx : y.toNat < x.toNat
      · rw [if_pos hyx]
      · rw [if_neg hyx] at h
        rw [if_neg hyx, if_neg hxy]
        have hxy' : x = y := by
          apply Char.ext
          apply UInt32.ext
          show x.toNat = y.toNat
          omega
        apply ltstr_total a b h
        intro hab
        exact hne (by rw [hxy', hab])

theorem ltstr_asymm (a b : Path) (h : ltstr a b = true) : ltstr b a = false := by
  cases hba : ltstr b a
  · rfl
  · have := ltstr_trans a b a h hba
    rw [ltstr_irrefl] at this
    exact absurd this (by simp)

theorem ltstr_ne (a b : Path) (h : ltstr a b = true) : a ≠ b := by
  rintro rfl
  rw [ltstr_irrefl] at h
  exact absurd h (by simp)

/-- A path sorts before every path below it. -/
theorem ltstr_below : ∀ (p r : Path), ltstr p (p ++ '/' :: r) = true
  | [], _ => rfl
  | a :: p, r => by
    show ltstr (a :: p) (a :: (p ++ '/' :: r)) = true
    simp only [ltstr, lt_irrefl, if_false]
    exact ltstr_below p r

theorem FileMap.find_none_of_ordered (m : FileMap) (key : Path)
    (h : ∀ e ∈ m, ltstr key e.1 = true) : m.find key = none := by
  induction m with
  | nil => rfl
  | cons e m ih =>
    obtain ⟨k, w⟩ := e
    have hk := h (k, w) (List.mem_cons_self _ _)
    have hne : k ≠ key := fun hh => ltstr_ne key k hk hh.symm
    simp only [FileMap.find, if_neg hne]
    exact ih (fun e he => h e (List.mem_cons_of_mem _ he))

theorem FileMap.mem_insertSorted (key : Path) (v : Nat) (m : FileMap) (e : Path × Nat)
    (h : e ∈ FileMap.insertSorted key v m) : e = (key, v) ∨ e ∈ m := by
  induction m with
  | nil => simpa [FileMap.insertSorted] using h
  | cons a m ih =>
    obtain ⟨k, w⟩ := a
    simp only [FileMap.insertSorted] at h
    split_ifs at h with hlt
    · rcases List.mem_cons.mp h with h | h
      · exact Or.inl h
      · exact Or.inr h
    · rcases List.mem_cons.mp h with h | h
      · exact Or.inr (h ▸ List.mem_cons_self _ _)
      · rcases ih h with h | h
        · exact Or.inl h
        · exact Or.inr (List.mem_cons_of_mem _ h)

theorem FileMap.ordered_insertSorted (key : Path) (v : Nat) (m : FileMap)
    (hm : m.Ordered) (hf : m.find key = none) : (FileMap.insertSorted key v m).Ordered := by
  induction m with
  | nil => simp [FileMap.insertSorted, FileMap.Ordered]
  | cons a m ih =>
    obtain ⟨k, w⟩ := a
    have hne : k ≠ key := by
      intro hh
      simp [FileMap.find, hh] at hf
    have hf' : FileMap.find m key = none := by
      simpa [FileMap.find, hne] using hf
    obtain ⟨h1, h2⟩ := List.pairwise_cons.mp hm
    simp only [FileMap.insertSorted]
    by_cases hlt : ltstr key k = true
    · rw [if_pos hlt]
      refine List.pairwise_cons.mpr ⟨?_, hm⟩
      intro e he
      rcases List.mem_cons.mp he with rfl | he
      · exact hlt
      · exact ltstr_trans _ _ _ hlt (h1 e he)
    · rw [if_neg hlt]
      refine List.pairwise_cons.mpr ⟨?_, ih h2 hf'⟩
      intro e he
      rcases FileMap.mem_insertSorted key v m e he with rfl | he
      · exact ltstr_total key k (by simpa using hlt) (fun hh => hne hh.symm)
      · exact h1 e he

theorem FileMap.mem_assign (m : FileMap) (key : Path) (v : Nat) (e : Path × Nat)
    (h : e ∈ m.assign key v) : e.1 = key ∨ e ∈ m := by
  induction m with
  | nil =>
    simp only [FileMap.assign, List.mem_singleton] at h
    exact Or.inl (by rw [h])
  | cons a m ih =>
    obtain ⟨k, w⟩ := a
    simp only [FileMap.assign] at h
    split_ifs at h with hk hlt
    · rcases List.mem_cons.mp h with h | h
      · exact Or.inl (by rw [h]; exact hk)
      · exact Or.inr (List.mem_cons_of_mem _ h)
    · rcases List.mem_cons.mp h with h | h
      · exact Or.inl (by rw [h])
      · exact Or.inr h
    · rcases List.mem_cons.mp h with h | h
      · exact Or.inr (h ▸ List.mem_cons_self _ _)
      · rcases ih h with h | h
        · exact Or.inl h
        · exact Or.inr (List.mem_cons_of_mem _ h)

theorem FileMap.ordered_assign (m : FileMap) (key : Path) (v : Nat)
    (hm : m.Ordered) : (m.assign key v).Ordered := by
  induction m with
  | nil => simp [FileMap.assign, FileMap.Ordered]
  | cons a m ih =>
    obtain ⟨k, w⟩ := a
    obtain ⟨h1, h2⟩ := List.pairwise_cons.mp hm
    simp only [FileMap.assign]
    by_cases hk : k = key
    · rw [if_pos hk]
      exact List.pairwise_cons.mpr ⟨h1, h2⟩
    · rw [if_neg hk]
      by_cases hlt : ltstr key k = true
      · rw [if_pos hlt]
        refine List.pairwise_cons.mpr ⟨?_, hm⟩
        intro e he
        rcases List.mem_cons.mp he with rfl | he
        · exact hlt
        · exact ltstr_trans _ _ _ hlt (h1 e he)
      · rw [if_neg hlt]
        refine List.pairwise_cons.mpr ⟨?_, ih h2⟩
        intro e he
        rcases FileMap.mem_assign m key v e he with h | he
        · rw [h]
          exact ltstr_total key k (by simpa using hlt) (fun hh => hk hh.symm)
        · exact h1 e he

theorem FileMap.ordered_after (ops : List MapOp) : (FileMap.after ops).Ordered := by
  have key : ∀ (ops : List MapOp) (m : FileMap), m.Ordered →
      (ops.foldl MapOp.apply m).Ordered := by
    intro ops
    induction ops with
    | nil => intro m hm; exact hm
    | cons op ops ih =>
      intro m hm
      apply ih
      cases op with
      | ins key v =>
        show (m.insert key v).1.Ordered
        unfold FileMap.insert
        cases hf : m.find key with
        | none => exact FileMap.ordered_insertSorted key v m hm hf
        | some e => exact hm
      | del key =>
        exact List.Pairwise.sublist (List.filter_sublist _) hm
      | set key v => exact FileMap.ordered_assign m key v hm
  exact key ops [] List.Pairwise.nil

/-- In an ordered map an entry with the smaller key stands first. -/
theorem FileMap.ordered_split (m : FileMap) (hm : m.Ordered) (a b : Path × Nat)
    (ha : a ∈ m) (hb : b ∈ m) (hlt : ltstr a.1 b.1 = true) :
    ∃ l1 l2 l3, m = l1 ++ a :: (l2 ++ b :: l3) := by
  obtain ⟨l1, t, rfl⟩ := List.append_of_mem ha
  have hp := List.pairwise_append.mp hm
  rcases List.mem_append.mp hb with hb1 | hb2
  · have := hp.2.2 b hb1 a (List.mem_cons_self _ _)
    rw [ltstr_asymm _ _ hlt] at this
    exact absurd this (by simp)
  · rcases List.mem_cons.mp hb2 with rfl | hb3
    · rw [ltstr_irrefl] at hlt
      exact absurd hlt (by simp)
    · obtain ⟨l2, l3, rfl⟩ := List.append_of_mem hb3
      exact ⟨l1, l2, l3, rfl⟩

theorem pwrite_length (file data : List Byte) (len off : Nat) (hd : len ≤ data.length) :
    (pwrite file data len off).length = max file.length (off + len) := by
  unfold pwrite
  simp only [List.length_append, List.length_take, List.length_drop, List.length_replicate]
  omega

theorem pwrite_eq_arrayWrite (file data : List Byte) (len off : Nat) (hd : len ≤ data.length) :
    pwrite file data len off = arrayWrite file data len off := by
  apply List.ext_getElem?
  intro i
  by_cases hi : i < max file.length (off + len)
  · have hr : (List.range (max file.length (off + len)))[i]? = some i :=
      List.getElem?_range hi
    unfold arrayWrite
    rw [List.getElem?_map, hr, Option.map_some']
    unfold pwrite
    have hl1 : ((file ++ List.replicate (off - file.length) 0).take off).length = off := by
      simp only [List.length_take, List.length_append, List.length_replicate]
      omega
    by_cases h1 : i < off
    · have hn : ¬ (off ≤ i ∧ i < off + len) := by omega
      rw [if_neg hn, List.append_assoc, List.getElem?_append_left (by omega),
        List.getElem?_take_of_lt h1]
      by_cases h2 : i < file.length
      · rw [List.getElem?_append_left h2, List.getD_eq_getElem?_getD]
        rw [List.getElem?_eq_getElem h2]
        rfl
      · rw [List.getElem?_append_right (by omega), List.getD_eq_getElem?_getD,
          List.getElem?_eq_none (by omega : file.length ≤ i)]
        rw [List.getElem?_replicate]
        rw [if_pos (by omega)]
        rfl
    · by_cases h2 : i < off + len
      · have hy : off ≤ i ∧ i < off + len := ⟨by omega, h2⟩
        rw [if_pos hy, List.append_assoc, List.getElem?_append_right (by omega), hl1,
          List.getElem?_append_left (by simp only [List.length_take]; omega),
          List.getElem?_take_of_lt (by omega), List.getD_eq_getElem?_getD,
          List.getElem?_eq_getElem (by omega : i - off < data.length)]
        rfl
      · have hn : ¬ (off ≤ i ∧ i < off + len) := by omega
        have hl2 : ((file ++ List.replicate (off - file.length) 0).take off ++
            data.take len).length = off + len := by
          rw [List.length_append, hl1, List.length_take]
          omega
        have hif : i < file.length := by
          rcases Nat.lt_or_ge i file.length with h | h
          · exact h
          · exfalso
            have := max_le h (by omega : off + len ≤ i)
            omega
        rw [if_neg hn, List.getElem?_append_right (by omega), hl2, List.getElem?_drop,
          List.getD_eq_getElem?_getD]
        have : off + len + (i - (off + len)) = i := by omega
        rw [this, List.getElem?_eq_getElem hif]
        rfl
  · rw [List.getElem?_eq_none (by rw [pwrite_length _ _ _ _ hd]; omega),
      List.getElem?_eq_none (by unfold arrayWrite; simp only [List.length_map, List.length_range]; omega)]

theorem land_low (st bit : Nat) (hb : bit &&& 511 = bit) : st &&& bit = (st &&& 511) &&& bit := by
  rw [Nat.land_assoc, Nat.land_comm 511 bit, hb]

theorem land_low_left (st m : Nat) (hb : m &&& 511 = m) : m &&& st = m &&& (st &&& 511) := by
  rw [Nat.land_comm st 511, ← Nat.land_assoc, hb]

set_option maxRecDepth 100000 in
theorem class_bits_fin : ∀ (cls : PermClass) (y : Fin 512) (br bw bx : Bool),
    (((if br then cls.r else 0) + (if bw then cls.w else 0) + (if bx then cls.x else 0)) &&& y.val
      = (if br then cls.r else 0) + (if bw then cls.w else 0) + (if bx then cls.x else 0)) ↔
    ((br = true → y.val &&& cls.r ≠ 0) ∧ (bw = true → y.val &&& cls.w ≠ 0) ∧
      (bx = true → y.val &&& cls.x ≠ 0)) := by
  intro cls
  cases cls <;> decide

theorem class_bits_low : ∀ (cls : PermClass) (br bw bx : Bool),
    ((if br then cls.r else 0) + (if bw then cls.w else 0) + (if bx then cls.x else 0)) &&& 511 =
      (if br then cls.r else 0) + (if bw then cls.w else 0) + (if bx then cls.x else 0) ∧
    cls.r &&& 511 = cls.r ∧ cls.w &&& 511 = cls.w ∧ cls.x &&& 511 = cls.x := by
  intro cls
  cases cls <;> decide

/-- The test `(mode & st_mode) == mode` of `access` holds exactly when the mode
has every requested bit of the class. -/
theorem class_bits (cls : PermClass) (st : Nat) (br bw bx : Bool) :
    (((if br then cls.r else 0) + (if bw then cls.w else 0) + (if bx then cls.x else 0)) &&& st
      = (if br then cls.r else 0) + (if bw then cls.w else 0) + (if bx then cls.x else 0)) ↔
    ((br = true → st &&& cls.r ≠ 0) ∧ (bw = true → st &&& cls.w ≠ 0) ∧
      (bx = true → st &&& cls.x ≠ 0)) := by
  obtain ⟨h0, hr, hw, hx⟩ := class_bits_low cls br bw bx
  have hlt : st &&& 511 < 512 := Nat.lt_succ_of_le Nat.and_le_right
  have := class_bits_fin cls ⟨st &&& 511, hlt⟩ br bw bx
  rw [land_low_left st _ h0, land_low st _ hr, land_low st _ hw, land_low st _ hx]
  exact this

theorem FileSystem.searchLoop_chain (fs : FileSystem) (mode : Nat) :
    ∀ (l : List Nat) (p : Option Nat) (fuel : Nat), fs.ChainFrom p l → l.length < fuel →
      fs.searchLoop mode fuel p =
        some (decide (∀ d ∈ l, (fs.get d).file_info.st_mode &&& mode ≠ 0)) := by
  intro l
  induction l with
  | nil =>
    intro p fuel hc hf
    obtain ⟨f, rfl⟩ : ∃ f, fuel = f + 1 := ⟨fuel - 1, by simp at hf; omega⟩
    cases p with
    | none => simp [FileSystem.searchLoop]
    | some d => exact absurd hc (by simp [FileSystem.ChainFrom])
  | cons e l ih =>
    intro p fuel hc hf
    obtain ⟨f, rfl⟩ : ∃ f, fuel = f + 1 := ⟨fuel - 1, by simp at hf; omega⟩
    cases p with
    | none => exact absurd hc (by simp [FileSystem.ChainFrom])
    | some d =>
      obtain ⟨rfl, hc'⟩ := hc
      simp only [FileSystem.searchLoop]
      by_cases hx : (fs.get d).file_info.st_mode &&& mode ≠ 0
      · rw [if_pos hx, ih _ f hc' (by simp at hf; omega)]
        simp [hx]
      · rw [if_neg hx]
        simp only [List.mem_cons, forall_eq_or_imp]
        simp [hx]

/-- In a well-formed tree whose root has a null `parent`, the chain of parents
of a mapped node ends at the root after at most as many steps as its path has
characters. -/
theorem WF.ancestors_exist (fs : FileSystem) (h : WF fs)
    (hroot : (fs.get fs.root_node).parent = none) :
    ∀ (n : Nat) (k : Path) (id : Nat), k.length ≤ n → fs.file_map.find k = some id →
      ∃ l, fs.Ancestors id l ∧ l.length ≤ k.length + 1 := by
  intro n
  induction n with
  | zero =>
    intro k id hk hf
    have hg := (h.node k id hf).good
    have : k = [] := List.eq_nil_of_length_eq_zero (by omega)
    exact absurd this hg.1
  | succ n ih =>
    intro k id hk hf
    by_cases hs : nameStart k = 0
    · refine ⟨[fs.root_node], ?_, by simp⟩
      unfold FileSystem.Ancestors
      rw [(h.link k id hf).top hs]
      exact ⟨rfl, by rw [hroot]; trivial⟩
    · obtain ⟨pn, hpf, -, hpp⟩ := (h.link k id hf).sub hs
      have hlt := parentPath_length_lt k hs
      obtain ⟨l, hl, hlen⟩ := ih (parentPath k) pn (by omega) hpf
      refine ⟨pn :: l, ?_, by simp; omega⟩
      unfold FileSystem.Ancestors
      rw [hpp]
      exact ⟨rfl, hl⟩

theorem FileSystem.Quiet.rfl_quiet (fs : FileSystem) : fs.Quiet fs :=
  ⟨rfl, fun _ n1 h hc => ⟨n1, h, hc⟩⟩

theorem FileSystem.Quiet.then_quiet {a b c : FileSystem} (h1 : a.Quiet b) (h2 : b.Quiet c) :
    a.Quiet c := by
  refine ⟨h2.1.trans h1.1, fun i n1 h hc => ?_⟩
  obtain ⟨n, hn, hnc⟩ := h2.2 i n1 h hc
  exact h1.2 i n hn hnc

theorem FileSystem.quiet_modify (fs : FileSystem) (i : Nat) (f : FileNode → FileNode)
    (hf : ∀ n, (f n).changed = n.changed) : fs.Quiet (fs.modify i f) := by
  refine ⟨rfl, fun j n1 h hc => ?_⟩
  simp only [FileSystem.modify] at h
  split_ifs at h with hj
  · cases hn : fs.nodes j with
    | none => rw [hn] at h; simp at h
    | some n =>
      rw [hn] at h
      simp only [Option.map_some', Option.some.injEq] at h
      refine ⟨n, rfl, ?_⟩
      rw [← hf n, h]
      exact hc
  · exact ⟨n1, h, hc⟩

theorem FileSystem.quiet_alloc (fs : FileSystem) (n : FileNode) (hn : n.changed = false) :
    fs.Quiet (fs.alloc n).2 := by
  refine ⟨rfl, fun j n1 h hc => ?_⟩
  simp only [FileSystem.alloc] at h
  split_ifs at h with hj
  · simp only [Option.some.injEq] at h
    rw [← h, hn] at hc
    exact absurd hc (by simp)
  · exact ⟨n1, h, hc⟩

theorem FileSystem.quiet_delete (fs : FileSystem) (i : Nat) : fs.Quiet (fs.delete i) := by
  refine ⟨rfl, fun j n1 h hc => ?_⟩
  simp only [FileSystem.delete] at h
  split_ifs at h with hj
  exact ⟨n1, h, hc⟩

theorem FileSystem.quiet_map (fs : FileSystem) (m : FileMap) :
    fs.Quiet { fs with file_map := m } :=
  ⟨rfl, fun _ n1 h hc => ⟨n1, h, hc⟩⟩

theorem FileNode.addChild_changed (p : FileNode) (c : Nat) (t : NodeType) :
    (p.addChild c t).changed = p.changed := by
  unfold FileNode.addChild
  split_ifs <;> rfl

theorem FileSystem.quiet_linkChild (fs : FileSystem) (x a : Nat) (t : NodeType) :
    fs.Quiet (fs.linkChild x a t) := by
  unfold FileSystem.linkChild
  exact (FileSystem.quiet_modify fs x (fun n => { n with parent := some a })
    (fun _ => rfl)).then_quiet
    (FileSystem.quiet_modify _ a _ (fun n => FileNode.addChild_changed n x t))

theorem FileSystem.appendAux_quiet (env : Env) :
    ∀ (fuel : Nat) (fs : FileSystem) (x : Nat) (out : Outcome),
      FileSystem.appendAux env fuel fs x = some out → fs.Quiet out.tree := by
  intro fuel
  induction fuel with
  | zero => intro fs x out h; simp [FileSystem.appendAux] at h
  | succ fuel ih =>
    intro fs x out h
    simp only [FileSystem.appendAux] at h
    cases hp : (fs.get x).pathname with
    | none => rw [hp] at h; simp at h
    | some pathname =>
      rw [hp] at h
      simp only at h
      unfold FileMap.insert at h
      cases hf : fs.file_map.find pathname with
      | some e =>
        rw [hf] at h
        simp only [Option.some.injEq] at h
        rw [← h]
        exact FileSystem.Quiet.rfl_quiet fs
      | none =>
        rw [hf] at h
        simp only at h
        split_ifs at h with hn
        · simp only [Option.some.injEq] at h
          rw [← h]
          exact (FileSystem.quiet_map fs _).then_quiet (FileSystem.quiet_linkChild _ _ _ _)
        · cases hfp : ({ fs with file_map := FileMap.insertSorted pathname x fs.file_map } :
              FileSystem).find (some (pathname.take ((fs.get x).name_ptr - 1))) with
          | some pn =>
            rw [hfp] at h
            simp only [Option.some.injEq] at h
            rw [← h]
            exact (FileSystem.quiet_map fs _).then_quiet (FileSystem.quiet_linkChild _ _ _ _)
          | none =>
            rw [hfp] at h
            simp only at h
            have hq1 := (FileSystem.quiet_map fs (FileMap.insertSorted pathname x fs.file_map)).then_quiet
              (FileSystem.quiet_alloc _ (FileNode.new env (some (pathname.take
                ((fs.get x).name_ptr - 1))) none NodeType.DIR_NODE) rfl)
            cases hr : FileSystem.appendAux env fuel
                (({ fs with file_map := FileMap.insertSorted pathname x fs.file_map } :
                  FileSystem).alloc (FileNode.new env (some (pathname.take
                    ((fs.get x).name_ptr - 1))) none NodeType.DIR_NODE)).2
                (({ fs with file_map := FileMap.insertSorted pathname x fs.file_map } :
                  FileSystem).alloc (FileNode.new env (some (pathname.take
                    ((fs.get x).name_ptr - 1))) none NodeType.DIR_NODE)).1 with
            | none => rw [hr] at h; simp at h
            | some o =>
              rw [hr] at h
              have hq2 := ih _ _ o hr
              cases o with
              | done fs2 =>
                simp only [Option.some.injEq] at h
                rw [← h]
                exact (hq1.then_quiet hq2).then_quiet (FileSystem.quiet_linkChild _ _ _ _)
              | AlreadyExists e fs2 =>
                simp only [Option.some.injEq] at h
                rw [← h]
                exact hq1.then_quiet hq2

theorem FileSystem.take_quiet (fs : FileSystem) (node : Nat) : fs.Quiet (fs.take node).2 := by
  unfold FileSystem.take
  simp only
  split_ifs with h1
  · exact FileSystem.quiet_map fs _
  · cases hp : (fs.get node).parent with
    | none => exact FileSystem.quiet_map fs _
    | some parent =>
      simp only
      split_ifs with h2
      · exact (FileSystem.quiet_map fs _).then_quiet
          (FileSystem.quiet_modify _ parent _ (fun _ => rfl))
      · exact FileSystem.quiet_map fs _

/-- The invariant behind the flag of the tree: it is set, or no node has its
flag set. -/
theorem FileSystem.Quiet.keeps {fs fs1 : FileSystem} (h : fs.Quiet fs1)
    (hj : fs.changed = true ∨ fs.AllClean) : fs1.changed = true ∨ fs1.AllClean := by
  rcases hj with hj | hj
  · exact Or.inl (h.1.trans hj)
  · right
    intro i n1 hn
    cases hc : n1.changed with
    | false => rfl
    | true =>
      obtain ⟨n, hn0, hnc⟩ := h.2 i n1 hn hc
      rw [hj i n hn0] at hnc
      exact absurd hnc (by simp)

theorem FileSystem.appendNew_keeps (env : Env) (fs : FileSystem) (n : FileNode) (e : Nat)
    (fs1 : FileSystem) (hj : fs.changed = true ∨ fs.AllClean)
    (h : (fs.alloc n).2.appendNew env (fs.alloc n).1 = some (e, fs1)) :
    fs1.changed = true ∨ fs1.AllClean := by
  unfold FileSystem.appendNew FileSystem.append at h
  cases hr : FileSystem.appendAux env
      ((((fs.alloc n).2.get (fs.alloc n).1).pathname.getD []).length + 1) (fs.alloc n).2
      (fs.alloc n).1 with
  | none => rw [hr] at h; simp at h
  | some o =>
    rw [hr] at h
    have hq := FileSystem.appendAux_quiet env _ _ _ o hr
    cases o with
    | done fs2 =>
      simp only [Option.some.injEq, Prod.mk.injEq] at h
      rw [← h.2]
      exact Or.inl rfl
    | AlreadyExists x fs2 =>
      simp only [Option.some.injEq, Prod.mk.injEq] at h
      rw [← h.2]
      have hq' : fs2.changed = fs.changed := hq.1
      rcases hj with hj | hj
      · exact Or.inl (hq'.trans hj)
      · right
        intro i n1 hn
        cases hc : n1.changed with
        | false => rfl
        | true =>
          simp only [FileSystem.delete] at hn
          split_ifs at hn with hi
          obtain ⟨n0, hn0, hnc⟩ := hq.2 i n1 hn hc
          have hi' : ¬ i = fs.next := hi
          simp only [FileSystem.alloc, if_neg hi'] at hn0
          rw [hj i n0 hn0] at hnc
          exact absurd hnc (by simp)

/-- The ways a call of `rename` returns. -/
theorem FileSystem.rename_cases (env : Env) (fs : FileSystem) (node : Nat) (p : Path) (e : Nat)
    (fs1 : FileSystem) (h : fs.rename env node p = some (e, fs1)) :
    (fs.write_support = false ∧ fs1 = fs) ∨
    (fs.write_support ≠ false ∧ (fs.take node).1 = false ∧ fs1 = (fs.take node).2) ∨
    (fs.write_support ≠ false ∧ (fs.take node).1 ≠ false ∧ e = 0 ∧ ∃ f1 f3 f4 : FileSystem,
      (((fs.take node).2.file_map.find p = none ∧ f1 = (fs.take node).2) ∨
        ∃ ex r, (fs.take node).2.file_map.find p = some ex ∧
          (fs.take node).2.remove ex = some r ∧ f1 = r.2) ∧
      (f1.modify node (fun n => n.setPathname p)).append env node = some (Outcome.done f3) ∧
      (((f3.get node).type ≠ NodeType.DIR_NODE ∧ f4 = f3) ∨
        ((f3.get node).type = NodeType.DIR_NODE ∧
          FileSystem.repathList env f3.walkBound f3 (f3.get node).children p = some f4)) ∧
      fs1 = { f4 with changed := true }) := by
  unfold FileSystem.rename at h
  by_cases hws : fs.write_support = false
  · rw [if_pos hws] at h
    simp only [Option.some.injEq, Prod.mk.injEq] at h
    exact Or.inl ⟨hws, h.2.symm⟩
  · rw [if_neg hws] at h
    simp only at h
    by_cases ht : (fs.take node).1 = false
    · rw [if_pos ht] at h
      simp only [Option.some.injEq, Prod.mk.injEq] at h
      exact Or.inr (Or.inl ⟨hws, ht, h.2.symm⟩)
    · rw [if_neg ht] at h
      refine Or.inr (Or.inr ⟨hws, ht, ?_⟩)
      have hcl : ∀ (c : Option FileSystem),
          (match c with
            | none => none
            | some f1 =>
              match (f1.modify node (fun n => n.setPathname p)).append env node with
              | some (Outcome.done fs3) =>
                Option.map (fun fs4 => (0, ({ fs4 with changed := true } : FileSystem)))
                  (if (fs3.get node).type = NodeType.DIR_NODE then
                    FileSystem.repathList env fs3.walkBound fs3 (fs3.get node).children p
                  else some fs3)
              | _ => none) = some (e, fs1) →
          e = 0 ∧ ∃ f1 f3 f4 : FileSystem, c = some f1 ∧
            (f1.modify node (fun n => n.setPathname p)).append env node =
              some (Outcome.done f3) ∧
            (((f3.get node).type ≠ NodeType.DIR_NODE ∧ f4 = f3) ∨
              ((f3.get node).type = NodeType.DIR_NODE ∧
                FileSystem.repathList env f3.walkBound f3 (f3.get node).children p = some f4)) ∧
            fs1 = { f4 with changed := true } := by
        intro c hc
        cases c with
        | none => simp at hc
        | some f1 =>
          simp only at hc
          cases ha : (f1.modify node (fun n => n.setPathname p)).append env node with
          | none => rw [ha] at hc; simp at hc
          | some o =>
            rw [ha] at hc
            cases o with
            | AlreadyExists x f => simp at hc
            | done f3 =>
              simp only [Option.map_eq_some', Prod.mk.injEq] at hc
              obtain ⟨f4, h4, he, hf⟩ := hc
              refine ⟨he.symm, f1, f3, f4, rfl, ha, ?_, hf.symm⟩
              by_cases hd : (f3.get node).type = NodeType.DIR_NODE
              · rw [if_pos hd] at h4
                exact Or.inr ⟨hd, h4⟩
              · rw [if_neg hd] at h4
                simp only [Option.some.injEq] at h4
                exact Or.inl ⟨hd, h4.symm⟩
      obtain ⟨he, f1, f3, f4, hc, ha, h4, hf⟩ := hcl _ h
      refine ⟨he, f1, f3, f4, ?_, ha, h4, hf⟩
      cases hfe : (fs.take node).2.file_map.find p with
      | none =>
        rw [hfe] at hc
        simp only [Option.some.injEq] at hc
        exact Or.inl ⟨rfl, hc.symm⟩
      | some ex =>
        rw [hfe] at hc
        simp only [Option.map_eq_some'] at hc
        obtain ⟨r, hr, hr2⟩ := hc
        exact Or.inr ⟨ex, r, rfl, hr, hr2.symm⟩

theorem FileSystem.Edited.flag_kept {fs0 fs : FileSystem} (h : fs0.Edited fs)
    (hj : fs0.changed = true ∨ fs0.AllClean) : fs.changed = true ∨ fs.AllClean := by
  induction h with
  | start => exact hj
  | mknod env fs path mode e fs1 _ hop ih =>
    unfold FileSystem.mknod at hop
    split_ifs at hop with hws
    · simp only [Option.some.injEq, Prod.mk.injEq] at hop
      rw [← hop.2]; exact ih
    · exact FileSystem.appendNew_keeps env fs _ e fs1 ih hop
  | create env fs path mode e fs1 r _ hop ih =>
    unfold FileSystem.create at hop
    split_ifs at hop with hws
    · simp only [Option.some.injEq, Prod.mk.injEq] at hop
      rw [← hop.2.1]; exact ih
    · simp only [Option.map_eq_some', Prod.mk.injEq] at hop
      obtain ⟨⟨e1, f1⟩, hop1, -, hf, -⟩ := hop
      rw [← hf]
      exact FileSystem.appendNew_keeps env fs _ e1 f1 ih hop1
  | mkdir env fs path mode e fs1 _ hop ih =>
    unfold FileSystem.mkdir at hop
    split_ifs at hop with hws
    · simp only [Option.some.injEq, Prod.mk.injEq] at hop
      rw [← hop.2]; exact ih
    · exact FileSystem.appendNew_keeps env fs _ e fs1 ih hop
  | write env fs node data len off _ ih =>
    unfold FileSystem.write
    cases hb : (fs.get node).buffer with
    | none => exact ih
    | some b => exact Or.inl rfl
  | truncate env fuel fs node size e fs1 _ hop ih =>
    unfold FileSystem.truncate at hop
    by_cases hws : fs.write_support = false
    · rw [if_pos hws] at hop
      simp only [Option.some.injEq, Prod.mk.injEq] at hop
      rw [← hop.2]; exact ih
    · rw [if_neg hws] at hop
      simp only [Option.map_eq_some', Prod.mk.injEq] at hop
      obtain ⟨f2, -, -, hf⟩ := hop
      rw [← hf]
      exact Or.inl rfl
  | rename env fs node p e fs1 _ hop ih =>
    rcases FileSystem.rename_cases env fs node p e fs1 hop with ⟨-, h⟩ | ⟨-, -, h⟩ |
      ⟨-, -, -, f1, f3, f4, -, -, -, h⟩
    · rw [h]; exact ih
    · rw [h]; exact (FileSystem.take_quiet fs node).keeps ih
    · rw [h]; exact Or.inl rfl
  | remove fs node e fs1 _ hop ih =>
    unfold FileSystem.remove FileSystem.walkBound at hop
    have hb : 2 * fs.file_map.length + 2 = (2 * fs.file_map.length + 1) + 1 := rfl
    rw [hb, FileSystem.removeAux] at hop
    by_cases hws : fs.write_support = false
    · rw [if_pos hws] at hop
      simp only [Option.some.injEq, Prod.mk.injEq] at hop
      rw [← hop.2]; exact ih
    · rw [if_neg hws] at hop
      simp only at hop
      split at hop
      · simp at hop
      · simp only [Option.some.injEq, Prod.mk.injEq] at hop
        rw [← hop.2]
        exact Or.inl rfl

theorem FileNode.Traced.same {n n1 : FileNode} (hne : n.pathname ≠ none)
    (hp : n1.pathname = n.pathname) (ho : n1.original_pathname = n.original_pathname)
    (hd : n1.data = n.data) : FileNode.Traced n n1 :=
  { path := by rw [hp]; exact hne
    data := hd
    keep := fun o h => by rw [ho]; exact h
    first := fun h o h1 => by rw [ho, h] at h1; exact absurd h1 (by simp)
    still := fun _ _ => hp }

theorem FileNode.Traced.then_traced {a b c : FileNode} (h1 : FileNode.Traced a b)
    (h2 : FileNode.Traced b c) : FileNode.Traced a c := by
  refine ⟨h2.path, h2.data.trans h1.data, fun o h => h2.keep o (h1.keep o h), ?_, ?_⟩
  · intro ha o hc
    cases hb : b.original_pathname with
    | some o1 =>
      have := h2.keep o1 hb
      rw [this] at hc
      simp only [Option.some.injEq] at hc
      rw [← hc]
      exact h1.first ha o1 hb
    | none =>
      obtain ⟨hbd, hbp⟩ := h2.first hb o hc
      have had : a.data.isSome := by rw [← h1.data]; exact hbd
      exact ⟨had, by rw [← h1.still hb had]; exact hbp⟩
  · intro hc had
    have hbd : b.data.isSome := by rw [h1.data]; exact had
    have hb : b.original_pathname = none := by
      cases hb : b.original_pathname with
      | none => rfl
      | some o1 =>
        have := h2.keep o1 hb
        rw [this] at hc
        exact absurd hc (by simp)
    rw [h2.still hc hbd, h1.still hb had]

theorem FileNode.setPathname_traced (n : FileNode) (p : Path) (hne : n.pathname ≠ none) :
    FileNode.Traced n (n.setPathname p) := by
  obtain ⟨q, hq⟩ := Option.ne_none_iff_exists'.mp hne
  refine ⟨by simp [FileNode.setPathname], rfl, ?_, ?_, ?_⟩
  · intro o h
    simp only [FileNode.setPathname, h]
    rw [if_neg (by simp)]
  · intro h o h1
    simp only [FileNode.setPathname, h] at h1
    by_cases hc : n.data.isSome = true
    · rw [if_pos ⟨hc, trivial⟩] at h1
      exact ⟨hc, h1⟩
    · rw [if_neg (fun hh => hc hh.1)] at h1
      simp at h1
  · intro h hd
    simp only [FileNode.setPathname] at h
    split_ifs at h with hc
    · rw [hq] at h
      exact absurd h (by simp)
    · exact absurd ⟨hd, h⟩ hc

theorem FileSystem.Evolves.rfl_evolves (fs : FileSystem) : fs.Evolves fs :=
  ⟨le_refl _, fun _ n1 _ h => ⟨n1, h, fun hne => FileNode.Traced.same hne rfl rfl rfl⟩⟩

theorem FileSystem.Evolves.then_evolves {a b c : FileSystem} (h1 : a.Evolves b)
    (h2 : b.Evolves c) : a.Evolves c := by
  refine ⟨le_trans h1.1 h2.1, fun i n1 hi h => ?_⟩
  obtain ⟨nb, hb, hbt⟩ := h2.2 i n1 (lt_of_lt_of_le hi h1.1) h
  obtain ⟨na, ha, hat⟩ := h1.2 i nb hi hb
  refine ⟨na, ha, fun hne => ?_⟩
  have t1 := hat hne
  exact t1.then_traced (hbt t1.path)

theorem FileSystem.Evolves.of_same {fs fs1 : FileSystem} (hn : fs1.nodes = fs.nodes)
    (hx : fs1.next = fs.next) : fs.Evolves fs1 :=
  ⟨by rw [hx], fun i n1 _ h =>
    ⟨n1, by rw [← hn]; exact h, fun hne => FileNode.Traced.same hne rfl rfl rfl⟩⟩

theorem FileSystem.evolves_modify (fs : FileSystem) (i : Nat) (f : FileNode → FileNode)
    (hf : ∀ n, n.pathname ≠ none → FileNode.Traced n (f n)) : fs.Evolves (fs.modify i f) := by
  refine ⟨le_refl _, fun j n1 _ h => ?_⟩
  simp only [FileSystem.modify] at h
  split_ifs at h with hj
  · cases hn : fs.nodes j with
    | none => rw [hn] at h; simp at h
    | some n =>
      rw [hn] at h
      simp only [Option.map_some', Option.some.injEq] at h
      exact ⟨n, rfl, fun hne => h ▸ hf n hne⟩
  · exact ⟨n1, h, fun hne => FileNode.Traced.same hne rfl rfl rfl⟩

theorem FileSystem.evolves_alloc (fs : FileSystem) (n : FileNode) :
    fs.Evolves (fs.alloc n).2 := by
  refine ⟨Nat.le_succ _, fun j n1 hj h => ?_⟩
  simp only [FileSystem.alloc] at h
  rw [if_neg (by omega)] at h
  exact ⟨n1, h, fun hne => FileNode.Traced.same hne rfl rfl rfl⟩

theorem FileSystem.evolves_delete (fs : FileSystem) (i : Nat) : fs.Evolves (fs.delete i) := by
  refine ⟨le_refl _, fun j n1 _ h => ?_⟩
  simp only [FileSystem.delete] at h
  split_ifs at h with hj
  exact ⟨n1, h, fun hne => FileNode.Traced.same hne rfl rfl rfl⟩

theorem FileNode.addChild_traced (p : FileNode) (c : Nat) (t : NodeType)
    (hne : p.pathname ≠ none) : FileNode.Traced p (p.addChild c t) := by
  unfold FileNode.addChild
  split_ifs <;> exact FileNode.Traced.same hne rfl rfl rfl

theorem FileSystem.evolves_linkChild (fs : FileSystem) (x a : Nat) (t : NodeType) :
    fs.Evolves (fs.linkChild x a t) := by
  unfold FileSystem.linkChild
  exact (FileSystem.evolves_modify fs x (fun n => { n with parent := some a })
    (fun _ hne => FileNode.Traced.same hne rfl rfl rfl)).then_evolves
    (FileSystem.evolves_modify _ a _ (fun n hne => FileNode.addChild_traced n x t hne))

theorem FileSystem.appendAux_evolves (env : Env) :
    ∀ (fuel : Nat) (fs : FileSystem) (x : Nat) (out : Outcome),
      FileSystem.appendAux env fuel fs x = some out → fs.Evolves out.tree := by
  intro fuel
  induction fuel with
  | zero => intro fs x out h; simp [FileSystem.appendAux] at h
  | succ fuel ih =>
    intro fs x out h
    simp only [FileSystem.appendAux] at h
    cases hp : (fs.get x).pathname with
    | none => rw [hp] at h; simp at h
    | some pathname =>
      rw [hp] at h
      simp only at h
      unfold FileMap.insert at h
      cases hf : fs.file_map.find pathname with
      | some e =>
        rw [hf] at h
        simp only [Option.some.injEq] at h
        rw [← h]
        exact FileSystem.Evolves.rfl_evolves fs
      | none =>
        rw [hf] at h
        simp only at h
        have hm : fs.Evolves { fs with file_map := FileMap.insertSorted pathname x fs.file_map } :=
          FileSystem.Evolves.of_same rfl rfl
        split_ifs at h with hn
        · simp only [Option.some.injEq] at h
          rw [← h]
          exact hm.then_evolves (FileSystem.evolves_linkChild _ _ _ _)
        · cases hfp : ({ fs with file_map := FileMap.insertSorted pathname x fs.file_map } :
              FileSystem).find (some (pathname.take ((fs.get x).name_ptr - 1))) with
          | some pn =>
            rw [hfp] at h
            simp only [Option.some.injEq] at h
            rw [← h]
            exact hm.then_evolves (FileSystem.evolves_linkChild _ _ _ _)
          | none =>
            rw [hfp] at h
            simp only at h
            have hq1 := hm.then_evolves
              (FileSystem.evolves_alloc _ (FileNode.new env (some (pathname.take
                ((fs.get x).name_ptr - 1))) none NodeType.DIR_NODE))
            cases hr : FileSystem.appendAux env fuel
                (({ fs with file_map := FileMap.insertSorted pathname x fs.file_map } :
                  FileSystem).alloc (FileNode.new env (some (pathname.take
                    ((fs.get x).name_ptr - 1))) none NodeType.DIR_NODE)).2
                (({ fs with file_map := FileMap.insertSorted pathname x fs.file_map } :
                  FileSystem).alloc (FileNode.new env (some (pathname.take
                    ((fs.get x).name_ptr - 1))) none NodeType.DIR_NODE)).1 with
            | none => rw [hr] at h; simp at h
            | some o =>
              rw [hr] at h
              have hq2 := ih _ _ o hr
              cases o with
              | done fs2 =>
                simp only [Option.some.injEq] at h
                rw [← h]
                exact (hq1.then_evolves hq2).then_evolves (FileSystem.evolves_linkChild _ _ _ _)
              | AlreadyExists e fs2 =>
                simp only [Option.some.injEq] at h
                rw [← h]
                exact hq1.then_evolves hq2

theorem FileSystem.take_evolves (fs : FileSystem) (node : Nat) :
    fs.Evolves (fs.take node).2 := by
  unfold FileSystem.take
  simp only
  have hm : fs.Evolves { fs with file_map :=
      (fs.file_map.erase ((fs.get node).pathname.getD [])).1 } :=
    FileSystem.Evolves.of_same rfl rfl
  split_ifs with h1
  · exact hm
  · cases hp : (fs.get node).parent with
    | none => exact hm
    | some parent =>
      simp only
      split_ifs with h2
      · exact hm.then_evolves
          (FileSystem.evolves_modify _ parent (fun p => { p with children := p.children.erase node })
            (fun _ hne => FileNode.Traced.same hne rfl rfl rfl))
      · exact hm

theorem FileSystem.remove_evolves :
    ∀ (fuel : Nat),
      (∀ (fs : FileSystem) (node : Nat) (r : Nat × FileSystem),
        FileSystem.removeAux fuel fs node = some r → fs.Evolves r.2) ∧
      (∀ (fs : FileSystem) (node : Nat) (fs1 : FileSystem),
        FileSystem.removeChildren fuel fs node = some fs1 → fs.Evolves fs1) := by
  intro fuel
  induction fuel with
  | zero =>
    exact ⟨fun fs node r h => by simp [FileSystem.removeAux] at h,
      fun fs node fs1 h => by simp [FileSystem.removeChildren] at h⟩
  | succ fuel ih =>
    obtain ⟨ihA, ihC⟩ := ih
    constructor
    · intro fs node r h
      rw [FileSystem.removeAux] at h
      by_cases hws : fs.write_support = false
      · rw [if_pos hws] at h
        simp only [Option.some.injEq] at h
        rw [← h]
        exact FileSystem.Evolves.rfl_evolves fs
      · rw [if_neg hws] at h
        simp only at h
        have hem : ∀ f1, (if (fs.get node).type = NodeType.DIR_NODE then
            FileSystem.removeChildren fuel fs node else some fs) = some f1 → fs.Evolves f1 := by
          intro f1 h1
          split_ifs at h1 with hd
          · exact ihC fs node f1 h1
          · simp only [Option.some.injEq] at h1
            rw [← h1]
            exact FileSystem.Evolves.rfl_evolves fs
        cases he : (if (fs.get node).type = NodeType.DIR_NODE then
            FileSystem.removeChildren fuel fs node else some fs) with
        | none => rw [he] at h; simp at h
        | some f1 =>
          rw [he] at h
          simp only [Option.some.injEq] at h
          rw [← h]
          have h2 := (hem f1 he).then_evolves (FileSystem.take_evolves f1 node)
          refine h2.then_evolves ?_
          show FileSystem.Evolves (f1.take node).2 _
          split_ifs with hd
          · exact FileSystem.Evolves.of_same rfl rfl
          · exact (FileSystem.evolves_delete _ node).then_evolves
              (FileSystem.Evolves.of_same rfl rfl)
    · intro fs node fs1 h
      rw [FileSystem.removeChildren] at h
      cases hc : (fs.get node).children with
      | nil =>
        rw [hc] at h
        simp only [Option.some.injEq] at h
        rw [← h]
        exact FileSystem.Evolves.rfl_evolves fs
      | cons front rest =>
        rw [hc] at h
        simp only at h
        cases hr : FileSystem.removeAux fuel fs front with
        | none => rw [hr] at h; simp at h
        | some r =>
          rw [hr] at h
          simp only at h
          exact (ihA fs front r hr).then_evolves (ihC r.2 node fs1 h)

theorem FileSystem.repath_evolves (env : Env) :
    ∀ (fuel : Nat),
      (∀ (fs : FileSystem) (node : Nat) (path : Path) (fs1 : FileSystem),
        FileSystem.repathAux env fuel fs node path = some fs1 → fs.Evolves fs1) ∧
      (∀ (fs : FileSystem) (l : List Nat) (path : Path) (fs1 : FileSystem),
        FileSystem.repathList env fuel fs l path = some fs1 → fs.Evolves fs1) := by
  intro fuel
  induction fuel with
  | zero =>
    exact ⟨fun fs node path fs1 h => by simp [FileSystem.repathAux] at h,
      fun fs l path fs1 h => by simp [FileSystem.repathList] at h⟩
  | succ fuel ih =>
    obtain ⟨ihA, ihL⟩ := ih
    constructor
    · intro fs node path fs1 h
      rw [FileSystem.repathAux] at h
      have h0 : fs.Evolves { fs with file_map := FileMap.assign (fs.file_map.erase ((fs.get node).pathname.getD [])).1 (path ++ '/' :: (fs.get node).name) node } :=
        FileSystem.Evolves.of_same rfl rfl
      have h1 := h0.then_evolves
        (FileSystem.evolves_modify _ node
          (fun m => m.setPathname (path ++ '/' :: (fs.get node).name))
          (fun n hne => FileNode.setPathname_traced n _ hne))
      split_ifs at h with hov hd
      · exact h1.then_evolves (ihL _ _ _ fs1 h)
      · simp only [Option.some.injEq] at h
        rw [← h]
        exact h1
    · intro fs l path fs1 h
      cases l with
      | nil =>
        rw [FileSystem.repathList] at h
        simp only [Option.some.injEq] at h
        rw [← h]
        exact FileSystem.Evolves.rfl_evolves fs
      | cons child rest =>
        rw [FileSystem.repathList] at h
        cases hr : FileSystem.repathAux env fuel fs child path with
        | none => rw [hr] at h; simp at h
        | some f1 =>
          rw [hr] at h
          simp only at h
          exact (ihA fs child path f1 hr).then_evolves (ihL f1 rest path fs1 h)

theorem FileSystem.rename_evolves (env : Env) (fs : FileSystem) (node : Nat) (p : Path)
    (e : Nat) (fs1 : FileSystem) (h : fs.rename env node p = some (e, fs1)) :
    fs.Evolves fs1 := by
  rcases FileSystem.rename_cases env fs node p e fs1 h with ⟨-, h⟩ | ⟨-, -, h⟩ |
    ⟨-, -, -, f1, f3, f4, hc, ha, h4, h⟩
  · rw [h]; exact FileSystem.Evolves.rfl_evolves fs
  · rw [h]; exact FileSystem.take_evolves fs node
  · rw [h]
    have e1 : fs.Evolves f1 := by
      rcases hc with ⟨-, hc⟩ | ⟨ex, r, -, hr, hc⟩
      · rw [hc]; exact FileSystem.take_evolves fs node
      · rw [hc]
        exact (FileSystem.take_evolves fs node).then_evolves
          ((FileSystem.remove_evolves _).1 _ ex r hr)
    have e2 : f1.Evolves (f1.modify node (fun n => n.setPathname p)) :=
      FileSystem.evolves_modify _ node _ (fun n hne => FileNode.setPathname_traced n _ hne)
    have e3 : (f1.modify node (fun n => n.setPathname p)).Evolves f3 :=
      FileSystem.appendAux_evolves env _ _ _ _ ha
    have e4 : f3.Evolves f4 := by
      rcases h4 with ⟨-, h4⟩ | ⟨-, h4⟩
      · rw [h4]; exact FileSystem.Evolves.rfl_evolves f3
      · exact (FileSystem.repath_evolves env _).2 _ _ _ _ h4
    exact (((e1.then_evolves e2).then_evolves e3).then_evolves e4).then_evolves
      (FileSystem.Evolves.of_same rfl rfl)

theorem FileSystem.Renamed.evolves {fs0 fs : FileSystem} (h : fs0.Renamed fs) :
    fs0.Evolves fs := by
  induction h with
  | start => exact FileSystem.Evolves.rfl_evolves fs0
  | rename env fs node p e fs1 _ hop ih =>
    exact ih.then_evolves (FileSystem.rename_evolves env fs node p e fs1 hop)

/-! ## A larger `PATH_MAX` keeps every result -/

theorem FileSystem.appendAux_mono (env env' : Env)
    (hnew : ∀ a b c, FileNode.new env' a b c = FileNode.new env a b c)
    (hB : env.PATH_MAX ≤ env'.PATH_MAX) :
    ∀ (fuel : Nat) (fs : FileSystem) (x : Nat) (out : Outcome),
      FileSystem.appendAux env fuel fs x = some out →
      FileSystem.appendAux env' fuel fs x = some out := by
  intro fuel
  induction fuel with
  | zero => intro fs x out h; simp [FileSystem.appendAux] at h
  | succ fuel ih =>
    intro fs x out h
    cases hp : (fs.get x).pathname with
    | none => simp [FileSystem.appendAux, hp] at h
    | some pathname =>
      cases hf : fs.file_map.find pathname with
      | some e =>
        simp only [FileSystem.appendAux, hp, FileMap.insert, hf] at h ⊢
        exact h
      | none =>
        simp only [FileSystem.appendAux, hp, FileMap.insert, hf] at h ⊢
        by_cases hn : (fs.get x).name_ptr = 0
        · rw [if_pos hn] at h ⊢
          exact h
        · rw [if_neg hn] at h ⊢
          by_cases hov : env.PATH_MAX < (pathname.take ((fs.get x).name_ptr - 1)).length + 1
          · rw [if_pos hov] at h
            exact absurd h (by simp)
          · rw [if_neg hov] at h
            rw [if_neg (by omega)]
            cases hfp : ({ fs with file_map := FileMap.insertSorted pathname x fs.file_map } :
                FileSystem).find (some (pathname.take ((fs.get x).name_ptr - 1))) with
            | some pn =>
              simp only [hfp] at h ⊢
              exact h
            | none =>
              simp only [hfp, hnew] at h ⊢
              cases hr : FileSystem.appendAux env fuel
                  (({ fs with file_map := FileMap.insertSorted pathname x fs.file_map } :
                    FileSystem).alloc (FileNode.new env (some (pathname.take
                      ((fs.get x).name_ptr - 1))) none NodeType.DIR_NODE)).2
                  (({ fs with file_map := FileMap.insertSorted pathname x fs.file_map } :
                    FileSystem).alloc (FileNode.new env (some (pathname.take
                      ((fs.get x).name_ptr - 1))) none NodeType.DIR_NODE)).1 with
              | none => rw [hr] at h; simp at h
              | some o =>
                rw [hr] at h
                rw [ih _ _ o hr]
                exact h

theorem FileSystem.repath_mono (env env' : Env) (hB : env.PATH_MAX ≤ env'.PATH_MAX) :
    ∀ (fuel : Nat),
      (∀ (fs : FileSystem) (node : Nat) (path : Path) (fs1 : FileSystem),
        FileSystem.repathAux env fuel fs node path = some fs1 →
        FileSystem.repathAux env' fuel fs node path = some fs1) ∧
      (∀ (fs : FileSystem) (l : List Nat) (path : Path) (fs1 : FileSystem),
        FileSystem.repathList env fuel fs l path = some fs1 →
        FileSystem.repathList env' fuel fs l path = some fs1) := by
  intro fuel
  induction fuel with
  | zero =>
    exact ⟨fun fs node path fs1 h => by simp [FileSystem.repathAux] at h,
      fun fs l path fs1 h => by simp [FileSystem.repathList] at h⟩
  | succ fuel ih =>
    obtain ⟨ihA, ihL⟩ := ih
    constructor
    · intro fs node path fs1 h
      rw [FileSystem.repathAux] at h ⊢
      simp only at h ⊢
      by_cases hov : env.PATH_MAX < (path ++ '/' :: (fs.get node).name).length + 1
      · rw [if_pos hov] at h
        exact absurd h (by simp)
      · rw [if_neg hov] at h
        rw [if_neg (by omega)]
        by_cases hd : (fs.get node).type = NodeType.DIR_NODE
        · rw [if_pos hd] at h ⊢
          exact ihL _ _ _ fs1 h
        · rw [if_neg hd] at h ⊢
          exact h
    · intro fs l path fs1 h
      cases l with
      | nil =>
        rw [FileSystem.repathList] at h ⊢
        exact h
      | cons child rest =>
        rw [FileSystem.repathList] at h ⊢
        cases hr : FileSystem.repathAux env fuel fs child path with
        | none => rw [hr] at h; simp at h
        | some f1 =>
          rw [hr] at h
          simp only at h
          rw [ihA fs child path f1 hr]
          exact ihL f1 rest path fs1 h

theorem FileSystem.rename_mono (env env' : Env)
    (hnew : ∀ a b c, FileNode.new env' a b c = FileNode.new env a b c)
    (hB : env.PATH_MAX ≤ env'.PATH_MAX) (fs : FileSystem) (node : Nat) (p : Path)
    (r : Nat × FileSystem) (h : fs.rename env node p = some r) :
    fs.rename env' node p = some r := by
  obtain ⟨e, fs1⟩ := r
  rcases FileSystem.rename_cases env fs node p e fs1 h with ⟨hws, h1⟩ | ⟨hws, ht, h1⟩ |
    ⟨hws, ht, he, f1, f3, f4, hc, ha, h4, h1⟩
  · unfold FileSystem.rename at h ⊢
    rw [if_pos hws] at h ⊢
    exact h
  · unfold FileSystem.rename at h ⊢
    rw [if_neg hws] at h ⊢
    simp only at h ⊢
    rw [if_pos ht] at h ⊢
    exact h
  · have ha' : (f1.modify node (fun n => n.setPathname p)).append env' node =
        some (Outcome.done f3) := by
      unfold FileSystem.append at ha ⊢
      exact FileSystem.appendAux_mono env env' hnew hB _ _ _ _ ha
    unfold FileSystem.rename
    rw [if_neg hws]
    simp only
    rw [if_neg ht]
    rcases hc with ⟨hfe, hf1⟩ | ⟨ex, r2, hfe, hr, hf1⟩
    · rw [hfe]
      simp only
      rw [← hf1, ha']
      simp only
      rcases h4 with ⟨hd, h4⟩ | ⟨hd, h4⟩
      · rw [if_neg hd, h1, he, h4]
        rfl
      · rw [if_pos hd, (FileSystem.repath_mono env env' hB _).2 _ _ _ _ h4, h1, he]
        rfl
    · rw [hfe]
      simp only
      rw [hr]
      simp only [Option.map_some']
      rw [← hf1, ha']
      simp only
      rcases h4 with ⟨hd, h4⟩ | ⟨hd, h4⟩
      · rw [if_neg hd, h1, he, h4]
        rfl
      · rw [if_pos hd, (FileSystem.repath_mono env env' hB _).2 _ _ _ _ h4, h1, he]
        rfl

/-- No key of the map is longer than the sum of the lengths of all keys. -/
theorem FileMap.key_length_le (m : FileMap) (k : Path) (d : Nat) (h : m.find k = some d) :
    k.length ≤ (m.map (fun e => e.1.length)).sum := by
  have hm := FileMap.mem_of_find m k d h
  exact List.single_le_sum (by intro x _; exact Nat.zero_le x) _
    (List.mem_map.mpr ⟨(k, d), hm, rfl⟩)

theorem rebase_length_le (q p k : Path) : (rebase q p k).length ≤ p.length + k.length := by
  unfold rebase
  simp only [List.length_append, List.length_drop]
  omega

/-! ## The order kept by every returning call: basic steps -/

theorem FileSystem.get_modify_self {fs : FileSystem} {a : Nat} (f : FileNode → FileNode)
    (h : (fs.nodes a).isSome) : (fs.modify a f).get a = f (fs.get a) := by
  apply FileSystem.get_of_some
  rw [FileSystem.modify_nodes, if_pos rfl, FileSystem.nodes_of_live h]
  rfl

theorem FileSystem.get_modify_other {fs : FileSystem} {a i : Nat} (f : FileNode → FileNode)
    (h : i ≠ a) : (fs.modify a f).get i = fs.get i := by
  apply FileSystem.get_congr
  rw [FileSystem.modify_nodes, if_neg h]

theorem FileSystem.get_modify_dead {fs : FileSystem} {a : Nat} (f : FileNode → FileNode)
    (h : fs.nodes a = none) (i : Nat) : (fs.modify a f).get i = fs.get i := by
  apply FileSystem.get_congr
  rw [FileSystem.modify_nodes]
  by_cases hi : i = a
  · rw [if_pos hi, hi, h]; rfl
  · rw [if_neg hi]

theorem FileSystem.modify_isSome (fs : FileSystem) (a i : Nat) (f : FileNode → FileNode) :
    ((fs.modify a f).nodes i).isSome = (fs.nodes i).isSome := by
  rw [FileSystem.modify_nodes]
  by_cases hi : i = a
  · rw [if_pos hi]; cases fs.nodes i <;> rfl
  · rw [if_neg hi]

/-- A change of a record that touches neither `children`, `parent`, `type`,
`pathname` nor `name_ptr` is read through `get` field by field. -/
theorem FileSystem.get_modify_field {fs : FileSystem} {a : Nat} {f : FileNode → FileNode}
    {β : Type} (g : FileNode → β) (hf : ∀ r, g (f r) = g r) (i : Nat) :
    g ((fs.modify a f).get i) = g (fs.get i) := by
  by_cases hi : i = a
  · subst hi
    cases hn : fs.nodes i with
    | none => rw [FileSystem.get_modify_dead f hn]
    | some r =>
      rw [FileSystem.get_modify_self f (by rw [hn]; rfl), hf]
  · rw [FileSystem.get_modify_other f hi]

theorem Tidy.mono {Wm Wm2 Wc Wc2 : Nat → Prop} {fs : FileSystem} (h : Tidy Wm Wc fs)
    (hm : ∀ n, Wm n → Wm2 n) (hc : ∀ c, Wc c → Wc2 c) : Tidy Wm2 Wc2 fs :=
  { rootLive := h.rootLive, rootTop := h.rootTop, rootKind := h.rootKind, fresh := h.fresh,
    mapped := h.mapped,
    linked := fun k n hk hw => h.linked k n hk (fun hw' => hw (hm n hw')),
    listed := h.listed, nodup := h.nodup, kinds := h.kinds,
    longer := fun i c hc' hi hw => h.longer i c hc' hi (fun hw' => hw (hc c hw')) }

/-- The order depends on the store, the map and the root only. -/
theorem Tidy.same_tidy {Wm Wc : Nat → Prop} {fs fs1 : FileSystem} (h : Tidy Wm Wc fs)
    (hn : fs1.nodes = fs.nodes) (hx : fs1.next = fs.next) (hm : fs1.file_map = fs.file_map)
    (hr : fs1.root_node = fs.root_node) : Tidy Wm Wc fs1 := by
  have hg : ∀ i, fs1.get i = fs.get i := fun i => FileSystem.get_congr (by rw [hn])
  refine ⟨?_, ?_, ?_, ?_, ?_, ?_, ?_, ?_, ?_, ?_⟩
  · rw [hn, hr]; exact h.rootLive
  · rw [hg, hr]; exact h.rootTop
  · rw [hg, hr]; exact h.rootKind
  · intro i hi; rw [hn]; exact h.fresh i (by rw [← hx]; exact hi)
  · intro k n hk; rw [hn, hg]; exact h.mapped k n (by rw [← hm]; exact hk)
  · intro k n hk hw
    obtain ⟨pn, h1, h2⟩ := h.linked k n (by rw [← hm]; exact hk) hw
    exact ⟨pn, by rw [hg]; exact h1, by rw [hg]; exact h2⟩
  · intro i c hc
    rw [hg] at hc
    rw [hn, hg]
    exact h.listed i c hc
  · intro i; rw [hg]; exact h.nodup i
  · intro i hi; rw [hg]; exact h.kinds i (by rw [← hr]; exact hi)
  · intro i c hc hi hw
    rw [hg] at hc
    rw [hg, hg]
    exact h.longer i c hc (by rw [← hr]; exact hi) hw

theorem Tidy.root_unlisted {Wm Wc : Nat → Prop} {fs : FileSystem} (h : Tidy Wm Wc fs)
    (i : Nat) : fs.root_node ∉ (fs.get i).children := by
  intro hc
  have := (h.listed i _ hc).2
  rw [h.rootTop] at this
  exact absurd this (by simp)

theorem Tidy.root_unmapped {Wm Wc : Nat → Prop} {fs : FileSystem} (h : Tidy Wm Wc fs)
    (hp : (fs.get fs.root_node).pathname = none) (k : Path) :
    fs.file_map.find k ≠ some fs.root_node := by
  intro hk
  have := (h.mapped k _ hk).2.1
  rw [hp] at this
  exact absurd this (by simp)

theorem Tidy.lister_live {fs : FileSystem} {i c : Nat} (hc : c ∈ (fs.get i).children) :
    (fs.nodes i).isSome := FileSystem.live_of_child hc

theorem Tidy.below_next {Wm Wc : Nat → Prop} {fs : FileSystem} (h : Tidy Wm Wc fs) {i : Nat}
    (hl : (fs.nodes i).isSome) : i < fs.next := by
  by_contra hge
  rw [h.fresh i (by omega)] at hl
  exact absurd hl (by simp)

/-- A node mapped at two keys: the keys are the same. -/
theorem Tidy.one_key {Wm Wc : Nat → Prop} {fs : FileSystem} (h : Tidy Wm Wc fs) {k k2 : Path}
    {n : Nat} (h1 : fs.file_map.find k = some n) (h2 : fs.file_map.find k2 = some n) :
    k = k2 := by
  have a := (h.mapped k n h1).2.1
  have b := (h.mapped k2 n h2).2.1
  rw [a] at b
  exact Option.some.inj b

/-- A node listed by two nodes: the listers are the same. -/
theorem Tidy.one_lister {Wm Wc : Nat → Prop} {fs : FileSystem} (h : Tidy Wm Wc fs)
    {i j c : Nat} (h1 : c ∈ (fs.get i).children) (h2 : c ∈ (fs.get j).children) : i = j := by
  have a := (h.listed i c h1).2
  have b := (h.listed j c h2).2
  rw [a] at b
  exact Option.some.inj b

/-- Entries may leave the map. -/
theorem Tidy.map_shrink {Wm Wc : Nat → Prop} {fs : FileSystem} (h : Tidy Wm Wc fs)
    (m : FileMap) (hm : ∀ k v, m.find k = some v → fs.file_map.find k = some v) :
    Tidy Wm Wc { fs with file_map := m } :=
  { rootLive := h.rootLive, rootTop := h.rootTop, rootKind := h.rootKind, fresh := h.fresh,
    mapped := fun k n hk => h.mapped k n (hm k n hk),
    linked := fun k n hk hw => h.linked k n (hm k n hk) hw,
    listed := h.listed, nodup := h.nodup, kinds := h.kinds, longer := h.longer }

/-- A node that is not mapped may leave the list of a node. -/
theorem Tidy.unlist {Wm Wc : Nat → Prop} {fs : FileSystem} (h : Tidy Wm Wc fs) (x pn : Nat)
    (hx : ∀ k, fs.file_map.find k ≠ some x) :
    Tidy Wm Wc (fs.modify pn (fun p => { p with children := p.children.erase x })) := by
  have hpar : ∀ i, ((fs.modify pn (fun p => { p with children := p.children.erase x })).get
      i).parent = (fs.get i).parent := by
    intro i
    apply FileSystem.get_modify_field (fun r => r.parent)
    intro r; rfl
  have hty : ∀ i, ((fs.modify pn (fun p => { p with children := p.children.erase x })).get
      i).type = (fs.get i).type := by
    intro i
    apply FileSystem.get_modify_field (fun r => r.type)
    intro r; rfl
  have hpa : ∀ i, ((fs.modify pn (fun p => { p with children := p.children.erase x })).get
      i).pathname = (fs.get i).pathname := by
    intro i
    apply FileSystem.get_modify_field (fun r => r.pathname)
    intro r; rfl
  have hnp : ∀ i, ((fs.modify pn (fun p => { p with children := p.children.erase x })).get
      i).name_ptr = (fs.get i).name_ptr := by
    intro i
    apply FileSystem.get_modify_field (fun r => r.name_ptr)
    intro r; rfl
  have hkid : ∀ i, ((fs.modify pn (fun p => { p with children := p.children.erase x })).get
      i).children = if i = pn then (fs.get i).children.erase x else (fs.get i).children := by
    intro i
    by_cases hi : i = pn
    · subst hi
      rw [if_pos rfl]
      cases hn : fs.nodes i with
      | none =>
        rw [FileSystem.get_modify_dead _ hn]
        have : (fs.get i).children = [] := by simp [FileSystem.get, hn]
        rw [this]; rfl
      | some r => rw [FileSystem.get_modify_self _ (by rw [hn]; rfl)]
    · rw [if_neg hi, FileSystem.get_modify_other _ hi]
  have hsub : ∀ i c, c ∈ ((fs.modify pn (fun p => { p with children := p.children.erase x })).get
      i).children → c ∈ (fs.get i).children := by
    intro i c hc
    rw [hkid] at hc
    by_cases hi : i = pn
    · rw [if_pos hi] at hc; exact List.mem_of_mem_erase hc
    · rw [if_neg hi] at hc; exact hc
  refine ⟨?_, ?_, ?_, ?_, ?_, ?_, ?_, ?_, ?_, ?_⟩
  · rw [FileSystem.modify_isSome]; exact h.rootLive
  · rw [hpar]; exact h.rootTop
  · rw [hty]; exact h.rootKind
  · intro i hi
    have := h.fresh i hi
    have h2 := FileSystem.modify_isSome fs pn i (fun p => { p with children := p.children.erase x })
    rw [this] at h2
    cases hn : (fs.modify pn (fun p => { p with children := p.children.erase x })).nodes i with
    | none => rfl
    | some r => rw [hn] at h2; simp at h2
  · intro k n hk
    rw [FileSystem.modify_isSome, hpa, hnp]
    exact h.mapped k n hk
  · intro k n hk hw
    obtain ⟨p2, h1, h2⟩ := h.linked k n hk hw
    refine ⟨p2, by rw [hpar]; exact h1, ?_⟩
    rw [hkid]
    by_cases hi : p2 = pn
    · rw [if_pos hi]
      have hne : n ≠ x := by rintro rfl; exact hx k hk
      exact (List.mem_erase_of_ne hne).mpr h2
    · rw [if_neg hi]; exact h2
  · intro i c hc
    rw [FileSystem.modify_isSome, hpar]
    exact h.listed i c (hsub i c hc)
  · intro i
    rw [hkid]
    by_cases hi : i = pn
    · rw [if_pos hi]; exact (h.nodup i).erase x
    · rw [if_neg hi]; exact h.nodup i
  · intro i hi
    rw [hty, hkid]
    rcases h.kinds i hi with h1 | h1
    · exact Or.inl h1
    · right
      by_cases hp : i = pn
      · rw [if_pos hp, h1]; rfl
      · rw [if_neg hp]; exact h1
  · intro i c hc hi hw
    rw [hpa, hpa]
    exact h.longer i c (hsub i c hc) hi hw

/-! ## `take`, `new` and `delete` keep the order -/

theorem FileSystem.get_dead {fs : FileSystem} {i : Nat} (h : fs.nodes i = none) :
    (fs.get i).children = [] ∧ (fs.get i).parent = none ∧ (fs.get i).pathname = none ∧
    (fs.get i).type = NodeType.ROOT_NODE ∧ (fs.get i).data = none := by
  simp [FileSystem.get, h]

theorem FileSystem.get_unlist (fs : FileSystem) (pn x i : Nat) :
    ((fs.modify pn (fun p => { p with children := p.children.erase x })).get i).children =
      if i = pn then (fs.get i).children.erase x else (fs.get i).children := by
  by_cases hi : i = pn
  · subst hi
    rw [if_pos rfl]
    cases hn : fs.nodes i with
    | none =>
      rw [FileSystem.get_modify_dead _ hn, (FileSystem.get_dead hn).1]
      rfl
    | some r => rw [FileSystem.get_modify_self _ (by rw [hn]; rfl)]
  · rw [if_neg hi, FileSystem.get_modify_other _ hi]

/-- The two ways `take` ends. -/
theorem FileSystem.take_result (fs : FileSystem) (x : Nat) :
    fs.take x = (false, { fs with file_map :=
        (fs.file_map.erase ((fs.get x).pathname.getD [])).1 }) ∨
    ∃ pn, (fs.get x).parent = some pn ∧ x ∈ (fs.get pn).children ∧
      (fs.file_map.find ((fs.get x).pathname.getD [])).isSome ∧
      fs.take x = (true, ({ fs with file_map :=
        (fs.file_map.erase ((fs.get x).pathname.getD [])).1 } : FileSystem).modify pn
          (fun p => { p with children := p.children.erase x })) := by
  by_cases hf : (fs.file_map.find ((fs.get x).pathname.getD [])).isSome = true
  · cases hp : (fs.get x).parent with
    | none =>
      left
      unfold FileSystem.take
      simp [FileMap.erase_count, hf, hp]
    | some pn =>
      have hg : ({ fs with file_map := (fs.file_map.erase ((fs.get x).pathname.getD [])).1 } :
          FileSystem).get pn = fs.get pn := rfl
      by_cases hm : x ∈ (fs.get pn).children
      · right
        refine ⟨pn, rfl, hm, hf, ?_⟩
        unfold FileSystem.take
        simp [FileMap.erase_count, hf, hp, hg, hm]
      · left
        unfold FileSystem.take
        simp [FileMap.erase_count, hf, hp, hg, hm]
  · left
    unfold FileSystem.take
    simp [FileMap.erase_count, hf]

theorem FileSystem.take_map (fs : FileSystem) (x : Nat) (k : Path) :
    (fs.take x).2.file_map.find k =
      if k = (fs.get x).pathname.getD [] then none else fs.file_map.find k := by
  rcases FileSystem.take_result fs x with h | ⟨pn, -, -, -, h⟩
  · rw [h]; exact FileMap.find_erase _ _ _
  · rw [h]; exact FileMap.find_erase _ _ _

/-- `take` keeps the order, whatever node it is given. -/
theorem FileSystem.take_tidy {Wm Wc : Nat → Prop} {fs : FileSystem} (h : Tidy Wm Wc fs)
    (x : Nat) : Tidy Wm Wc (fs.take x).2 := by
  have hE : Tidy Wm Wc { fs with file_map :=
      (fs.file_map.erase ((fs.get x).pathname.getD [])).1 } := by
    apply h.map_shrink
    intro k v hk
    rw [FileMap.find_erase] at hk
    by_cases hkk : k = (fs.get x).pathname.getD []
    · rw [if_pos hkk] at hk; exact absurd hk (by simp)
    · rw [if_neg hkk] at hk; exact hk
  rcases FileSystem.take_result fs x with h1 | ⟨pn, -, -, -, h1⟩
  · rw [h1]; exact hE
  · rw [h1]
    apply hE.unlist
    intro k hk
    have hk' : (fs.file_map.erase ((fs.get x).pathname.getD [])).1.find k = some x := hk
    rw [FileMap.find_erase] at hk'
    by_cases hkk : k = (fs.get x).pathname.getD []
    · rw [if_pos hkk] at hk'; exact absurd hk' (by simp)
    · rw [if_neg hkk] at hk'
      have := (h.mapped k x hk').2.1
      rw [this] at hkk
      exact hkk rfl

/-- After `take` its argument is not mapped. -/
theorem FileSystem.take_unmapped {Wm Wc : Nat → Prop} {fs : FileSystem} (h : Tidy Wm Wc fs)
    (x : Nat) (k : Path) : (fs.take x).2.file_map.find k ≠ some x := by
  intro hk
  rw [FileSystem.take_map] at hk
  by_cases hkk : k = (fs.get x).pathname.getD []
  · rw [if_pos hkk] at hk; exact absurd hk (by simp)
  · rw [if_neg hkk] at hk
    have := (h.mapped k x hk).2.1
    rw [this] at hkk
    exact hkk rfl

theorem FileSystem.take_children (fs : FileSystem) (x i : Nat) :
    ((fs.take x).2.get i).children = (fs.get i).children ∨
    ((fs.take x).1 = true ∧ (fs.get x).parent = some i ∧
      ((fs.take x).2.get i).children = (fs.get i).children.erase x) := by
  rcases FileSystem.take_result fs x with h | ⟨pn, hp, -, -, h⟩
  · left; rw [h]; rfl
  · rw [h]
    show ((({ fs with file_map := _ } : FileSystem).modify pn _).get i).children = _ ∨ _
    rw [FileSystem.get_unlist]
    by_cases hi : i = pn
    · right
      rw [if_pos hi]
      exact ⟨rfl, by rw [hi]; exact hp, rfl⟩
    · left
      rw [if_neg hi]
      rfl

/-- After a `take` that answers `true` no list has its argument. -/
theorem FileSystem.take_unlisted {Wm Wc : Nat → Prop} {fs : FileSystem} (h : Tidy Wm Wc fs)
    (x : Nat) (ht : (fs.take x).1 = true) (j : Nat) : x ∉ ((fs.take x).2.get j).children := by
  rcases FileSystem.take_result fs x with h1 | ⟨pn, hp, hm, -, h1⟩
  · rw [h1] at ht; exact absurd ht (by simp)
  · rw [h1]
    show x ∉ ((({ fs with file_map := _ } : FileSystem).modify pn _).get j).children
    rw [FileSystem.get_unlist]
    by_cases hj : j = pn
    · rw [if_pos hj]
      have hnd : (fs.get j).children.Nodup := h.nodup j
      exact fun hc => (List.Nodup.mem_erase_iff hnd).mp hc |>.1 rfl
    · rw [if_neg hj]
      intro hc
      have hc' : x ∈ (fs.get j).children := hc
      have := (h.listed j x hc').2
      rw [hp] at this
      exact hj (Option.some.inj this).symm

theorem FileSystem.Shrinks.rfl_shrinks (fs : FileSystem) : fs.Shrinks fs :=
  { map := fun _ _ h => h, kids := fun _ => List.Sublist.refl _,
    recs := fun _ r1 h => ⟨r1, h, rfl⟩, next := rfl, root := rfl, ws := rfl }

theorem FileSystem.Shrinks.then_shrinks {a b c : FileSystem} (h1 : a.Shrinks b)
    (h2 : b.Shrinks c) : a.Shrinks c := by
  refine ⟨fun k v h => h1.map k v (h2.map k v h), fun i => (h2.kids i).trans (h1.kids i), ?_,
    h2.next.trans h1.next, h2.root.trans h1.root, h2.ws.trans h1.ws⟩
  intro i r2 hr2
  obtain ⟨r1, hr1, e2⟩ := h2.recs i r2 hr2
  obtain ⟨r, hr, e1⟩ := h1.recs i r1 hr1
  refine ⟨r, hr, ?_⟩
  rw [e2, e1]

theorem FileSystem.take_shrinks (fs : FileSystem) (x : Nat) : fs.Shrinks (fs.take x).2 := by
  have hmap : ∀ k v, (fs.take x).2.file_map.find k = some v → fs.file_map.find k = some v := by
    intro k v hk
    rw [FileSystem.take_map] at hk
    by_cases hkk : k = (fs.get x).pathname.getD []
    · rw [if_pos hkk] at hk; exact absurd hk (by simp)
    · rw [if_neg hkk] at hk; exact hk
  refine ⟨hmap, ?_, ?_, ?_, ?_, ?_⟩
  · intro i
    rcases FileSystem.take_children fs x i with h | ⟨-, -, h⟩
    · rw [h]
    · rw [h]; exact List.erase_sublist _ _
  · intro i r1 hr1
    rcases FileSystem.take_result fs x with h | ⟨pn, -, -, -, h⟩
    · rw [h] at hr1; exact ⟨r1, hr1, rfl⟩
    · rw [h] at hr1
      have hr1' : (if i = pn then (fs.nodes i).map
          (fun p => { p with children := p.children.erase x }) else fs.nodes i) = some r1 := hr1
      by_cases hi : i = pn
      · rw [if_pos hi] at hr1'
        cases hn : fs.nodes i with
        | none => rw [hn] at hr1'; simp at hr1'
        | some r =>
          rw [hn] at hr1'
          simp only [Option.map_some', Option.some.injEq] at hr1'
          exact ⟨r, rfl, by rw [← hr1']⟩
      · rw [if_neg hi] at hr1'
        exact ⟨r1, hr1', rfl⟩
  · rcases FileSystem.take_result fs x with h | ⟨pn, -, -, -, h⟩
    · rw [h]
    · rw [h]; rfl
  · rcases FileSystem.take_result fs x with h | ⟨pn, -, -, -, h⟩
    · rw [h]
    · rw [h]; rfl
  · rcases FileSystem.take_result fs x with h | ⟨pn, -, -, -, h⟩
    · rw [h]
    · rw [h]; rfl

/-- The expression `new FileNode(...)` keeps the order. -/
theorem Tidy.alloc_tidy {Wm Wc : Nat → Prop} {fs : FileSystem} (h : Tidy Wm Wc fs)
    (r : FileNode) (hr : r.children = []) : Tidy Wm Wc (fs.alloc r).2 := by
  have hdead : fs.nodes fs.next = none := h.fresh _ (le_refl _)
  have hne : ∀ i, (fs.nodes i).isSome → i ≠ fs.next := by
    rintro i hl rfl
    rw [hdead] at hl
    exact absurd hl (by simp)
  have hn : ∀ i, (fs.alloc r).2.nodes i = if i = fs.next then some r else fs.nodes i :=
    fun _ => rfl
  have hg : ∀ i, i ≠ fs.next → (fs.alloc r).2.get i = fs.get i := by
    intro i hi
    apply FileSystem.get_congr
    rw [hn, if_neg hi]
  have hgx : (fs.alloc r).2.get fs.next = r := by
    apply FileSystem.get_of_some
    rw [hn, if_pos rfl]
  have hkid : ∀ i c, c ∈ ((fs.alloc r).2.get i).children →
      i ≠ fs.next ∧ c ∈ (fs.get i).children ∧ c ≠ fs.next := by
    intro i c hc
    by_cases hi : i = fs.next
    · rw [hi, hgx, hr] at hc; exact absurd hc (by simp)
    · rw [hg i hi] at hc
      exact ⟨hi, hc, hne c (h.listed i c hc).1⟩
  have hroot : fs.root_node ≠ fs.next := hne _ h.rootLive
  refine ⟨?_, ?_, ?_, ?_, ?_, ?_, ?_, ?_, ?_, ?_⟩
  · show ((fs.alloc r).2.nodes fs.root_node).isSome
    rw [hn, if_neg hroot]; exact h.rootLive
  · show ((fs.alloc r).2.get fs.root_node).parent = none
    rw [hg _ hroot]; exact h.rootTop
  · show ((fs.alloc r).2.get fs.root_node).type ≠ _
    rw [hg _ hroot]; exact h.rootKind
  · intro i hi
    have hi' : fs.next + 1 ≤ i := hi
    rw [hn, if_neg (by omega)]
    exact h.fresh i (by omega)
  · intro k n hk
    have hk' : fs.file_map.find k = some n := hk
    obtain ⟨a, b, c, d⟩ := h.mapped k n hk'
    have := hne n a
    rw [hn, if_neg this, hg n this]
    exact ⟨a, b, c, d⟩
  · intro k n hk hw
    have hk' : fs.file_map.find k = some n := hk
    obtain ⟨pn, h1, h2⟩ := h.linked k n hk' hw
    have hn1 := hne n (h.mapped k n hk').1
    have hn2 := hne pn (FileSystem.live_of_child h2)
    exact ⟨pn, by rw [hg n hn1]; exact h1, by rw [hg pn hn2]; exact h2⟩
  · intro i c hc
    obtain ⟨hi, hc', hcn⟩ := hkid i c hc
    rw [hn, if_neg hcn, hg c hcn]
    exact h.listed i c hc'
  · intro i
    by_cases hi : i = fs.next
    · rw [hi, hgx, hr]; exact List.nodup_nil
    · rw [hg i hi]; exact h.nodup i
  · intro i hi
    by_cases hx : i = fs.next
    · right; rw [hx, hgx, hr]
    · rw [hg i hx]; exact h.kinds i hi
  · intro i c hc hi hw
    obtain ⟨hi', hc', hcn⟩ := hkid i c hc
    rw [hg i hi', hg c hcn]
    exact h.longer i c hc' hi hw

/-- The statement `delete node` keeps the order when the node is neither
mapped nor listed and lists no node. -/
theorem Tidy.delete_tidy {Wm Wc : Nat → Prop} {fs : FileSystem} (h : Tidy Wm Wc fs) (x : Nat)
    (hxr : x ≠ fs.root_node) (hxm : ∀ k, fs.file_map.find k ≠ some x)
    (hxl : ∀ j, x ∉ (fs.get j).children) (hxc : (fs.get x).children = []) :
    Tidy Wm Wc (fs.delete x) := by
  have hn : ∀ i, (fs.delete x).nodes i = if i = x then none else fs.nodes i := fun _ => rfl
  have hg : ∀ i, i ≠ x → (fs.delete x).get i = fs.get i := by
    intro i hi
    apply FileSystem.get_congr
    rw [hn, if_neg hi]
  have hgx : ((fs.delete x).get x).children = [] :=
    (FileSystem.get_dead (by rw [hn, if_pos rfl])).1
  have hkid : ∀ i c, c ∈ ((fs.delete x).get i).children →
      i ≠ x ∧ c ∈ (fs.get i).children ∧ c ≠ x := by
    intro i c hc
    by_cases hi : i = x
    · rw [hi, hgx] at hc; exact absurd hc (by simp)
    · rw [hg i hi] at hc
      refine ⟨hi, hc, ?_⟩
      rintro rfl
      exact hxl i hc
  refine ⟨?_, ?_, ?_, ?_, ?_, ?_, ?_, ?_, ?_, ?_⟩
  · show ((fs.delete x).nodes fs.root_node).isSome
    rw [hn, if_neg (Ne.symm hxr)]; exact h.rootLive
  · show ((fs.delete x).get fs.root_node).parent = none
    rw [hg _ (Ne.symm hxr)]; exact h.rootTop
  · show ((fs.delete x).get fs.root_node).type ≠ _
    rw [hg _ (Ne.symm hxr)]; exact h.rootKind
  · intro i hi
    rw [hn]
    by_cases hx : i = x
    · rw [if_pos hx]
    · rw [if_neg hx]; exact h.fresh i hi
  · intro k n hk
    have hk' : fs.file_map.find k = some n := hk
    have hnx : n ≠ x := by rintro rfl; exact hxm k hk'
    rw [hn, if_neg hnx, hg n hnx]
    exact h.mapped k n hk'
  · intro k n hk hw
    have hk' : fs.file_map.find k = some n := hk
    have hnx : n ≠ x := by rintro rfl; exact hxm k hk'
    obtain ⟨pn, h1, h2⟩ := h.linked k n hk' hw
    have hpx : pn ≠ x := by
      rintro rfl
      rw [hxc] at h2
      exact absurd h2 (by simp)
    exact ⟨pn, by rw [hg n hnx]; exact h1, by rw [hg pn hpx]; exact h2⟩
  · intro i c hc
    obtain ⟨hi, hc', hcx⟩ := hkid i c hc
    rw [hn, if_neg hcx, hg c hcx]
    exact h.listed i c hc'
  · intro i
    by_cases hi : i = x
    · rw [hi, hgx]; exact List.nodup_nil
    · rw [hg i hi]; exact h.nodup i
  · intro i hi
    by_cases hx : i = x
    · right; rw [hx, hgx]
    · rw [hg i hx]; exact h.kinds i hi
  · intro i c hc hi hw
    obtain ⟨hi', hc', hcx⟩ := hkid i c hc
    rw [hg i hi', hg c hcx]
    exact h.longer i c hc' hi hw

/-! ## `append` keeps the order -/

theorem FileNode.addChild_fields (n : FileNode) (x : Nat) (t : NodeType) :
    (n.addChild x t).parent = n.parent ∧ (n.addChild x t).type = n.type ∧
    (n.addChild x t).pathname = n.pathname ∧ (n.addChild x t).name_ptr = n.name_ptr ∧
    (n.addChild x t).children =
      if n.type = NodeType.FILE_NODE then n.children else n.children ++ [x] := by
  unfold FileNode.addChild
  by_cases h1 : n.type = NodeType.FILE_NODE
  · simp [h1]
  · by_cases h2 : t = NodeType.DIR_NODE ∨ t = NodeType.ROOT_NODE
    · simp [h1, h2]
    · simp [h1, h2]

theorem FileSystem.linkChild_isSome (fs : FileSystem) (x a : Nat) (t : NodeType) (i : Nat) :
    ((fs.linkChild x a t).nodes i).isSome = (fs.nodes i).isSome := by
  unfold FileSystem.linkChild
  rw [FileSystem.modify_isSome, FileSystem.modify_isSome]

theorem FileSystem.linkChild_get_child (fs : FileSystem) (x a : Nat) (t : NodeType)
    (hxa : x ≠ a) (hx : (fs.nodes x).isSome) :
    (fs.linkChild x a t).get x = { fs.get x with parent := some a } := by
  unfold FileSystem.linkChild
  rw [FileSystem.get_modify_other _ hxa, FileSystem.get_modify_self _ hx]

theorem FileSystem.linkChild_get_parent (fs : FileSystem) (x a : Nat) (t : NodeType)
    (hxa : x ≠ a) (ha : (fs.nodes a).isSome) :
    (fs.linkChild x a t).get a = (fs.get a).addChild x t := by
  unfold FileSystem.linkChild
  rw [FileSystem.get_modify_self _ (by rw [FileSystem.modify_isSome]; exact ha),
    FileSystem.get_modify_other _ (Ne.symm hxa)]

theorem FileSystem.linkChild_get_other (fs : FileSystem) (x a : Nat) (t : NodeType) (i : Nat)
    (hix : i ≠ x) (hia : i ≠ a) : (fs.linkChild x a t).get i = fs.get i := by
  unfold FileSystem.linkChild
  rw [FileSystem.get_modify_other _ hia, FileSystem.get_modify_other _ hix]

/-- The two links of `append` keep the order: the node `x`, allocated, not
listed anywhere, with the path `p`, goes under `P`, which is the root or a
directory with a shorter path. The waiver of the parent link of `x` ends. -/
theorem Tidy.link {Wm Wm2 Wc : Nat → Prop} {fs : FileSystem} (h : Tidy Wm2 Wc fs)
    (x P : Nat) (t : NodeType) (p : Path) (hW : ∀ n, Wm2 n → Wm n ∨ n = x)
    (hxl : (fs.nodes x).isSome) (hPl : (fs.nodes P).isSome) (hxP : x ≠ P)
    (hxr : x ≠ fs.root_node) (hxk : (fs.get x).pathname = some p)
    (hxu : ∀ j, x ∉ (fs.get j).children)
    (hP : P = fs.root_node ∨ ((fs.get P).type = NodeType.DIR_NODE ∧
      ∃ kP, (fs.get P).pathname = some kP ∧ kP.length < p.length)) :
    Tidy Wm Wc (fs.linkChild x P t) := by
  have hPt : (fs.get P).type ≠ NodeType.FILE_NODE := by
    rcases hP with rfl | ⟨hd, -⟩
    · exact h.rootKind
    · rw [hd]; decide
  have hgx := FileSystem.linkChild_get_child fs x P t hxP hxl
  have hgP := FileSystem.linkChild_get_parent fs x P t hxP hPl
  have hgo := FileSystem.linkChild_get_other fs x P t
  obtain ⟨a1, a2, a3, a4, a5⟩ := FileNode.addChild_fields (fs.get P) x t
  rw [if_neg hPt] at a5
  have hpath : ∀ i, ((fs.linkChild x P t).get i).pathname = (fs.get i).pathname := by
    intro i
    by_cases hix : i = x
    · rw [hix, hgx]
    · by_cases hiP : i = P
      · rw [hiP, hgP, a3]
      · rw [hgo i hix hiP]
  have hname : ∀ i, ((fs.linkChild x P t).get i).name_ptr = (fs.get i).name_ptr := by
    intro i
    by_cases hix : i = x
    · rw [hix, hgx]
    · by_cases hiP : i = P
      · rw [hiP, hgP, a4]
      · rw [hgo i hix hiP]
  have htype : ∀ i, ((fs.linkChild x P t).get i).type = (fs.get i).type := by
    intro i
    by_cases hix : i = x
    · rw [hix, hgx]
    · by_cases hiP : i = P
      · rw [hiP, hgP, a2]
      · rw [hgo i hix hiP]
  have hpar : ∀ i, i ≠ x → ((fs.linkChild x P t).get i).parent = (fs.get i).parent := by
    intro i hix
    by_cases hiP : i = P
    · rw [hiP, hgP, a1]
    · rw [hgo i hix hiP]
  have hparx : ((fs.linkChild x P t).get x).parent = some P := by rw [hgx]
  have hkid : ∀ i, ((fs.linkChild x P t).get i).children =
      if i = P then (fs.get i).children ++ [x] else (fs.get i).children := by
    intro i
    by_cases hiP : i = P
    · rw [if_pos hiP, hiP, hgP, a5]
    · rw [if_neg hiP]
      by_cases hix : i = x
      · rw [hix, hgx]
      · rw [hgo i hix hiP]
  have hmem : ∀ i c, c ∈ ((fs.linkChild x P t).get i).children →
      (c = x ∧ i = P) ∨ (c ≠ x ∧ c ∈ (fs.get i).children) := by
    intro i c hc
    rw [hkid] at hc
    by_cases hiP : i = P
    · rw [if_pos hiP] at hc
      rcases List.mem_append.mp hc with h1 | h1
      · exact Or.inr ⟨fun hcx => hxu i (hcx ▸ h1), h1⟩
      · exact Or.inl ⟨by simpa using h1, hiP⟩
    · rw [if_neg hiP] at hc
      exact Or.inr ⟨fun hcx => hxu i (hcx ▸ hc), hc⟩
  refine ⟨?_, ?_, ?_, ?_, ?_, ?_, ?_, ?_, ?_, ?_⟩
  · rw [FileSystem.linkChild_isSome]; exact h.rootLive
  · show ((fs.linkChild x P t).get fs.root_node).parent = none
    rw [hpar _ (Ne.symm hxr)]; exact h.rootTop
  · show ((fs.linkChild x P t).get fs.root_node).type ≠ _
    rw [htype]; exact h.rootKind
  · intro i hi
    have := FileSystem.linkChild_isSome fs x P t i
    rw [h.fresh i hi] at this
    cases hn : (fs.linkChild x P t).nodes i with
    | none => rfl
    | some r => rw [hn] at this; simp at this
  · intro k n hk
    rw [FileSystem.linkChild_isSome, hpath, hname]
    exact h.mapped k n hk
  · intro k n hk hw
    by_cases hnx : n = x
    · subst hnx
      refine ⟨P, hparx, ?_⟩
      rw [hkid, if_pos rfl]
      exact List.mem_append.mpr (Or.inr (List.mem_singleton.mpr rfl))
    · have hw2 : ¬ Wm2 n := by
        intro hw2
        rcases hW n hw2 with h1 | h1
        · exact hw h1
        · exact hnx h1
      obtain ⟨pn, h1, h2⟩ := h.linked k n hk hw2
      refine ⟨pn, by rw [hpar n hnx]; exact h1, ?_⟩
      rw [hkid]
      by_cases hp : pn = P
      · rw [if_pos hp]; exact List.mem_append.mpr (Or.inl h2)
      · rw [if_neg hp]; exact h2
  · intro i c hc
    rw [FileSystem.linkChild_isSome]
    rcases hmem i c hc with ⟨rfl, rfl⟩ | ⟨hcx, hc'⟩
    · exact ⟨hxl, hparx⟩
    · rw [hpar c hcx]; exact h.listed i c hc'
  · intro i
    rw [hkid]
    by_cases hiP : i = P
    · rw [if_pos hiP]
      refine List.Nodup.append (h.nodup i) (List.nodup_singleton x) ?_
      intro a ha hb
      rw [List.mem_singleton.mp hb] at ha
      exact hxu i ha
    · rw [if_neg hiP]; exact h.nodup i
  · intro i hi
    rw [htype, hkid]
    by_cases hiP : i = P
    · left
      rcases hP with h1 | ⟨hd, -⟩
      · exact absurd (hiP.trans h1) hi
      · rw [hiP]; exact hd
    · rw [if_neg hiP]; exact h.kinds i hi
  · intro i c hc hi hw
    rw [hpath, hpath]
    rcases hmem i c hc with ⟨rfl, rfl⟩ | ⟨hcx, hc'⟩
    · rcases hP with h1 | ⟨-, kP, hk1, hk2⟩
      · exact absurd h1 hi
      · exact ⟨kP, p, hk1, hxk, hk2⟩
    · exact h.longer i c hc' hi hw

/-- The call `file_map.insert` of `append` keeps the order, the parent link of
the new entry waived. -/
theorem Tidy.insert_waived {Wm Wc : Nat → Prop} {fs : FileSystem} (h : Tidy Wm Wc fs)
    (x : Nat) (p : Path) (hfree : fs.file_map.find p = none) (hxl : (fs.nodes x).isSome)
    (hxk : (fs.get x).pathname = some p) (hxn : (fs.get x).name_ptr = nameStart p)
    (hg : GoodPath p) :
    Tidy (fun n => Wm n ∨ n = x) Wc
      { fs with file_map := FileMap.insertSorted p x fs.file_map } := by
  have hf : ∀ k, (FileMap.insertSorted p x fs.file_map).find k =
      if k = p then some x else fs.file_map.find k :=
    fun k => FileMap.find_insertSorted _ _ _ _ hfree
  refine ⟨h.rootLive, h.rootTop, h.rootKind, h.fresh, ?_, ?_, h.listed, h.nodup, h.kinds,
    h.longer⟩
  · intro k n hk
    have hk' : (FileMap.insertSorted p x fs.file_map).find k = some n := hk
    rw [hf] at hk'
    by_cases hkp : k = p
    · rw [if_pos hkp] at hk'
      have : x = n := Option.some.inj hk'
      subst this
      rw [hkp]
      exact ⟨hxl, hxk, hxn, hg⟩
    · rw [if_neg hkp] at hk'
      exact h.mapped k n hk'
  · intro k n hk hw
    have hk' : (FileMap.insertSorted p x fs.file_map).find k = some n := hk
    rw [hf] at hk'
    by_cases hkp : k = p
    · rw [if_pos hkp] at hk'
      exact absurd (Or.inr (Option.some.inj hk').symm) hw
    · rw [if_neg hkp] at hk'
      exact h.linked k n hk' (fun hw' => hw (Or.inl hw'))

theorem FileSystem.linkChild_children (fs : FileSystem) (x P : Nat) (t : NodeType)
    (hxP : x ≠ P) (hxl : (fs.nodes x).isSome) (hPl : (fs.nodes P).isSome)
    (hPt : (fs.get P).type ≠ NodeType.FILE_NODE) (i : Nat) :
    ((fs.linkChild x P t).get i).children =
      if i = P then (fs.get i).children ++ [x] else (fs.get i).children := by
  by_cases hiP : i = P
  · rw [if_pos hiP, hiP, FileSystem.linkChild_get_parent fs x P t hxP hPl,
      (FileNode.addChild_fields (fs.get P) x t).2.2.2.2, if_neg hPt]
  · rw [if_neg hiP]
    by_cases hix : i = x
    · rw [hix, FileSystem.linkChild_get_child fs x P t hxP hxl]
    · rw [FileSystem.linkChild_get_other fs x P t i hix hiP]

theorem FileSystem.linkChild_child_rec (fs : FileSystem) (x P : Nat) (t : NodeType)
    (hxP : x ≠ P) (hxl : (fs.nodes x).isSome) :
    (fs.linkChild x P t).nodes x = some { fs.get x with parent := some P } := by
  rw [FileSystem.linkChild_nodes fs x P t x hxP, if_neg hxP, if_pos rfl,
    FileSystem.nodes_of_live hxl]
  rfl

theorem FileSystem.linkChild_other_rec (fs : FileSystem) (x P : Nat) (t : NodeType)
    (hxP : x ≠ P) (y : Nat) (hyx : y ≠ x) (hyP : y ≠ P) :
    (fs.linkChild x P t).nodes y = fs.nodes y := by
  rw [FileSystem.linkChild_nodes fs x P t y hxP, if_neg hyP, if_neg hyx]

/-- The first level of `append` when the parent is at hand (the root, or the
node found at the text before the last slash): what the call leaves. Here
`fs1` is the tree after the call of `file_map.insert`. -/
theorem append_link_kept {Wm Wc : Nat → Prop} {fs fs1 : FileSystem} (hT : Tidy Wm Wc fs)
    (x P : Nat) (t : NodeType) (p : Path)
    (h1 : fs1 = { fs with file_map := FileMap.insertSorted p x fs.file_map })
    (hxl : (fs.nodes x).isSome)
    (hxr : x ≠ fs.root_node) (hxm : ∀ k, fs.file_map.find k ≠ some x)
    (hxu : ∀ j, x ∉ (fs.get j).children) (hxk : (fs.get x).pathname = some p)
    (hxn : (fs.get x).name_ptr = nameStart p) (hg : GoodPath p)
    (hdir : ∀ k d, below k p → fs.file_map.find k = some d →
      (fs.get d).type = NodeType.DIR_NODE)
    (hfree : fs.file_map.find p = none)
    (hP : P = fs.root_node ∨ (nameStart p ≠ 0 ∧ fs.file_map.find (parentPath p) = some P)) :
    Appended Wm Wc fs x p (fs1.linkChild x P t) := by
  have hf : ∀ k, fs1.file_map.find k = if k = p then some x else fs.file_map.find k := by
    intro k; rw [h1]; exact FileMap.find_insertSorted _ _ _ _ hfree
  have hT1 : Tidy (fun n => Wm n ∨ n = x) Wc fs1 := by
    rw [h1]; exact hT.insert_waived x p hfree hxl hxk hxn hg
  have hn1 : fs1.nodes = fs.nodes := by rw [h1]
  have hg1 : ∀ i, fs1.get i = fs.get i := fun i => FileSystem.get_congr (by rw [hn1])
  have hr1 : fs1.root_node = fs.root_node := by rw [h1]
  have hn2 : fs1.next = fs.next := by rw [h1]
  have hxl1 : (fs1.nodes x).isSome := by rw [hn1]; exact hxl
  have hPl : (fs1.nodes P).isSome := by
    rw [hn1]
    rcases hP with rfl | ⟨-, hfP⟩
    · exact hT.rootLive
    · exact (hT.mapped _ _ hfP).1
  have hxP : x ≠ P := by
    rcases hP with rfl | ⟨-, hfP⟩
    · exact hxr
    · rintro rfl; exact hxm _ hfP
  have hPt : (fs1.get P).type ≠ NodeType.FILE_NODE := by
    rw [hg1]
    rcases hP with rfl | ⟨h0, hfP⟩
    · exact hT.rootKind
    · rw [hdir _ _ (below_of_parent_eq p h0) hfP]; decide
  refine ⟨?_, ?_, ?_, ?_, ?_, ?_, ?_, ?_, ?_, ?_⟩
  · refine hT1.link x P t p (fun n hn => hn) hxl1 hPl hxP (by rw [hr1]; exact hxr)
      (by rw [hg1]; exact hxk) (fun j => by rw [hg1]; exact hxu j) ?_
    rcases hP with h2 | ⟨h0, hfP⟩
    · exact Or.inl (by rw [hr1]; exact h2)
    · right
      rw [hg1]
      exact ⟨hdir _ _ (below_of_parent_eq p h0) hfP, parentPath p, (hT.mapped _ _ hfP).2.1,
        parentPath_length_lt p h0⟩
  · rw [FileSystem.linkChild_file_map, hf, if_pos rfl]
  · intro k v hk
    rw [FileSystem.linkChild_file_map, hf]
    have : k ≠ p := by rintro rfl; rw [hfree] at hk; exact absurd hk (by simp)
    rw [if_neg this]
    exact hk
  · intro i hi
    rw [FileSystem.linkChild_isSome, hn1]
    exact hi
  · intro i c hc
    rw [FileSystem.linkChild_children fs1 x P t hxP hxl1 hPl hPt, hg1] at hc
    by_cases hiP : i = P
    · rw [if_pos hiP] at hc
      rcases List.mem_append.mp hc with h2 | h2
      · exact Or.inr (Or.inl h2)
      · exact Or.inl (List.mem_singleton.mp h2)
    · rw [if_neg hiP] at hc
      exact Or.inr (Or.inl hc)
  · intro i c hc
    rw [FileSystem.linkChild_children fs1 x P t hxP hxl1 hPl hPt, hg1]
    by_cases hiP : i = P
    · rw [if_pos hiP]; exact List.mem_append_left _ hc
    · rw [if_neg hiP]; exact hc
  · refine ⟨P, ?_⟩
    rw [FileSystem.linkChild_child_rec fs1 x P t hxP hxl1, hg1]
  · intro y hyx hyr hyl hya
    rw [FileSystem.linkChild_other_rec fs1 x P t hxP y hyx ?_, hn1]
    rcases hP with h2 | ⟨h0, hfP⟩
    · rw [h2]; exact hyr
    · rintro rfl
      exact hya _ (below_of_parent_eq p h0) hfP
  · rw [FileSystem.linkChild_root, hr1]
  · rw [FileSystem.linkChild_next, hn2]

/-! ## `append` keeps the order of the tree -/

theorem FileNode.new_dir_fields (env : Env) (k : Path) :
    (FileNode.new env (some k) none NodeType.DIR_NODE).children = [] ∧
    (FileNode.new env (some k) none NodeType.DIR_NODE).pathname = some k ∧
    (FileNode.new env (some k) none NodeType.DIR_NODE).name_ptr = nameStart k ∧
    (FileNode.new env (some k) none NodeType.DIR_NODE).type = NodeType.DIR_NODE ∧
    (FileNode.new env (some k) none NodeType.DIR_NODE).parent = none :=
  ⟨rfl, rfl, rfl, rfl, rfl⟩

/-- The state in which `append` calls itself for the directory it has just
constructed meets every condition of the call. -/
theorem append_step_ready {Wm Wc : Nat → Prop} {fs fs1 a2 : FileSystem} (env : Env)
    (hT : Tidy Wm Wc fs) (x : Nat) (p : Path)
    (h1 : fs1 = { fs with file_map := FileMap.insertSorted p x fs.file_map })
    (ha : a2 = (fs1.alloc (FileNode.new env (some (parentPath p)) none NodeType.DIR_NODE)).2)
    (hxl : (fs.nodes x).isSome) (hxk : (fs.get x).pathname = some p)
    (hxn : (fs.get x).name_ptr = nameStart p) (hg : GoodPath p)
    (hdir : ∀ k d, below k p → fs.file_map.find k = some d →
      (fs.get d).type = NodeType.DIR_NODE)
    (hfree : fs.file_map.find p = none) (hn : nameStart p ≠ 0) :
    Tidy (fun n => Wm n ∨ n = x) Wc a2 ∧ (a2.nodes fs.next).isSome ∧
    fs.next ≠ a2.root_node ∧ (∀ k, a2.file_map.find k ≠ some fs.next) ∧
    (∀ j, fs.next ∉ (a2.get j).children) ∧
    (a2.get fs.next).pathname = some (parentPath p) ∧
    (a2.get fs.next).name_ptr = nameStart (parentPath p) ∧ GoodPath (parentPath p) ∧
    (∀ k d, below k (parentPath p) → a2.file_map.find k = some d →
      (a2.get d).type = NodeType.DIR_NODE) ∧
    (∀ i, i ≠ fs.next → a2.get i = fs.get i) ∧
    (∀ i, i ≠ fs.next → a2.nodes i = fs.nodes i) ∧
    a2.get fs.next = FileNode.new env (some (parentPath p)) none NodeType.DIR_NODE ∧
    (∀ k, a2.file_map.find k = if k = p then some x else fs.file_map.find k) ∧
    a2.root_node = fs.root_node ∧ a2.next = fs.next + 1 := by
  have hT1 : Tidy (fun n => Wm n ∨ n = x) Wc fs1 := by
    rw [h1]; exact hT.insert_waived x p hfree hxl hxk hxn hg
  have hT2 : Tidy (fun n => Wm n ∨ n = x) Wc a2 := by
    rw [ha]; exact hT1.alloc_tidy _ rfl
  have hdead : fs.nodes fs.next = none := hT.fresh _ (le_refl _)
  have hne : ∀ i, (fs.nodes i).isSome → i ≠ fs.next := by
    rintro i hl rfl
    rw [hdead] at hl
    exact absurd hl (by simp)
  have hnodes : ∀ i, a2.nodes i =
      if i = fs.next then some (FileNode.new env (some (parentPath p)) none NodeType.DIR_NODE)
      else fs.nodes i := by
    intro i; rw [ha, h1]; rfl
  have hgo : ∀ i, i ≠ fs.next → a2.get i = fs.get i := by
    intro i hi
    apply FileSystem.get_congr
    rw [hnodes, if_neg hi]
  have hgx : a2.get fs.next = FileNode.new env (some (parentPath p)) none NodeType.DIR_NODE := by
    apply FileSystem.get_of_some
    rw [hnodes, if_pos rfl]
  have hmap : ∀ k, a2.file_map.find k = if k = p then some x else fs.file_map.find k := by
    intro k
    rw [ha, h1]
    exact FileMap.find_insertSorted _ _ _ _ hfree
  have hroot : a2.root_node = fs.root_node := by rw [ha, h1]; rfl
  refine ⟨hT2, ?_, ?_, ?_, ?_, ?_, ?_, goodPath_parent p hg hn, ?_, hgo, ?_, hgx, hmap, hroot, ?_⟩
  · rw [hnodes, if_pos rfl]; rfl
  · rw [hroot]; exact fun h => hne _ hT.rootLive h.symm
  · intro k hk
    rw [hmap] at hk
    by_cases hkp : k = p
    · rw [if_pos hkp] at hk
      exact hne x hxl (Option.some.inj hk)
    · rw [if_neg hkp] at hk
      exact hne _ (hT.mapped _ _ hk).1 rfl
  · intro j hj
    by_cases hjn : j = fs.next
    · rw [hjn, hgx] at hj; exact absurd hj (by simp [FileNode.new])
    · rw [hgo j hjn] at hj
      exact hne _ (hT.listed j _ hj).1 rfl
  · rw [hgx]; rfl
  · rw [hgx]; rfl
  · intro k d hb hk
    rw [hmap] at hk
    by_cases hkp : k = p
    · exfalso
      rw [hkp] at hb
      have h2 := below_length _ _ hb
      have h3 := parentPath_length_lt p hn
      omega
    · rw [if_neg hkp] at hk
      rw [hgo d (hne _ (hT.mapped _ _ hk).1)]
      exact hdir k d (below_of_parent_below _ _ hb) hk
  · intro i hi
    rw [hnodes, if_neg hi]
  · rw [ha, h1]; rfl

/-- The last two statements of `append` after the call for the new directory
has returned. -/
theorem append_step_kept {Wm Wc : Nat → Prop} {fs fs1 a2 fs2 : FileSystem} (env : Env)
    (hT : Tidy Wm Wc fs) (x : Nat) (t : NodeType) (p : Path)
    (h1 : fs1 = { fs with file_map := FileMap.insertSorted p x fs.file_map })
    (ha : a2 = (fs1.alloc (FileNode.new env (some (parentPath p)) none NodeType.DIR_NODE)).2)
    (hxl : (fs.nodes x).isSome) (hxr : x ≠ fs.root_node)
    (hxm : ∀ k, fs.file_map.find k ≠ some x)
    (hxu : ∀ j, x ∉ (fs.get j).children) (hxk : (fs.get x).pathname = some p)
    (hxn : (fs.get x).name_ptr = nameStart p) (hg : GoodPath p)
    (hdir : ∀ k d, below k p → fs.file_map.find k = some d →
      (fs.get d).type = NodeType.DIR_NODE)
    (hfree : fs.file_map.find p = none) (hn : nameStart p ≠ 0)
    (hA : Appended (fun n => Wm n ∨ n = x) Wc a2 fs.next (parentPath p) fs2) :
    Appended Wm Wc fs x p (fs2.linkChild x fs.next t) := by
  obtain ⟨-, hnl, hnr, -, -, -, -, -, -, hgo, hno, hgx, hmap, hroot, hnext⟩ :=
    append_step_ready env hT x p h1 ha hxl hxk hxn hg hdir hfree hn
  have hdead : fs.nodes fs.next = none := hT.fresh _ (le_refl _)
  have hne : ∀ i, (fs.nodes i).isSome → i ≠ fs.next := by
    rintro i hl rfl
    rw [hdead] at hl
    exact absurd hl (by simp)
  have hxx : x ≠ fs.next := hne x hxl
  have hxl2 : (fs2.nodes x).isSome := hA.live x (by rw [hno x hxx]; exact hxl)
  obtain ⟨pn, hself⟩ := hA.self
  have hdl2 : (fs2.nodes fs.next).isSome := by rw [hself]; rfl
  have hgd2 : fs2.get fs.next = { a2.get fs.next with parent := some pn } :=
    FileSystem.get_of_some hself
  have hdt : (fs2.get fs.next).type ≠ NodeType.FILE_NODE := by
    rw [hgd2, hgx]; simp [FileNode.new]
  have hnotabove : ∀ k, below k (parentPath p) → a2.file_map.find k ≠ some x := by
    intro k hb hk
    rw [hmap] at hk
    by_cases hkp : k = p
    · rw [hkp] at hb
      have h2 := below_length _ _ hb
      have h3 := parentPath_length_lt p hn
      omega
    · rw [if_neg hkp] at hk
      exact hxm k hk
  have hxrec : fs2.nodes x = fs.nodes x := by
    rw [hA.recs x hxx (by rw [hroot]; exact hxr) (by rw [hno x hxx]; exact hxl) hnotabove,
      hno x hxx]
  have hgx2 : fs2.get x = fs.get x := FileSystem.get_congr hxrec
  have hxu2 : ∀ j, x ∉ (fs2.get j).children := by
    intro j hj
    rcases hA.kids j x hj with h2 | h2 | h2
    · exact hxx h2
    · by_cases hjn : j = fs.next
      · rw [hjn, hgx] at h2; exact absurd h2 (by simp [FileNode.new])
      · rw [hgo j hjn] at h2; exact hxu j h2
    · have := hT.below_next hxl
      omega
  refine ⟨?_, ?_, ?_, ?_, ?_, ?_, ?_, ?_, ?_, ?_⟩
  · refine hA.tidy.link x fs.next t p (fun n hn => hn) hxl2 hdl2 hxx
      (by rw [hA.root, hroot]; exact hxr) (by rw [hgx2]; exact hxk) hxu2 ?_
    right
    rw [hgd2, hgx]
    exact ⟨rfl, parentPath p, rfl, parentPath_length_lt p hn⟩
  · rw [FileSystem.linkChild_file_map]
    apply hA.kept
    rw [hmap, if_pos rfl]
  · intro k v hk
    rw [FileSystem.linkChild_file_map]
    apply hA.kept
    rw [hmap]
    have : k ≠ p := by rintro rfl; rw [hfree] at hk; exact absurd hk (by simp)
    rw [if_neg this]
    exact hk
  · intro i hi
    rw [FileSystem.linkChild_isSome]
    apply hA.live
    rw [hno i (hne i hi)]
    exact hi
  · intro i c hc
    rw [FileSystem.linkChild_children fs2 x fs.next t hxx hxl2 hdl2 hdt] at hc
    have hold : c ∈ (fs2.get i).children → c = x ∨ c ∈ (fs.get i).children ∨ fs.next ≤ c := by
      intro h2
      rcases hA.kids i c h2 with h3 | h3 | h3
      · exact Or.inr (Or.inr (le_of_eq h3.symm))
      · by_cases hin : i = fs.next
        · rw [hin, hgx] at h3; exact absurd h3 (by simp [FileNode.new])
        · rw [hgo i hin] at h3; exact Or.inr (Or.inl h3)
      · exact Or.inr (Or.inr (by omega))
    by_cases hiP : i = fs.next
    · rw [if_pos hiP] at hc
      rcases List.mem_append.mp hc with h2 | h2
      · exact hold h2
      · exact Or.inl (List.mem_singleton.mp h2)
    · rw [if_neg hiP] at hc
      exact hold hc
  · intro i c hc
    have hin : i ≠ fs.next := hne i (FileSystem.live_of_child hc)
    rw [FileSystem.linkChild_children fs2 x fs.next t hxx hxl2 hdl2 hdt, if_neg hin]
    apply hA.more
    rw [hgo i hin]
    exact hc
  · refine ⟨fs.next, ?_⟩
    rw [FileSystem.linkChild_child_rec fs2 x fs.next t hxx hxl2, hgx2]
  · intro y hyx hyr hyl hya
    have hyn : y ≠ fs.next := hne y hyl
    rw [FileSystem.linkChild_other_rec fs2 x fs.next t hxx y hyx hyn]
    rw [hA.recs y hyn (by rw [hroot]; exact hyr) (by rw [hno y hyn]; exact hyl) ?_, hno y hyn]
    intro k hb hk
    rw [hmap] at hk
    by_cases hkp : k = p
    · rw [if_pos hkp] at hk
      exact hyx (Option.some.inj hk).symm
    · rw [if_neg hkp] at hk
      exact hya k (below_of_parent_below _ _ hb) hk
  · rw [FileSystem.linkChild_root, hA.root, hroot]
  · rw [FileSystem.linkChild_next]
    have := hA.next
    omega

/-- A call of `append` that returns, on a node that is allocated, not mapped
and not listed, whose path is good and has directories above it only: on
`AlreadyExists` the tree is as before and the path was taken; otherwise the
tree is in order with the node mapped and linked. -/
theorem FileSystem.appendAux_tidy (env : Env) :
    ∀ (fuel : Nat) (Wm Wc : Nat → Prop) (fs : FileSystem) (x : Nat) (p : Path) (out : Outcome),
      Tidy Wm Wc fs → (fs.nodes x).isSome → x ≠ fs.root_node →
      (∀ k, fs.file_map.find k ≠ some x) → (∀ j, x ∉ (fs.get j).children) →
      (fs.get x).pathname = some p → (fs.get x).name_ptr = nameStart p → GoodPath p →
      (∀ k d, below k p → fs.file_map.find k = some d →
        (fs.get d).type = NodeType.DIR_NODE) →
      FileSystem.appendAux env fuel fs x = some out →
      (∀ e fs1, out = Outcome.AlreadyExists e fs1 → fs1 = fs ∧ fs.file_map.find p = some e) ∧
      (∀ fs1, out = Outcome.done fs1 → Appended Wm Wc fs x p fs1) := by
  intro fuel
  induction fuel with
  | zero =>
    intro Wm Wc fs x p out _ _ _ _ _ _ _ _ _ h
    simp [FileSystem.appendAux] at h
  | succ fuel ih =>
    intro Wm Wc fs x p out hT hxl hxr hxm hxu hxk hxn hg hdir h
    cases hf : fs.file_map.find p with
    | some e =>
      simp only [FileSystem.appendAux, hxk, FileMap.insert, hf, Option.some.injEq] at h
      subst h
      exact ⟨fun e1 fs1 h1 => (by cases h1; exact ⟨rfl, rfl⟩), fun fs1 h1 => (by cases h1)⟩
    | none =>
      simp only [FileSystem.appendAux, hxk, FileMap.insert, hf, hxn] at h
      by_cases hn : nameStart p = 0
      · rw [if_pos hn] at h
        simp only [Option.some.injEq] at h
        subst h
        refine ⟨fun e1 fs1 h1 => (by cases h1), fun fs1 h1 => ?_⟩
        cases h1
        exact append_link_kept hT x fs.root_node _ p rfl hxl hxr hxm hxu hxk hxn hg hdir hf
          (Or.inl rfl)
      · rw [if_neg hn] at h
        by_cases hov : env.PATH_MAX < (p.take (nameStart p - 1)).length + 1
        · rw [if_pos hov] at h
          exact absurd h (by simp)
        · rw [if_neg hov] at h
          have hfind : ({ fs with file_map := FileMap.insertSorted p x fs.file_map } :
              FileSystem).find (some (p.take (nameStart p - 1))) =
              fs.file_map.find (parentPath p) := by
            show FileMap.find (FileMap.insertSorted p x fs.file_map) (parentPath p) = _
            rw [FileMap.find_insertSorted _ _ _ _ hf, if_neg (parentPath_ne p hn)]
          rw [hfind] at h
          cases hfp : fs.file_map.find (parentPath p) with
          | some P =>
            rw [hfp] at h
            simp only [Option.some.injEq] at h
            subst h
            refine ⟨fun e1 fs1 h1 => (by cases h1), fun fs1 h1 => ?_⟩
            cases h1
            exact append_link_kept hT x P _ p rfl hxl hxr hxm hxu hxk hxn hg hdir hf
              (Or.inr ⟨hn, hfp⟩)
          | none =>
            rw [hfp] at h
            simp only at h
            obtain ⟨r1, r2, r3, r4, r5, r6, r7, r8, r9, -, -, -, hmap, -, -⟩ :=
              append_step_ready env hT x p rfl rfl hxl hxk hxn hg hdir hf hn
            cases hr : FileSystem.appendAux env fuel
                (({ fs with file_map := FileMap.insertSorted p x fs.file_map } :
                  FileSystem).alloc (FileNode.new env (some (parentPath p)) none
                    NodeType.DIR_NODE)).2 fs.next with
            | none =>
              have h2 : FileSystem.appendAux env fuel
                (({ fs with file_map := FileMap.insertSorted p x fs.file_map } :
                  FileSystem).alloc (FileNode.new env (some (List.take (nameStart p - 1) p))
                    none NodeType.DIR_NODE)).2
                (({ fs with file_map := FileMap.insertSorted p x fs.file_map } :
                  FileSystem).alloc (FileNode.new env (some (List.take (nameStart p - 1) p))
                    none NodeType.DIR_NODE)).1 = none := hr
              rw [h2] at h
              exact absurd h (by simp)
            | some o =>
              have h2 : FileSystem.appendAux env fuel
                (({ fs with file_map := FileMap.insertSorted p x fs.file_map } :
                  FileSystem).alloc (FileNode.new env (some (List.take (nameStart p - 1) p))
                    none NodeType.DIR_NODE)).2
                (({ fs with file_map := FileMap.insertSorted p x fs.file_map } :
                  FileSystem).alloc (FileNode.new env (some (List.take (nameStart p - 1) p))
                    none NodeType.DIR_NODE)).1 = some o := hr
              rw [h2] at h
              obtain ⟨ihE, ihD⟩ := ih _ Wc _ _ _ o r1 r2 r3 r4 r5 r6 r7 r8 r9 hr
              cases o with
              | AlreadyExists e2 f2 =>
                exfalso
                have h3 := (ihE e2 f2 rfl).2
                rw [hmap, if_neg (parentPath_ne p hn), hfp] at h3
                exact absurd h3 (by simp)
              | done f2 =>
                simp only [Option.some.injEq] at h
                subst h
                refine ⟨fun e1 fs1 h1 => (by cases h1), fun fs1 h1 => ?_⟩
                cases h1
                exact append_step_kept env hT x _ p rfl rfl hxl hxr hxm hxu hxk hxn hg hdir
                  hf hn (ihD f2 rfl)

/-! ## `remove` keeps the order of the tree -/

theorem FileSystem.Reaches.head {fs : FileSystem} {a c b : Nat}
    (hc : c ∈ (fs.get a).children) (h : fs.Reaches c b) : fs.Reaches a b := by
  induction h with
  | here => exact FileSystem.Reaches.down (FileSystem.Reaches.here a) hc
  | down _ hd ih => exact FileSystem.Reaches.down ih hd

theorem FileSystem.Reaches.cases_head {fs : FileSystem} {a b : Nat} (h : fs.Reaches a b) :
    a = b ∨ ∃ c, c ∈ (fs.get a).children ∧ fs.Reaches c b := by
  induction h with
  | here => exact Or.inl rfl
  | down hab hd ih =>
    rename_i b1 c1
    rcases ih with rfl | ⟨c, hc, hcb⟩
    · exact Or.inr ⟨c1, hd, FileSystem.Reaches.here c1⟩
    · exact Or.inr ⟨c, hc, FileSystem.Reaches.down hcb hd⟩

theorem FileSystem.Reaches.of_sub {fs fs1 : FileSystem}
    (hs : ∀ i c, c ∈ (fs1.get i).children → c ∈ (fs.get i).children) {a b : Nat}
    (h : fs1.Reaches a b) : fs.Reaches a b := by
  induction h with
  | here => exact FileSystem.Reaches.here a
  | down _ hd ih => exact FileSystem.Reaches.down ih (hs _ _ hd)

theorem FileSystem.Shrinks.kids_sub {fs fs1 : FileSystem} (h : fs.Shrinks fs1) (i c : Nat)
    (hc : c ∈ (fs1.get i).children) : c ∈ (fs.get i).children :=
  (h.kids i).subset hc

/-- In a tree in order a node reached from a node other than the root is not the
root, and its path is longer unless it is the node itself. -/
theorem Tidy.reach_longer {Wm : Nat → Prop} {fs : FileSystem} (h : Tidy Wm noneOf fs)
    {a b : Nat} (hr : fs.Reaches a b) (ha : a ≠ fs.root_node) :
    b ≠ fs.root_node ∧ (a = b ∨
      ((fs.get a).pathname.getD []).length < ((fs.get b).pathname.getD []).length) := by
  induction hr with
  | here => exact ⟨ha, Or.inl rfl⟩
  | down hab hd ih =>
    rename_i b1 c1
    obtain ⟨hb, hl⟩ := ih
    obtain ⟨ki, kc, hki, hkc, hlt⟩ := h.longer b1 c1 hd hb (fun hw => hw)
    refine ⟨fun hc => h.root_unlisted b1 (hc ▸ hd), Or.inr ?_⟩
    rw [hkc]
    rw [hki] at hl
    rcases hl with rfl | hl
    · rw [hki]; exact hlt
    · exact lt_trans hl hlt

/-- In a tree in order no node is reached from one of its children. -/
theorem Tidy.acyclic {Wm : Nat → Prop} {fs : FileSystem} (h : Tidy Wm noneOf fs)
    {i c : Nat} (hc : c ∈ (fs.get i).children) : ¬ fs.Reaches c i := by
  intro hr
  have hcr : c ≠ fs.root_node := fun e => h.root_unlisted i (e ▸ hc)
  obtain ⟨hir, hl⟩ := h.reach_longer hr hcr
  obtain ⟨ki, kc, hki, hkc, hlt⟩ := h.longer i c hc hir (fun hw => hw)
  rw [hki, hkc] at hl
  rcases hl with rfl | hl
  · rw [hki] at hkc
    cases hkc
    exact lt_irrefl _ hlt
  · exact lt_irrefl _ (lt_trans hl hlt)

theorem Tidy.no_empty_key {Wm Wc : Nat → Prop} {fs : FileSystem} (h : Tidy Wm Wc fs) :
    fs.file_map.find [] = none := by
  cases hf : fs.file_map.find [] with
  | none => rfl
  | some v => exact absurd rfl (h.mapped _ _ hf).2.2.2.1

theorem FileSystem.delete_shrinks (fs : FileSystem) (x : Nat) : fs.Shrinks (fs.delete x) := by
  have hn : ∀ i, (fs.delete x).nodes i = if i = x then none else fs.nodes i := fun _ => rfl
  refine ⟨fun _ _ h => h, ?_, ?_, rfl, rfl, rfl⟩
  · intro i
    by_cases hi : i = x
    · have : (fs.delete x).nodes i = none := by rw [hn, if_pos hi]
      rw [(FileSystem.get_dead this).1]
      exact List.nil_sublist _
    · have : (fs.delete x).get i = fs.get i :=
        FileSystem.get_congr (by rw [hn, if_neg hi])
      rw [this]
  · intro i r1 hr1
    rw [hn] at hr1
    by_cases hi : i = x
    · rw [if_pos hi] at hr1; exact absurd hr1 (by simp)
    · rw [if_neg hi] at hr1; exact ⟨r1, hr1, rfl⟩

theorem FileSystem.Shrinks.same_shrinks {a b c : FileSystem} (h : a.Shrinks b)
    (hn : c.nodes = b.nodes) (hx : c.next = b.next) (hm : c.file_map = b.file_map)
    (hr : c.root_node = b.root_node) (hw : c.write_support = b.write_support) :
    a.Shrinks c := by
  have hg : ∀ i, c.get i = b.get i := fun i => FileSystem.get_congr (by rw [hn])
  refine ⟨fun k v hk => h.map k v (by rw [← hm]; exact hk), fun i => by rw [hg]; exact h.kids i,
    fun i r1 hr1 => h.recs i r1 (by rw [← hn]; exact hr1), hx.trans h.next, hr.trans h.root,
    hw.trans h.ws⟩

/-- When the key of its argument is mapped and the `parent` lists it, `take`
answers `true`. -/
theorem FileSystem.take_true (fs : FileSystem) (x pn : Nat)
    (hf : (fs.file_map.find ((fs.get x).pathname.getD [])).isSome)
    (hp : (fs.get x).parent = some pn) (hm : x ∈ (fs.get pn).children) :
    (fs.take x).1 = true := by
  have hg : ({ fs with file_map := (fs.file_map.erase ((fs.get x).pathname.getD [])).1 } :
      FileSystem).get pn = fs.get pn := rfl
  unfold FileSystem.take
  simp [FileMap.erase_count, hf, hp, hg, hm]

/-- The statements of `remove` after its loop, on a node without children. -/
theorem remove_tail {s1 : FileSystem} (hT : Tidy noneOf noneOf s1) (x : Nat)
    (hxr : x ≠ s1.root_node) (hxc : (s1.get x).children = []) (s3 : FileSystem)
    (h3 : s3 = (if ((s1.take x).2.get x).data.isSome then
        { (s1.take x).2 with removed_nodes := (s1.take x).2.removed_nodes ++ [x] }
      else (s1.take x).2.delete x)) :
    s1.Shrinks { s3 with changed := true } ∧
    (∀ k v, s1.file_map.find k = some v → k ≠ (s1.get x).pathname.getD [] →
      ({ s3 with changed := true } : FileSystem).file_map.find k = some v) ∧
    ((Tidy noneOf noneOf { s3 with changed := true } ∧ ∀ j, j ≠ x →
        ({ s3 with changed := true } : FileSystem).nodes j = s1.nodes j ∨
        ({ s3 with changed := true } : FileSystem).nodes j =
          (s1.nodes j).map (fun r => { r with children := r.children.erase x })) ∨
      (({ s3 with changed := true } : FileSystem).nodes x = none ∧
        (∀ j, j ≠ x → ({ s3 with changed := true } : FileSystem).nodes j = s1.nodes j) ∧
        ∀ k, s1.file_map.find k ≠ some x)) := by
  have hT2 : Tidy noneOf noneOf (s1.take x).2 := FileSystem.take_tidy hT x
  have hS2 : s1.Shrinks (s1.take x).2 := FileSystem.take_shrinks s1 x
  have hum : ∀ k, (s1.take x).2.file_map.find k ≠ some x := FileSystem.take_unmapped hT x
  have hr2 : (s1.take x).2.root_node = s1.root_node := hS2.root
  have hc2 : ((s1.take x).2.get x).children = [] := by
    have := hS2.kids x
    rw [hxc] at this
    exact List.eq_nil_of_sublist_nil this
  have hmap2 : ∀ k v, s1.file_map.find k = some v → k ≠ (s1.get x).pathname.getD [] →
      (s1.take x).2.file_map.find k = some v := by
    intro k v hk hne
    rw [FileSystem.take_map, if_neg hne]
    exact hk
  have hn2 : ∀ j, j ≠ x → (s1.take x).2.nodes j = s1.nodes j ∨
      (s1.take x).2.nodes j =
        (s1.nodes j).map (fun r => { r with children := r.children.erase x }) := by
    intro j _
    rcases FileSystem.take_result s1 x with h | ⟨pn, -, -, -, h⟩
    · left; rw [h]
    · rw [h]
      by_cases hj : j = pn
      · right
        show (if j = pn then (s1.nodes j).map _ else s1.nodes j) = _
        rw [if_pos hj]
      · left
        show (if j = pn then (s1.nodes j).map _ else s1.nodes j) = _
        rw [if_neg hj]
  by_cases hd : ((s1.take x).2.get x).data.isSome = true
  · rw [if_pos hd] at h3
    subst h3
    refine ⟨hS2.same_shrinks rfl rfl rfl rfl rfl, hmap2, Or.inl ⟨hT2.same_tidy rfl rfl rfl rfl, hn2⟩⟩
  · rw [if_neg hd] at h3
    subst h3
    have hSd : s1.Shrinks ((s1.take x).2.delete x) :=
      hS2.then_shrinks (FileSystem.delete_shrinks _ x)
    have hnd : ∀ j, ((s1.take x).2.delete x).nodes j =
        if j = x then none else (s1.take x).2.nodes j := fun _ => rfl
    refine ⟨hSd.same_shrinks rfl rfl rfl rfl rfl, hmap2, ?_⟩
    by_cases hl : ∃ j, x ∈ ((s1.take x).2.get j).children
    · right
      obtain ⟨j, hj⟩ := hl
      have hfalse : (s1.take x).1 ≠ true := fun ht => FileSystem.take_unlisted hT x ht j hj
      refine ⟨?_, ?_, ?_⟩
      · show ((s1.take x).2.delete x).nodes x = none
        rw [hnd, if_pos rfl]
      · intro i hi
        show ((s1.take x).2.delete x).nodes i = _
        rw [hnd, if_neg hi]
        rcases FileSystem.take_result s1 x with h | ⟨pn, -, -, -, h⟩
        · rw [h]
        · rw [h] at hfalse; exact absurd rfl hfalse
      · intro k hk
        obtain ⟨-, hpk, -, -⟩ := hT.mapped k x hk
        obtain ⟨pn, hp, hm⟩ := hT.linked k x hk (fun hw => hw)
        apply hfalse
        apply FileSystem.take_true s1 x pn _ hp hm
        rw [hpk]
        show (s1.file_map.find k).isSome
        rw [hk]; rfl
    · left
      have hl2 : ∀ j, x ∉ ((s1.take x).2.get j).children := fun j hj => hl ⟨j, hj⟩
      refine ⟨(hT2.delete_tidy x (by rw [hr2]; exact hxr) hum hl2 hc2).same_tidy rfl rfl rfl rfl, ?_⟩
      intro i hi
      show ((s1.take x).2.delete x).nodes i = _ ∨ ((s1.take x).2.delete x).nodes i = _
      rw [hnd, if_neg hi]
      exact hn2 i hi

/-- A call of `remove` on a deleted node changes no record and no entry. -/
theorem removeAux_dead (s : FileSystem) (x : Nat) (fuel : Nat) (hx : s.nodes x = none)
    (hk : s.file_map.find [] = none) :
    ∃ e s1, FileSystem.removeAux (fuel + 1) s x = some (e, s1) ∧
      (∀ j, s1.nodes j = s.nodes j) ∧ s1.file_map.find [] = none := by
  obtain ⟨hc, hp, hpn, ht, hda⟩ := FileSystem.get_dead hx
  by_cases hw : s.write_support = false
  · exact ⟨ENOTSUP, s, by simp [FileSystem.removeAux, hw], fun _ => rfl, hk⟩
  · have htk : s.take x = (false, { s with file_map := (s.file_map.erase []).1 }) := by
      rcases FileSystem.take_result s x with h | ⟨pn, hpp, -, -, -⟩
      · rw [h, hpn]; rfl
      · rw [hp] at hpp; exact absurd hpp (by simp)
    have hx2 : ({ s with file_map := (s.file_map.erase []).1 } : FileSystem).nodes x = none := hx
    have hd2 : (({ s with file_map := (s.file_map.erase []).1 } : FileSystem).get x).data =
        none := (FileSystem.get_dead hx2).2.2.2.2
    have hres : FileSystem.removeAux (fuel + 1) s x = some (0,
        { (({ s with file_map := (s.file_map.erase []).1 } : FileSystem).delete x) with
          changed := true }) := by
      have hnd : ¬ (s.get x).type = NodeType.DIR_NODE := by rw [ht]; decide
      rw [FileSystem.removeAux, if_neg hw, if_neg hnd]
      simp only
      rw [htk]
      simp only
      rw [hd2]
      rfl
    refine ⟨0, _, hres, ?_, ?_⟩
    · intro j
      show (if j = x then none else s.nodes j) = s.nodes j
      by_cases hj : j = x
      · rw [if_pos hj, hj, hx]
      · rw [if_neg hj]
    · show (s.file_map.erase []).1.find [] = none
      rw [FileMap.find_erase, if_pos rfl]

/-- The loop of `remove` does not end while the first child is a deleted node. -/
theorem remove_dead_front : ∀ (fuel : Nat) (s : FileSystem) (i x : Nat) (rest : List Nat),
    s.file_map.find [] = none → (s.get i).children = x :: rest → s.nodes x = none →
    FileSystem.removeChildren fuel s i = none := by
  intro fuel
  induction fuel with
  | zero => intro s i x rest _ _ _; rfl
  | succ fuel ih =>
    intro s i x rest hk hc hx
    cases fuel with
    | zero => simp [FileSystem.removeChildren, hc, FileSystem.removeAux]
    | succ fuel =>
      obtain ⟨e, s1, hr, hn, hk1⟩ := removeAux_dead s x fuel hx hk
      have hg : s1.get i = s.get i := FileSystem.get_congr (hn i)
      have := ih s1 i x rest hk1 (by rw [hg]; exact hc) (by rw [hn]; exact hx)
      rw [FileSystem.removeChildren]
      simp only [hc, hr]
      exact this

theorem erase_map_same (o : Option FileNode) (x : Nat)
    (h : ∀ r, o = some r → x ∉ r.children) :
    o.map (fun r => { r with children := r.children.erase x }) = o := by
  cases o with
  | none => rfl
  | some r =>
    have := h r rfl
    simp only [Option.map_some', Option.some.injEq]
    rw [List.erase_of_not_mem this]

theorem pathname_of_nodes {fs fs1 : FileSystem} {j x : Nat}
    (h : fs1.nodes j = fs.nodes j ∨
      fs1.nodes j = (fs.nodes j).map (fun r => { r with children := r.children.erase x })) :
    (fs1.get j).pathname = (fs.get j).pathname ∧ ((fs1.nodes j).isSome = (fs.nodes j).isSome) := by
  rcases h with h | h
  · exact ⟨by rw [FileSystem.get_congr h], by rw [h]⟩
  · cases hn : fs.nodes j with
    | none =>
      rw [hn] at h
      exact ⟨by rw [(FileSystem.get_dead h).2.2.1, (FileSystem.get_dead hn).2.2.1], by rw [h]; rfl⟩
    | some r =>
      rw [hn] at h
      exact ⟨by rw [FileSystem.get_of_some h, FileSystem.get_of_some hn], by rw [h]; rfl⟩

/-- The walk of `remove` over a tree in order. -/
theorem remove_walk : ∀ (fuel : Nat),
    (∀ (s : FileSystem) (x e : Nat) (s1 : FileSystem), Tidy noneOf noneOf s →
      x ≠ s.root_node → FileSystem.removeAux fuel s x = some (e, s1) → s.Pruned x s1) ∧
    (∀ (s : FileSystem) (i : Nat) (s1 : FileSystem), Tidy noneOf noneOf s →
      i ≠ s.root_node → FileSystem.removeChildren fuel s i = some s1 → s.Hollowed i s1) := by
  intro fuel
  induction fuel with
  | zero =>
    exact ⟨fun s x e s1 _ _ h => by simp [FileSystem.removeAux] at h,
      fun s i s1 _ _ h => by simp [FileSystem.removeChildren] at h⟩
  | succ fuel ih =>
    obtain ⟨ihP, ihQ⟩ := ih
    constructor
    · intro s x e s1 hT hxr h
      rw [FileSystem.removeAux] at h
      by_cases hw : s.write_support = false
      · rw [if_pos hw] at h
        simp only [Option.some.injEq, Prod.mk.injEq] at h
        obtain ⟨-, rfl⟩ := h
        exact ⟨FileSystem.Shrinks.rfl_shrinks s, fun k v hk _ => hk,
          Or.inl ⟨hT, fun j _ => Or.inl rfl⟩⟩
      · rw [if_neg hw] at h
        have hq : ∃ sm, (if (s.get x).type = NodeType.DIR_NODE then
            FileSystem.removeChildren fuel s x else some s) = some sm ∧ s.Hollowed x sm := by
          by_cases hd : (s.get x).type = NodeType.DIR_NODE
          · rw [if_pos hd] at h ⊢
            cases hr : FileSystem.removeChildren fuel s x with
            | none => rw [hr] at h; simp at h
            | some sm => exact ⟨sm, rfl, ihQ s x sm hT hxr hr⟩
          · rw [if_neg hd]
            refine ⟨s, rfl, FileSystem.Shrinks.rfl_shrinks s, hT, ?_, fun k v hk _ => hk,
              fun j _ => rfl⟩
            rcases hT.kinds x hxr with h2 | h2
            · exact absurd h2 hd
            · exact h2
        obtain ⟨sm, hsm, hH⟩ := hq
        rw [hsm] at h
        simp only [Option.some.injEq, Prod.mk.injEq] at h
        obtain ⟨-, rfl⟩ := h
        obtain ⟨t1, t2, t3⟩ := remove_tail hH.tidy x (by rw [hH.shrinks.root]; exact hxr)
          hH.none_left _ rfl
        have hkey : ∀ k v, s.file_map.find k = some v →
            k.length < ((s.get x).pathname.getD []).length →
            k ≠ (sm.get x).pathname.getD [] := by
          intro k v hk hlt hkk
          cases hn : sm.nodes x with
          | none =>
            rw [(FileSystem.get_dead hn).2.2.1] at hkk
            have hk0 : k = [] := hkk
            rw [hk0, hT.no_empty_key] at hk
            exact absurd hk (by simp)
          | some r1 =>
            obtain ⟨r, hr, e1⟩ := hH.shrinks.recs x r1 hn
            rw [FileSystem.get_of_some hn, e1] at hkk
            rw [FileSystem.get_of_some hr] at hlt
            rw [hkk] at hlt
            exact lt_irrefl _ hlt
        refine ⟨hH.shrinks.then_shrinks t1, ?_, ?_⟩
        · intro k v hk hlt
          exact t2 k v (hH.keys k v hk (le_of_lt hlt)) (hkey k v hk hlt)
        · have hjx : ∀ j, ¬ s.Reaches x j → j ≠ x := by
            rintro j hj rfl
            exact hj (FileSystem.Reaches.here j)
          rcases t3 with ⟨hT3, hn3⟩ | ⟨hx3, hn3, hu3⟩
          · left
            refine ⟨hT3, fun j hj => ?_⟩
            rw [← hH.recs j hj]
            exact hn3 j (hjx j hj)
          · right
            refine ⟨hx3, fun j hj => ?_, ?_⟩
            · rw [← hH.recs j hj]
              exact hn3 j (hjx j hj)
            · intro k hk
              have hpk := (hT.mapped k x hk).2.1
              exact hu3 k (hH.keys k x hk (by rw [hpk]; exact le_refl _))
    · intro s i s1 hT hir h
      rw [FileSystem.removeChildren] at h
      cases hc : (s.get i).children with
      | nil =>
        rw [hc] at h
        simp only [Option.some.injEq] at h
        subst h
        exact ⟨FileSystem.Shrinks.rfl_shrinks s, hT, hc, fun k v hk _ => hk, fun j _ => rfl⟩
      | cons f rest =>
        rw [hc] at h
        simp only at h
        have hfi : f ∈ (s.get i).children := by rw [hc]; exact List.mem_cons_self _ _
        have hfr : f ≠ s.root_node := fun e => hT.root_unlisted i (e ▸ hfi)
        have hnr : ¬ s.Reaches f i := hT.acyclic hfi
        cases hr : FileSystem.removeAux fuel s f with
        | none => rw [hr] at h; simp at h
        | some r =>
          rw [hr] at h
          simp only at h
          obtain ⟨e, r2⟩ := r
          have hP := ihP s f e r2 hT hfr hr
          rcases hP.ends with ⟨hT2, hn2⟩ | ⟨hx2, hn2, -⟩
          · have hH := ihQ r2 i s1 hT2 (by rw [hP.shrinks.root]; exact hir) h
            obtain ⟨ki, kc, hki, hkc, hlt⟩ := hT.longer i f hfi hir (fun hw => hw)
            have hpi := (pathname_of_nodes (hn2 i hnr)).1
            refine ⟨hP.shrinks.then_shrinks hH.shrinks, hH.tidy, hH.none_left, ?_, ?_⟩
            · intro k v hk hle
              apply hH.keys k v
              · apply hP.keys k v hk
                rw [hkc]
                rw [hki] at hle
                exact lt_of_le_of_lt hle hlt
              · rw [hpi]; exact hle
            · intro j hj
              have hj1 : ¬ s.Reaches f j := fun hh => hj (FileSystem.Reaches.head hfi hh)
              have hj2 : ¬ r2.Reaches i j := fun hh =>
                hj (FileSystem.Reaches.of_sub hP.shrinks.kids_sub hh)
              rw [hH.recs j hj2]
              rcases hn2 j hj1 with h3 | h3
              · exact h3
              · rw [h3]
                apply erase_map_same
                intro rr hrr hm
                have hm2 : f ∈ (s.get j).children := by
                  rw [FileSystem.get_of_some hrr]; exact hm
                have := hT.one_lister hfi hm2
                exact hj (this ▸ FileSystem.Reaches.here i)
          · exfalso
            have hg : r2.get i = s.get i := FileSystem.get_congr (hn2 i hnr)
            have hk0 : r2.file_map.find [] = none := by
              cases hf : r2.file_map.find [] with
              | none => rfl
              | some v =>
                have := hP.shrinks.map _ _ hf
                rw [hT.no_empty_key] at this
                exact absurd this (by simp)
            have := remove_dead_front fuel r2 i f rest hk0 (by rw [hg]; exact hc) hx2
            rw [this] at h
            exact absurd h (by simp)

/-- A call of `remove` that returns, on a mapped node of a tree in order, leaves
the tree in order. -/
theorem FileSystem.removeAux_tidy {s : FileSystem} (hT : Tidy noneOf noneOf s) (k : Path)
    (x fuel e : Nat) (s1 : FileSystem) (hk : s.file_map.find k = some x)
    (h : FileSystem.removeAux fuel s x = some (e, s1)) :
    Tidy noneOf noneOf s1 ∧ s.Shrinks s1 ∧
    ∀ j, ¬ s.Reaches x j → (s1.get j).pathname = (s.get j).pathname ∧
      (s1.nodes j).isSome = (s.nodes j).isSome := by
  have hxr : x ≠ s.root_node := by
    rintro rfl
    obtain ⟨pn, hp, -⟩ := hT.linked k _ hk (fun hw => hw)
    rw [hT.rootTop] at hp
    exact absurd hp (by simp)
  have hP := (remove_walk fuel).1 s x e s1 hT hxr h
  rcases hP.ends with ⟨hT2, hn2⟩ | ⟨-, -, hu⟩
  · exact ⟨hT2, hP.shrinks, fun j hj => pathname_of_nodes (hn2 j hj)⟩
  · exact absurd hk (hu k)

/-! ## `repath` keeps the order of the tree -/

theorem none_iff_of_isSome {a b : Option FileNode} (h : a.isSome = b.isSome) :
    a = none ↔ b = none := by
  cases a <;> cases b <;> simp at h ⊢

theorem FileSystem.SameShape.rfl_shape (fs : FileSystem) : fs.SameShape fs :=
  ⟨fun _ => Iff.rfl, fun _ => rfl, fun _ => rfl, fun _ => rfl, rfl, rfl⟩

theorem FileSystem.SameShape.then_shape {a b c : FileSystem} (h1 : a.SameShape b)
    (h2 : b.SameShape c) : a.SameShape c :=
  ⟨fun i => (h2.live i).trans (h1.live i), fun i => (h2.kids i).trans (h1.kids i),
    fun i => (h2.type i).trans (h1.type i), fun i => (h2.parent i).trans (h1.parent i),
    h2.next.trans h1.next, h2.root.trans h1.root⟩

theorem FileSystem.SameShape.reaches {fs fs1 : FileSystem} (h : fs.SameShape fs1) (a b : Nat) :
    fs1.Reaches a b ↔ fs.Reaches a b :=
  ⟨FileSystem.Reaches.of_sub (fun i c hc => by rw [← h.kids i]; exact hc),
    FileSystem.Reaches.of_sub (fun i c hc => by rw [h.kids i]; exact hc)⟩

theorem FileNode.setPathname_fields (r : FileNode) (k : Path) :
    (r.setPathname k).children = r.children ∧ (r.setPathname k).type = r.type ∧
    (r.setPathname k).parent = r.parent ∧ (r.setPathname k).pathname = some k ∧
    (r.setPathname k).name_ptr = nameStart k :=
  ⟨rfl, rfl, rfl, rfl, rfl⟩

/-- The assignments of one call of `repath` change no list, type or parent, and
no record but the one of the node. -/
theorem repath_step_shape (s : FileSystem) (c : Nat) (m : FileMap) (new : Path) :
    s.SameShape (({ s with file_map := m } : FileSystem).modify c
      (fun r => r.setPathname new)) ∧
    ∀ j, j ≠ c → (({ s with file_map := m } : FileSystem).modify c
      (fun r => r.setPathname new)).nodes j = s.nodes j := by
  refine ⟨⟨?_, ?_, ?_, ?_, rfl, rfl⟩, ?_⟩
  · intro i
    exact none_iff_of_isSome (FileSystem.modify_isSome _ c i _)
  · intro i
    apply FileSystem.get_modify_field (fun r => r.children)
    intro r; rfl
  · intro i
    apply FileSystem.get_modify_field (fun r => r.type)
    intro r; rfl
  · intro i
    apply FileSystem.get_modify_field (fun r => r.parent)
    intro r; rfl
  · intro j hj
    show (if j = c then _ else s.nodes j) = s.nodes j
    rw [if_neg hj]

theorem goodPath_append_slash (path nm : Path) (hg : GoodPath path) :
    GoodPath (path ++ '/' :: nm) := by
  obtain ⟨h1, h2⟩ := hg
  cases path with
  | nil => exact absurd rfl h1
  | cons a rest => exact ⟨by simp, by simpa using h2⟩

/-- The assignments of one call of `repath` on a node listed by a node that has
its new path: the order is kept, with the children of the node waived. -/
theorem repath_one {Wc : Nat → Prop} {s : FileSystem} (hT : Tidy noneOf Wc s) (c i : Nat)
    (path : Path) (hci : c ∈ (s.get i).children)
    (hpi : (s.get i).pathname = some path) (hg : GoodPath path) (s1 : FileSystem) (new : Path)
    (hnew : new = path ++ '/' :: (s.get c).name)
    (h1 : s1 = (({ s with file_map :=
        (s.file_map.erase ((s.get c).pathname.getD [])).1.assign new c } : FileSystem).modify c
          (fun r => r.setPathname new))) :
    Tidy noneOf (fun e => (Wc e ∧ e ≠ c) ∨ e ∈ (s.get c).children) s1 ∧
    (s1.get c).pathname = some new ∧ GoodPath new := by
  have hcl : (s.nodes c).isSome := (hT.listed i c hci).1
  have hcp : (s.get c).parent = some i := (hT.listed i c hci).2
  obtain ⟨hS, hno⟩ := repath_step_shape s c
    ((s.file_map.erase ((s.get c).pathname.getD [])).1.assign new c) new
  rw [← h1] at hS hno
  have hgo : ∀ j, j ≠ c → s1.get j = s.get j := fun j hj => FileSystem.get_congr (hno j hj)
  have hgc : s1.get c = (s.get c).setPathname new := by
    rw [h1]
    exact FileSystem.get_modify_self _ hcl
  have hmap : ∀ k, s1.file_map.find k =
      if k = new then some c else
        if k = (s.get c).pathname.getD [] then none else s.file_map.find k := by
    intro k
    rw [h1]
    show ((s.file_map.erase ((s.get c).pathname.getD [])).1.assign new c).find k = _
    rw [FileMap.find_assign, FileMap.find_erase]
  have hlive : ∀ j, (s1.nodes j).isSome = (s.nodes j).isSome := by
    intro j
    rw [h1]
    exact FileSystem.modify_isSome _ c j _
  have hgn : GoodPath new := by rw [hnew]; exact goodPath_append_slash _ _ hg
  have hold : ∀ k n, s1.file_map.find k = some n → k ≠ new →
      s.file_map.find k = some n ∧ n ≠ c := by
    intro k n hk hkn
    rw [hmap, if_neg hkn] at hk
    by_cases hko : k = (s.get c).pathname.getD []
    · rw [if_pos hko] at hk; exact absurd hk (by simp)
    · rw [if_neg hko] at hk
      refine ⟨hk, ?_⟩
      rintro rfl
      rw [(hT.mapped k _ hk).2.1] at hko
      exact hko rfl
  refine ⟨⟨?_, ?_, ?_, ?_, ?_, ?_, ?_, ?_, ?_, ?_⟩, by rw [hgc]; rfl, hgn⟩
  · rw [hS.root, hlive]; exact hT.rootLive
  · rw [hS.root, hS.parent]; exact hT.rootTop
  · rw [hS.root, hS.type]; exact hT.rootKind
  · intro j hj
    rw [hS.next] at hj
    exact (hS.live j).mpr (hT.fresh j hj)
  · intro k n hk
    by_cases hkn : k = new
    · rw [hmap, if_pos hkn] at hk
      cases hk
      rw [hlive, hgc, hkn]
      exact ⟨hcl, rfl, rfl, hgn⟩
    · obtain ⟨hk2, hnc⟩ := hold k n hk hkn
      rw [hlive, hgo n hnc]
      exact hT.mapped k n hk2
  · intro k n hk _
    by_cases hkn : k = new
    · rw [hmap, if_pos hkn] at hk
      cases hk
      refine ⟨i, ?_, ?_⟩
      · rw [hS.parent]; exact hcp
      · rw [hS.kids]; exact hci
    · obtain ⟨hk2, hnc⟩ := hold k n hk hkn
      obtain ⟨pn, hp, hm⟩ := hT.linked k n hk2 (fun hw => hw)
      exact ⟨pn, by rw [hS.parent]; exact hp, by rw [hS.kids]; exact hm⟩
  · intro j d hd
    rw [hS.kids] at hd
    rw [hlive, hS.parent]
    exact hT.listed j d hd
  · intro j
    rw [hS.kids]; exact hT.nodup j
  · intro j hj
    rw [hS.root] at hj
    rw [hS.type, hS.kids]
    exact hT.kinds j hj
  · intro j d hd hj hw
    rw [hS.kids] at hd
    rw [hS.root] at hj
    have hw1 : ¬ (Wc d ∧ d ≠ c) := fun h2 => hw (Or.inl h2)
    have hw2 : d ∉ (s.get c).children := fun h2 => hw (Or.inr h2)
    have hjc : j ≠ c := by rintro rfl; exact hw2 hd
    by_cases hdc : d = c
    · subst hdc
      have hji : j = i := hT.one_lister hd hci
      rw [hgo j hjc, hgc, hji, hpi]
      refine ⟨path, new, rfl, rfl, ?_⟩
      rw [hnew]
      simp
    · have hw3 : ¬ Wc d := fun h2 => hw1 ⟨h2, hdc⟩
      rw [hgo j hjc, hgo d hdc]
      exact hT.longer j d hd hj hw3

/-- A call of `repath` that returns has changed no list, type or parent, and
no record of a node that is not reached from the node given. -/
theorem repath_shape (env : Env) : ∀ (fuel : Nat),
    (∀ (s : FileSystem) (c : Nat) (path : Path) (s1 : FileSystem),
      FileSystem.repathAux env fuel s c path = some s1 →
      s.SameShape s1 ∧ ∀ j, ¬ s.Reaches c j → s1.nodes j = s.nodes j) ∧
    (∀ (s : FileSystem) (l : List Nat) (path : Path) (s1 : FileSystem),
      FileSystem.repathList env fuel s l path = some s1 →
      s.SameShape s1 ∧ ∀ j, (∀ c, c ∈ l → ¬ s.Reaches c j) → s1.nodes j = s.nodes j) := by
  intro fuel
  induction fuel with
  | zero =>
    exact ⟨fun s c path s1 h => by simp [FileSystem.repathAux] at h,
      fun s l path s1 h => by simp [FileSystem.repathList] at h⟩
  | succ fuel ih =>
    obtain ⟨ihA, ihL⟩ := ih
    constructor
    · intro s c path s1 h
      rw [FileSystem.repathAux] at h
      simp only at h
      by_cases hov : env.PATH_MAX < (path ++ '/' :: (s.get c).name).length + 1
      · rw [if_pos hov] at h
        exact absurd h (by simp)
      · rw [if_neg hov] at h
        obtain ⟨hS, hno⟩ := repath_step_shape s c
          ((s.file_map.erase ((s.get c).pathname.getD [])).1.assign
            (path ++ '/' :: (s.get c).name) c) (path ++ '/' :: (s.get c).name)
        have hjc : ∀ j, ¬ s.Reaches c j → j ≠ c := by
          rintro j hj rfl
          exact hj (FileSystem.Reaches.here j)
        by_cases hd : (s.get c).type = NodeType.DIR_NODE
        · rw [if_pos hd] at h
          obtain ⟨hS2, hn2⟩ := ihL _ _ _ _ h
          refine ⟨hS.then_shape hS2, fun j hj => ?_⟩
          rw [hn2 j ?_, hno j (hjc j hj)]
          intro d hdc hr
          exact hj (FileSystem.Reaches.head hdc ((hS.reaches d j).mp hr))
        · rw [if_neg hd] at h
          simp only [Option.some.injEq] at h
          subst h
          exact ⟨hS, fun j hj => hno j (hjc j hj)⟩
    · intro s l path s1 h
      cases l with
      | nil =>
        rw [FileSystem.repathList] at h
        simp only [Option.some.injEq] at h
        subst h
        exact ⟨FileSystem.SameShape.rfl_shape s, fun j _ => rfl⟩
      | cons c rest =>
        rw [FileSystem.repathList] at h
        cases hr : FileSystem.repathAux env fuel s c path with
        | none => rw [hr] at h; simp at h
        | some sm =>
          rw [hr] at h
          simp only at h
          obtain ⟨hS1, hn1⟩ := ihA s c path sm hr
          obtain ⟨hS2, hn2⟩ := ihL sm rest path s1 h
          refine ⟨hS1.then_shape hS2, fun j hj => ?_⟩
          rw [hn2 j ?_, hn1 j (hj c (List.mem_cons_self _ _))]
          intro d hd hrd
          exact hj d (List.mem_cons_of_mem _ hd) ((hS1.reaches d j).mp hrd)

/-- A node that is reached from one of its children. -/
theorem onCycle_child {s : FileSystem} {c d : Nat} (hd : d ∈ (s.get c).children)
    (hr : s.Reaches d c) : ∃ d2, d2 ∈ (s.get d).children ∧ s.Reaches d2 d := by
  rcases FileSystem.Reaches.cases_head hr with rfl | ⟨d2, hd2, hr2⟩
  · exact ⟨d, hd, FileSystem.Reaches.here d⟩
  · exact ⟨d2, hd2, FileSystem.Reaches.down hr2 hd⟩

/-- The walk of `repath` does not return from a node that is reached from one
of its children: it calls itself for every node on the way round. -/
theorem repath_loops (env : Env) : ∀ (fuel : Nat),
    (∀ (s : FileSystem) (c : Nat) (path : Path),
      (∀ j, j ≠ s.root_node → (s.get j).type = NodeType.DIR_NODE ∨ (s.get j).children = []) →
      (∀ j, s.root_node ∉ (s.get j).children) →
      (∃ d, d ∈ (s.get c).children ∧ s.Reaches d c) →
      FileSystem.repathAux env fuel s c path = none) ∧
    (∀ (s : FileSystem) (l : List Nat) (path : Path),
      (∀ j, j ≠ s.root_node → (s.get j).type = NodeType.DIR_NODE ∨ (s.get j).children = []) →
      (∀ j, s.root_node ∉ (s.get j).children) →
      (∃ c, c ∈ l ∧ ∃ d, d ∈ (s.get c).children ∧ s.Reaches d c) →
      FileSystem.repathList env fuel s l path = none) := by
  intro fuel
  induction fuel with
  | zero => exact ⟨fun s c path _ _ _ => rfl, fun s l path _ _ _ => rfl⟩
  | succ fuel ih =>
    obtain ⟨ihA, ihL⟩ := ih
    have hkeep : ∀ {s s1 : FileSystem}, s.SameShape s1 →
        (∀ j, j ≠ s.root_node → (s.get j).type = NodeType.DIR_NODE ∨ (s.get j).children = []) →
        (∀ j, s.root_node ∉ (s.get j).children) →
        (∀ j, j ≠ s1.root_node →
          (s1.get j).type = NodeType.DIR_NODE ∨ (s1.get j).children = []) ∧
        (∀ j, s1.root_node ∉ (s1.get j).children) := by
      intro s s1 hS hk hr
      refine ⟨fun j hj => ?_, fun j => ?_⟩
      · rw [hS.type, hS.kids]; exact hk j (by rw [← hS.root]; exact hj)
      · rw [hS.root, hS.kids]; exact hr j
    have hcyc : ∀ {s s1 : FileSystem}, s.SameShape s1 → ∀ c,
        (∃ d, d ∈ (s.get c).children ∧ s.Reaches d c) →
        ∃ d, d ∈ (s1.get c).children ∧ s1.Reaches d c := by
      rintro s s1 hS c ⟨d, hd, hr⟩
      exact ⟨d, by rw [hS.kids]; exact hd, (hS.reaches d c).mpr hr⟩
    constructor
    · intro s c path hk hr hc
      obtain ⟨d, hd, hrd⟩ := hc
      have hcr : c ≠ s.root_node := by
        rintro rfl
        cases hrd with
        | here => exact hr _ hd
        | down _ h2 => exact hr _ h2
      have hct : (s.get c).type = NodeType.DIR_NODE := by
        rcases hk c hcr with h2 | h2
        · exact h2
        · rw [h2] at hd; exact absurd hd (by simp)
      rw [FileSystem.repathAux]
      simp only
      by_cases hov : env.PATH_MAX < (path ++ '/' :: (s.get c).name).length + 1
      · rw [if_pos hov]
      · rw [if_neg hov, if_pos hct]
        obtain ⟨hS, -⟩ := repath_step_shape s c
          ((s.file_map.erase ((s.get c).pathname.getD [])).1.assign
            (path ++ '/' :: (s.get c).name) c) (path ++ '/' :: (s.get c).name)
        obtain ⟨hk1, hr1⟩ := hkeep hS hk hr
        exact ihL _ _ _ hk1 hr1 ⟨d, hd, hcyc hS d (onCycle_child hd hrd)⟩
    · intro s l path hk hr hc
      obtain ⟨c, hcl, hcc⟩ := hc
      cases l with
      | nil => exact absurd hcl (by simp)
      | cons c0 rest =>
        rw [FileSystem.repathList]
        cases hr0 : FileSystem.repathAux env fuel s c0 path with
        | none => rfl
        | some sm =>
          simp only
          rcases List.mem_cons.mp hcl with rfl | hin
          · rw [ihA s c path hk hr hcc] at hr0
            exact absurd hr0 (by simp)
          · obtain ⟨hS, -⟩ := (repath_shape env fuel).1 s c0 path sm hr0
            obtain ⟨hk1, hr1⟩ := hkeep hS hk hr
            exact ihL sm rest path hk1 hr1 ⟨c, hin, hcyc hS c hcc⟩

/-- The walk of `repath` over the nodes below a node that has its new path:
when it returns, the order holds without the waiver for the nodes visited. -/
theorem repath_tidy (env : Env) : ∀ (fuel : Nat),
    (∀ (s : FileSystem) (c i : Nat) (path : Path) (Wc : Nat → Prop) (s1 : FileSystem),
      Tidy noneOf Wc s → c ∈ (s.get i).children → i ≠ s.root_node →
      (s.get i).pathname = some path → GoodPath path →
      FileSystem.repathAux env fuel s c path = some s1 →
      Tidy noneOf (fun e => Wc e ∧ e ≠ c) s1) ∧
    (∀ (s : FileSystem) (l : List Nat) (i : Nat) (path : Path) (Wc : Nat → Prop)
      (s1 : FileSystem),
      Tidy noneOf Wc s → (∀ c, c ∈ l → c ∈ (s.get i).children) → i ≠ s.root_node →
      (s.get i).pathname = some path → GoodPath path →
      FileSystem.repathList env fuel s l path = some s1 →
      Tidy noneOf (fun e => Wc e ∧ e ∉ l) s1) := by
  intro fuel
  induction fuel with
  | zero =>
    exact ⟨fun s c i path Wc s1 _ _ _ _ _ h => by simp [FileSystem.repathAux] at h,
      fun s l i path Wc s1 _ _ _ _ _ h => by simp [FileSystem.repathList] at h⟩
  | succ fuel ih =>
    obtain ⟨ihA, ihL⟩ := ih
    constructor
    · intro s c i path Wc s1 hT hci hir hpi hg h
      rw [FileSystem.repathAux] at h
      simp only at h
      by_cases hov : env.PATH_MAX < (path ++ '/' :: (s.get c).name).length + 1
      · rw [if_pos hov] at h
        exact absurd h (by simp)
      · rw [if_neg hov] at h
        obtain ⟨hT1, hp1, hg1⟩ := repath_one hT c i path hci hpi hg _ _ rfl rfl
        obtain ⟨hS, -⟩ := repath_step_shape s c
          ((s.file_map.erase ((s.get c).pathname.getD [])).1.assign
            (path ++ '/' :: (s.get c).name) c) (path ++ '/' :: (s.get c).name)
        have hcr : c ≠ s.root_node := fun e => hT.root_unlisted i (e ▸ hci)
        by_cases hd : (s.get c).type = NodeType.DIR_NODE
        · rw [if_pos hd] at h
          have := ihL _ _ c _ _ s1 hT1 (fun d hd2 => by rw [hS.kids]; exact hd2)
            (by rw [hS.root]; exact hcr) hp1 hg1 h
          refine this.mono (fun n hn => hn) ?_
          rintro e ⟨h2 | h2, h3⟩
          · exact h2
          · exact absurd h2 h3
        · rw [if_neg hd] at h
          simp only [Option.some.injEq] at h
          subst h
          refine hT1.mono (fun n hn => hn) ?_
          rintro e (h2 | h2)
          · exact h2
          · rcases hT.kinds c hcr with h3 | h3
            · exact absurd h3 hd
            · rw [h3] at h2; exact absurd h2 (by simp)
    · intro s l i path Wc s1 hT hl hir hpi hg h
      cases l with
      | nil =>
        rw [FileSystem.repathList] at h
        simp only [Option.some.injEq] at h
        subst h
        exact hT.mono (fun n hn => hn) (fun e he => ⟨he, by simp⟩)
      | cons c rest =>
        rw [FileSystem.repathList] at h
        cases hr : FileSystem.repathAux env fuel s c path with
        | none => rw [hr] at h; simp at h
        | some sm =>
          rw [hr] at h
          simp only at h
          have hci : c ∈ (s.get i).children := hl c (List.mem_cons_self _ _)
          have hTm := ihA s c i path Wc sm hT hci hir hpi hg hr
          obtain ⟨hS, hno⟩ := (repath_shape env fuel).1 s c path sm hr
          have hnr : ¬ s.Reaches c i := by
            intro hrc
            have hcyc : ∃ d, d ∈ (s.get c).children ∧ s.Reaches d c := by
              rcases FileSystem.Reaches.cases_head hrc with rfl | ⟨d, hd, hrd⟩
              · exact ⟨c, hci, FileSystem.Reaches.here c⟩
              · exact ⟨d, hd, FileSystem.Reaches.down hrd hci⟩
            rw [(repath_loops env fuel).1 s c path hT.kinds hT.root_unlisted hcyc] at hr
            exact absurd hr (by simp)
          have hgi : sm.get i = s.get i := FileSystem.get_congr (hno i hnr)
          have := ihL sm rest i path _ s1 hTm
            (fun d hd => by rw [hS.kids]; exact hl d (List.mem_cons_of_mem _ hd))
            (by rw [hS.root]; exact hir) (by rw [hgi]; exact hpi) hg h
          refine this.mono (fun n hn => hn) ?_
          rintro e ⟨⟨he, hec⟩, hne⟩
          refine ⟨he, fun h2 => ?_⟩
          rcases List.mem_cons.mp h2 with h3 | h3
          · exact hec h3
          · exact hne h3

/-! ## Every returning call keeps the order of the tree -/

theorem FileSystem.take_live (fs : FileSystem) (x i : Nat) :
    ((fs.take x).2.nodes i).isSome = (fs.nodes i).isSome := by
  rcases FileSystem.take_result fs x with h | ⟨pn, -, -, -, h⟩
  · rw [h]
  · rw [h]
    exact FileSystem.modify_isSome _ pn i _

theorem FileSystem.Shrinks.type_same {fs fs1 : FileSystem} (h : fs.Shrinks fs1) {d : Nat}
    (hl : (fs1.nodes d).isSome) : (fs1.get d).type = (fs.get d).type := by
  cases hn : fs1.nodes d with
  | none => rw [hn] at hl; exact absurd hl (by simp)
  | some r1 =>
    obtain ⟨r, hr, e1⟩ := h.recs d r1 hn
    rw [FileSystem.get_of_some hn, FileSystem.get_of_some hr, e1]

theorem Tidy.not_root {fs : FileSystem} (h : Tidy noneOf noneOf fs) {k : Path} {n : Nat}
    (hk : fs.file_map.find k = some n) : n ≠ fs.root_node := by
  rintro rfl
  obtain ⟨pn, hp, -⟩ := h.linked k _ hk (fun hw => hw)
  rw [h.rootTop] at hp
  exact absurd hp (by simp)

/-- The assignment of a new path to a node that is not mapped and not listed
keeps the order, with the children of the node waived. -/
theorem Tidy.set_path {Wm Wc : Nat → Prop} {fs : FileSystem} (h : Tidy Wm Wc fs) (x : Nat)
    (p : Path) (hxm : ∀ k, fs.file_map.find k ≠ some x)
    (hxu : ∀ j, x ∉ (fs.get j).children) :
    Tidy Wm (fun e => Wc e ∨ e ∈ (fs.get x).children)
      (fs.modify x (fun r => r.setPathname p)) := by
  have h0 := repath_step_shape fs x fs.file_map p
  have hS : fs.SameShape (fs.modify x (fun r => r.setPathname p)) := h0.1
  have hlive : ∀ j, ((fs.modify x (fun r => r.setPathname p)).nodes j).isSome =
      (fs.nodes j).isSome := fun j => FileSystem.modify_isSome _ x j _
  have hgo : ∀ j, j ≠ x → (fs.modify x (fun r => r.setPathname p)).get j = fs.get j :=
    fun j hj => FileSystem.get_modify_other _ hj
  have hmap : (fs.modify x (fun r => r.setPathname p)).file_map = fs.file_map := rfl
  have hne : ∀ k n, fs.file_map.find k = some n → n ≠ x := by
    rintro k n hk rfl
    exact hxm k hk
  refine ⟨?_, ?_, ?_, ?_, ?_, ?_, ?_, ?_, ?_, ?_⟩
  · rw [hS.root, hlive]; exact h.rootLive
  · rw [hS.root, hS.parent]; exact h.rootTop
  · rw [hS.root, hS.type]; exact h.rootKind
  · intro j hj
    rw [hS.next] at hj
    exact (hS.live j).mpr (h.fresh j hj)
  · intro k n hk
    rw [hmap] at hk
    rw [hlive, hgo n (hne k n hk)]
    exact h.mapped k n hk
  · intro k n hk hw
    rw [hmap] at hk
    obtain ⟨pn, hp, hm⟩ := h.linked k n hk hw
    exact ⟨pn, by rw [hS.parent]; exact hp, by rw [hS.kids]; exact hm⟩
  · intro j d hd
    rw [hS.kids] at hd
    rw [hlive, hS.parent]
    exact h.listed j d hd
  · intro j
    rw [hS.kids]; exact h.nodup j
  · intro j hj
    rw [hS.root] at hj
    rw [hS.type, hS.kids]
    exact h.kinds j hj
  · intro j d hd hj hw
    rw [hS.kids] at hd
    rw [hS.root] at hj
    have hjx : j ≠ x := by rintro rfl; exact hw (Or.inr hd)
    have hdx : d ≠ x := by rintro rfl; exact hxu j hd
    rw [hgo j hjx, hgo d hdx]
    exact h.longer j d hd hj (fun h2 => hw (Or.inl h2))

/-- The state after `new FileNode(...)` meets the conditions of `append`. -/
theorem alloc_ready {Wm Wc : Nat → Prop} {fs : FileSystem} (hT : Tidy Wm Wc fs)
    (r : FileNode) (hrc : r.children = []) :
    Tidy Wm Wc (fs.alloc r).2 ∧ ((fs.alloc r).2.nodes fs.next).isSome ∧
    fs.next ≠ (fs.alloc r).2.root_node ∧
    (∀ k, (fs.alloc r).2.file_map.find k ≠ some fs.next) ∧
    (∀ j, fs.next ∉ ((fs.alloc r).2.get j).children) ∧
    (fs.alloc r).2.get fs.next = r ∧
    (∀ i, i ≠ fs.next → (fs.alloc r).2.get i = fs.get i) := by
  have hdead : fs.nodes fs.next = none := hT.fresh _ (le_refl _)
  have hne : ∀ i, (fs.nodes i).isSome → i ≠ fs.next := by
    rintro i hl rfl
    rw [hdead] at hl
    exact absurd hl (by simp)
  have hn : ∀ i, (fs.alloc r).2.nodes i = if i = fs.next then some r else fs.nodes i :=
    fun _ => rfl
  have hgo : ∀ i, i ≠ fs.next → (fs.alloc r).2.get i = fs.get i := by
    intro i hi
    apply FileSystem.get_congr
    rw [hn, if_neg hi]
  have hgx : (fs.alloc r).2.get fs.next = r := by
    apply FileSystem.get_of_some
    rw [hn, if_pos rfl]
  refine ⟨hT.alloc_tidy r hrc, ?_, ?_, ?_, ?_, hgx, hgo⟩
  · rw [hn, if_pos rfl]; rfl
  · exact fun h => hne _ hT.rootLive h.symm
  · intro k hk
    exact hne _ (hT.mapped _ _ hk).1 rfl
  · intro j hj
    by_cases hjn : j = fs.next
    · rw [hjn, hgx, hrc] at hj; exact absurd hj (by simp)
    · rw [hgo j hjn] at hj
      exact hne _ (hT.listed j _ hj).1 rfl

/-- A call of `append` on a newly constructed node that returns leaves the tree
in order, also when it ends with `AlreadyExists`. -/
theorem append_new_tidy (env : Env) {fs : FileSystem} (hT : Tidy noneOf noneOf fs)
    (r : FileNode) (p : Path) (hrc : r.children = []) (hrp : r.pathname = some p)
    (hrn : r.name_ptr = nameStart p) (hg : GoodPath p) (hdir : DirsAbove fs p)
    (out : Outcome) (h : (fs.alloc r).2.append env (fs.alloc r).1 = some out) :
    Tidy noneOf noneOf out.tree ∧
    (∀ e f, out = Outcome.AlreadyExists e f → f = (fs.alloc r).2) := by
  obtain ⟨a1, a2, a3, a4, a5, a6, a7⟩ := alloc_ready hT r hrc
  have hdead : fs.nodes fs.next = none := hT.fresh _ (le_refl _)
  have hdir2 : ∀ k d, below k p → (fs.alloc r).2.file_map.find k = some d →
      ((fs.alloc r).2.get d).type = NodeType.DIR_NODE := by
    intro k d hb hk
    have hk2 : fs.file_map.find k = some d := hk
    have hdn : d ≠ fs.next := by
      rintro rfl
      have := (hT.mapped _ _ hk2).1
      rw [hdead] at this
      exact absurd this (by simp)
    rw [a7 d hdn]
    exact hdir.at_find hb hk2
  have h2 : FileSystem.appendAux env ((((fs.alloc r).2.get fs.next).pathname.getD []).length + 1)
      (fs.alloc r).2 fs.next = some out := h
  obtain ⟨hE, hD⟩ := FileSystem.appendAux_tidy env _ noneOf noneOf (fs.alloc r).2 fs.next p out
    a1 a2 a3 a4 a5 (by rw [a6]; exact hrp) (by rw [a6]; exact hrn) hg hdir2 h2
  cases out with
  | done f => exact ⟨(hD f rfl).tidy, fun e f2 h3 => by cases h3⟩
  | AlreadyExists e f =>
    have := (hE e f rfl).1
    refine ⟨by rw [this]; exact a1, fun e2 f2 h3 => ?_⟩
    cases h3
    exact this

/-- The statements of `mknod`, `create` and `mkdir` after the construction of
the node leave the tree in order. -/
theorem appendNew_tidy (env : Env) {fs : FileSystem} (hT : Tidy noneOf noneOf fs)
    (r : FileNode) (p : Path) (hrc : r.children = []) (hrp : r.pathname = some p)
    (hrn : r.name_ptr = nameStart p) (hg : GoodPath p) (hdir : DirsAbove fs p)
    (e : Nat) (fs1 : FileSystem)
    (h : (fs.alloc r).2.appendNew env (fs.alloc r).1 = some (e, fs1)) :
    Tidy noneOf noneOf fs1 := by
  obtain ⟨a1, a2, a3, a4, a5, a6, a7⟩ := alloc_ready hT r hrc
  unfold FileSystem.appendNew at h
  cases ha : (fs.alloc r).2.append env (fs.alloc r).1 with
  | none => rw [ha] at h; simp at h
  | some out =>
    rw [ha] at h
    obtain ⟨hTo, hEx⟩ := append_new_tidy env hT r p hrc hrp hrn hg hdir out ha
    cases out with
    | done f =>
      simp only [Option.some.injEq, Prod.mk.injEq] at h
      obtain ⟨-, rfl⟩ := h
      exact Tidy.same_tidy hTo rfl rfl rfl rfl
    | AlreadyExists e2 f =>
      simp only [Option.some.injEq, Prod.mk.injEq] at h
      obtain ⟨-, rfl⟩ := h
      have hf := hEx e2 f rfl
      rw [hf]
      exact a1.delete_tidy fs.next a3 a4 a5 (by rw [a6]; exact hrc)

theorem mknod_tidy (env : Env) {fs : FileSystem} (hT : Tidy noneOf noneOf fs) (path : Path)
    (mode e : Nat) (fs1 : FileSystem) (hg : GoodPath path) (hdir : DirsAbove fs path)
    (h : fs.mknod env path mode = some (e, fs1)) : Tidy noneOf noneOf fs1 := by
  unfold FileSystem.mknod at h
  by_cases hws : fs.write_support = false
  · rw [if_pos hws] at h
    simp only [Option.some.injEq, Prod.mk.injEq] at h
    obtain ⟨-, rfl⟩ := h
    exact hT
  · rw [if_neg hws] at h
    exact appendNew_tidy env hT _ path rfl rfl rfl hg hdir e fs1 h

theorem create_tidy (env : Env) {fs : FileSystem} (hT : Tidy noneOf noneOf fs) (path : Path)
    (mode e : Nat) (fs1 : FileSystem) (r : Option Nat) (hg : GoodPath path)
    (hdir : DirsAbove fs path) (h : fs.create env path mode = some (e, fs1, r)) :
    Tidy noneOf noneOf fs1 := by
  unfold FileSystem.create at h
  by_cases hws : fs.write_support = false
  · rw [if_pos hws] at h
    simp only [Option.some.injEq, Prod.mk.injEq] at h
    obtain ⟨-, rfl, -⟩ := h
    exact hT
  · rw [if_neg hws] at h
    simp only [Option.map_eq_some', Prod.mk.injEq] at h
    obtain ⟨⟨e2, f2⟩, h1, -, rfl, -⟩ := h
    exact appendNew_tidy env hT _ path rfl rfl rfl hg hdir e2 f2 h1

theorem mkdir_tidy (env : Env) {fs : FileSystem} (hT : Tidy noneOf noneOf fs) (path : Path)
    (mode e : Nat) (fs1 : FileSystem) (hg : GoodPath path) (hdir : DirsAbove fs path)
    (h : fs.mkdir env path mode = some (e, fs1)) : Tidy noneOf noneOf fs1 := by
  unfold FileSystem.mkdir at h
  by_cases hws : fs.write_support = false
  · rw [if_pos hws] at h
    simp only [Option.some.injEq, Prod.mk.injEq] at h
    obtain ⟨-, rfl⟩ := h
    exact hT
  · rw [if_neg hws] at h
    exact appendNew_tidy env hT _ path rfl rfl rfl hg hdir e fs1 h

/-- A call of `append` on a node newly constructed with any type that returns
leaves the tree in order. -/
theorem append_fresh_tidy (env : Env) {fs : FileSystem} (hT : Tidy noneOf noneOf fs)
    (path : Path) (data : Option Nat) (type : NodeType) (out : Outcome) (hg : GoodPath path)
    (hdir : DirsAbove fs path)
    (h : (fs.alloc (FileNode.new env (some path) data type)).2.append env
      (fs.alloc (FileNode.new env (some path) data type)).1 = some out) :
    Tidy noneOf noneOf out.tree := by
  cases type with
  | ROOT_NODE =>
    exfalso
    obtain ⟨-, -, -, -, -, a6, -⟩ := alloc_ready hT
      (FileNode.new env (some path) data NodeType.ROOT_NODE) rfl
    have h2 : FileSystem.appendAux env
        ((((fs.alloc (FileNode.new env (some path) data NodeType.ROOT_NODE)).2.get
          fs.next).pathname.getD []).length + 1)
        (fs.alloc (FileNode.new env (some path) data NodeType.ROOT_NODE)).2 fs.next =
        some out := h
    rw [a6] at h2
    have hp : ((fs.alloc (FileNode.new env (some path) data NodeType.ROOT_NODE)).2.get
        fs.next).pathname = none := by rw [a6]; rfl
    simp [FileSystem.appendAux, hp] at h2
  | DIR_NODE => exact (append_new_tidy env hT _ path rfl rfl rfl hg hdir out h).1
  | FILE_NODE => exact (append_new_tidy env hT _ path rfl rfl rfl hg hdir out h).1

/-- A call of `rename` of a mapped node that returns leaves the tree in order. -/
theorem FileSystem.Renames.keeps_order (env : Env) {fs : FileSystem} (hT : Tidy noneOf noneOf fs)
    (q : Path) (node : Nat) (p : Path) (e : Nat) (fs1 : FileSystem)
    (hq : fs.file_map.find q = some node) (hg : GoodPath p) (hdir : DirsAbove fs p)
    (h : fs.Renames env node p e fs1) : Tidy noneOf noneOf fs1 := by
  rcases h with ⟨-, -, rfl⟩ | ⟨-, -, -, rfl⟩ | ⟨-, ht, -, f1, f3, f4, hf1, happ, hmv, rfl⟩
  · exact hT
  · exact FileSystem.take_tidy hT node
  · have ht1 : (fs.take node).1 = true := by
      cases h2 : (fs.take node).1 with
      | false => exact absurd h2 ht
      | true => rfl
    have hTt := FileSystem.take_tidy hT node
    have hSt := FileSystem.take_shrinks fs node
    have hXl : (fs.nodes node).isSome := (hT.mapped q node hq).1
    have hXr : node ≠ fs.root_node := hT.not_root hq
    have hXlt : ((fs.take node).2.nodes node).isSome := by
      rw [FileSystem.take_live]; exact hXl
    have hXmt := FileSystem.take_unmapped hT node
    have hXut := FileSystem.take_unlisted hT node ht1
    have hF1 : Tidy noneOf noneOf f1 ∧ (fs.take node).2.Shrinks f1 ∧
        (f1.nodes node).isSome := by
      rcases hf1 with ⟨-, rfl⟩ | ⟨ex, fuel, r, hex, hrm, rfl⟩
      · exact ⟨hTt, FileSystem.Shrinks.rfl_shrinks _, hXlt⟩
      · obtain ⟨e2, r2⟩ := r
        obtain ⟨h1, h2, h3⟩ := FileSystem.removeAux_tidy hTt p ex fuel e2 r2 hex hrm
        refine ⟨h1, h2, ?_⟩
        have hnr : ¬ (fs.take node).2.Reaches ex node := by
          intro hr
          cases hr with
          | here => exact hXmt p hex
          | down _ hd => exact hXut _ hd
        rw [(h3 node hnr).2]
        exact hXlt
    obtain ⟨hT1, hS1, hXl1⟩ := hF1
    have hS : fs.Shrinks f1 := hSt.then_shrinks hS1
    have hXm1 : ∀ k, f1.file_map.find k ≠ some node := fun k hk => hXmt k (hS1.map k _ hk)
    have hXu1 : ∀ j, node ∉ (f1.get j).children := fun j hj => hXut j (hS1.kids_sub j _ hj)
    have hT2 := hT1.set_path node p hXm1 hXu1
    have hShape : f1.SameShape (f1.modify node (fun r => r.setPathname p)) :=
      (repath_step_shape f1 node f1.file_map p).1
    have hg2 : (f1.modify node (fun r => r.setPathname p)).get node =
        (f1.get node).setPathname p := FileSystem.get_modify_self _ hXl1
    have hdir2 : ∀ k d, below k p →
        (f1.modify node (fun r => r.setPathname p)).file_map.find k = some d →
        ((f1.modify node (fun r => r.setPathname p)).get d).type = NodeType.DIR_NODE := by
      intro k d hb hk
      have hk1 : f1.file_map.find k = some d := hk
      rw [hShape.type, hS.type_same (hT1.mapped k d hk1).1]
      exact hdir.at_find hb (hS.map k d hk1)
    have happ2 : FileSystem.appendAux env
        ((((f1.modify node (fun r => r.setPathname p)).get node).pathname.getD []).length + 1)
        (f1.modify node (fun r => r.setPathname p)) node = some (Outcome.done f3) := happ
    obtain ⟨-, hD⟩ := FileSystem.appendAux_tidy env _ noneOf _ _ node p _ hT2
      (by rw [FileSystem.modify_isSome]; exact hXl1)
      (by show node ≠ f1.root_node; rw [hS.root]; exact hXr)
      hXm1 (fun j hj => hXu1 j (by rw [← hShape.kids]; exact hj))
      (by rw [hg2]; rfl) (by rw [hg2]; rfl) hg hdir2 happ2
    have hA := hD f3 rfl
    obtain ⟨pn, hself⟩ := hA.self
    have hg3 : f3.get node =
        { (f1.modify node (fun r => r.setPathname p)).get node with parent := some pn } :=
      FileSystem.get_of_some hself
    have hc3 : (f3.get node).children = (f1.get node).children := by
      rw [hg3, hg2]; rfl
    have hp3 : (f3.get node).pathname = some p := by
      rw [hg3, hg2]; rfl
    have hr3 : node ≠ f3.root_node := by
      rw [hA.root]
      show node ≠ f1.root_node
      rw [hS.root]; exact hXr
    rcases hmv with ⟨hnd, rfl⟩ | ⟨hd, fuel, hrl⟩
    · have hnil : (f1.get node).children = [] := by
        rw [← hc3]
        rcases hA.tidy.kinds node hr3 with h2 | h2
        · exact absurd h2 hnd
        · exact h2
      refine Tidy.same_tidy (hA.tidy.mono (fun n hn => hn) ?_) rfl rfl rfl rfl
      rintro c (h2 | h2)
      · exact h2
      · rw [hnil] at h2; exact absurd h2 (by simp)
    · have := (repath_tidy env fuel).2 f3 (f3.get node).children node p _ f4 hA.tidy
        (fun c hc => hc) hr3 hp3 hg hrl
      refine Tidy.same_tidy (this.mono (fun n hn => hn) ?_) rfl rfl rfl rfl
      rintro c ⟨h2 | h2, h3⟩
      · exact h2
      · rw [← hc3] at h2; exact absurd h2 h3

/-- The function `rename` of the embedding is an instance of the relation. -/
theorem FileSystem.rename_renames (env : Env) (fs : FileSystem) (node : Nat) (p : Path)
    (e : Nat) (fs1 : FileSystem) (h : fs.rename env node p = some (e, fs1)) :
    fs.Renames env node p e fs1 := by
  rcases FileSystem.rename_cases env fs node p e fs1 h with
    ⟨hw, rfl⟩ | ⟨hw, ht, rfl⟩ | ⟨hw, ht, he, f1, f3, f4, hf1, happ, hmv, rfl⟩
  · left
    unfold FileSystem.rename at h
    rw [if_pos hw] at h
    simp only [Option.some.injEq, Prod.mk.injEq] at h
    exact ⟨hw, h.1.symm, rfl⟩
  · right; left
    unfold FileSystem.rename at h
    rw [if_neg hw] at h
    simp only at h
    rw [if_pos ht] at h
    simp only [Option.some.injEq, Prod.mk.injEq] at h
    exact ⟨hw, ht, h.1.symm, rfl⟩
  · right; right
    refine ⟨hw, ht, he, f1, f3, f4, ?_, happ, ?_, rfl⟩
    · rcases hf1 with h1 | ⟨ex, r, hex, hrm, hr⟩
      · exact Or.inl h1
      · exact Or.inr ⟨ex, _, r, hex, hrm, hr⟩
    · rcases hmv with h1 | ⟨hd, hrl⟩
      · exact Or.inl h1
      · exact Or.inr ⟨hd, _, hrl⟩

/-- The tree the constructor leaves is in order. -/
theorem Tidy.empty_tidy (env : Env) (ws : Bool) (driver : ArchiveDriver) :
    Tidy noneOf noneOf (FileSystem.empty env ws driver) := by
  have hf : ∀ k, (FileSystem.empty env ws driver).file_map.find k = none := fun k => rfl
  have hg0 : (FileSystem.empty env ws driver).get 0 =
      FileNode.new env none none NodeType.ROOT_NODE := rfl
  have hdead : ∀ i, i ≠ 0 → (FileSystem.empty env ws driver).nodes i = none := by
    intro i hi
    show (if i = 0 then _ else none) = none
    simp [hi]
  have hkids : ∀ i, ((FileSystem.empty env ws driver).get i).children = [] := by
    intro i
    by_cases hi : i = 0
    · rw [hi, hg0]; rfl
    · exact (FileSystem.get_dead (hdead i hi)).1
  refine ⟨rfl, ?_, ?_, ?_, ?_, ?_, ?_, ?_, ?_, ?_⟩
  · show ((FileSystem.empty env ws driver).get 0).parent = none
    rw [hg0]; rfl
  · show ((FileSystem.empty env ws driver).get 0).type ≠ _
    rw [hg0]; simp [FileNode.new]
  · intro i hi
    have h1 : 1 ≤ i := hi
    exact hdead i (by omega)
  · intro k n hk; rw [hf] at hk; simp at hk
  · intro k n hk; rw [hf] at hk; simp at hk
  · intro i c hc; rw [hkids] at hc; simp at hc
  · intro i; rw [hkids]; exact List.nodup_nil
  · intro i _; exact Or.inr (hkids i)
  · intro i c hc; rw [hkids] at hc; simp at hc

/-- Every tree reached by the calls of `Grown` is in order. -/
theorem FileSystem.Grown.in_order {fs : FileSystem} (h : fs.Grown) : Tidy noneOf noneOf fs := by
  induction h with
  | empty env ws driver => exact Tidy.empty_tidy env ws driver
  | mknod env fs path mode e fs1 _ hg hdir hrun ih =>
    exact mknod_tidy env ih path mode e fs1 hg hdir hrun
  | create env fs path mode e fs1 r _ hg hdir hrun ih =>
    exact create_tidy env ih path mode e fs1 r hg hdir hrun
  | mkdir env fs path mode e fs1 _ hg hdir hrun ih =>
    exact mkdir_tidy env ih path mode e fs1 hg hdir hrun
  | append env fs path data type out _ hg hdir hrun ih =>
    exact append_fresh_tidy env ih path data type out hg hdir hrun
  | take fs k node _ _ ih => exact FileSystem.take_tidy ih node
  | rename env fs q node p e fs1 _ hq hg hdir hrun ih =>
    exact FileSystem.Renames.keeps_order env ih q node p e fs1 hq hg hdir hrun
  | remove fs k node fuel e fs1 _ hk hrun ih =>
    exact (FileSystem.removeAux_tidy ih k node fuel e fs1 hk hrun).1

/-- A call of the function `rename` that returns is one of the calls of `Grown`. -/
theorem FileSystem.Grown.rename_call {fs : FileSystem} (h : fs.Grown) (env : Env) (q : Path)
    (node : Nat) (p : Path) (e : Nat) (fs1 : FileSystem)
    (hq : fs.file_map.find q = some node) (hg : GoodPath p) (hdir : DirsAbove fs p)
    (hrun : fs.rename env node p = some (e, fs1)) : fs1.Grown :=
  FileSystem.Grown.rename env fs q node p e fs1 h hq hg hdir
    (FileSystem.rename_renames env fs node p e fs1 hrun)

/-- A call of the function `remove` that returns is one of the calls of `Grown`. -/
theorem FileSystem.Grown.remove_call {fs : FileSystem} (h : fs.Grown) (k : Path)
    (node e : Nat) (fs1 : FileSystem) (hk : fs.file_map.find k = some node)
    (hrun : fs.remove node = some (e, fs1)) : fs1.Grown :=
  FileSystem.Grown.remove fs k node fs.walkBound e fs1 h hk hrun

/-- In a tree in order a mapped node has its key as path, the text after the last
slash as name, and is listed once by its parent. -/
theorem Tidy.mapped_facts {fs : FileSystem} (h : Tidy noneOf noneOf fs) {k : Path} {n : Nat}
    (hk : fs.file_map.find k = some n) :
    (fs.get n).pathname = some k ∧ (fs.get n).name = basename k ∧
    ∃ pn, (fs.get n).parent = some pn ∧ (fs.get pn).children.count n = 1 := by
  obtain ⟨-, hp, hn, hg⟩ := h.mapped k n hk
  obtain ⟨pn, hpp, hm⟩ := h.linked k n hk (fun hw => hw)
  refine ⟨hp, ?_, pn, hpp, List.count_eq_one_of_mem (h.nodup pn) hm⟩
  unfold FileNode.name
  rw [hp, hn]
  exact drop_nameStart_eq_basename k hg

/-! ## The buffer: reads and writes across a chunk boundary -/

/-- C1 fails on the code: on an empty memory buffer, `write(b, 10, 4090)` with
the ten bytes `b = 1..10` stores only the six bytes that fit into chunk 0 and
returns 6; `length()` is then 4096, below `4090 + 10`, and `read(out, 10, 4090)`
returns 6 and leaves the last four bytes of `out` untouched. -/
theorem C1_unaligned_write_is_cut_at_chunk_end (junk : Nat → Nat → Byte) :
    (MemBuffer.write junk (MemBuffer.new 0) [1, 2, 3, 4, 5, 6, 7, 8, 9, 10] 10 4090).1 = 6 ∧
    (MemBuffer.write junk (MemBuffer.new 0) [1, 2, 3, 4, 5, 6, 7, 8, 9, 10] 10 4090).2.length
      = 4096 ∧
    (MemBuffer.write junk (MemBuffer.new 0) [1, 2, 3, 4, 5, 6, 7, 8, 9, 10] 10 4090).2.read
        [0, 0, 0, 0, 0, 0, 0, 0, 0, 0] 10 4090 = (6, [1, 2, 3, 4, 5, 6, 0, 0, 0, 0]) := by
  simp [MemBuffer.write, MemBuffer.writeLoop, MemBuffer.new, chunksCount, chunkNumber,
    chunkOffset, CHUNK_SIZE, Chunk.write, MemBuffer.length, MemBuffer.read, MemBuffer.readLoop,
    Chunk.read, MemBuffer.chunkAt, memcpyTo, Chunk.uninit, List.range, List.range.loop]

/-- C10 fails on the code: the buffer `twoChunks` holds `1` at the offsets below
4096 and `2` from 4096 on; `read(dst, 10, 4090)` returns 10 but copies only the
six bytes of chunk 0, so `dst[6..10)` keeps its old zeros instead of `2`. -/
theorem C10_unaligned_read_stops_at_chunk_end :
    twoChunks.length = 8192 ∧
    (List.range 10).map (fun i => twoChunks.byteAt (4090 + i)) = [1, 1, 1, 1, 1, 1, 2, 2, 2, 2] ∧
    twoChunks.read [0, 0, 0, 0, 0, 0, 0, 0, 0, 0] 10 4090 = (10, [1, 1, 1, 1, 1, 1, 0, 0, 0, 0]) := by
  refine ⟨rfl, ?_, ?_⟩
  · decide
  · decide

/-! ## The tree: link counts, collisions, read-only trees -/

/-- C3 fails on the code: after `mkdir("a")`, `mkdir("a/b")` and `remove` of
`a/b`, the directory `a` (address 1) has no children left and still
`st_nlink = 3`: `take` erases the child without the decrement that
`removeChild` makes. -/
theorem C3_remove_leaves_parent_nlink :
    subdirRemoved.map (fun fs =>
        (fs.file_map.find "a".toList, (fs.get 1).type, (fs.get 1).children,
          (fs.get 1).file_info.st_nlink))
      = some (some 1, NodeType.DIR_NODE, [], 3) := by
  decide

/-- C6 fails on the code for `appendToNode`: with the node 1 mapped at `a` and
a second node 2 constructed for `a`, `append` throws `AlreadyExists` carrying
the mapped node 1, `appendToNode` throws it carrying the new node 2. -/
theorem C6_appendToNode_carries_new_node :
    collidingNode.map (fun c =>
        (c.1.file_map.find "a".toList,
          (c.1.append sampleEnv c.2).map Outcome.carried,
          (c.1.appendToNode c.2 c.1.getRoot).carried))
      = some (some 1, some (some 1), some 2) := by
  decide

/-- C8: on a tree without write support each of `mknod`, `create`, `mkdir`,
`rename`, `truncate`, `remove` and `utimens` returns `ENOTSUP` and hands back
the tree it was given, unchanged in every component. -/
theorem C8_read_only_tree_refuses (env : Env) (fs : FileSystem) (path new_pathname : Path)
    (mode node size fuel : Nat) (atime mtime : Int) (h : fs.write_support = false) :
    fs.mknod env path mode = some (ENOTSUP, fs) ∧
    fs.create env path mode = some (ENOTSUP, fs, none) ∧
    fs.mkdir env path mode = some (ENOTSUP, fs) ∧
    fs.rename env node new_pathname = some (ENOTSUP, fs) ∧
    fs.truncate env fuel node size = some (ENOTSUP, fs) ∧
    fs.remove node = some (ENOTSUP, fs) ∧
    fs.utimens node atime mtime = (ENOTSUP, fs) := by
  refine ⟨?_, ?_, ?_, ?_, ?_, ?_, ?_⟩
  · simp [FileSystem.mknod, h]
  · simp [FileSystem.create, h]
  · simp [FileSystem.mkdir, h]
  · simp [FileSystem.rename, h]
  · simp [FileSystem.truncate, h]
  · simp [FileSystem.remove, FileSystem.walkBound, FileSystem.removeAux, h]
  · simp [FileSystem.utimens, h]

/-- C8 at a concrete tree: the empty tree of a backend without write support. -/
theorem C8_read_only_tree_refuses_witness :
    (FileSystem.empty sampleEnv false idleDriver).write_support = false ∧
    ((FileSystem.empty sampleEnv false idleDriver).mknod sampleEnv "a".toList 0o644
        = some (ENOTSUP, FileSystem.empty sampleEnv false idleDriver) ∧
      (FileSystem.empty sampleEnv false idleDriver).create sampleEnv "a".toList 0o644
        = some (ENOTSUP, FileSystem.empty sampleEnv false idleDriver, none) ∧
      (FileSystem.empty sampleEnv false idleDriver).mkdir sampleEnv "a".toList 0o644
        = some (ENOTSUP, FileSystem.empty sampleEnv false idleDriver) ∧
      (FileSystem.empty sampleEnv false idleDriver).rename sampleEnv 0 "b".toList
        = some (ENOTSUP, FileSystem.empty sampleEnv false idleDriver) ∧
      (FileSystem.empty sampleEnv false idleDriver).truncate sampleEnv 1 0 3
        = some (ENOTSUP, FileSystem.empty sampleEnv false idleDriver) ∧
      (FileSystem.empty sampleEnv false idleDriver).remove 0
        = some (ENOTSUP, FileSystem.empty sampleEnv false idleDriver) ∧
      (FileSystem.empty sampleEnv false idleDriver).utimens 0 5 6
        = (ENOTSUP, FileSystem.empty sampleEnv false idleDriver)) :=
  ⟨rfl, C8_read_only_tree_refuses sampleEnv (FileSystem.empty sampleEnv false idleDriver)
    "a".toList "b".toList 0o644 0 3 1 5 6 rfl⟩

/-- C9 fails on the code: on the tree `readOnlyOpened` (no write support, the
node's buffer installed by a read-only `open`), `FileSystem::write` of two
bytes at offset 0 returns 2, not `ENOTSUP`, and sets `changed` on the node and
on the tree. -/
theorem C9_write_ignores_write_support :
    readOnlyOpened.map (fun t =>
        (t.1.write_support, t.1.changed, (t.1.get t.2).changed, (t.1.get t.2).buffer.isSome))
      = some (false, false, false, true) ∧
    readOnlyOpened.map (fun t =>
        ((t.1.write sampleEnv t.2 [104, 105] 2 0).1,
          (t.1.write sampleEnv t.2 [104, 105] 2 0).2.changed,
          ((t.1.write sampleEnv t.2 [104, 105] 2 0).2.get t.2).changed,
          ((t.1.write sampleEnv t.2 [104, 105] 2 0).2.get t.2).file_info.st_size))
      = some ((2 : Int), true, true, 2) := by
  constructor
  · decide
  · decide

/-- `append` of a node whose path is free stops at the copy into `parent_name`
when the text before the last slash and its terminator do not fit. -/
theorem append_overrun (env : Env) (fs : FileSystem) (x : Nat) (p : Path)
    (hpath : (fs.get x).pathname = some p) (hname : (fs.get x).name_ptr = nameStart p)
    (hfree : fs.file_map.find p = none) (h0 : nameStart p ≠ 0)
    (hlong : env.PATH_MAX < (parentPath p).length + 1) : fs.append env x = none := by
  unfold FileSystem.append
  rw [hpath]
  show FileSystem.appendAux env (p.length + 1) fs x = none
  unfold FileSystem.appendAux
  simp only [hpath, FileMap.find_insert_none _ _ _ hfree, hname, h0, if_false]
  have hpp : List.take (nameStart p - 1) p = parentPath p := rfl
  rw [hpp, if_pos hlong]

theorem replicate_ne_nil : List.replicate 4096 'd' ≠ [] :=
  List.ne_nil_of_length_pos (by rw [List.length_replicate]; decide)

theorem deepPath_nameStart : nameStart deepPath = 4097 := by
  have h := nameStart_append_slash (List.replicate 4096 'd') "f".toList replicate_ne_nil
    (by decide)
  rw [List.length_replicate] at h
  exact h

theorem deepPath_parent : parentPath deepPath = List.replicate 4096 'd' :=
  parentPath_append_slash (List.replicate 4096 'd') "f".toList replicate_ne_nil (by decide)

theorem deepNode_wf : WF deepNode :=
  (WF.empty sampleEnv true idleDriver).alloc _ (by simp [FileNode.new])

theorem deepNode_get :
    deepNode.get 1 = FileNode.new sampleEnv (some deepPath) none NodeType.FILE_NODE := by
  unfold deepNode emptyTree
  simp [FileSystem.alloc, FileSystem.get, FileSystem.empty]

theorem deepNode_path : (deepNode.get 1).pathname = some deepPath := by
  rw [deepNode_get]; simp [FileNode.new]

theorem deepNode_name : (deepNode.get 1).name_ptr = nameStart deepPath := by
  rw [deepNode_get]; simp [FileNode.new]

theorem deepNode_free : deepNode.file_map.find deepPath = none := by
  unfold deepNode emptyTree
  simp [FileSystem.alloc, FileSystem.empty, FileMap.find]

/-- C7 fails on the code: the node constructed for an entry name whose
directory part has 4096 characters (`PATH_MAX` on Linux) is unmapped in a
well-formed tree, yet `append` does not return: `strcpy` writes the 4096
characters and the terminator into `char parent_name[PATH_MAX]`, one byte past
its end, so nothing is mapped afterwards. With room for 4097 bytes the same
call returns normally. -/
theorem C7_append_overruns_parent_name :
    WF deepNode ∧ (deepNode.get 1).pathname = some deepPath ∧
    deepNode.file_map.find deepPath = none ∧
    (parentPath deepPath).length = 4096 ∧ sampleEnv.PATH_MAX = 4096 ∧
    deepNode.append sampleEnv 1 = none ∧
    ∃ fs', deepNode.append { sampleEnv with PATH_MAX := 4097 } 1 = some (Outcome.done fs') := by
  have hlen : (parentPath deepPath).length = 4096 := by
    rw [deepPath_parent, List.length_replicate]
  refine ⟨deepNode_wf, deepNode_path, deepNode_free, hlen, rfl, ?_, ?_⟩
  · refine append_overrun sampleEnv deepNode 1 deepPath deepNode_path deepNode_name
      deepNode_free ?_ ?_
    · rw [deepPath_nameStart]; decide
    · rw [hlen]; decide
  · obtain ⟨fs', h, -⟩ := append_total { sampleEnv with PATH_MAX := 4097 } deepNode_wf
      (x := 1) (p := deepPath) deepNode_path deepNode_name deepNode_free
      (by rw [deepPath_nameStart])
    exact ⟨fs', h⟩

/-- Within the bound `append` does what C7 says: on a well-formed tree,
`append` of a node whose good path `p` is not mapped, with the name starting
at an offset of `PATH_MAX` at most, returns normally and leaves `p` and every
path above `p` mapped; a path above `p` that was not mapped before now holds a
fresh directory node with mode `S_IFDIR|0755`, no locator and
`changed = false`; the node's `parent` is the root when `p` has no slash, else
the node mapped at the text before the last slash; every entry mapped before
is still mapped to the same node. -/
theorem append_maps_path_and_ancestors (env : Env) (fs : FileSystem) (x : Nat) (p : Path)
    (hwf : WF fs) (hpath : (fs.get x).pathname = some p)
    (hname : (fs.get x).name_ptr = nameStart p) (hgood : GoodPath p)
    (hfree : fs.file_map.find p = none) (hfit : nameStart p ≤ env.PATH_MAX) :
    ∃ fs', fs.append env x = some (Outcome.done fs') ∧
      fs'.file_map.find p = some x ∧
      (∀ k, below k p → ∃ d, fs'.file_map.find k = some d) ∧
      (∀ k d, below k p → fs.file_map.find k = none → fs'.file_map.find k = some d →
        fs.nodes d = none ∧ (fs'.get d).type = NodeType.DIR_NODE ∧
        (fs'.get d).file_info.st_mode = S_IFDIR ||| 0o755 ∧ (fs'.get d).data = none ∧
        (fs'.get d).changed = false) ∧
      (match dirname p with
        | none => (fs'.get x).parent = some fs'.root_node
        | some parent_name => ∃ a, fs'.file_map.find parent_name = some a ∧
            (fs'.get x).parent = some a) ∧
      (∀ k v, fs.file_map.find k = some v → fs'.file_map.find k = some v) := by
  obtain ⟨fs', hrun, hF⟩ := append_total env hwf hpath hname hfree hfit
  have hgood' : ∀ k v, fs'.file_map.find k = some v → GoodPath k := by
    intro k v hk
    rcases hF.cls k v hk with ⟨hkp, -⟩ | h | ⟨-, -, hb, -⟩
    · rw [hkp]; exact hgood
    · exact (hwf.node k v h).good
    · exact goodPath_of_below hb hgood
  obtain ⟨a, hxrec, hxtop, hxsub⟩ := hF.xrec
  have hclosed : ∀ k v, fs'.file_map.find k = some v → nameStart k ≠ 0 →
      ∃ a, fs'.file_map.find (parentPath k) = some a := by
    intro k v hk hns
    rcases hF.cls k v hk with ⟨hkp, -⟩ | h | ⟨-, -, -, -, -, hnew⟩
    · rw [hkp] at hns ⊢
      exact ⟨a, hxsub hns⟩
    · obtain ⟨pn, h1, -, -⟩ := (hwf.link k v h).sub hns
      exact ⟨pn, hF.old _ _ h1⟩
    · obtain ⟨a', ha', -⟩ := hnew.parent hns
      exact ⟨a', ha'⟩
  refine ⟨fs', hrun, hF.findx, ?_, ?_, ?_, hF.old⟩
  · intro k hb
    exact ancestors_mapped fs'.file_map.find hgood' hclosed p.length p k x (le_refl _) hF.findx hb
  · intro k d hb hnone hk
    rcases hF.cls k d hk with ⟨hkp, -⟩ | h | ⟨-, -, -, hge, -, hnew⟩
    · rw [hkp] at hb
      exact absurd hb (not_below_self p)
    · rw [hnone] at h; simp at h
    · obtain ⟨h1, -, -, h4, h5, h6, -⟩ := hnew.facts
      exact ⟨hwf.fresh d hge, h1, h4, h5, h6⟩
  · rw [dirname_eq p hgood]
    by_cases h0 : nameStart p = 0
    · simp only [h0, if_true]
      rw [FileSystem.get_of_some hxrec, hF.root, hxtop h0]
    · simp only [h0, if_false]
      exact ⟨a, hxsub h0, by rw [FileSystem.get_of_some hxrec]⟩

/-- C4: on a well-formed writable tree, `remove` of the node `n` mapped at `q`
returns 0 and leaves a well-formed tree in which no node of the subtree of
`n` is mapped or listed in any `children` list; `removed_nodes` has gained,
each once, the nodes of the subtree that had a locator; the nodes of the
subtree without a locator are deleted; every entry outside the subtree is
mapped as before and its node is unchanged, except that `n` is gone from the
`children` of its parent; the tree's `changed` flag is set. -/
theorem C4_remove_clears_subtree (fs : FileSystem) (q : Path) (n : Nat) (hwf : WF fs)
    (hws : fs.write_support = true) (hfq : fs.file_map.find q = some n) :
    ∃ fs', fs.remove n = some (0, fs') ∧
      (∀ d, Subtree fs n d →
        (∀ k, fs'.file_map.find k ≠ some d) ∧ ∀ i, d ∉ (fs'.get i).children) ∧
      (∃ L : List Nat, fs'.removed_nodes = fs.removed_nodes ++ L ∧ L.Nodup ∧
        ∀ d, d ∈ L ↔ Subtree fs n d ∧ (fs.get d).data ≠ none) ∧
      (∀ d, Subtree fs n d → (fs.get d).data = none → fs'.nodes d = none) ∧
      (∀ k d, fs.file_map.find k = some d → ¬ Subtree fs n d → fs'.file_map.find k = some d) ∧
      (∀ k d, fs'.file_map.find k = some d → fs.file_map.find k = some d) ∧
      (∀ d, ¬ Subtree fs n d →
        fs'.nodes d = (fs.nodes d).map (fun r => { r with children := r.children.erase n })) ∧
      fs'.changed = true ∧ WF fs' := by
  obtain ⟨pn, hp⟩ := hwf.parentOf hfq
  obtain ⟨fs', hrun, hrem⟩ := remove_total hwf hws hfq hp
  have hwf' := hwf.removed hfq hp hrem
  have hsub := subtree_iff hwf hfq
  have hunm : ∀ d, Subtree fs n d → ∀ k, fs'.file_map.find k ≠ some d := by
    intro d hd k hk
    rw [hrem.find_eq] at hk
    by_cases hu : under q k
    · simp [hu] at hk
    · simp only [hu, if_false] at hk
      exact hwf.keyOK.not_inRegion hk hu ((hsub d).mp hd)
  refine ⟨fs', hrun, ?_, ?_, ?_, ?_, ?_, ?_, hrem.changed, hwf'⟩
  · intro d hd
    refine ⟨hunm d hd, ?_⟩
    intro i hmem
    obtain ⟨kc, hkc⟩ := hwf'.child_mapped hmem
    exact hunm d hd kc hkc
  · obtain ⟨L, h1, h2, h3⟩ := hrem.tomb
    refine ⟨L, h1, h2, ?_⟩
    intro d
    rw [h3, hsub d]
    constructor
    · rintro ⟨hr, hd⟩
      refine ⟨hr, ?_⟩
      intro hnone
      rw [hnone] at hd
      simp at hd
    · rintro ⟨hr, hd⟩
      exact ⟨hr, Option.isSome_iff_ne_none.mpr hd⟩
  · intro d hd hnone
    rw [hrem.inside d ((hsub d).mp hd), hnone]
    simp
  · intro k d hk hd
    rw [hrem.find_eq]
    have : ¬ under q k := fun hu => hd ((hsub d).mpr ⟨k, hu, hk⟩)
    simp [this, hk]
  · intro k d hk
    rw [hrem.find_eq] at hk
    by_cases hu : under q k
    · simp [hu] at hk
    · simpa [hu] using hk
  · intro d hd
    have hout : ¬ fs.inRegion q d := fun h => hd ((hsub d).mpr h)
    by_cases hdp : d = pn
    · rw [hdp]; exact hrem.parent
    · rw [hrem.outside d hout hdp]
      cases hnd : fs.nodes d with
      | none => rfl
      | some r =>
        have hnot : n ∉ r.children := by
          intro hm
          have : n ∈ (fs.get d).children := by rw [FileSystem.get_of_some hnd]; exact hm
          exact hdp (hwf.child_of_parent hfq hp this)
        simp only [Option.map_some', Option.some.injEq]
        rw [List.erase_of_not_mem hnot]

/-- C4 at a concrete tree: the directory `a` holding the file `a/b` is removed. -/
theorem C4_remove_clears_subtree_witness :
    WF dirWithFile ∧ dirWithFile.write_support = true ∧
    dirWithFile.file_map.find "a".toList = some 1 ∧
    ∃ fs', dirWithFile.remove 1 = some (0, fs') ∧
      (∀ d, Subtree dirWithFile 1 d →
        (∀ k, fs'.file_map.find k ≠ some d) ∧ ∀ i, d ∉ (fs'.get i).children) ∧
      (∃ L : List Nat, fs'.removed_nodes = dirWithFile.removed_nodes ++ L ∧ L.Nodup ∧
        ∀ d, d ∈ L ↔ Subtree dirWithFile 1 d ∧ (dirWithFile.get d).data ≠ none) ∧
      (∀ d, Subtree dirWithFile 1 d → (dirWithFile.get d).data = none → fs'.nodes d = none) ∧
      (∀ k d, dirWithFile.file_map.find k = some d → ¬ Subtree dirWithFile 1 d →
        fs'.file_map.find k = some d) ∧
      (∀ k d, fs'.file_map.find k = some d → dirWithFile.file_map.find k = some d) ∧
      (∀ d, ¬ Subtree dirWithFile 1 d →
        fs'.nodes d =
          (dirWithFile.nodes d).map (fun r => { r with children := r.children.erase 1 })) ∧
      fs'.changed = true ∧ WF fs' :=
  ⟨dirWithFile_wf, by decide, by decide,
    C4_remove_clears_subtree dirWithFile "a".toList 1 dirWithFile_wf (by decide) (by decide)⟩

theorem twoDirs_wf : WF twoDirs := by
  obtain ⟨e, f, h1, hw, -⟩ := mkdir_wf sampleEnv oneDir_wf "a/a".toList 0o755
    (by decide) (by decide) (by decide)
  unfold twoDirs
  rw [h1]
  exact hw

theorem sameNames_wf : WF sameNames := by
  obtain ⟨e, f, h1, hw, -⟩ := mknod_wf sampleEnv twoDirs_wf "a/a/a".toList 0o644
    (by decide) (by decide) (by decide)
  unfold sameNames
  rw [h1]
  exact hw

/-- C5 fails as stated. On the well-formed tree with the directory `a` holding
the file `a/b`, `rename` of the directory to `a/c`, a path below its own,
returns 0; the file is moved to `a/c/b`, but a fresh directory is mapped at the
old path `a`, and the keys `a/c` and `a/c/b` carry the prefix `a/`. On the
well-formed tree with the directories `a`, `a/a` and the file `a/a/a`,
`rename` of the directory `a/a` to `a`, the path above it, returns 0 and maps
its child at the old path `a/a`. And `rename` of the directory `a` of the
first tree to `a` itself returns 0 with both keys still mapped. -/
theorem C5_rename_into_own_subtree_keeps_keys :
    (WF dirWithFile ∧
      (dirWithFile.file_map.find "a".toList, (dirWithFile.get 1).type,
        dirWithFile.write_support) = (some 1, NodeType.DIR_NODE, true) ∧
      (dirWithFile.rename sampleEnv 1 "a/c".toList).map
          (fun r => (r.1, r.2.file_map.find "a".toList, r.2.file_map.find "a/c".toList,
            r.2.file_map.find "a/c/b".toList)) = some (0, some 3, some 1, some 2) ∧
      (dirWithFile.rename sampleEnv 1 "a/c".toList).map (fun r => (r.2.get 2).pathname) =
        some (some "a/c/b".toList)) ∧
    (WF sameNames ∧
      (sameNames.file_map.find "a/a".toList, (sameNames.get 2).type,
        sameNames.write_support) = (some 2, NodeType.DIR_NODE, true) ∧
      (sameNames.rename sampleEnv 2 "a".toList).map
          (fun r => (r.1, r.2.file_map.find "a".toList, r.2.file_map.find "a/a".toList)) =
        some (0, some 2, some 3) ∧
      (sameNames.rename sampleEnv 2 "a".toList).map (fun r => (r.2.get 3).pathname) =
        some (some "a/a".toList)) ∧
    (dirWithFile.rename sampleEnv 1 "a".toList).map
        (fun r => (r.1, r.2.file_map.find "a".toList, r.2.file_map.find "a/b".toList)) =
      some (0, some 1, some 2) := by
  refine ⟨⟨dirWithFile_wf, ?_, ?_, ?_⟩, ⟨sameNames_wf, ?_, ?_, ?_⟩, ?_⟩
  · decide
  · decide
  · decide
  · decide
  · decide
  · decide
  · decide

/-- Within the bounds of the two arrays `rename` returns 0 and moves the
subtree: on a well-formed writable tree, for a node `n` mapped at `q` and a
path `p` that is not `q`, not below `q` and not above `q`, with the name of `p`
starting at an offset of `PATH_MAX` at most and every moved path shorter than
`PATH_MAX`. -/
theorem rename_moves_within_bound (env : Env) (fs : FileSystem) (q p : Path) (n : Nat)
    (hwf : WF fs) (hws : fs.write_support = true) (hfq : fs.file_map.find q = some n)
    (hne : p ≠ q) (hqp : ¬ below q p) (hpq : ¬ below p q)
    (hfitp : nameStart p ≤ env.PATH_MAX)
    (hfit : ∀ e ∈ fs.file_map, below q e.1 → (rebase q p e.1).length < env.PATH_MAX) :
    ∃ fs', fs.rename env n p = some (0, fs') ∧
      (∀ d, Subtree fs n d → ∃ rest : Path,
        ((d = n ∧ rest = []) ∨ (d ≠ n ∧ rest.head? = some '/')) ∧
        (fs.get d).pathname = some (q ++ rest) ∧ (fs'.get d).pathname = some (p ++ rest) ∧
        ∀ k, fs'.file_map.find k = some d ↔ k = p ++ rest) ∧
      (∀ k d, under p k → fs'.file_map.find k = some d → Subtree fs n d) ∧
      (∀ k, under q k → fs'.file_map.find k = none) := by
  have hqp' : ¬ under q p := by
    rintro (h | h)
    · exact hne h
    · exact hqp h
  have hpq' : ¬ under p q := by
    rintro (h | h)
    · exact hne h.symm
    · exact hpq h
  obtain ⟨s3, s4, s5, hH3, hpath, -, hfree, -, hF, hM, hrun⟩ :=
    rename_run env hwf hws hfq hqp' hpq' hfitp
      (fun k d hb hk => hfit (k, d) (FileMap.mem_of_find _ _ _ hk) hb)
  obtain ⟨c1, -, c3, c4, -, -⟩ := hH3.appended hwf hfq hqp' hpath hF
  have hK := hwf.keyOK
  have hS : ∀ k, below q k → below q k := fun _ h => h
  have hnp : ∀ k, below q k → ¬ below p k := fun k hb hb' =>
    not_under_of_unrelated hqp' hpq' (Or.inr hb) (Or.inr hb')
  -- the renamed node itself
  have h4p : s4.file_map.find p = some n := hF.findx
  have h5p : s5.file_map.find p = some n := by
    rw [hM.find_same hS hqp (not_below_self p)]; exact h4p
  have hn5 : s5.nodes n = s4.nodes n := by
    apply hM.outside
    intro k hb hk
    rw [c1 k hb] at hk
    have := hK.inj hk hfq
    rw [this] at hb
    exact not_below_self q hb
  -- nothing is mapped below `p` before the walk
  have h4free : ∀ k d, below p k → s4.file_map.find k ≠ some d := by
    intro k d hb hk
    rcases hF.cls k d hk with ⟨rfl, -⟩ | h | ⟨-, -, hbk, -⟩
    · exact not_below_self _ hb
    · rw [hfree k (Or.inr hb)] at h; simp at h
    · have h1 := below_length _ _ hb
      have h2 := below_length _ _ hbk
      omega
  refine ⟨_, hrun, ?_, ?_, ?_⟩
  · intro d hd
    obtain ⟨k, hu, hk⟩ := (subtree_iff hwf hfq d).mp hd
    rcases hu with rfl | hb
    · -- `d` is `n`
      rw [hfq] at hk
      have hdn : n = d := Option.some.inj hk
      subst hdn
      refine ⟨[], Or.inl ⟨rfl, rfl⟩, by simpa using hK k n hfq, ?_, ?_⟩
      · show (s5.get n).pathname = _
        rw [FileSystem.get_congr hn5]
        simpa using c4 p n h4p
      · intro k'
        show s5.file_map.find k' = some n ↔ _
        constructor
        · intro hk'
          rcases hM.back k' n hk' with h | ⟨k0, hb0, hk0, -⟩
          · simpa using c4.inj h h4p
          · exfalso
            rw [c1 k0 hb0] at hk0
            have := hK.inj hk0 hfq
            rw [this] at hb0
            exact not_below_self _ hb0
        · intro hk'
          rw [hk']
          simpa using h5p
    · -- `d` is a descendant
      obtain ⟨t, rfl⟩ := (below_iff q k).mp hb
      have hdn : d ≠ n := by
        rintro rfl
        have := hK.inj hk hfq
        rw [this] at hb
        exact not_below_self _ hb
      have hk4 : s4.file_map.find (q ++ '/' :: t) = some d := by rw [c1 _ hb]; exact hk
      have hreb : rebase q p (q ++ '/' :: t) = p ++ '/' :: t := rebase_append q p _
      refine ⟨'/' :: t, Or.inr ⟨hdn, rfl⟩, hK _ d hk, ?_, ?_⟩
      · show (s5.get d).pathname = _
        rw [FileSystem.get_of_some (hM.inside _ d hb hk4), hreb]
        rfl
      · intro k'
        show s5.file_map.find k' = some d ↔ _
        constructor
        · intro hk'
          rcases hM.back k' d hk' with h | ⟨k0, hb0, hk0, heq⟩
          · exfalso
            have := c4.inj h hk4
            rw [this, hM.gone _ d hb hk4] at hk'
            simp at hk'
          · have := c4.inj hk0 hk4
            rw [heq, this, hreb]
        · intro hk'
          rw [hk', ← hreb]
          exact hM.moved _ d hb hk4
  · intro k d hu hk
    have hk5 : s5.file_map.find k = some d := hk
    rcases hM.back k d hk5 with h | ⟨k0, hb0, hk0, -⟩
    · rcases hu with rfl | hb
      · rw [h4p] at h
        rw [← Option.some.inj h]
        exact Subtree.self
      · exact absurd h (h4free k d hb)
    · rw [c1 k0 hb0] at hk0
      exact (subtree_iff hwf hfq d).mpr ⟨k0, Or.inr hb0, hk0⟩
  · intro k hu
    show s5.file_map.find k = none
    cases hk : s5.file_map.find k with
    | none => rfl
    | some d =>
      exfalso
      rcases hM.back k d hk with h | ⟨k0, hb0, -, heq⟩
      · rcases hu with rfl | hb
        · rw [c3] at h; simp at h
        · rw [hM.gone k d hb h] at hk
          simp at hk
      · have : below p k := heq ▸ rebase_below p hb0
        exact not_under_of_unrelated hqp' hpq' hu (Or.inr this)

/-- C5, amended: on a well-formed writable tree, for a node `n` mapped at `q`
and a new path `p` that is not `q`, not below `q` and not above `q`: after
`rename` has returned 0, every node `d` of the former subtree of `n`, whose old
path is `q ++ rest` (`rest` empty for `n`, starting with a slash for a
descendant), has the path `p ++ rest` and is mapped at exactly that key; every
entry at or below `p` holds a node of the subtree; no key at or below `q`
remains in the map. And `rename` does return 0 when the text of `p` before its
last slash and every moved path are shorter than `PATH_MAX`, the size of the
arrays `parent_name` and `new_pathname`. -/
theorem C5_rename_moves_subtree (env : Env) (fs : FileSystem) (q p : Path) (n : Nat)
    (hwf : WF fs) (hws : fs.write_support = true) (hfq : fs.file_map.find q = some n)
    (hne : p ≠ q) (hqp : ¬ below q p) (hpq : ¬ below p q) :
    (∀ fs', fs.rename env n p = some (0, fs') →
      (∀ d, Subtree fs n d → ∃ rest : Path,
        ((d = n ∧ rest = []) ∨ (d ≠ n ∧ rest.head? = some '/')) ∧
        (fs.get d).pathname = some (q ++ rest) ∧ (fs'.get d).pathname = some (p ++ rest) ∧
        ∀ k, fs'.file_map.find k = some d ↔ k = p ++ rest) ∧
      (∀ k d, under p k → fs'.file_map.find k = some d → Subtree fs n d) ∧
      (∀ k, under q k → fs'.file_map.find k = none)) ∧
    (nameStart p ≤ env.PATH_MAX →
      (∀ e ∈ fs.file_map, below q e.1 → (rebase q p e.1).length < env.PATH_MAX) →
      ∃ fs', fs.rename env n p = some (0, fs')) := by
  constructor
  · intro fs' hret
    -- the same call with arrays that hold every path
    have hB : env.PATH_MAX ≤ env.PATH_MAX + p.length +
        (fs.file_map.map (fun e => e.1.length)).sum + 2 := by omega
    have hret' := FileSystem.rename_mono env
      { env with PATH_MAX := env.PATH_MAX + p.length +
          (fs.file_map.map (fun e => e.1.length)).sum + 2 }
      (fun _ _ _ => rfl) hB fs n p (0, fs') hret
    obtain ⟨fs2, hrun, hall⟩ := rename_moves_within_bound
      { env with PATH_MAX := env.PATH_MAX + p.length +
          (fs.file_map.map (fun e => e.1.length)).sum + 2 } fs q p n hwf hws hfq hne hqp hpq
      (by
        have := nameStart_le_succ p
        show nameStart p ≤ env.PATH_MAX + p.length +
          (fs.file_map.map (fun e => e.1.length)).sum + 2
        omega)
      (by
        intro e he _
        have h1 := rebase_length_le q p e.1
        have h2 : e.1.length ≤ (fs.file_map.map (fun e => e.1.length)).sum :=
          List.single_le_sum (by intro x _; exact Nat.zero_le x) _
            (List.mem_map.mpr ⟨e, he, rfl⟩)
        show (rebase q p e.1).length < env.PATH_MAX + p.length +
          (fs.file_map.map (fun e => e.1.length)).sum + 2
        omega)
    rw [hret'] at hrun
    have heq : fs' = fs2 := (Prod.mk.inj (Option.some.inj hrun)).2
    rw [heq]
    exact hall
  · intro hfitp hfit
    obtain ⟨fs', hrun, -⟩ :=
      rename_moves_within_bound env fs q p n hwf hws hfq hne hqp hpq hfitp hfit
    exact ⟨fs', hrun⟩

/-- C5 at a concrete tree: the directory `a` holding the file `a/b` is renamed
to `c`. -/
theorem C5_rename_moves_subtree_witness :
    WF dirWithFile ∧ dirWithFile.write_support = true ∧
    dirWithFile.file_map.find "a".toList = some 1 ∧ "c".toList ≠ "a".toList ∧
    ¬ below "a".toList "c".toList ∧ ¬ below "c".toList "a".toList ∧
    ((∀ fs', dirWithFile.rename sampleEnv 1 "c".toList = some (0, fs') →
      (∀ d, Subtree dirWithFile 1 d → ∃ rest : Path,
        ((d = 1 ∧ rest = []) ∨ (d ≠ 1 ∧ rest.head? = some '/')) ∧
        (dirWithFile.get d).pathname = some ("a".toList ++ rest) ∧
        (fs'.get d).pathname = some ("c".toList ++ rest) ∧
        ∀ k, fs'.file_map.find k = some d ↔ k = "c".toList ++ rest) ∧
      (∀ k d, under "c".toList k → fs'.file_map.find k = some d → Subtree dirWithFile 1 d) ∧
      (∀ k, under "a".toList k → fs'.file_map.find k = none)) ∧
    (nameStart "c".toList ≤ sampleEnv.PATH_MAX →
      (∀ e ∈ dirWithFile.file_map, below "a".toList e.1 →
        (rebase "a".toList "c".toList e.1).length < sampleEnv.PATH_MAX) →
      ∃ fs', dirWithFile.rename sampleEnv 1 "c".toList = some (0, fs'))) :=
  ⟨dirWithFile_wf, by decide, by decide, by decide, by decide, by decide,
    C5_rename_moves_subtree sampleEnv dirWithFile "a".toList "c".toList 1 dirWithFile_wf
      (by decide) (by decide) (by decide) (by decide) (by decide)⟩

/-! ## The buffer: return values, lengths and limits -/

theorem write_two_chunks (junk : Nat → Nat → Byte) (data : List Byte) :
    (MemBuffer.write junk (MemBuffer.new 0) data 4097 0).1 = 1 ∧
    (MemBuffer.write junk (MemBuffer.new 0) data 4097 0).2.length = 4097 := by
  simp [MemBuffer.write, MemBuffer.writeLoop, MemBuffer.new, chunksCount, chunkNumber,
    chunkOffset, CHUNK_SIZE, Chunk.write, MemBuffer.length, List.range, List.range.loop]

theorem oneFile_buffer : (oneFile.get 1).buffer = some (Buffer.MEM (MemBuffer.new 0)) := rfl

/-- Without a limit a memory buffer is written in place. -/
theorem Buffer.write_mem (MEM_LIMIT : Int) (junk : Nat → Nat → Byte) (m : MemBuffer)
    (data : List Byte) (len off : Nat) (h : ¬ (((off : Int) + len > MEM_LIMIT) ∧ MEM_LIMIT > 0)) :
    Buffer.write MEM_LIMIT junk (Buffer.MEM m) data len off =
      ((MemBuffer.write junk m data len off).1,
        Buffer.MEM (MemBuffer.write junk m data len off).2) := by
  show (if _ then _ else _) = _
  rw [if_neg h]

/-- What `FileSystem::write` returns and records for a node with a buffer. -/
theorem FileSystem.write_some (env : Env) (fs : FileSystem) (node : Nat) (b : Buffer)
    (data : List Byte) (len off : Nat) (h : (fs.get node).buffer = some b)
    (hl : (fs.nodes node).isSome) :
    (fs.write env node data len off).1 =
      toInt32 (Buffer.write env.MEM_LIMIT env.junk b data len off).1 ∧
    ((fs.write env node data len off).2.get node).getSize =
      (toInt32 (Buffer.write env.MEM_LIMIT env.junk b data len off).1 + off).toNat ∧
    ((fs.write env node data len off).2.get node).buffer =
      some (Buffer.write env.MEM_LIMIT env.junk b data len off).2 ∧
    ((fs.write env node data len off).2.get node).changed = true ∧
    (fs.write env node data len off).2.changed = true := by
  obtain ⟨r, hr⟩ := Option.isSome_iff_exists.mp hl
  have hrb : r.buffer = some b := by simpa [FileSystem.get, hr] using h
  simp [FileSystem.write, FileSystem.get, FileSystem.modify, hr, hrb, FileNode.getSize,
    FileNode.setSize]

/-- C12 fails on the code: a write of 4097 bytes at offset 0 into an empty
memory buffer spans two chunks; `MemBuffer::write` stores all of them
(`length()` is 4097) but returns 1, the count of the last chunk, and
`FileSystem::write` on the fresh file `f` returns 1 and sets the node size
to 1. -/
theorem C12_write_returns_last_chunk_count (junk : Nat → Nat → Byte) (data : List Byte) :
    (MemBuffer.write junk (MemBuffer.new 0) data 4097 0).1 = 1 ∧
    (MemBuffer.write junk (MemBuffer.new 0) data 4097 0).2.length = 4097 ∧
    (oneFile.write sampleEnv 1 data 4097 0).1 = 1 ∧
    ((oneFile.write sampleEnv 1 data 4097 0).2.get 1).getSize = 1 := by
  have h := write_two_chunks sampleEnv.junk data
  have hb := Buffer.write_mem sampleEnv.MEM_LIMIT sampleEnv.junk (MemBuffer.new 0) data 4097 0
    (by decide)
  obtain ⟨w1, w2, -⟩ := FileSystem.write_some sampleEnv oneFile 1 _ data 4097 0 oneFile_buffer rfl
  rw [hb] at w1 w2
  simp only [h.1] at w1 w2
  exact ⟨(write_two_chunks junk data).1, (write_two_chunks junk data).2, w1, w2⟩

/-- C13 fails on the code: a buffer in scratch form (limit 0) created with
size 10 still reports `length()` 10 after `truncate(5)`; in general
`FileBuffer::truncate` leaves `_length` as it was. -/
theorem C13_scratch_truncate_keeps_length :
    (Buffer.new 0 10).release = false ∧
    ((Buffer.new 0 10).truncate 5).map Buffer.length = some 10 ∧
    ∀ (f : FileBuffer) (size : Nat),
      ((Buffer.FILE f).truncate size).map Buffer.length = some f._length := by
  refine ⟨rfl, rfl, fun f size => rfl⟩

theorem twiceWritten_eval (junk : Nat → Nat → Byte) :
    (MemBuffer.write junk (MemBuffer.new 0) [1, 2, 3, 4, 5, 6, 7, 8, 9, 10] 10 0).2.length = 10 ∧
    (twiceWritten junk).length = 5 ∧
    ((twiceWritten junk).truncate 10).map
        (fun m => (m.length, m.read [0, 0, 0, 0, 0] 5 5)) =
      some (10, (5, [6, 7, 8, 9, 10])) := by
  refine ⟨?_, ?_, ?_⟩
  · simp [MemBuffer.write, MemBuffer.writeLoop, MemBuffer.new, chunksCount, chunkNumber,
      chunkOffset, CHUNK_SIZE, Chunk.write, MemBuffer.length, List.range, List.range.loop]
  · simp [twiceWritten, MemBuffer.write, MemBuffer.writeLoop, MemBuffer.new, chunksCount,
      chunkNumber, chunkOffset, CHUNK_SIZE, Chunk.write, MemBuffer.length, List.range,
      List.range.loop]
  · simp [twiceWritten, MemBuffer.write, MemBuffer.writeLoop, MemBuffer.new, chunksCount,
      chunkNumber, chunkOffset, CHUNK_SIZE, Chunk.write, MemBuffer.length, List.range,
      List.range.loop, MemBuffer.truncate, MemBuffer.read, MemBuffer.readLoop, Chunk.read,
      MemBuffer.chunkAt, memcpyTo, Chunk.uninit]

/-- C14 fails on the code: after `write(b, 10, 0)` with the bytes `1 .. 10`
and `write(c, 5, 0)` the buffer has length 5; `truncate(10)` makes the length
10 and the bytes at the offsets 5 to 9 read as `6 .. 10`, the old bytes of `b`,
not as zero. -/
theorem C14_grown_tail_keeps_old_bytes (junk : Nat → Nat → Byte) :
    (twiceWritten junk).length = 5 ∧
    ((twiceWritten junk).truncate 10).map
        (fun m => (m.length, m.read [0, 0, 0, 0, 0] 5 5)) =
      some (10, (5, [6, 7, 8, 9, 10])) :=
  ⟨(twiceWritten_eval junk).2.1, (twiceWritten_eval junk).2.2⟩

/-- C29 fails on the code: a memory buffer of length 10 has length 5 after a
write of 5 bytes at offset 0, a write with `off + len <= L`: `MemBuffer::write`
sets `_length` to the end of the written range. -/
theorem C29_write_inside_shrinks_length (junk : Nat → Nat → Byte) :
    (MemBuffer.write junk (MemBuffer.new 0) [1, 2, 3, 4, 5, 6, 7, 8, 9, 10] 10 0).2.length = 10 ∧
    (MemBuffer.write junk
      (MemBuffer.write junk (MemBuffer.new 0) [1, 2, 3, 4, 5, 6, 7, 8, 9, 10] 10 0).2
      [9, 9, 9, 9, 9] 5 0).2.length = 5 :=
  ⟨(twiceWritten_eval junk).1, (twiceWritten_eval junk).2.1⟩

/-- C16 fails on the code: `setBufferLimit(4096)` stores 0, so every buffer is
created in scratch form, also one of size 0; `setBufferLimit(2048)` stores a
negative limit, so a buffer of 3 GiB is created in memory form. -/
theorem C16_buffer_limit_wraps :
    setBufferLimit 4096 = 0 ∧ (Buffer.new (setBufferLimit 4096) 0).release = false ∧
    setBufferLimit 2048 = -2147483648 ∧
    (Buffer.new (setBufferLimit 2048) (3 * 1024 * 1048576)).release = true ∧
    setBufferLimit 100 = 104857600 := by
  refine ⟨by decide, by decide, by decide, ?_, by decide⟩
  have h : setBufferLimit 2048 = -2147483648 := by decide
  rw [h]
  rfl

theorem fillLoop_idle (fuel : Nat) : ∀ (n : FileNode) (tmp : List Byte),
    n.buffer.isSome → fillLoop sampleEnv idleDriver fuel n tmp 0 5 = none := by
  induction fuel with
  | zero => intro n tmp _; rfl
  | succ fuel ih =>
    intro n tmp hb
    obtain ⟨b, hb'⟩ := Option.isSome_iff_exists.mp hb
    have h := ih { n with buffer := some (Buffer.write sampleEnv.MEM_LIMIT sampleEnv.junk b
        (memcpyTo tmp 0 []) 0 0).2 } (memcpyTo tmp 0 []) rfl
    simp only [fillLoop, idleDriver, hb']
    simpa using h

/-- C17 fails on the code: for the entry `f` with empty content and no buffer
in a write-enabled tree, `truncate(node, 5)` never returns, whatever the number
of turns allowed to the loop of `fillInBuffer`; and for an entry holding 8192
bytes, `truncate(node, 100)` returns 0 with a buffer of length 4096. -/
theorem C17_truncate_backfill_diverges :
    ((oneEntry idleDriver true 0).get 1).buffer = none ∧
    (oneEntry idleDriver true 0).write_support = true ∧
    (∀ fuel : Nat, (oneEntry idleDriver true 0).truncate sampleEnv fuel 1 5 = none) ∧
    ((oneEntry sevensDriver true 8192).truncate sampleEnv 2 1 100).map
        (fun r => (r.1, ((r.2.get 1).buffer.map Buffer.length), (r.2.get 1).getSize)) =
      some (0, some 4096, 100) := by
  refine ⟨rfl, rfl, ?_, ?_⟩
  · intro fuel
    have h := fillLoop_idle fuel
      ((((oneEntry idleDriver true 0).modify 1
        (fun n => { n with buffer := some (Buffer.new sampleEnv.MEM_LIMIT 5) })).get 1))
      ((List.range BLOCK_SIZE).map (sampleEnv.junk 0)) rfl
    have hb : ((oneEntry idleDriver true 0).get 1).buffer = none := rfl
    have hw : (oneEntry idleDriver true 0).write_support = true := rfl
    have hd : (oneEntry idleDriver true 0).driver = idleDriver := rfl
    simp only [FileSystem.truncate, hb, hw, FileSystem.fillInBuffer]
    simp only [FileSystem.modify_driver, hd] at h ⊢
    simp [idleDriver] at h ⊢
    simp [idleDriver, h]
  · rfl

/-- C26 fails on the code: on a tree without write support a write open of
the entry `f` makes `FileSystem::open` return `ENOTSUP`, and `archivefs_open`
returns 0 and hands out a file handle. -/
theorem C26_open_error_not_propagated :
    (oneEntry idleDriver false 0).write_support = false ∧
    ((oneEntry idleDriver false 0).open sampleEnv 5 1 O_WRONLY).map Prod.fst = some ENOTSUP ∧
    (archivefs_open sampleEnv 5 (oneEntry idleDriver false 0) 1 O_WRONLY 1000 1000).map
        (fun r => (r.1, r.2.1)) = some (0, true) := by
  refine ⟨rfl, rfl, ?_⟩
  decide

/-- C21: for a caller with uid 0 or gid 0 `access` returns, with any bound on
the walk over the ancestors and so without reading their modes, 0, except that
for a mask containing `X_OK` on a regular file it returns 0 when one of the
bits `S_IXUSR`, `S_IXGRP`, `S_IXOTH` is set in the node's mode and `EACCES`
otherwise. -/
theorem C21_root_access (env : Env) (fuel : Nat) (fs : FileSystem) (node mask uid gid : Nat)
    (h : uid = 0 ∨ gid = 0) :
    fs.access env fuel node mask uid gid =
      some (if mask &&& X_OK ≠ 0 ∧ (fs.get node).type = NodeType.FILE_NODE then
        (if (fs.get node).file_info.st_mode &&& S_IXUSR ≠ 0 ∨
            (fs.get node).file_info.st_mode &&& S_IXGRP ≠ 0 ∨
            (fs.get node).file_info.st_mode &&& S_IXOTH ≠ 0 then 0 else EACCES)
        else 0) := by
  unfold FileSystem.access
  by_cases hm : mask = F_OK
  · have hx : ¬ (mask &&& X_OK ≠ 0 ∧ (fs.get node).type = NodeType.FILE_NODE) := by
      rintro ⟨hx, -⟩
      apply hx
      rw [hm]
      simp [F_OK]
    simp only [hm, if_true]
    rw [hm] at hx
    rw [if_neg hx]
  · simp only [if_neg hm, if_pos h]
    split_ifs <;> rfl

theorem C21_root_access_witness :
    (0 = 0 ∨ 5 = 0) ∧
    (secretTree env1001).access env1001 0 1 (R_OK ||| X_OK) 0 5 = some EACCES :=
  ⟨Or.inl rfl, (C21_root_access env1001 0 (secretTree env1001) 1 (R_OK ||| X_OK) 0 5
    (Or.inl rfl)).trans (by decide)⟩

/-- C22 fails as stated: when the hosting process runs as uid 1001, the file
`secret` with mode `0600` and owner 1000 under a root with mode `0755` is
readable for the caller with uid 1001 and gid 5: `access` returns 0. -/
theorem C22_access_uses_process_identity :
    ((secretTree env1001).get 1).file_info.st_mode = S_IFREG ||| 0o600 ∧
    ((secretTree env1001).get 1).file_info.st_uid = 1000 ∧
    ((secretTree env1001).get 1).parent = some (secretTree env1001).root_node ∧
    ((secretTree env1001).get (secretTree env1001).root_node).file_info.st_mode &&& 0o777 = 0o755 ∧
    (secretTree env1001).access env1001 5 1 R_OK 1001 5 = some 0 := by
  refine ⟨rfl, rfl, rfl, by decide, by decide⟩

theorem land_of_perm (st perm bit : Nat) (h : st &&& 0o777 = perm)
    (hb : bit &&& 0o777 = bit) : st &&& bit = perm &&& bit := by
  rw [← h, Nat.land_assoc, Nat.land_comm 0o777 bit, hb]

/-- C22, amended: for a file node with permission bits `0600` and owner 1000
directly under a root with mode `0755`, `access(node, R_OK)` by a caller with
uid 1001 and a non-zero gid returns `EACCES` whenever the effective uid of the
hosting process is not 1001, and `access(node, R_OK)` by uid 0 returns 0. -/
theorem C22_secret_access (env : Env) (fs : FileSystem) (node root fuel gid : Nat)
    (hproc : env.uid ≠ 1001) (hgid : gid ≠ 0)
    (hmode : (fs.get node).file_info.st_mode &&& 0o777 = 0o600)
    (_howner : (fs.get node).file_info.st_uid = 1000)
    (hparent : (fs.get node).parent = some root)
    (hroot : (fs.get root).parent = none)
    (hrmode : (fs.get root).file_info.st_mode &&& 0o777 = 0o755)
    (hfuel : 2 ≤ fuel) :
    fs.access env fuel node R_OK 1001 gid = some EACCES ∧
    fs.access env fuel node R_OK 0 gid = some 0 := by
  obtain ⟨f, rfl⟩ : ∃ f, fuel = f + 2 := ⟨fuel - 2, by omega⟩
  have hne : (1001 : Nat) ≠ env.uid := fun h => hproc h.symm
  constructor
  · have hsearch : fs.isPathSearchable env (f + 2) node 1001 gid = some true := by
      unfold FileSystem.isPathSearchable
      simp only [if_neg hne, hparent]
      by_cases hg : gid = env.gid
      · have hx : (fs.get root).file_info.st_mode &&& S_IXGRP ≠ 0 := by
          rw [land_of_perm _ _ S_IXGRP hrmode (by decide)]; decide
        simp only [if_pos hg, FileSystem.searchLoop, hroot]
        rw [if_pos hx]
      · have hx : (fs.get root).file_info.st_mode &&& S_IXOTH ≠ 0 := by
          rw [land_of_perm _ _ S_IXOTH hrmode (by decide)]; decide
        simp only [if_neg hg, FileSystem.searchLoop, hroot]
        rw [if_pos hx]
    unfold FileSystem.access
    have h1 : ¬ (R_OK = F_OK) := by decide
    have h2 : ¬ ((1001 : Nat) = 0 ∨ gid = 0) := by
      rintro (h | h)
      · exact absurd h (by decide)
      · exact hgid h
    simp only [if_neg h1, if_neg h2, hsearch, if_neg hne]
    have hr : R_OK &&& R_OK ≠ 0 := by decide
    have hw : ¬ (R_OK &&& W_OK ≠ 0) := by decide
    have hx : ¬ (R_OK &&& X_OK ≠ 0) := by decide
    simp only [if_pos hr, if_neg hw, if_neg hx, Nat.add_zero]
    by_cases hg : gid = env.gid
    · simp only [if_pos hg]
      have h0 : S_IRGRP &&& (fs.get node).file_info.st_mode = 0 := by
        rw [Nat.land_comm, land_of_perm _ _ S_IRGRP hmode (by decide)]; decide
      rw [h0]
      have : ¬ ((0 : Nat) = S_IRGRP) := by decide
      rw [if_neg this]
    · simp only [if_neg hg]
      have h0 : S_IROTH &&& (fs.get node).file_info.st_mode = 0 := by
        rw [Nat.land_comm, land_of_perm _ _ S_IROTH hmode (by decide)]; decide
      rw [h0]
      have : ¬ ((0 : Nat) = S_IROTH) := by decide
      rw [if_neg this]
  · unfold FileSystem.access
    have h1 : ¬ (R_OK = F_OK) := by decide
    have hx : ¬ (R_OK &&& X_OK ≠ 0 ∧ (fs.get node).type = NodeType.FILE_NODE) := by
      rintro ⟨h, -⟩
      exact h (by decide)
    rw [if_neg h1, if_pos (Or.inl rfl : (0 : Nat) = 0 ∨ gid = 0), if_neg hx]

theorem C22_secret_access_witness :
    (sampleEnv.uid ≠ 1001 ∧ (5 : Nat) ≠ 0 ∧
      ((secretTree sampleEnv).get 1).file_info.st_mode &&& 0o777 = 0o600 ∧
      ((secretTree sampleEnv).get 1).file_info.st_uid = 1000 ∧
      ((secretTree sampleEnv).get 1).parent = some 0 ∧
      ((secretTree sampleEnv).get 0).parent = none ∧
      ((secretTree sampleEnv).get 0).file_info.st_mode &&& 0o777 = 0o755 ∧ 2 ≤ 2) ∧
    ((secretTree sampleEnv).access sampleEnv 2 1 R_OK 1001 5 = some EACCES ∧
      (secretTree sampleEnv).access sampleEnv 2 1 R_OK 0 5 = some 0) :=
  ⟨⟨by decide, by decide, by decide, rfl, rfl, rfl, by decide, by decide⟩,
    C22_secret_access sampleEnv (secretTree sampleEnv) 1 0 2 5 (by decide) (by decide)
      (by decide) rfl rfl rfl (by decide) (by decide)⟩

/-- C28: for `q = p + "/" + r` with `r` non-empty the comparator `ltstr` puts
`p` strictly before `q` and not `q` before `p`; and in the map reached from the
empty one by any calls of `insert`, `erase` and assignment, whatever the other
keys, the entry of `p` stands before the entry of `q` in the in-order walk. -/
theorem C28_parent_sorts_before_descendant (p r : Path) (_hr : r ≠ [])
    (ops : List MapOp) (v w : Nat)
    (hv : (p, v) ∈ FileMap.after ops) (hw : (p ++ '/' :: r, w) ∈ FileMap.after ops) :
    ltstr p (p ++ '/' :: r) = true ∧ ltstr (p ++ '/' :: r) p = false ∧
    ∃ l1 l2 l3, FileMap.after ops = l1 ++ (p, v) :: (l2 ++ (p ++ '/' :: r, w) :: l3) :=
  ⟨ltstr_below p r, ltstr_asymm _ _ (ltstr_below p r),
    FileMap.ordered_split _ (FileMap.ordered_after ops) (p, v) (p ++ '/' :: r, w) hv hw
      (ltstr_below p r)⟩

theorem C28_parent_sorts_before_descendant_witness :
    ("b".toList ≠ [] ∧
      ("a".toList, 3) ∈ FileMap.after [MapOp.ins "a/b".toList 1, MapOp.ins "a.txt".toList 2,
        MapOp.ins "a".toList 3] ∧
      ("a".toList ++ '/' :: "b".toList, 1) ∈ FileMap.after [MapOp.ins "a/b".toList 1,
        MapOp.ins "a.txt".toList 2, MapOp.ins "a".toList 3]) ∧
    (ltstr "a".toList ("a".toList ++ '/' :: "b".toList) = true ∧
      ltstr ("a".toList ++ '/' :: "b".toList) "a".toList = false ∧
      ∃ l1 l2 l3, FileMap.after [MapOp.ins "a/b".toList 1, MapOp.ins "a.txt".toList 2,
          MapOp.ins "a".toList 3] =
        l1 ++ ("a".toList, 3) :: (l2 ++ ("a".toList ++ '/' :: "b".toList, 1) :: l3)) :=
  ⟨⟨by decide, by decide, by decide⟩,
    C28_parent_sorts_before_descendant "a".toList "b".toList (by decide)
      [MapOp.ins "a/b".toList 1, MapOp.ins "a.txt".toList 2, MapOp.ins "a".toList 3] 3 1
      (by decide) (by decide)⟩

/-- The walk of the map after inserting `a/b`, `a.txt` and `a`, in this order. -/
theorem after_sample :
    (FileMap.after [MapOp.ins "a/b".toList 1, MapOp.ins "a.txt".toList 2,
      MapOp.ins "a".toList 3]).map Prod.fst = ["a".toList, "a.txt".toList, "a/b".toList] := by
  decide

/-- C11 fails as stated: a memory buffer of length 10 answers a read at offset
11 with the error value `(size_t)(-EINVAL)`, not with 0; and a scratch buffer
of length 0 whose file was grown by `truncate(10)` still has `length()` 0 and
answers a read of 5 bytes at offset 0 with 5. -/
theorem C11_read_past_end_is_an_error :
    (Buffer.read (Buffer.MEM (MemBuffer.new 10)) [1, 1, 1, 1, 1] 5 11).1 = 2 ^ 64 - EINVAL ∧
    ((Buffer.new 0 0).truncate 10).map Buffer.length = some 0 ∧
    ((Buffer.new 0 0).truncate 10).map (fun b => b.read [1, 1, 1, 1, 1] 5 0) =
      some (5, [0, 0, 0, 0, 0]) := by
  refine ⟨rfl, rfl, ?_⟩
  decide

theorem memcpyTo_nil (dst : List Byte) : memcpyTo dst 0 [] = dst := by
  simp [memcpyTo]

/-- C11, amended: for an offset `off >= length()`, a memory buffer answers a
read with 0 when `off = length()` and with the error value `(size_t)(-EINVAL)`
when `off > length()`; a scratch buffer whose file holds no more than
`length()` bytes answers with 0; in each case no byte is copied to `dst`. A
read returns a count and the bytes of `dst` only: the buffer is not changed. -/
theorem C11_read_at_or_past_end (b : Buffer) (dst : List Byte) (len off : Nat)
    (hoff : off ≥ b.length)
    (hfile : ∀ f : FileBuffer, b = Buffer.FILE f → f.file.length ≤ f._length) :
    b.read dst len off =
      (match b with
        | Buffer.MEM m => if off > m.length then 2 ^ 64 - EINVAL else 0
        | Buffer.FILE _ => 0, dst) := by
  cases b with
  | MEM m =>
    have h' : off ≥ m._length := hoff
    show MemBuffer.read m dst len off = (if off > m._length then 2 ^ 64 - EINVAL else 0, dst)
    unfold MemBuffer.read
    by_cases hgt : off > m._length
    · rw [if_pos hgt, if_pos hgt]
    · have hb : (if len + off > m._length then m._length - off else len) = 0 := by
        split_ifs with hc
        · omega
        · omega
      simp only [if_neg hgt, hb]
      simp [chunksCount, CHUNK_SIZE, MemBuffer.readLoop]
  | FILE f =>
    have h' : off ≥ f._length := hoff
    have hf := hfile f rfl
    show FileBuffer.read f dst len off = _
    unfold FileBuffer.read
    have hd : f.file.drop off = [] := List.drop_eq_nil_of_le (by omega)
    simp [hd, memcpyTo_nil]

theorem C11_read_at_or_past_end_witness :
    (10 ≥ (Buffer.MEM (MemBuffer.new 10)).length ∧
      ∀ f : FileBuffer, Buffer.MEM (MemBuffer.new 10) = Buffer.FILE f →
        f.file.length ≤ f._length) ∧
    (Buffer.MEM (MemBuffer.new 10)).read [1, 1, 1, 1, 1] 5 10 = (0, [1, 1, 1, 1, 1]) :=
  ⟨⟨by decide, fun f h => Buffer.noConfusion h⟩,
    C11_read_at_or_past_end (Buffer.MEM (MemBuffer.new 10)) [1, 1, 1, 1, 1] 5 10 (by decide)
      (fun f h => Buffer.noConfusion h)⟩

/-- The accesses of a read of 10 bytes at offset 4090 from a buffer of two
chunks: a single one, to chunk 0. -/
theorem readTrace_sample :
    twoChunks.readTrace 10 4090 = [⟨0, 4090, 6⟩] := by
  decide

/-- C15: with `MEM_LIMIT > 0`, a write of `len` bytes `data` at `off` with
`off + len > MEM_LIMIT` to a buffer in memory form returns `len` and leaves the
buffer in scratch form; its file holds exactly the bytes of an unbounded array
that held the old content `c` and received the same write: `data` inside
`[off, off + len)`, the bytes of `c` outside, and every read returns the bytes
of that array. -/
theorem C15_flush_keeps_bytes (MEM_LIMIT : Int) (junk : Nat → Nat → Byte) (m : MemBuffer)
    (data : List Byte) (len off : Nat)
    (hpos : MEM_LIMIT > 0) (hbig : (off : Int) + len > MEM_LIMIT) (hdata : data.length = len) :
    Buffer.write MEM_LIMIT junk (Buffer.MEM m) data len off =
      (len, Buffer.FILE ⟨arrayWrite m.flushToFile data len off, max m.length (off + len)⟩) ∧
    (Buffer.write MEM_LIMIT junk (Buffer.MEM m) data len off).2.release = false ∧
    (∀ o, o < m.length → ¬ (off ≤ o ∧ o < off + len) →
      (arrayWrite m.flushToFile data len off).getD o 0 = m.byteAt o) ∧
    (∀ o, off ≤ o → o < off + len →
      (arrayWrite m.flushToFile data len off).getD o 0 = data.getD (o - off) 0) ∧
    (∀ (dst : List Byte) (n o : Nat),
      ((Buffer.write MEM_LIMIT junk (Buffer.MEM m) data len off).2.read dst n o).2 =
        memcpyTo dst 0 (((arrayWrite m.flushToFile data len off).drop o).take n)) := by
  have hfl : m.flushToFile.length = m._length := by
    simp [MemBuffer.flushToFile]
  have hw : Buffer.write MEM_LIMIT junk (Buffer.MEM m) data len off =
      (len, Buffer.FILE ⟨arrayWrite m.flushToFile data len off, max m.length (off + len)⟩) := by
    unfold Buffer.write
    simp only [if_pos (And.intro hbig hpos), FileBuffer.write]
    rw [pwrite_eq_arrayWrite _ _ _ _ (by omega)]
    congr 3
    unfold MemBuffer.length
    split_ifs with hc
    · omega
    · omega
  have hget : ∀ o, o < max m._length (off + len) →
      (arrayWrite m.flushToFile data len off).getD o 0 =
        if off ≤ o ∧ o < off + len then data.getD (o - off) 0 else m.flushToFile.getD o 0 := by
    intro o ho
    unfold arrayWrite
    rw [List.getD_eq_getElem?_getD, List.getElem?_map, hfl, List.getElem?_range ho]
    rfl
  refine ⟨hw, by rw [hw]; rfl, ?_, ?_, ?_⟩
  · intro o ho hn
    have ho' : o < m._length := ho
    rw [hget o (by omega), if_neg hn]
    unfold MemBuffer.flushToFile
    rw [List.getD_eq_getElem?_getD, List.getElem?_map, List.getElem?_range ho']
    rfl
  · intro o h1 h2
    rw [hget o (by omega), if_pos ⟨h1, h2⟩]
  · intro dst n o
    rw [hw]
    rfl

theorem C15_flush_keeps_bytes_witness :
    ((5 : Int) > 0 ∧ ((4 : Nat) : Int) + (3 : Nat) > 5 ∧ ([7, 8, 9] : List Byte).length = 3) ∧
    (Buffer.write 5 (fun _ _ => 0) (Buffer.MEM (MemBuffer.new 2)) [7, 8, 9] 3 4 =
      (3, Buffer.FILE ⟨arrayWrite (MemBuffer.new 2).flushToFile [7, 8, 9] 3 4,
        max (MemBuffer.new 2).length (4 + 3)⟩) ∧
    (Buffer.write 5 (fun _ _ => 0) (Buffer.MEM (MemBuffer.new 2)) [7, 8, 9] 3 4).2.release = false ∧
    (∀ o, o < (MemBuffer.new 2).length → ¬ (4 ≤ o ∧ o < 4 + 3) →
      (arrayWrite (MemBuffer.new 2).flushToFile [7, 8, 9] 3 4).getD o 0 =
        (MemBuffer.new 2).byteAt o) ∧
    (∀ o, 4 ≤ o → o < 4 + 3 →
      (arrayWrite (MemBuffer.new 2).flushToFile [7, 8, 9] 3 4).getD o 0 =
        ([7, 8, 9] : List Byte).getD (o - 4) 0) ∧
    (∀ (dst : List Byte) (n o : Nat),
      ((Buffer.write 5 (fun _ _ => 0) (Buffer.MEM (MemBuffer.new 2)) [7, 8, 9] 3 4).2.read
          dst n o).2 =
        memcpyTo dst 0 (((arrayWrite (MemBuffer.new 2).flushToFile [7, 8, 9] 3 4).drop o).take n))) :=
  ⟨⟨by decide, by decide, rfl⟩,
    C15_flush_keeps_bytes 5 (fun _ _ => 0) (MemBuffer.new 2) [7, 8, 9] 3 4 (by decide)
      (by decide) rfl⟩

/-- The file after the write of the witness: the old two zero bytes, a gap of
two zero bytes, then the data. -/
theorem arrayWrite_sample :
    arrayWrite (MemBuffer.new 2).flushToFile [7, 8, 9] 3 4 = [0, 0, 0, 0, 7, 8, 9] := by
  decide

/-- C20: for a caller with `uid != 0` and `gid != 0`, a node whose ancestors up
to the root are the list `l`, and a mask other than `F_OK`, `access` returns 0
when every ancestor has the execute bit of the caller's class and the mode of
the node has every requested bit of that class, and `EACCES` otherwise; the
class is user when `uid` is the effective uid of the process, else group when
`gid` is its effective gid, else other. With `F_OK` it returns 0. -/
theorem C20_access_by_class (env : Env) (fs : FileSystem) (node mask uid gid fuel : Nat)
    (l : List Nat) (huid : uid ≠ 0) (hgid : gid ≠ 0) (hmask : mask ≠ F_OK)
    (hchain : fs.Ancestors node l) (hfuel : l.length < fuel) :
    fs.access env fuel node mask uid gid =
      some (if fs.Granted (permClass env uid gid) node mask l then 0 else EACCES) ∧
    fs.access env fuel node F_OK uid gid = some 0 := by
  refine ⟨?_, by simp [FileSystem.access]⟩
  have hpriv : ¬ (uid = 0 ∨ gid = 0) := by
    rintro (h | h)
    · exact huid h
    · exact hgid h
  have hsearch : fs.isPathSearchable env fuel node uid gid =
      some (decide (∀ d ∈ l, (fs.get d).file_info.st_mode &&& (permClass env uid gid).x ≠ 0)) := by
    unfold FileSystem.isPathSearchable
    have hm : (if uid = env.uid then S_IXUSR else if gid = env.gid then S_IXGRP else S_IXOTH) =
        (permClass env uid gid).x := by
      unfold permClass
      split_ifs <;> rfl
    simp only [hm]
    exact FileSystem.searchLoop_chain fs _ l _ fuel hchain hfuel
  have hmode : (if uid = env.uid then
          (if mask &&& R_OK ≠ 0 then S_IRUSR else 0) + (if mask &&& W_OK ≠ 0 then S_IWUSR else 0) +
            (if mask &&& X_OK ≠ 0 then S_IXUSR else 0)
        else if gid = env.gid then
          (if mask &&& R_OK ≠ 0 then S_IRGRP else 0) + (if mask &&& W_OK ≠ 0 then S_IWGRP else 0) +
            (if mask &&& X_OK ≠ 0 then S_IXGRP else 0)
        else
          (if mask &&& R_OK ≠ 0 then S_IROTH else 0) + (if mask &&& W_OK ≠ 0 then S_IWOTH else 0) +
            (if mask &&& X_OK ≠ 0 then S_IXOTH else 0)) =
      (if mask &&& R_OK ≠ 0 then (permClass env uid gid).r else 0) +
        (if mask &&& W_OK ≠ 0 then (permClass env uid gid).w else 0) +
        (if mask &&& X_OK ≠ 0 then (permClass env uid gid).x else 0) := by
    unfold permClass
    by_cases h1 : uid = env.uid
    · simp only [if_pos h1, PermClass.r, PermClass.w, PermClass.x]
    · by_cases h2 : gid = env.gid
      · simp only [if_neg h1, if_pos h2, PermClass.r, PermClass.w, PermClass.x]
      · simp only [if_neg h1, if_neg h2, PermClass.r, PermClass.w, PermClass.x]
  have hbits := class_bits (permClass env uid gid) (fs.get node).file_info.st_mode
    (decide (mask &&& R_OK ≠ 0)) (decide (mask &&& W_OK ≠ 0)) (decide (mask &&& X_OK ≠ 0))
  simp only [decide_eq_true_eq] at hbits
  unfold FileSystem.access
  simp only [if_neg hmask, if_neg hpriv, hsearch, hmode]
  by_cases hall : ∀ d ∈ l, (fs.get d).file_info.st_mode &&& (permClass env uid gid).x ≠ 0
  · have hd : decide (∀ d ∈ l, (fs.get d).file_info.st_mode &&& (permClass env uid gid).x ≠ 0)
        = true := decide_eq_true hall
    simp only [hd]
    by_cases hb : (mask &&& R_OK ≠ 0 → (fs.get node).file_info.st_mode &&&
          (permClass env uid gid).r ≠ 0) ∧
        (mask &&& W_OK ≠ 0 → (fs.get node).file_info.st_mode &&& (permClass env uid gid).w ≠ 0) ∧
        (mask &&& X_OK ≠ 0 → (fs.get node).file_info.st_mode &&& (permClass env uid gid).x ≠ 0)
    · rw [if_pos (hbits.mpr hb), if_pos (show fs.Granted _ node mask l from ⟨hall, hb⟩)]
    · rw [if_neg (fun h => hb (hbits.mp h)),
        if_neg (show ¬ fs.Granted _ node mask l from fun g => hb g.2)]
  · have hd : decide (∀ d ∈ l, (fs.get d).file_info.st_mode &&& (permClass env uid gid).x ≠ 0)
        = false := decide_eq_false hall
    simp only [hd]
    rw [if_neg (show ¬ fs.Granted _ node mask l from fun g => hall g.1)]

theorem C20_access_by_class_witness :
    ((1001 : Nat) ≠ 0 ∧ (5 : Nat) ≠ 0 ∧ R_OK ≠ F_OK ∧
      (secretTree sampleEnv).Ancestors 1 [0] ∧ [0].length < 2) ∧
    ((secretTree sampleEnv).access sampleEnv 2 1 R_OK 1001 5 =
        some (if (secretTree sampleEnv).Granted (permClass sampleEnv 1001 5) 1 R_OK [0]
          then 0 else EACCES) ∧
      (secretTree sampleEnv).access sampleEnv 2 1 F_OK 1001 5 = some 0) :=
  ⟨⟨by decide, by decide, by decide, ⟨rfl, trivial⟩, by decide⟩,
    C20_access_by_class sampleEnv (secretTree sampleEnv) 1 R_OK 1001 5 2 [0] (by decide)
      (by decide) (by decide) ⟨rfl, trivial⟩ (by decide)⟩

/-- The witness call is refused: the class is `other`, which the mode `0600`
gives no read bit. -/
theorem access_sample :
    permClass sampleEnv 1001 5 = PermClass.other ∧
    ¬ (secretTree sampleEnv).Granted (permClass sampleEnv 1001 5) 1 R_OK [0] := by
  decide

theorem emptyTree_clean : emptyTree.AllClean := by
  intro i n h
  simp only [emptyTree, FileSystem.empty] at h
  split_ifs at h with hi
  simp only [Option.some.injEq] at h
  rw [← h]
  rfl

theorem oneFile_edited : emptyTree.Edited oneFile :=
  FileSystem.Edited.create sampleEnv emptyTree "f".toList 0o644 0 oneFile (some 1)
    FileSystem.Edited.start rfl

/-- C18: in a tree reached from one in which no node has `changed` set by any
calls of `mknod`, `create`, `mkdir`, `write`, `truncate`, `rename` and `remove`
that return, a node of `file_map` with `changed = true` implies that the flag
`changed` of the tree is true. -/
theorem C18_node_changed_implies_tree_changed (fs0 fs : FileSystem) (k : Path) (i : Nat)
    (hclean : fs0.AllClean) (hseq : fs0.Edited fs)
    (_hk : fs.file_map.find k = some i) (hc : (fs.get i).changed = true) :
    fs.changed = true := by
  rcases hseq.flag_kept (Or.inr hclean) with h | h
  · exact h
  · exfalso
    cases hn : fs.nodes i with
    | none =>
      simp only [FileSystem.get, hn] at hc
      exact absurd hc (by simp)
    | some n =>
      have h1 := h i n hn
      simp only [FileSystem.get, hn] at hc
      rw [show (some n).getD _ = n from rfl] at hc
      rw [h1] at hc
      exact absurd hc (by simp)

theorem C18_node_changed_implies_tree_changed_witness :
    (emptyTree.AllClean ∧ emptyTree.Edited oneFile ∧
      oneFile.file_map.find "f".toList = some 1 ∧ (oneFile.get 1).changed = true) ∧
    oneFile.changed = true :=
  ⟨⟨emptyTree_clean, oneFile_edited, rfl, rfl⟩,
    C18_node_changed_implies_tree_changed emptyTree oneFile "f".toList 1 emptyTree_clean
      oneFile_edited rfl rfl⟩

theorem renamedTwice_seq : (oneEntry idleDriver true 0).Renamed renamedTwice :=
  FileSystem.Renamed.rename sampleEnv renamedEntry 1 "h".toList 0 renamedTwice
    (FileSystem.Renamed.rename sampleEnv (oneEntry idleDriver true 0) 1 "g".toList 0 renamedEntry
      FileSystem.Renamed.start rfl) rfl

/-- C19: across any calls of `rename` that return, for a node that had a path
at the start: an `original_pathname` that is set keeps its value; one that was
unset at the start and is set afterwards belongs to a node with a locator and
is the path the node had at the start; the locator does not change; and as
long as it is unset on a node with a locator, the node still has the path it
had at the start. -/
theorem C19_original_pathname_set_once (fs0 fs : FileSystem) (i : Nat) (n0 n : FileNode)
    (hseq : fs0.Renamed fs) (hi : i < fs0.next) (h0 : fs0.nodes i = some n0)
    (hp : n0.pathname ≠ none) (h1 : fs.nodes i = some n) :
    (∀ o, n0.original_pathname = some o → n.original_pathname = some o) ∧
    (n0.original_pathname = none → ∀ o, n.original_pathname = some o →
      n0.data.isSome ∧ n0.pathname = some o) ∧
    n.data = n0.data ∧
    (n0.data.isSome → n.original_pathname = none → n.pathname = n0.pathname) := by
  obtain ⟨n0', h0', ht⟩ := hseq.evolves.2 i n hi h1
  rw [h0] at h0'
  simp only [Option.some.injEq] at h0'
  subst h0'
  have t := ht hp
  exact ⟨t.keep, t.first, t.data, fun hd ho => t.still ho hd⟩

theorem C19_original_pathname_set_once_witness :
    ((oneEntry idleDriver true 0).Renamed renamedTwice ∧ 1 < (oneEntry idleDriver true 0).next ∧
      (oneEntry idleDriver true 0).nodes 1 = some ((oneEntry idleDriver true 0).get 1) ∧
      ((oneEntry idleDriver true 0).get 1).pathname ≠ none ∧
      renamedTwice.nodes 1 = some (renamedTwice.get 1)) ∧
    ((∀ o, ((oneEntry idleDriver true 0).get 1).original_pathname = some o →
        (renamedTwice.get 1).original_pathname = some o) ∧
      (((oneEntry idleDriver true 0).get 1).original_pathname = none →
        ∀ o, (renamedTwice.get 1).original_pathname = some o →
          ((oneEntry idleDriver true 0).get 1).data.isSome ∧
          ((oneEntry idleDriver true 0).get 1).pathname = some o) ∧
      (renamedTwice.get 1).data = ((oneEntry idleDriver true 0).get 1).data ∧
      (((oneEntry idleDriver true 0).get 1).data.isSome →
        (renamedTwice.get 1).original_pathname = none →
        (renamedTwice.get 1).pathname = ((oneEntry idleDriver true 0).get 1).pathname)) :=
  ⟨⟨renamedTwice_seq, by decide, rfl, by decide, rfl⟩,
    C19_original_pathname_set_once (oneEntry idleDriver true 0) renamedTwice 1 _ _
      renamedTwice_seq (by decide) rfl (by decide) rfl⟩

/-- The entry renamed from `f` to `g` and then to `h` has the path `h` and the
original path `f`. -/
theorem renamedTwice_sample :
    ((oneEntry idleDriver true 0).get 1).original_pathname = none ∧
    (renamedEntry.get 1).original_pathname = some "f".toList ∧
    (renamedTwice.get 1).pathname = some "h".toList ∧
    (renamedTwice.get 1).original_pathname = some "f".toList := by
  decide

/-- C23 fails on the code: with the registry holding only `zip`, the path
`notes.backup.txt` makes `GET_TYPE` copy the 11 bytes of `backup.txt` into the
10 bytes of `ext_low`, which is undefined; and with only `tar.gz` registered
the path `.tar.gz` gives no type, as a dot in the first character is never
found. The paths `x.TAR.GZ` and `a.zip` resolve as described. -/
theorem C23_get_type_overruns_ext_low :
    GET_TYPE [⟨[⟨"zip".toList, "application/zip".toList, true⟩]⟩] "notes.backup.txt".toList = none ∧
    GET_TYPE [⟨[⟨"tar.gz".toList, "application/x-gzip".toList, false⟩]⟩] ".tar.gz".toList =
      some none ∧
    GET_TYPE [⟨[⟨"tar.gz".toList, "application/x-gzip".toList, false⟩]⟩] "x.TAR.GZ".toList =
      some (some ⟨"tar.gz".toList, "application/x-gzip".toList, false⟩) ∧
    GET_TYPE [⟨[⟨"zip".toList, "application/zip".toList, true⟩]⟩] "a.zip".toList =
      some (some ⟨"zip".toList, "application/zip".toList, true⟩) := by
  decide

/-- C24 fails on the code: for a name without a dot `generateNewArchiveName`
does not return (`substr` throws `std::out_of_range`); and for a path whose
last dot lies in a directory name the tag is put into the directory part. A
name with an extension is rewritten as described. -/
theorem C24_new_archive_name_needs_a_dot :
    generateNewArchiveName "2012-04-01 12:00".toList "archive".toList = none ∧
    generateNewArchiveName "2012-04-01 12:00".toList "/tmp/v1.2/archive".toList =
      some "/tmp/v1_edit (2012-04-01 12:00).2/archive".toList ∧
    generateNewArchiveName "2012-04-01 12:00".toList "/tmp/a.zip".toList =
      some "/tmp/a_edit (2012-04-01 12:00).zip".toList := by
  decide

/-- C25 fails on the code: with `keep_original = true`, for the tree holding
the new file `f` (no locator) `saveArchive` issues `zip_add` on the source
archive `zip_file` and adds nothing to the new archive; and for the changed
entry `f` with locator 7 the new archive gets the content of the original
entry 7, not the content of the node's buffer. -/
theorem C25_keep_original_writes_to_source :
    (oneFile.get 1).data = none ∧ (oneFile.get 1).changed = true ∧
    ZipDriver.saveArchive true oneFile =
      [ZipCall.zip_add ZipHandle.zip_file "f".toList (ZipSource.function ZipHandle.zip_file 1),
        ZipCall.zip_close ZipHandle.zip_file_new] ∧
    (changedEntry.get 1).data = some 7 ∧ (changedEntry.get 1).changed = true ∧
    (changedEntry.get 1).buffer.isSome = true ∧
    ZipDriver.saveArchive true changedEntry =
      [ZipCall.zip_add ZipHandle.zip_file_new "f".toList
          (ZipSource.zip ZipHandle.zip_file_new ZipHandle.zip_file 7),
        ZipCall.zip_close ZipHandle.zip_file_new] := by
  refine ⟨rfl, rfl, by decide, rfl, rfl, rfl, by decide⟩

/-- The two parts of `append` make up `append`. -/
theorem FileSystem.appendAux_split (env : Env) (fuel : Nat) (fs : FileSystem) (x : Nat) :
    FileSystem.appendAux env (fuel + 1) fs x =
      match fs.appendLocked x with
      | none => none
      | some (_, some existing) => some (Outcome.AlreadyExists existing fs)
      | some (fs1, none) => FileSystem.appendUnlocked env fuel fs1 x := by
  rw [FileSystem.appendAux]
  unfold FileSystem.appendLocked
  cases hp : (fs.get x).pathname with
  | none => rfl
  | some pathname =>
    simp only
    unfold FileMap.insert
    cases hf : fs.file_map.find pathname with
    | some e => rfl
    | none =>
      simp only
      unfold FileSystem.appendUnlocked
      have hg : ({ fs with file_map := FileMap.insertSorted pathname x fs.file_map } :
          FileSystem).get x = fs.get x := rfl
      first
      | (simp only [hg, hp, Option.getD_some]; done)
      | (simp only [hg, hp, Option.getD_some]
         by_cases hn : (fs.get x).name_ptr = 0
         · rw [if_pos hn, if_pos hn]
         · rw [if_neg hn, if_neg hn]
           cases hfp : ({ fs with file_map := FileMap.insertSorted pathname x fs.file_map } :
               FileSystem).find (some (pathname.take ((fs.get x).name_ptr - 1))) with
           | some pn => rfl
           | none =>
             simp only
             cases hr : FileSystem.appendAux env fuel
                 (({ fs with file_map := FileMap.insertSorted pathname x fs.file_map } :
                   FileSystem).alloc (FileNode.new env (some (pathname.take
                     ((fs.get x).name_ptr - 1))) none NodeType.DIR_NODE)).2
                 (({ fs with file_map := FileMap.insertSorted pathname x fs.file_map } :
                   FileSystem).alloc (FileNode.new env (some (pathname.take
                     ((fs.get x).name_ptr - 1))) none NodeType.DIR_NODE)).1 with
             | none => rfl
             | some o =>
               cases o with
               | done f2 => rfl
               | AlreadyExists e f2 => rfl)

/-- The two parts of `take` make up `take`. -/
theorem FileSystem.take_split (fs : FileSystem) (node : Nat) :
    fs.take node = FileSystem.takeUnlocked (fs.takeLocked node).1 node (fs.takeLocked node).2 :=
  rfl

/-- C27 fails on the code: `append` releases `fmap_mux` after `file_map.insert`
and links the node to its parent later. At the unlock another thread finds the
node `f` in `file_map` while the node has a null `parent` and the root does not
list it; before the call `f` is not found, and after it the node is found and
listed, so the observation fits no sequential order. In the same way `take`
leaves the node listed by its parent at the unlock after `file_map.erase`. -/
theorem C27_append_visible_before_linked :
    looseFile.find (some "f".toList) = none ∧
    (looseFile.appendLocked 1).map (fun r =>
        (r.2, r.1.find (some "f".toList), (r.1.get 1).parent,
          decide (1 ∈ (r.1.get r.1.root_node).children))) =
      some (none, some 1, none, false) ∧
    ((looseFile.append sampleEnv 1).map Outcome.tree).map (fun fs =>
        (fs.find (some "f".toList), (fs.get 1).parent,
          decide (1 ∈ (fs.get fs.root_node).children))) =
      some (some 1, some 0, true) ∧
    ((oneFile.takeLocked 1).1.find (some "f".toList),
        decide (1 ∈ ((oneFile.takeLocked 1).1.get 0).children)) = (none, true) ∧
    ((oneFile.take 1).2.find (some "f".toList),
        decide (1 ∈ ((oneFile.take 1).2.get 0).children)) = (none, false) := by
  refine ⟨rfl, by decide, by decide, by decide, by decide⟩

/-- C2 fails as stated: after `mknod("a")` and `mknod("a/b")` the node mapped
at `a/b` has the file `a` as `parent`, and `a` does not list it; after
`mknod("/a")` the name of the node is `/a`, not the text after the last slash;
after `mknod("f")`, `take`, `mknod("f")`, `take` through the pointer to
the first node and `append` of the second node, the root lists the node
mapped at `f` twice; and after `mkdir("a")`, `mknod("a/b")` and `rename` of
the directory to the empty path the file is mapped at `/b` with the name `/b`. -/
theorem C2_mapped_node_outside_children :
    nodeUnderFile.map (fun fs => (fs.find (some "a/b".toList), (fs.get 2).parent,
        decide (2 ∈ (fs.get 1).children), (fs.get 1).type)) =
      some (some 2, some 1, false, NodeType.FILE_NODE) ∧
    (slashFile.find (some "/a".toList), (slashFile.get 1).name, basename "/a".toList) =
      (some 1, "/a".toList, "a".toList) ∧
    (twiceListed.find (some "f".toList), (twiceListed.get 2).parent,
        (twiceListed.get 0).children.count 2) = (some 2, some 0, 2) ∧
    (emptyName.find (some "/b".toList), (emptyName.get 2).name, basename "/b".toList) =
      (some 2, "/b".toList, "b".toList) := by
  refine ⟨by decide, by decide, by decide, by decide⟩

theorem sameNames_grown : sameNames.Grown :=
  FileSystem.Grown.mknod sampleEnv twoDirs "a/a/a".toList 0o644 0 sameNames
    (FileSystem.Grown.mkdir sampleEnv oneDir "a/a".toList 0o755 0 twoDirs
      (FileSystem.Grown.mkdir sampleEnv emptyTree "a".toList 0o755 0 oneDir
        (FileSystem.Grown.empty sampleEnv true idleDriver) (by decide) (by decide) rfl)
      (by decide) (by decide) rfl)
    (by decide) (by decide) rfl

theorem renamedOnto_grown : renamedOnto.Grown :=
  FileSystem.Grown.rename sampleEnv sameNames "a/a".toList 2 "a".toList 0 renamedOnto
    sameNames_grown rfl (by decide) (by decide)
    (FileSystem.rename_renames sampleEnv sameNames 2 "a".toList 0 renamedOnto rfl)

theorem takenDir_grown : takenDir.Grown :=
  FileSystem.Grown.take renamedOnto "a".toList 2 renamedOnto_grown rfl

/-- C2, amended: in a tree reached from an empty `FileSystem` by calls that
return of `mknod`, `create`, `mkdir`, `append` of a newly constructed node,
`take` of a mapped node, `rename` of a mapped node and `remove` of a mapped
node, where every path given is not empty, does not start with a slash and has
no node other than a directory mapped above it, every node `n` of `file_map`
has its key as `pathname`, its name is the text of the path after the last
slash, and its parent lists it exactly once. -/
theorem C2_mapped_nodes_in_order (fs : FileSystem) (k : Path) (n : Nat)
    (hseq : fs.Grown) (hk : fs.file_map.find k = some n) :
    (fs.get n).pathname = some k ∧ (fs.get n).name = basename k ∧
    ∃ pn, (fs.get n).parent = some pn ∧ (fs.get pn).children.count n = 1 :=
  hseq.in_order.mapped_facts hk

theorem C2_mapped_nodes_in_order_witness :
    (takenDir.Grown ∧ takenDir.file_map.find "a/a".toList = some 3) ∧
    ((takenDir.get 3).pathname = some "a/a".toList ∧
      (takenDir.get 3).name = basename "a/a".toList ∧
      ∃ pn, (takenDir.get 3).parent = some pn ∧ (takenDir.get pn).children.count 3 = 1) :=
  ⟨⟨takenDir_grown, rfl⟩,
    C2_mapped_nodes_in_order takenDir "a/a".toList 3 takenDir_grown rfl⟩

end ArchiveFS
